import Mathlib

/-!
# Megamound Projects dashboard: forecast, progress roll-ups and CSV import

A shallow embedding of the computational core of the dashboard:

* `src/src/pages/ProjectView.jsx`: `completionProbability`, the percent-complete roll-ups;
* `src/src/components/ResourcesView.jsx`, `src/megamounds/src/pages/Dashboard.jsx`:
  the other percent-complete call sites;
* `src/src/components/CSVUpload.jsx`: `TaskCSVUpload.parseCSV`, `ResourceCSVUpload.parseCSV`.

JavaScript numbers are IEEE-754 binary64 values.  They are modelled by `JSNum`: a finite
double is the rational number it denotes, and every arithmetic operation rounds its exact
result to the nearest double, ties to even, with gradual underflow below `2^-1022` and
overflow to an infinity from `2^1024` on (`JSFloat.fl`, `JSNum.ofRat`).  The sign of zero is
not tracked: the embedded code divides by a zero only in `0 / 0`, which is `NaN` for either
sign.

JavaScript strings are modelled by their list of code points (`JSString`).
-/

/-! ## JavaScript numbers -/

namespace JSFloat

/-- Nearest integer to `x`, ties to the even neighbour. -/
def roundNE (x : ℚ) : ℤ :=
  if x - ⌊x⌋ < 1 / 2 then ⌊x⌋
  else if 1 / 2 < x - ⌊x⌋ then ⌊x⌋ + 1
  else if ⌊x⌋ % 2 = 0 then ⌊x⌋ else ⌊x⌋ + 1

/-- The exponent of the unit in the last place of the doubles around a positive rational:
`⌊log₂ x⌋ - 52` in the normal range, `-1074` for subnormals. -/
def expo (x : ℚ) : ℤ := max (Int.log 2 x - 52) (-1074)

/-- Rounding of a positive rational to the grid of the doubles around it: the quotient
`x / 2^(expo x)` is rounded to the nearest integer, ties to even. -/
def flPos (x : ℚ) : ℚ :=
  (roundNE (x / (2 : ℚ) ^ expo x) : ℚ) * (2 : ℚ) ^ expo x

/-- The binary64 rounding of the rational `x` (round to nearest, ties to even), before the
overflow test. -/
def fl (x : ℚ) : ℚ :=
  if x = 0 then 0 else if x < 0 then -flPos (-x) else flPos x

end JSFloat

/-- A JavaScript Number: a finite double (the rational it denotes), `Infinity`,
`-Infinity` or `NaN`. -/
inductive JSNum where
  | num (q : ℚ)
  | posInf
  | negInf
  | nan
  deriving DecidableEq

namespace JSNum

/-- The Number nearest to the rational `x`: its binary64 rounding, an infinity when that
reaches `2^1024` in magnitude. -/
def ofRat (x : ℚ) : JSNum :=
  if (2 : ℚ) ^ 1024 ≤ JSFloat.fl x then posInf
  else if JSFloat.fl x ≤ -(2 : ℚ) ^ 1024 then negInf
  else num (JSFloat.fl x)

/-- The number `a + b`. -/
def add : JSNum → JSNum → JSNum
  | num a, num b => ofRat (a + b)
  | nan, _ => nan
  | _, nan => nan
  | posInf, negInf => nan
  | negInf, posInf => nan
  | posInf, _ => posInf
  | _, posInf => posInf
  | negInf, _ => negInf
  | _, negInf => negInf

/-- The number `-a`. -/
def neg : JSNum → JSNum
  | num a => num (-a)
  | posInf => negInf
  | negInf => posInf
  | nan => nan

/-- The number `a - b`. -/
def sub : JSNum → JSNum → JSNum
  | num a, num b => ofRat (a - b)
  | a, b => add a (neg b)

/-- The number `a * b`. -/
def mul : JSNum → JSNum → JSNum
  | num a, num b => ofRat (a * b)
  | nan, _ => nan
  | _, nan => nan
  | num a, posInf => if a = 0 then nan else if 0 < a then posInf else negInf
  | num a, negInf => if a = 0 then nan else if 0 < a then negInf else posInf
  | posInf, num b => if b = 0 then nan else if 0 < b then posInf else negInf
  | negInf, num b => if b = 0 then nan else if 0 < b then negInf else posInf
  | posInf, posInf => posInf
  | negInf, negInf => posInf
  | posInf, negInf => negInf
  | negInf, posInf => negInf

/-- The number `a / b`; a finite non-zero number over zero is an infinity, `0 / 0` is `NaN`. -/
def div : JSNum → JSNum → JSNum
  | num a, num b =>
    if b = 0 then (if a = 0 then nan else if 0 < a then posInf else negInf)
    else ofRat (a / b)
  | nan, _ => nan
  | _, nan => nan
  | num _, posInf => num 0
  | num _, negInf => num 0
  | posInf, num b => if 0 ≤ b then posInf else negInf
  | negInf, num b => if 0 ≤ b then negInf else posInf
  | posInf, posInf => nan
  | posInf, negInf => nan
  | negInf, posInf => nan
  | negInf, negInf => nan

/-- The comparison `a <= b`; false as soon as one side is `NaN`. -/
def le : JSNum → JSNum → Bool
  | num a, num b => decide (a ≤ b)
  | nan, _ => false
  | _, nan => false
  | negInf, _ => true
  | _, posInf => true
  | posInf, _ => false
  | _, negInf => false

/-- The comparison `a > b`; false as soon as one side is `NaN`. -/
def gt : JSNum → JSNum → Bool
  | num a, num b => decide (b < a)
  | nan, _ => false
  | _, nan => false
  | posInf, posInf => false
  | posInf, _ => true
  | negInf, _ => false
  | num _, posInf => false
  | num _, negInf => true

/-- Truthiness of a number: `0` and `NaN` are falsy. -/
def truthy : JSNum → Bool
  | num a => decide (a ≠ 0)
  | nan => false
  | _ => true

/-- A number is an integer between `lo` and `hi`. -/
def IsIntIn (lo hi : ℤ) (x : JSNum) : Prop :=
  ∃ n : ℤ, x = num n ∧ lo ≤ n ∧ n ≤ hi

end JSNum

namespace Math

open JSNum

/-- `Math.round`: the nearest integer, a tie going towards `+∞`. -/
def round : JSNum → JSNum
  | num a => num ⌊a + 1 / 2⌋
  | x => x

/-- `Math.ceil`. -/
def ceil : JSNum → JSNum
  | num a => num ⌈a⌉
  | x => x

/-- `Math.max` of two numbers; `NaN` when either is `NaN`. -/
def max : JSNum → JSNum → JSNum
  | num a, num b => num (Max.max a b)
  | nan, _ => nan
  | _, nan => nan
  | posInf, _ => posInf
  | _, posInf => posInf
  | negInf, b => b
  | a, negInf => a

/-- `Math.min` of two numbers; `NaN` when either is `NaN`. -/
def min : JSNum → JSNum → JSNum
  | num a, num b => num (Min.min a b)
  | nan, _ => nan
  | _, nan => nan
  | negInf, _ => negInf
  | _, negInf => negInf
  | posInf, b => b
  | a, posInf => a

end Math

namespace JSNum

instance : Add JSNum := ⟨JSNum.add⟩
instance : Sub JSNum := ⟨JSNum.sub⟩
instance : Mul JSNum := ⟨JSNum.mul⟩
instance : Div JSNum := ⟨JSNum.div⟩

/-- The Number value of a non-negative integer such as an array length or a count. -/
def ofNat (n : ℕ) : JSNum := num (n : ℚ)

/-- The Number value of an integer such as the time value of a `Date`. -/
def ofInt (n : ℤ) : JSNum := num (n : ℚ)

end JSNum

/-! ## Data model -/

/-- A JavaScript string, as its list of code points. -/
abbrev JSString := List Char

/-- A row of the `tasks` table, with the fields the dashboard reads and the import writes. -/
structure TaskRow where
  project_id : JSString
  title : JSString
  week : JSString
  section_ : JSString
  status : JSString
  priority : JSString
  is_critical : Bool
  notes : JSString
  start_date : Option JSString
  end_date : Option JSString
  deriving DecidableEq

/-- A row of the `resources` table.  `quantity` and `cost_per_unit` are JavaScript numbers;
`none` stands for `null` in the columns the views guard with `||`. -/
structure ResourceRow where
  project_id : JSString
  name : JSString
  type : JSString
  quantity : Option JSNum
  unit : JSString
  cost_per_unit : Option JSNum
  milestone : Option JSString
  milestone_date : Option JSString
  supplier : JSString
  status : JSString
  notes : JSString
  deriving DecidableEq

/-- The time value of a valid `Date`: milliseconds since the epoch, at most 8.64e15 in
magnitude (100,000,000 days), the range every `Date` is clipped to. -/
structure TimeValue where
  ms : ℤ
  lower : -8640000000000000 ≤ ms
  upper : ms ≤ 8640000000000000

/-- A project, reduced to the two dates the forecast reads: the time values of
`new Date(project.created_at)` and `new Date(project.target_date)`. -/
structure Project where
  created_at : TimeValue
  target_date : TimeValue

/-! ## The percent-complete expression -/

/-- The expression `total ? Math.round((done / total) * 100) : 0` that every percent-complete
call site instantiates, as a function of the two counts. -/
def percentOf (done total : ℕ) : JSNum :=
  if total ≠ 0 then Math.round ((JSNum.ofNat done / JSNum.ofNat total) * JSNum.num 100)
  else JSNum.num 0

namespace Spec

/-- The percentage as the specification words it: 0 when `total = 0`, otherwise
`round(100 * done / total)`, computed exactly, a tie going upward as with `Math.round`. -/
def percentComplete (done total : ℕ) : ℤ :=
  if total = 0 then 0 else ⌊(100 * (done : ℚ)) / (total : ℚ) + 1 / 2⌋

end Spec

/-! ## `ProjectView.jsx`: progress and forecast -/

namespace ProjectView

open JSNum

/-- `tasks.length`. -/
def totalTasks (tasks : List TaskRow) : ℕ := tasks.length

/-- `tasks.filter(t => t.status === 'Complete').length`. -/
def completedTasks (tasks : List TaskRow) : ℕ :=
  (tasks.filter (fun t => t.status = "Complete".toList)).length

/-- `totalTasks ? Math.round((completedTasks / totalTasks) * 100) : 0`. -/
def overallPct (tasks : List TaskRow) : JSNum :=
  if totalTasks tasks ≠ 0 then
    Math.round ((ofNat (completedTasks tasks) / ofNat (totalTasks tasks)) * num 100)
  else num 0

/-- `tasks.filter(t => t.week === activeWeek)`. -/
def weekTasks (tasks : List TaskRow) (activeWeek : JSString) : List TaskRow :=
  tasks.filter (fun t => t.week = activeWeek)

/-- `weekTasks.filter(t => t.status === 'Complete').length`. -/
def weekCompleted (tasks : List TaskRow) (activeWeek : JSString) : ℕ :=
  ((weekTasks tasks activeWeek).filter (fun t => t.status = "Complete".toList)).length

/-- `weekTasks.length ? Math.round((weekCompleted / weekTasks.length) * 100) : 0`. -/
def weekPct (tasks : List TaskRow) (activeWeek : JSString) : JSNum :=
  if (weekTasks tasks activeWeek).length ≠ 0 then
    Math.round ((ofNat (weekCompleted tasks activeWeek) / ofNat (weekTasks tasks activeWeek).length)
      * num 100)
  else num 0

/-- The sidebar percentage `wp` of one week (lines 207-209). -/
def wp (tasks : List TaskRow) (week : JSString) : JSNum :=
  let wt := tasks.filter (fun t => t.week = week)
  let wc := (wt.filter (fun t => t.status = "Complete".toList)).length
  if wt.length ≠ 0 then Math.round ((ofNat wc / ofNat wt.length) * num 100) else num 0

/-- The percentage `sp` of one section of the active week (lines 314-316). -/
def sp (weekTasks : List TaskRow) (sectionName : JSString) : JSNum :=
  let sectionTasks := weekTasks.filter (fun t => t.section_ = sectionName)
  let sc := (sectionTasks.filter (fun t => t.status = "Complete".toList)).length
  if sectionTasks.length ≠ 0 then
    Math.round ((ofNat sc / ofNat sectionTasks.length) * num 100)
  else num 0

/-- The constant `(1000 * 60 * 60 * 24)`. -/
def msPerDay : JSNum := num 1000 * num 60 * num 60 * num 24

/-- `Math.max(1, Math.ceil((new Date() - new Date(project.created_at)) / (1000 * 60 * 60 * 24)))`,
with `now` the time value of `new Date()`. -/
def daysElapsed (project : Project) (now : TimeValue) : JSNum :=
  Math.max (num 1) (Math.ceil ((ofInt now.ms - ofInt project.created_at.ms) / msPerDay))

/-- `Math.ceil((new Date(project.target_date) - new Date(project.created_at)) / (1000 * 60 * 60 * 24))`;
computed by the source and never used. -/
def daysTotal (project : Project) : JSNum :=
  Math.ceil ((ofInt project.target_date.ms - ofInt project.created_at.ms) / msPerDay)

/-- `Math.max(0, Math.ceil((new Date(project.target_date) - new Date()) / (1000 * 60 * 60 * 24)))`,
with `now` the time value of `new Date()`. -/
def daysLeft (project : Project) (now : TimeValue) : JSNum :=
  Math.max (num 0) (Math.ceil ((ofInt project.target_date.ms - ofInt now.ms) / msPerDay))

/-- `velocity = completedTasks / daysElapsed` (line 109). -/
def velocity (completedTasks : ℕ) (daysElapsed : JSNum) : JSNum :=
  ofNat completedTasks / daysElapsed

/-- `tasksRemaining = totalTasks - completedTasks` (line 110). -/
def tasksRemaining (totalTasks completedTasks : ℕ) : JSNum :=
  ofNat totalTasks - ofNat completedTasks

/-- `daysNeeded = velocity > 0 ? tasksRemaining / velocity : 9999` (line 111). -/
def daysNeeded (totalTasks completedTasks : ℕ) (daysElapsed : JSNum) : JSNum :=
  if JSNum.gt (velocity completedTasks daysElapsed) (num 0) then
    tasksRemaining totalTasks completedTasks / velocity completedTasks daysElapsed
  else num 9999

/-- Lines 109-113 of `completionProbability`: the forecast as a function of the two task
counts and of the two day counts. -/
def forecast (totalTasks completedTasks : ℕ) (daysElapsed daysLeft : JSNum) : JSNum :=
  if JSNum.le (daysNeeded totalTasks completedTasks daysElapsed) daysLeft then
    Math.min (num 99) (Math.round (num 90 +
      (num 10 * (daysLeft - daysNeeded totalTasks completedTasks daysElapsed) / daysLeft)))
  else
    Math.max (num 5) (Math.round (num 90 *
      (daysLeft / daysNeeded totalTasks completedTasks daysElapsed)))

/-- The closure `completionProbability` (lines 104-114).  The source reads the clock twice:
`now₁` is the time value of the `new Date()` of line 106 and `now₂` that of line 108. -/
def completionProbability (project : Project) (tasks : List TaskRow)
    (now₁ now₂ : TimeValue) : JSNum :=
  if totalTasks tasks = 0 then num 0
  else forecast (totalTasks tasks) (completedTasks tasks)
    (daysElapsed project now₁) (daysLeft project now₂)

end ProjectView

/-! ## `ResourcesView.jsx` and `Dashboard.jsx`: the other percentages -/

namespace ResourcesView

open JSNum

/-- `['On Site', 'Used'].includes(r.status)`. -/
def isDeployed (r : ResourceRow) : Bool :=
  ["On Site".toList, "Used".toList].contains r.status

/-- The percentage `pct` of one milestone group `items` (lines 224-227). -/
def milestonePct (items : List ResourceRow) : JSNum :=
  let deployed := (items.filter isDeployed).length
  if items.length ≠ 0 then Math.round ((ofNat deployed / ofNat items.length) * num 100)
  else num 0

/-- The percentage `pct` of the tracker card of one resource type (lines 333-337); `none`
when the type has no item and the card is not rendered (`return null`). -/
def typePct (resources : List ResourceRow) (type : JSString) : Option JSNum :=
  let typeItems := resources.filter (fun r => r.type = type)
  if typeItems.length = 0 then none
  else
    let deployedCount := (typeItems.filter isDeployed).length
    some (if typeItems.length ≠ 0 then
      Math.round ((ofNat deployedCount / ofNat typeItems.length) * num 100)
    else num 0)

end ResourcesView

namespace Dashboard

open JSNum

/-- `progress: total ? Math.round(((done || 0) / total) * 100) : 0` (line 96), with `total`
and `done` the two counts returned by the store, `none` standing for `null`. -/
def progress (total done : Option ℕ) : JSNum :=
  match total with
  | none => num 0
  | some t =>
    if t ≠ 0 then
      Math.round ((ofNat (match done with | some d => if d ≠ 0 then d else 0 | none => 0)
        / ofNat t) * num 100)
    else num 0

end Dashboard

/-! ## JavaScript strings -/

namespace JSStr

/-- The characters removed by `trim()` and matched by `\s`: WhiteSpace and LineTerminator. -/
def isWhiteSpace (c : Char) : Bool :=
  c.toNat = 0x09 || c.toNat = 0x0A || c.toNat = 0x0B || c.toNat = 0x0C || c.toNat = 0x0D
    || c.toNat = 0x20 || c.toNat = 0xA0 || c.toNat = 0x1680
    || (0x2000 ≤ c.toNat && c.toNat ≤ 0x200A)
    || c.toNat = 0x2028 || c.toNat = 0x2029 || c.toNat = 0x202F || c.toNat = 0x205F
    || c.toNat = 0x3000 || c.toNat = 0xFEFF

/-- `s.trim()`. -/
def trim (s : JSString) : JSString :=
  (s.dropWhile isWhiteSpace).rdropWhile isWhiteSpace

/-- `s.split(sep)` for a one-character separator. -/
def split (sep : Char) : JSString → List JSString
  | [] => [[]]
  | c :: cs =>
    if c = sep then [] :: split sep cs
    else
      match split sep cs with
      | [] => [[c]]
      | piece :: pieces => (c :: piece) :: pieces

/-- `parts.join(sep)`. -/
def join (sep : JSString) : List JSString → JSString
  | [] => []
  | [part] => part
  | part :: next :: rest => part ++ sep ++ join sep (next :: rest)

/-- Worker of `replaceWhiteSpaceRuns`; `inRun` tells that the previous character was white
space, already replaced. -/
def replaceRunsFrom : Bool → JSString → JSString
  | _, [] => []
  | inRun, c :: cs =>
    if isWhiteSpace c then
      (if inRun then replaceRunsFrom true cs else '_' :: replaceRunsFrom true cs)
    else c :: replaceRunsFrom false cs

/-- The replacement `s.replace(/\s+/g, '_')`: every maximal run of white space becomes one
underscore. -/
def replaceWhiteSpaceRuns (s : JSString) : JSString := replaceRunsFrom false s

/-- `s.includes(sub)`. -/
def includes (s sub : JSString) : Bool := decide (sub <:+: s)

/-- The decimal digits of a non-negative integer inside a template literal. -/
def ofNat (n : ℕ) : JSString := (Nat.repr n).toList

/-- `a || b` on a possibly undefined string: the empty string and `undefined` are falsy. -/
def orElse (a : Option JSString) (b : JSString) : JSString :=
  match a with
  | some (c :: cs) => c :: cs
  | _ => b

/-- `a || null` on a possibly undefined string. -/
def orNull (a : Option JSString) : Option JSString :=
  match a with
  | some (c :: cs) => some (c :: cs)
  | _ => none

/-- Truthiness of a possibly undefined string. -/
def truthy (a : Option JSString) : Bool :=
  match a with
  | some (_ :: _) => true
  | _ => false

end JSStr

/-- The two case conversions of `String.prototype`, `toUpperCase` and `toLowerCase`.  The
Unicode case mappings are not modelled: the parsers take them as a parameter, and the
theorems hold for every such pair of functions. -/
structure CaseMap where
  toUpperCase : JSString → JSString
  toLowerCase : JSString → JSString

/-- The case conversions restricted to the letters `A`-`Z`, `a`-`z`; on ASCII text they
agree with `toUpperCase` and `toLowerCase`. -/
def asciiCase : CaseMap :=
  { toUpperCase := fun s => s.map Char.toUpper
    toLowerCase := fun s => s.map Char.toLower }

/-! ## `parseFloat` -/

namespace JSStr

/-- A decimal digit `0`-`9`. -/
def isDigit (c : Char) : Bool := '0'.toNat ≤ c.toNat && c.toNat ≤ '9'.toNat

/-- The value of a string of decimal digits. -/
def digitsValue (ds : JSString) : ℕ :=
  ds.foldl (fun acc c => 10 * acc + (c.toNat - '0'.toNat)) 0

/-- The exponent part `e`, `e+` or `e-` followed by digits at the head of `s`, if any: its
value as an integer. -/
def exponentPart (s : JSString) : Option ℤ :=
  match s with
  | c :: rest =>
    if c = 'e' || c = 'E' then
      match rest with
      | '+' :: r => if (r.takeWhile isDigit) = [] then none
          else some (digitsValue (r.takeWhile isDigit) : ℤ)
      | '-' :: r => if (r.takeWhile isDigit) = [] then none
          else some (-(digitsValue (r.takeWhile isDigit) : ℤ))
      | r => if (r.takeWhile isDigit) = [] then none
          else some (digitsValue (r.takeWhile isDigit) : ℤ)
    else none
  | [] => none

/-- The unsigned part of `parseFloat`: the longest prefix that is `Infinity` or a decimal
literal (digits, optional fraction, optional exponent), `NaN` when there is none. -/
def parseUnsigned (s : JSString) : JSNum :=
  if "Infinity".toList <+: s then JSNum.posInf
  else
    let intDigits := s.takeWhile isDigit
    let afterInt := s.dropWhile isDigit
    let fracDigits := match afterInt with
      | '.' :: r => r.takeWhile isDigit
      | _ => []
    let afterFrac := match afterInt with
      | '.' :: r => r.dropWhile isDigit
      | r => r
    if intDigits = [] ∧ fracDigits = [] then JSNum.nan
    else
      let mantissa : ℚ := (digitsValue (intDigits ++ fracDigits) : ℚ)
      let exponent : ℤ := (exponentPart afterFrac).getD 0 - (fracDigits.length : ℤ)
      JSNum.ofRat (mantissa * (10 : ℚ) ^ exponent)

/-- `parseFloat(s)` of a possibly undefined string: leading white space is skipped, an
optional sign is read, and the longest numeric prefix is converted to the nearest Number. -/
def parseFloat (a : Option JSString) : JSNum :=
  match a with
  | none => JSNum.nan
  | some s =>
    match s.dropWhile isWhiteSpace with
    | '-' :: r => JSNum.neg (parseUnsigned r)
    | '+' :: r => parseUnsigned r
    | r => parseUnsigned r

end JSStr

namespace JSNum

/-- `a || b` on numbers: `0` and `NaN` are falsy. -/
def orElse (a b : JSNum) : JSNum := if a.truthy then a else b

end JSNum

/-! ## `CSVUpload.jsx`: the import parsers -/

namespace CSV

open JSStr

/-- The state of the column loop (lines 31-37, 215-221): the columns pushed so far, the
current cell and the in-quotes flag. -/
structure ColState where
  cols : List JSString
  cur : JSString
  inQ : Bool

/-- One turn of the column loop on the character `ch`. -/
def colStep (st : ColState) (ch : Char) : ColState :=
  if ch = '"' then { st with inQ := !st.inQ }
  else if ch = ',' ∧ st.inQ = false then { cols := st.cols ++ [trim st.cur], cur := [], inQ := st.inQ }
  else { st with cur := st.cur ++ [ch] }

/-- The columns of one data line: the loop over its characters, then `cols.push(cur.trim())`. -/
def splitCols (line : JSString) : List JSString :=
  let st := line.foldl colStep { cols := [], cur := [], inQ := false }
  st.cols ++ [trim st.cur]

/-- The header keys: `lines[0].split(',').map(h => h.trim().toLowerCase().replace(/\s+/g, '_'))`. -/
def parseHeaders (cm : CaseMap) (headerLine : JSString) : List JSString :=
  (split ',' headerLine).map (fun h => replaceWhiteSpaceRuns (cm.toLowerCase (trim h)))

/-- The object `row`, as the list of its assignments `row[h] = cols[idx] || ''` in the order
`headers.forEach` makes them. -/
def mkRow (headers cols : List JSString) : List (JSString × JSString) :=
  headers.enum.map (fun p => (p.2, orElse (cols.get? p.1) []))

/-- The property read `row[key]`: the value of the last assignment to `key`, `undefined`
(`none`) when there is none. -/
def get (row : List (JSString × JSString)) (key : JSString) : Option JSString :=
  (row.reverse.find? (fun p => p.1 = key)).map (fun p => p.2)

/-- The pattern `allowed.includes(v) ? v : fallback` on a possibly undefined string `v`;
`includes` compares with `===`, so `undefined` is never included. -/
def valueOrDefault (allowed : List JSString) (v : Option JSString) (fallback : JSString) :
    JSString :=
  match v with
  | some s => if allowed.contains s then s else fallback
  | none => fallback

/-- What `parseCSV` hands to `setRows` and `setErrors`. -/
structure ParseResult (α : Type) where
  parsed : List α
  errs : List JSString

/-- The rows and the errors of `a`, followed by those of `b`. -/
def ParseResult.append {α : Type} (a b : ParseResult α) : ParseResult α :=
  { parsed := a.parsed ++ b.parsed, errs := a.errs ++ b.errs }

/-- `lines = text.trim().split('\n')`. -/
def linesOf (text : JSString) : List JSString := split '\n' (trim text)

/-- `headers`, computed from `lines[0]`. -/
def headersOf (cm : CaseMap) (text : JSString) : List JSString :=
  parseHeaders cm ((linesOf text).headD [])

/-- The data lines `lines.slice(1)`. -/
def dataLinesOf (text : JSString) : List JSString := (linesOf text).drop 1

/-- The results `f i line` of the lines of a list, concatenated in order; the first line has
index `i`. -/
def concatLines {α : Type} (f : ℕ → JSString → ParseResult α) :
    ℕ → List JSString → ParseResult α
  | _, [] => { parsed := [], errs := [] }
  | i, line :: rest => (f i line).append (concatLines f (i + 1) rest)

/-- The cell of a data line under the column `key`, as the row object holds it: trimmed, and
empty when the line has no such cell or the header no such column. -/
def cell (headers : List JSString) (line : JSString) (key : JSString) : JSString :=
  orElse (get (mkRow headers (splitCols line)) key) []

end CSV

namespace TaskCSVUpload

open JSStr CSV

/-- `REQUIRED = ['title', 'week', 'section']`. -/
def REQUIRED : List JSString := ["title".toList, "week".toList, "section".toList]

/-- The record pushed for a valid row (lines 51-62).  A property read `row.title` on a row
without that key is `undefined`; under the required-field check it never is, and the
record takes the empty string there. -/
def normalize (cm : CaseMap) (projectId : JSString) (row : List (JSString × JSString)) :
    TaskRow :=
  { project_id := projectId
    title := (get row "title".toList).getD []
    week :=
      if includes (cm.toUpperCase ((get row "week".toList).getD [])) "WEEK".toList then
        cm.toUpperCase ((get row "week".toList).getD [])
      else "WEEK ".toList ++ (get row "week".toList).getD []
    section_ := (get row "section".toList).getD []
    status := valueOrDefault ["Not Started".toList, "In Progress".toList, "Complete".toList,
      "Blocked".toList] (get row "status".toList) "Not Started".toList
    priority := valueOrDefault ["Critical".toList, "High".toList, "Normal".toList,
      "Low".toList] (get row "priority".toList) "Normal".toList
    is_critical :=
      ["true".toList, "yes".toList, "1".toList].contains
        (cm.toLowerCase (orElse (get row "is_critical".toList) []))
    notes := orElse (get row "notes".toList) []
    start_date := orNull (get row "start_date".toList)
    end_date := orNull (get row "end_date".toList) }

/-- The error pushed for an invalid row (line 46); `i` is the index in `lines.slice(1)`. -/
def errorMessage (i : ℕ) (missing : List JSString) : JSString :=
  "Row ".toList ++ JSStr.ofNat (i + 2) ++ ": Missing required fields — ".toList
    ++ join ", ".toList missing

/-- The callback of `lines.slice(1).forEach((line, i) => ...)` (lines 28-63). -/
def processLine (cm : CaseMap) (projectId : JSString) (headers : List JSString)
    (st : ParseResult TaskRow) (i : ℕ) (line : JSString) : ParseResult TaskRow :=
  if trim line = [] then st
  else
    let cols := splitCols line
    let row := mkRow headers cols
    let missing := REQUIRED.filter (fun r => !truthy (get row r))
    if missing.length ≠ 0 then
      { st with errs := st.errs ++ [errorMessage i missing] }
    else
      { st with parsed := st.parsed ++ [normalize cm projectId row] }

/-- The loop `forEach` over the data lines, from index `i` on. -/
def forEachLine (cm : CaseMap) (projectId : JSString) (headers : List JSString) :
    ℕ → List JSString → ParseResult TaskRow → ParseResult TaskRow
  | _, [], st => st
  | i, line :: rest, st =>
    forEachLine cm projectId headers (i + 1) rest (processLine cm projectId headers st i line)

/-- `TaskCSVUpload.parseCSV(text)` (lines 22-68): the rows and the errors it sets. -/
def parseCSV (cm : CaseMap) (projectId : JSString) (text : JSString) : ParseResult TaskRow :=
  forEachLine cm projectId (headersOf cm text) 0 (dataLinesOf text) { parsed := [], errs := [] }

end TaskCSVUpload

namespace ResourceCSVUpload

open JSStr CSV

/-- The record pushed for a valid row (lines 229-241). -/
def normalize (projectId : JSString) (row : List (JSString × JSString)) : ResourceRow :=
  { project_id := projectId
    name := (get row "name".toList).getD []
    type := valueOrDefault ["Labour".toList, "Material".toList, "Equipment".toList,
      "Subcontractor".toList] (get row "type".toList) "Material".toList
    quantity := some (JSNum.orElse (parseFloat (get row "quantity".toList)) (JSNum.num 0))
    unit := orElse (get row "unit".toList) []
    cost_per_unit :=
      some (JSNum.orElse (parseFloat (get row "cost_per_unit".toList)) (JSNum.num 0))
    milestone :=
      some (orElse (get row "milestone".toList) (orElse (get row "week".toList) []))
    milestone_date := orNull (get row "milestone_date".toList)
    supplier := orElse (get row "supplier".toList) []
    status := valueOrDefault ["Planned".toList, "Ordered".toList, "On Site".toList,
      "Used".toList] (get row "status".toList) "Planned".toList
    notes := orElse (get row "notes".toList) [] }

/-- The error pushed for a row without a name (line 227). -/
def errorMessage (i : ℕ) : JSString :=
  "Row ".toList ++ JSStr.ofNat (i + 2) ++ ": Missing resource name".toList

/-- The callback of `lines.slice(1).forEach((line, i) => ...)` (lines 213-242). -/
def processLine (projectId : JSString) (headers : List JSString)
    (st : ParseResult ResourceRow) (i : ℕ) (line : JSString) : ParseResult ResourceRow :=
  if trim line = [] then st
  else
    let cols := splitCols line
    let row := mkRow headers cols
    if !truthy (get row "name".toList) then
      { st with errs := st.errs ++ [errorMessage i] }
    else
      { st with parsed := st.parsed ++ [normalize projectId row] }

/-- The loop `forEach` over the data lines, from index `i` on. -/
def forEachLine (projectId : JSString) (headers : List JSString) :
    ℕ → List JSString → ParseResult ResourceRow → ParseResult ResourceRow
  | _, [], st => st
  | i, line :: rest, st =>
    forEachLine projectId headers (i + 1) rest (processLine projectId headers st i line)

/-- `ResourceCSVUpload.parseCSV(text)` (lines 207-247): the rows and the errors it sets. -/
def parseCSV (cm : CaseMap) (projectId : JSString) (text : JSString) :
    ParseResult ResourceRow :=
  forEachLine projectId (headersOf cm text) 0 (dataLinesOf text) { parsed := [], errs := [] }

end ResourceCSVUpload

/-! ## The words of the specification about import rows -/

namespace Spec

open JSStr CSV

/-- A valid task row: a data line that is not blank and whose title, week and section cells
are all non-empty. -/
def isValidTaskLine (headers : List JSString) (line : JSString) : Bool :=
  decide (trim line ≠ [] ∧ cell headers line "title".toList ≠ []
    ∧ cell headers line "week".toList ≠ [] ∧ cell headers line "section".toList ≠ [])

/-- An invalid task row: a data line that is not blank and has an empty required cell. -/
def isInvalidTaskLine (headers : List JSString) (line : JSString) : Bool :=
  decide (trim line ≠ [] ∧ ¬ (cell headers line "title".toList ≠ []
    ∧ cell headers line "week".toList ≠ [] ∧ cell headers line "section".toList ≠ []))

/-- The normalised valid data rows of a list of lines, in their input order. -/
def validRecords (cm : CaseMap) (projectId : JSString) (headers : List JSString)
    (lines : List JSString) : List TaskRow :=
  (lines.filter (isValidTaskLine headers)).map
    (fun line => TaskCSVUpload.normalize cm projectId (mkRow headers (splitCols line)))

/-- The text with every invalid data line deleted: the header line and the remaining data
lines of the trimmed text, joined by newlines again. -/
def deleteInvalidTaskLines (cm : CaseMap) (text : JSString) : JSString :=
  join "\n".toList ((linesOf text).headD []
    :: (dataLinesOf text).filter (fun line => !isInvalidTaskLine (headersOf cm text) line))

end Spec

/-! ## Sample data -/

namespace Sample

/-- A task row with the given status; the other fields are those of the first template row. -/
def task (status : String) : TaskRow :=
  { project_id := "p1".toList, title := "Plaster lift shaft".toList, week := "WEEK 1".toList,
    section_ := "Roofing".toList, status := status.toList, priority := "Normal".toList,
    is_critical := false, notes := [], start_date := none, end_date := none }

/-- Ten tasks, all complete. -/
def tenComplete : List TaskRow := List.replicate 10 (task "Complete")

/-- Ten tasks, none started. -/
def tenNotStarted : List TaskRow := List.replicate 10 (task "Not Started")

/-- Forty tasks, the first twenty-three complete. -/
def twentyThreeOfForty : List TaskRow :=
  List.replicate 23 (task "Complete") ++ List.replicate 17 (task "Not Started")

/-- The time value `n` days after the epoch, for `n < 1000`. -/
def day (n : Fin 1000) : TimeValue :=
  ⟨(n.val : ℤ) * 86400000, by have := n.isLt; omega, by have := n.isLt; omega⟩

/-- A task file with one data line whose week cell is `3`. -/
def oneTaskCsv : JSString := "title,week,section\nA,3,S".toList

/-- The record imported from `oneTaskCsv` for the project `p1`. -/
def oneTaskRecord : TaskRow :=
  { project_id := "p1".toList, title := "A".toList, week := "WEEK 3".toList,
    section_ := "S".toList, status := "Not Started".toList, priority := "Normal".toList,
    is_critical := false, notes := [], start_date := none, end_date := none }

/-- A task file whose only data line lacks its section cell. -/
def missingSectionCsv : JSString := "title,week,section\nPlaster lift shaft,WEEK 1,".toList

end Sample

namespace Sample

/-- A task file with the six columns of the import and one data line whose status, priority
and is_critical cells are blank. -/
def plasterCsv : JSString :=
  "title,week,section,status,priority,is_critical\nPlaster lift shaft,WEEK 1,Roofing,,,".toList

/-- The data line of `plasterCsv`. -/
def plasterLine : JSString := "Plaster lift shaft,WEEK 1,Roofing,,,".toList

/-- The record imported from `plasterCsv` for the project `p1`. -/
def plasterRecord : TaskRow :=
  { project_id := "p1".toList, title := "Plaster lift shaft".toList, week := "WEEK 1".toList,
    section_ := "Roofing".toList, status := "Not Started".toList, priority := "Normal".toList,
    is_critical := false, notes := [], start_date := none, end_date := none }

end Sample

namespace Spec

open JSStr CSV

/-- A valid resource row: a data line that is not blank and whose name cell is non-empty. -/
def isValidResourceLine (headers : List JSString) (line : JSString) : Bool :=
  decide (trim line ≠ [] ∧ cell headers line "name".toList ≠ [])

/-- The normalised valid resource rows of a list of lines, in their input order. -/
def validResourceRecords (projectId : JSString) (headers : List JSString)
    (lines : List JSString) : List ResourceRow :=
  (lines.filter (isValidResourceLine headers)).map
    (fun line => ResourceCSVUpload.normalize projectId (mkRow headers (splitCols line)))

end Spec

namespace Sample

/-- A resource file whose only data line has the quantity `-5`. -/
def negativeQuantityCsv : JSString := "name,quantity\nCement bags,-5".toList

/-- The data line of `negativeQuantityCsv`. -/
def cementLine : JSString := "Cement bags,-5".toList

/-- The data line of `weekOnlyCsv`. -/
def liftUnitLine : JSString := "Lift unit,WEEK 4".toList

/-- A resource file without a milestone column, with a week column. -/
def weekOnlyCsv : JSString := "name,week\nLift unit,WEEK 4".toList

/-- A resource file with a blank milestone cell and a week cell. -/
def blankMilestoneCsv : JSString := "name,milestone,week\nLift unit,,WEEK 4".toList

end Sample

namespace ResourceCSVUpload

/-- The pattern `parseFloat(v) || 0` of the two numeric fields (lines 233 and 235). -/
def numberOrZero (v : Option JSString) : JSNum :=
  JSNum.orElse (JSStr.parseFloat v) (JSNum.num 0)

end ResourceCSVUpload

namespace TaskCSVUpload

/-- The text `csv` that `downloadTemplate` puts in the blob `tasks-template.csv`
(lines 92-94). -/
def downloadTemplate : JSString :=
  ("title,week,section,status,priority,is_critical,notes,start_date,end_date\n"
    ++ "Plaster lift shaft,WEEK 1,Roofing & Rooftop,Not Started,Critical,true,,2026-02-17,2026-02-23\n"
    ++ "Complete rooftop duct casting,WEEK 1,Roofing & Rooftop,Not Started,High,false,,2026-02-17,2026-02-23").toList

end TaskCSVUpload

namespace ResourceCSVUpload

/-- The text `csv` that `downloadTemplate` puts in the blob `resources-template.csv`
(lines 266-270). -/
def downloadTemplate : JSString :=
  ("name,type,quantity,unit,cost_per_unit,milestone,milestone_date,supplier,status,notes\n"
    ++ "Cement bags,Material,500,bags,2500,WEEK 1,2026-02-17,Dangote,Planned,First delivery for plastering\n"
    ++ "Tilers (gang),Labour,8,persons,25000,WEEK 2,2026-02-24,Subcontractor A,Planned,\n"
    ++ "Aluminium roofing sheets,Material,120,sheets,45000,WEEK 1,2026-02-17,Roofing Ltd,Ordered,\n"
    ++ "Lift unit,Equipment,1,unit,4500000,WEEK 4,2026-03-09,Otis Nigeria,Planned,Full installation").toList

end ResourceCSVUpload

namespace Spec

/-- The number of commas of a line that are preceded by an even number of double-quote
characters. -/
def separatorCount (s : JSString) : ℕ :=
  (List.range s.length).countP
    (fun i => decide (s[i]? = some ',') && decide ((s.take i).count '"' % 2 = 0))

end Spec

namespace Spec

open JSStr

/-- The text of a table of cells: the cells of a row joined by the delimiter, the rows
joined by newlines. -/
def delimitedText (delimiter : Char) (table : List (List JSString)) : JSString :=
  join "\n".toList (table.map (join [delimiter]))

end Spec

namespace Sample

/-- A table with a header row and one data row. -/
def oneTaskTable : List (List JSString) :=
  [["title".toList, "week".toList, "section".toList], ["A".toList, "3".toList, "S".toList]]

/-- The semicolon-delimited text of `oneTaskTable`. -/
def semicolonCsv : JSString := "title;week;section\nA;3;S".toList

end Sample

namespace Spec

open JSStr

/-- The text with every maximal run of white space replaced by a single underscore: the
text is cut into its maximal runs of white space and of other characters, and each run of
white space becomes `_`. -/
def collapseWhiteSpaceRuns (s : JSString) : JSString :=
  ((s.splitBy (fun a b => isWhiteSpace a == isWhiteSpace b)).map
    (fun run => if run.all isWhiteSpace then ['_'] else run)).flatten

end Spec

/-! ## `CSVUpload.jsx`: the task import loop -/

namespace JSArray

/-- `rows.slice(start, stop)` for indices `0 ≤ start`, `0 ≤ stop`: the elements at the
indices `start`, …, `stop - 1` that exist. -/
def slice {α : Type} (rows : List α) (start stop : ℕ) : List α :=
  (rows.take stop).drop start

end JSArray

namespace TaskCSVUpload

/-- The constant `chunkSize` of `handleImport` (line 80). -/
def chunkSize : ℕ := 20

/-- The loop `for (let i = 0; i < rows.length; i += chunkSize)` of `handleImport`
(lines 81-85), from the index `i` on: `calls` are the arguments of the `insert` calls made
so far, in call order.  Every awaited `insert` is taken to settle. -/
def insertLoop (rows : List TaskRow) (i : ℕ) (calls : List (List TaskRow)) :
    List (List TaskRow) :=
  if i < rows.length then
    insertLoop rows (i + chunkSize) (calls ++ [JSArray.slice rows i (i + chunkSize)])
  else calls
termination_by rows.length - i
decreasing_by
  simp only [chunkSize]
  omega

/-- `handleImport()` (lines 78-89): the chunks it passes to `insert`, in call order. -/
def handleImport (rows : List TaskRow) : List (List TaskRow) := insertLoop rows 0 []

end TaskCSVUpload

/-! ## `ResourcesView.jsx`: costs -/

namespace ResourcesView

open JSNum

/-- `x || 0` for a numeric column that may be `null`. -/
def orZero (x : Option JSNum) : JSNum :=
  match x with
  | some v => JSNum.orElse v (num 0)
  | none => num 0

/-- The cost of one line: `(r.quantity || 0) * (r.cost_per_unit || 0)`. -/
def lineCost (r : ResourceRow) : JSNum := orZero r.quantity * orZero r.cost_per_unit

/-- `totalCost` (line 78): the `reduce` from 0 over all resources. -/
def totalCost (resources : List ResourceRow) : JSNum :=
  resources.foldl (fun sum r => sum + (orZero r.quantity * orZero r.cost_per_unit)) (num 0)

/-- `spentCost` (lines 79-80): the `reduce` over the resources on site or used. -/
def spentCost (resources : List ResourceRow) : JSNum :=
  (resources.filter isDeployed).foldl
    (fun sum r => sum + (orZero r.quantity * orZero r.cost_per_unit)) (num 0)

/-- The `cost` of one status in the tracker bar (line 121). -/
def statusCost (resources : List ResourceRow) (status : JSString) : JSNum :=
  (resources.filter (fun r => r.status = status)).foldl
    (fun s r => s + (orZero r.quantity * orZero r.cost_per_unit)) (num 0)

/-- `milestoneCost` of one milestone group `items` (line 225). -/
def milestoneCost (items : List ResourceRow) : JSNum :=
  items.foldl (fun s r => s + (orZero r.quantity * orZero r.cost_per_unit)) (num 0)

/-- `typeCost` of the tracker card of one resource type (lines 333-335). -/
def typeCost (resources : List ResourceRow) (type : JSString) : JSNum :=
  (resources.filter (fun r => r.type = type)).foldl
    (fun s r => s + (orZero r.quantity * orZero r.cost_per_unit)) (num 0)

end ResourcesView

namespace Sample

/-- A planned material with quantity 1 and the given cost per unit. -/
def unitResource (cost : JSNum) : ResourceRow :=
  { project_id := "p1".toList, name := "Item".toList, type := "Material".toList,
    quantity := some (JSNum.num 1), unit := "unit".toList, cost_per_unit := some cost,
    milestone := some "WEEK 1".toList, milestone_date := none, supplier := [],
    status := "Planned".toList, notes := [] }

/-- Three resources of quantity 1 that cost 0.1, 0.8 and 0.3 (the Numbers nearest to these
decimals). -/
def decimalCosts : List ResourceRow :=
  [unitResource (JSNum.ofRat (1 / 10)), unitResource (JSNum.ofRat (8 / 10)),
    unitResource (JSNum.ofRat (3 / 10))]

/-- A resource with an integer quantity and an integer cost per unit. -/
def priced (quantity cost : ℕ) (status : JSString) : ResourceRow :=
  { project_id := "p1".toList, name := "Item".toList, type := "Material".toList,
    quantity := some (JSNum.num quantity), unit := "unit".toList,
    cost_per_unit := some (JSNum.num cost), milestone := some "WEEK 1".toList,
    milestone_date := none, supplier := [], status := status, notes := [] }

/-- 500 bags at 2500 (planned) and 8 persons at 25000 (on site). -/
def twoPriced : List ResourceRow :=
  [priced 500 2500 "Planned".toList, priced 8 25000 "On Site".toList]

end Sample

/-! ## `ResourcesView.jsx`: grouping by milestone -/

namespace ResourcesView

/-- The names of the properties that an object literal `{}` inherits from
`Object.prototype`; each of them holds a function or an object, none of which has a `push`
method. -/
def objectPrototypeKeys : List JSString :=
  ["constructor".toList, "__defineGetter__".toList, "__defineSetter__".toList,
    "hasOwnProperty".toList, "__lookupGetter__".toList, "__lookupSetter__".toList,
    "isPrototypeOf".toList, "propertyIsEnumerable".toList, "toString".toList,
    "valueOf".toList, "__proto__".toList, "toLocaleString".toList]

/-- What the property read `milestones[key]` finds: an array stored by the loop, a property
inherited from `Object.prototype`, or `undefined`. -/
inductive Lookup where
  | own (items : List ResourceRow)
  | inherited
  | undefined
  deriving DecidableEq

/-- The property read `milestones[key]` on the object whose own properties, in the order of
their creation, are `m`. -/
def getProp (m : List (JSString × List ResourceRow)) (key : JSString) : Lookup :=
  match m.find? (fun p => p.1 = key) with
  | some p => Lookup.own p.2
  | none => if key ∈ objectPrototypeKeys then Lookup.inherited else Lookup.undefined

/-- The assignment `milestones[key] = items`: an existing own property keeps its place, a new
one is created last. -/
def setProp (m : List (JSString × List ResourceRow)) (key : JSString)
    (items : List ResourceRow) : List (JSString × List ResourceRow) :=
  if m.any (fun p => p.1 = key) then m.map (fun p => if p.1 = key then (key, items) else p)
  else m ++ [(key, items)]

/-- The group key `r.milestone || 'Unscheduled'` (line 63). -/
def milestoneKey (r : ResourceRow) : JSString :=
  JSStr.orElse r.milestone "Unscheduled".toList

/-- The callback of `resources.forEach` (lines 62-66); `none` is the `TypeError` thrown when
`milestones[key]` has no `push` method. -/
def groupStep (m : List (JSString × List ResourceRow)) (r : ResourceRow) :
    Option (List (JSString × List ResourceRow)) :=
  let key := milestoneKey r
  let m1 := match getProp m key with
    | Lookup.undefined => setProp m key []
    | _ => m
  match getProp m1 key with
  | Lookup.own items => some (setProp m1 key (items ++ [r]))
  | _ => none

/-- The loop `resources.forEach(...)` from the object `m` on. -/
def groupFrom : List (JSString × List ResourceRow) → List ResourceRow →
    Option (List (JSString × List ResourceRow))
  | m, [] => some m
  | m, r :: rest =>
    match groupStep m r with
    | some m1 => groupFrom m1 rest
    | none => none

/-- The object `milestones` (lines 61-67): its own properties in the order of their
creation, `none` when building it throws. -/
def milestones (resources : List ResourceRow) : Option (List (JSString × List ResourceRow)) :=
  groupFrom [] resources

end ResourcesView

namespace Sample

/-- A planned material with the given name and milestone. -/
def scheduled (name : JSString) (milestone : Option JSString) : ResourceRow :=
  { project_id := "p1".toList, name := name, type := "Material".toList,
    quantity := some (JSNum.num 1), unit := "unit".toList,
    cost_per_unit := some (JSNum.num 1), milestone := milestone, milestone_date := none,
    supplier := [], status := "Planned".toList, notes := [] }

/-- Four resources: two of WEEK 1, one with a blank and one with no milestone. -/
def fourScheduled : List ResourceRow :=
  [scheduled "a".toList (some "WEEK 1".toList), scheduled "b".toList (some []),
    scheduled "c".toList (some "WEEK 1".toList), scheduled "d".toList none]

/-- A resource whose milestone label is `constructor`. -/
def constructorResource : ResourceRow := scheduled "e".toList (some "constructor".toList)

end Sample

/-! ## Arrays, sets and `parseInt` -/

namespace JSArray

/-- `xs.sort(comparefn)`.  The sort of ECMAScript is stable, and for a comparator that orders
the elements of the array consistently its result does not depend on the algorithm; the
embedding is the insertion sort that places each element before the first element of the
sorted rest that it does not compare greater than.  A comparator result `v` puts `a` after
`b` when `v > 0`; `NaN` counts as 0. -/
def sort {α : Type} (comparefn : α → α → JSNum) (xs : List α) : List α :=
  xs.insertionSort (fun a b => JSNum.gt (comparefn a b) (JSNum.num 0) = false)

/-- `[...new Set(xs)]`: the distinct elements of `xs`, each at its first occurrence. -/
def distinct {α : Type} [DecidableEq α] : List α → List α
  | [] => []
  | a :: rest => a :: (distinct rest).filter (fun b => decide (b ≠ a))

end JSArray

namespace JSStr

/-- The UTF-16 code units of a string. -/
def utf16 (s : JSString) : List ℕ :=
  s.flatMap (fun c =>
    if c.toNat < 0x10000 then [c.toNat]
    else [0xD800 + (c.toNat - 0x10000) / 0x400, 0xDC00 + (c.toNat - 0x10000) % 0x400])

/-- The comparison `a < b` of two strings: lexicographic on their UTF-16 code units. -/
def lt (a b : JSString) : Bool := decide (utf16 a < utf16 b)

/-- The comparator of `sort()` without argument, on strings: negative when `a < b`, positive
when `b < a`, zero otherwise. -/
def defaultCompare (a b : JSString) : JSNum :=
  if lt a b then JSNum.num (-1) else if lt b a then JSNum.num 1 else JSNum.num 0

/-- The value of a digit of a radix up to 16, if the character is one. -/
def radixDigit (radix : ℕ) (c : Char) : Option ℕ :=
  let v : Option ℕ :=
    if '0'.toNat ≤ c.toNat ∧ c.toNat ≤ '9'.toNat then some (c.toNat - '0'.toNat)
    else if 'a'.toNat ≤ c.toNat ∧ c.toNat ≤ 'f'.toNat then some (c.toNat - 'a'.toNat + 10)
    else if 'A'.toNat ≤ c.toNat ∧ c.toNat ≤ 'F'.toNat then some (c.toNat - 'A'.toNat + 10)
    else none
  match v with
  | some d => if d < radix then some d else none
  | none => none

/-- The integer that a list of digit values denotes in a radix. -/
def radixValue (radix : ℕ) (ds : List ℕ) : ℕ := ds.foldl (fun acc d => radix * acc + d) 0

/-- `parseInt(s)` without a radix argument: leading white space is skipped, an optional sign
is read, the prefix `0x` or `0X` selects radix 16 and otherwise the radix is 10, and the
longest prefix of digits is converted to the nearest Number; `NaN` when there is no digit. -/
def parseInt (s : JSString) : JSNum :=
  let t := s.dropWhile isWhiteSpace
  let negative : Bool := match t with
    | '-' :: _ => true
    | _ => false
  let t1 := match t with
    | '-' :: r => r
    | '+' :: r => r
    | r => r
  let radix : ℕ := match t1 with
    | '0' :: 'x' :: _ => 16
    | '0' :: 'X' :: _ => 16
    | _ => 10
  let t2 := match t1 with
    | '0' :: 'x' :: r => r
    | '0' :: 'X' :: r => r
    | r => r
  let ds := (t2.takeWhile (fun c => (radixDigit radix c).isSome)).filterMap (radixDigit radix)
  if ds = [] then JSNum.nan
  else if negative then JSNum.neg (JSNum.ofRat (radixValue radix ds : ℚ))
  else JSNum.ofRat (radixValue radix ds : ℚ)

end JSStr

/-! ## `ResourcesView.jsx`: the order of the milestone groups -/

namespace ResourcesView

open JSNum

/-- A property key that is an array index: the canonical decimal form of an integer from 0
to `2^32 - 2`. -/
def isArrayIndex (key : JSString) : Bool :=
  decide (key ≠ [] ∧ (∀ c ∈ key, JSStr.isDigit c = true)
    ∧ (key.head? ≠ some '0' ∨ key = ['0']) ∧ JSStr.digitsValue key < 4294967295)

/-- `Object.keys(obj)` for the object whose own properties, in the order of their creation,
have the keys `created`: the array indices in ascending numeric order, then the other keys
in the order of their creation. -/
def objectKeys (created : List JSString) : List JSString :=
  (created.filter isArrayIndex).insertionSort
      (fun a b => JSStr.digitsValue a ≤ JSStr.digitsValue b)
    ++ created.filter (fun k => !isArrayIndex k)

/-- The number read from a key: `parseInt(a.replace(/\D/g, '')) || 999` (lines 73-74). -/
def keyNumber (a : JSString) : JSNum :=
  JSNum.orElse (JSStr.parseInt (a.filter JSStr.isDigit)) (num 999)

/-- The comparator of the milestone keys (lines 70-75). -/
def compareKeys (a b : JSString) : JSNum :=
  if a = "Unscheduled".toList then num 1
  else if b = "Unscheduled".toList then num (-1)
  else keyNumber a - keyNumber b

/-- `milestoneKeys` (lines 69-76): the sorted keys of `milestones`; `none` when building
`milestones` throws. -/
def milestoneKeys (resources : List ResourceRow) : Option (List JSString) :=
  match milestones resources with
  | some m => some (JSArray.sort compareKeys (objectKeys (m.map Prod.fst)))
  | none => none

end ResourcesView

namespace ProjectView

/-- `weeks` (line 96): `[...new Set(tasks.map(t => t.week))].sort()`. -/
def weeks (tasks : List TaskRow) : List JSString :=
  JSArray.sort JSStr.defaultCompare (JSArray.distinct (tasks.map (fun t => t.week)))

end ProjectView

namespace Sample

/-- A task of the given week. -/
def weekTask (week : String) : TaskRow :=
  { project_id := "p1".toList, title := "Plaster lift shaft".toList, week := week.toList,
    section_ := "Roofing".toList, status := "Not Started".toList, priority := "Normal".toList,
    is_critical := false, notes := [], start_date := none, end_date := none }

/-- Tasks of the weeks 2, 10, 2 and 1, in this order. -/
def fourWeeks : List TaskRow :=
  [weekTask "WEEK 2", weekTask "WEEK 10", weekTask "WEEK 2", weekTask "WEEK 1"]

/-- Two resources, of the milestones `WEEK 0` and `WEEK 1`. -/
def weekZeroAndOne : List ResourceRow :=
  [scheduled "a".toList (some "WEEK 0".toList), scheduled "b".toList (some "WEEK 1".toList)]

/-- Two resources, of the milestones `WEEK 10` and `WEEK 3`. -/
def weekTenAndThree : List ResourceRow :=
  [scheduled "a".toList (some "WEEK 10".toList), scheduled "b".toList (some "WEEK 3".toList)]

/-- Two resources, of the milestones `WEEK 1000` and `Handover`. -/
def thousandAndHandover : List ResourceRow :=
  [scheduled "a".toList (some "WEEK 1000".toList),
    scheduled "b".toList (some "Handover".toList)]

/-- Two resources, of the milestones `WEEK 2` and `2`. -/
def weekTwoAndTwo : List ResourceRow :=
  [scheduled "a".toList (some "WEEK 2".toList), scheduled "b".toList (some "2".toList)]

end Sample

namespace Spec

/-- The integer formed by the digits of a label, 0 when it has none. -/
def embeddedNumber (label : JSString) : ℕ := JSStr.digitsValue (label.filter JSStr.isDigit)

/-- The number by which the comparator orders a label other than `Unscheduled`: 999 for a
label without digits or with the embedded number 0, otherwise the embedded number. -/
def effectiveNumber (label : JSString) : ℕ :=
  if embeddedNumber label = 0 then 999 else embeddedNumber label

end Spec

namespace Spec

/-- The rank by which the milestone keys are ordered: `Unscheduled` above every number, any
other label at its effective number. -/
def milestoneRank (label : JSString) : WithTop ℕ :=
  if label = "Unscheduled".toList then ⊤ else ((effectiveNumber label : ℕ) : WithTop ℕ)

end Spec

/-! ## `AdminPanel.jsx` and `ProjectView.jsx`: roles and editing rights -/

namespace AdminPanel

/-- The roles and their permissions, as the Roles & Permissions tab lists them
(lines 171-177). -/
def rolesAndPermissions : List (JSString × List JSString) :=
  [("Admin".toList, ["Full access to everything".toList, "Invite and manage users".toList,
      "Create and delete projects".toList, "Manage all tasks and data".toList,
      "Access admin panel".toList]),
    ("Project Manager".toList, ["Create and manage projects".toList,
      "Add and edit tasks".toList, "Manage risk register".toList, "Manage resources".toList,
      "View all project data".toList]),
    ("Site Supervisor".toList, ["Update task status".toList, "Add notes to tasks".toList,
      "Upload site photos".toList, "View all project data".toList,
      "Cannot create projects".toList]),
    ("Site Engineer".toList, ["Update task status".toList, "Add notes to tasks".toList,
      "Upload site photos".toList, "View technical data".toList,
      "Cannot create projects".toList]),
    ("Subcontractor / Trade".toList, ["View assigned tasks only".toList,
      "Update own task status".toList, "Add notes to own tasks".toList,
      "Upload photos to own tasks".toList, "No access to financials".toList])]

end AdminPanel

namespace ProjectView

/-- `canEdit` (line 66); `role` is `profile?.role`, `none` when it is undefined. -/
def canEdit (role : Option JSString) : Bool :=
  match role with
  | some r => ["Admin".toList, "Project Manager".toList, "Site Supervisor".toList,
      "Site Engineer".toList].contains r
  | none => false

/-- `isAdmin` (line 67). -/
def isAdmin (role : Option JSString) : Bool :=
  match role with
  | some r => ["Admin".toList, "Project Manager".toList].contains r
  | none => false

/-- The constant `STATUSES` (line 26). -/
def STATUSES : List JSString :=
  ["Not Started".toList, "In Progress".toList, "Complete".toList, "Blocked".toList]

/-- The click handler of the status button of a task row (lines 360-365): the status passed
to `onUpdateStatus`, `none` when the handler returns without an update. -/
def statusClick (canEdit : Bool) (status : JSString) : Option JSString :=
  if !canEdit then none
  else
    let idx : ℤ := if status ∈ STATUSES then (STATUSES.indexOf status : ℤ) else -1
    STATUSES.get? ((idx + 1) % (STATUSES.length : ℤ)).toNat

/-- Whether a click on the note of a task row opens the note editor (lines 404 and 408):
with a note `canEdit && setEditingNote(true)`, without one the `Add note...` element is
rendered only when `canEdit`. -/
def noteClickOpensEditor (canEdit : Bool) : Bool := canEdit

end ProjectView

namespace Spec

/-- The permissions of the table that let a role update the status of a task. -/
def statusPermissions : List JSString :=
  ["Manage all tasks and data".toList, "Add and edit tasks".toList,
    "Update task status".toList, "Update own task status".toList]

/-- A row of the table grants task-status updating. -/
def grantsStatusUpdate (perms : List JSString) : Bool :=
  perms.any (fun p => statusPermissions.contains p)

end Spec

namespace Sample

/-- Two hundred tasks, all but the last complete. -/
def allButOneOfTwoHundred : List TaskRow :=
  List.replicate 199 (task "Complete") ++ [task "In Progress"]

end Sample

/-! ## The forecast as the specification writes it -/

namespace Spec

open JSNum

/-- Steps 8 and 9 of the forecast in exact arithmetic:
`min(99, round(90 + 10 × (daysLeft − daysNeeded) / daysLeft))` when
`daysNeeded ≤ daysLeft`, otherwise `max(5, round(90 × daysLeft / daysNeeded))`, a tie
rounding up. -/
def forecastExact (daysNeeded daysLeft : ℚ) : ℤ :=
  if daysNeeded ≤ daysLeft then
    Min.min 99 ⌊90 + 10 * (daysLeft - daysNeeded) / daysLeft + 1 / 2⌋
  else Max.max 5 ⌊90 * daysLeft / daysNeeded + 1 / 2⌋

/-- Steps 8 and 9 of the forecast in double arithmetic, the operations taken in the order
in which the formulas are written: `90 × daysLeft / daysNeeded` is
`(90 × daysLeft) / daysNeeded`. -/
def forecastAsWritten (daysNeeded daysLeft : JSNum) : JSNum :=
  if JSNum.le daysNeeded daysLeft then
    Math.min (num 99) (Math.round (num 90 + num 10 * (daysLeft - daysNeeded) / daysLeft))
  else Math.max (num 5) (Math.round (num 90 * daysLeft / daysNeeded))

end Spec

namespace Sample

/-- Two tasks, the first complete. -/
def oneOfTwo : List TaskRow := [task "Complete", task "Not Started"]

/-- A project created on day 0 whose target date is day 27. -/
def fourWeekProject : Project := ⟨day 0, day 27⟩

end Sample

/-! ## Windows line endings -/

namespace Spec

/-- The text with every `\n` replaced by `\r\n`. -/
def toCRLF : JSString → JSString
  | [] => []
  | c :: cs => if c = '\n' then '\r' :: '\n' :: toCRLF cs else c :: toCRLF cs

end Spec

namespace CSV

/-- The lines of a text after the replacement of every `\n` by `\r\n`, when they are cut at
`\n`: every line but the last one ends with a carriage return. -/
def withCarriageReturns : List JSString → List JSString
  | [] => []
  | [l] => [l]
  | l :: m :: rest => (l ++ ['\r']) :: withCarriageReturns (m :: rest)

end CSV

/-! ## Sample files for the enum fields -/

namespace Sample

/-- A task file with four data lines: allowed values, a status in lower case with a blank
priority, values outside the enums, and a blank status with a priority in lower case. -/
def enumTasksCsv : JSString :=
  ("title,week,section,status,priority\nA,1,S,Complete,High\nB,1,S,complete,\n"
    ++ "C,1,S,Done,Urgent\nD,1,S,,low").toList

/-- A resource file with three data lines: allowed values, a type in lower case with a blank
status, and a blank type with a status outside the enum. -/
def enumResourcesCsv : JSString :=
  "name,type,status\nCement,Labour,On Site\nSand,labour,\nBricks,,Delivered".toList

end Sample

/-! # Theorems -/

/-! ## Rounding to the nearest double: monotone, exact on doubles, relative error `2^-53` -/

namespace JSFloat

theorem roundNE_intCast (n : ℤ) : roundNE (n : ℚ) = n := by
  simp [roundNE]

theorem floor_le_roundNE (x : ℚ) : ⌊x⌋ ≤ roundNE x := by
  unfold roundNE
  split_ifs <;> omega

theorem roundNE_le_floor_add_one (x : ℚ) : roundNE x ≤ ⌊x⌋ + 1 := by
  unfold roundNE
  split_ifs <;> omega

theorem roundNE_mono {x y : ℚ} (h : x ≤ y) : roundNE x ≤ roundNE y := by
  rcases (Int.floor_mono h).lt_or_eq with hlt | heq
  · calc roundNE x ≤ ⌊x⌋ + 1 := roundNE_le_floor_add_one x
      _ ≤ ⌊y⌋ := hlt
      _ ≤ roundNE y := floor_le_roundNE y
  · have hfr : x - ⌊x⌋ ≤ y - ⌊y⌋ := by rw [heq]; linarith
    unfold roundNE
    rw [heq]
    rw [heq] at hfr
    split_ifs <;> first | omega | linarith

theorem roundNE_nonneg {x : ℚ} (h : 0 ≤ x) : 0 ≤ roundNE x :=
  le_trans (Int.floor_nonneg.mpr h) (floor_le_roundNE x)

theorem abs_roundNE_sub_le (x : ℚ) : |(roundNE x : ℚ) - x| ≤ 1 / 2 := by
  have h1 := Int.floor_le x
  have h2 := Int.lt_floor_add_one x
  rw [abs_le]
  unfold roundNE
  split_ifs <;> push_cast <;> constructor <;> linarith

theorem roundNE_eq_of_lt (n : ℤ) (x : ℚ) (h1 : (n : ℚ) - 1 / 2 < x) (h2 : x < n + 1 / 2) :
    roundNE x = n := by
  have h3 := abs_roundNE_sub_le x
  rw [abs_le] at h3
  have h4 : ((roundNE x : ℤ) : ℚ) < ((n + 1 : ℤ) : ℚ) := by push_cast; linarith
  have h5 : ((n - 1 : ℤ) : ℚ) < ((roundNE x : ℤ) : ℚ) := by push_cast; linarith
  have h6 := Int.cast_lt.mp h4
  have h7 := Int.cast_lt.mp h5
  omega

theorem two_zpow_log_le {x : ℚ} (hx : 0 < x) : (2 : ℚ) ^ Int.log 2 x ≤ x := by
  simpa using Int.zpow_log_le_self (b := 2) one_lt_two hx

theorem lt_two_zpow_log_succ (x : ℚ) : x < (2 : ℚ) ^ (Int.log 2 x + 1) := by
  simpa using Int.lt_zpow_succ_log_self (b := 2) one_lt_two x

theorem log_eq_of_bounds {x : ℚ} (L : ℤ) (h1 : (2 : ℚ) ^ L ≤ x) (h2 : x < (2 : ℚ) ^ (L + 1)) :
    Int.log 2 x = L := by
  have hx : 0 < x := lt_of_lt_of_le (by positivity) h1
  have a : L ≤ Int.log 2 x := by
    rw [← Int.zpow_le_iff_le_log one_lt_two hx]; simpa using h1
  have b : Int.log 2 x < L + 1 := by
    rw [← Int.lt_zpow_iff_log_lt one_lt_two hx]; simpa using h2
  omega

theorem expo_mono {x y : ℚ} (hx : 0 < x) (h : x ≤ y) : expo x ≤ expo y := by
  unfold expo
  have := Int.log_mono_right (b := 2) hx h
  omega

theorem two_zpow_split (a b : ℤ) : (2 : ℚ) ^ (a + b) = (2 : ℚ) ^ a * (2 : ℚ) ^ b :=
  zpow_add₀ (by norm_num) a b

/-- A positive rational rounds to at most `2^53` units of its grid. -/
theorem flPos_le_upper {x : ℚ} (_hx : 0 < x) : flPos x ≤ (2 : ℚ) ^ (expo x + 53) := by
  have h2 := lt_two_zpow_log_succ x
  have he : (0 : ℚ) < (2 : ℚ) ^ expo x := by positivity
  have hle : Int.log 2 x + 1 ≤ expo x + 53 := by unfold expo; omega
  have h3 : x ≤ (2 : ℚ) ^ (expo x + 53) :=
    le_trans h2.le (zpow_le_zpow_right₀ (by norm_num) hle)
  have e2 : (2 : ℚ) ^ (expo x + 53) = (((2 : ℤ) ^ (53 : ℕ) : ℤ) : ℚ) * (2 : ℚ) ^ expo x := by
    rw [two_zpow_split, mul_comm]; norm_num
  have y2 : x / (2 : ℚ) ^ expo x ≤ (((2 : ℤ) ^ (53 : ℕ) : ℤ) : ℚ) := by
    rw [div_le_iff₀ he, ← e2]; exact h3
  have r2 := roundNE_mono y2
  rw [roundNE_intCast] at r2
  unfold flPos
  rw [e2]
  apply mul_le_mul_of_nonneg_right _ he.le
  exact_mod_cast r2

/-- In the normal range a positive rational rounds to at least `2^52` units of its grid. -/
theorem flPos_ge_lower {x : ℚ} (hx : 0 < x) (hn : expo x = Int.log 2 x - 52) :
    (2 : ℚ) ^ Int.log 2 x ≤ flPos x := by
  have h1 := two_zpow_log_le hx
  have he : (0 : ℚ) < (2 : ℚ) ^ expo x := by positivity
  have e1 : (2 : ℚ) ^ Int.log 2 x = (((2 : ℤ) ^ (52 : ℕ) : ℤ) : ℚ) * (2 : ℚ) ^ expo x := by
    have : Int.log 2 x = expo x + 52 := by omega
    conv_lhs => rw [this]
    rw [two_zpow_split, mul_comm]; norm_num
  have y1 : (((2 : ℤ) ^ (52 : ℕ) : ℤ) : ℚ) ≤ x / (2 : ℚ) ^ expo x := by
    rw [le_div_iff₀ he, ← e1]; exact h1
  have r1 := roundNE_mono y1
  rw [roundNE_intCast] at r1
  unfold flPos
  rw [e1]
  apply mul_le_mul_of_nonneg_right _ he.le
  exact_mod_cast r1

theorem flPos_nonneg {x : ℚ} (hx : 0 < x) : 0 ≤ flPos x := by
  unfold flPos
  have : (0 : ℚ) ≤ (roundNE (x / (2 : ℚ) ^ expo x) : ℚ) := by
    exact_mod_cast roundNE_nonneg (by positivity)
  positivity

theorem flPos_mono {x y : ℚ} (hx : 0 < x) (h : x ≤ y) : flPos x ≤ flPos y := by
  have hy : 0 < y := lt_of_lt_of_le hx h
  rcases (expo_mono hx h).lt_or_eq with hlt | heq
  · have hn : expo y = Int.log 2 y - 52 := by
      have : -1074 ≤ expo x := by unfold expo; omega
      unfold expo at hlt ⊢
      omega
    calc flPos x ≤ (2 : ℚ) ^ (expo x + 53) := flPos_le_upper hx
      _ ≤ (2 : ℚ) ^ Int.log 2 y := zpow_le_zpow_right₀ (by norm_num) (by omega)
      _ ≤ flPos y := flPos_ge_lower hy hn
  · unfold flPos
    rw [heq]
    have he : (0 : ℚ) < (2 : ℚ) ^ expo y := by positivity
    apply mul_le_mul_of_nonneg_right _ he.le
    have : x / (2 : ℚ) ^ expo y ≤ y / (2 : ℚ) ^ expo y :=
      div_le_div_of_nonneg_right h he.le
    exact_mod_cast roundNE_mono this

theorem fl_zero : fl 0 = 0 := by simp [fl]

theorem fl_neg (x : ℚ) : fl (-x) = -fl x := by
  unfold fl
  rcases lt_trichotomy x 0 with h | h | h
  · have h1 : ¬ (-x < 0) := by linarith
    have h2 : x ≠ 0 := by linarith
    have h3 : -x ≠ 0 := by intro h'; apply h2; linarith
    simp [h, h1, h2, h3]
  · simp [h]
  · have h1 : ¬ (x < 0) := by linarith
    have h2 : x ≠ 0 := by intro h'; linarith
    have h3 : -x ≠ 0 := by intro h'; apply h2; linarith
    have h4 : -x < 0 := by linarith
    simp [h4, h1, h2, h3]

theorem fl_of_pos {x : ℚ} (hx : 0 < x) : fl x = flPos x := by
  unfold fl
  have h1 : ¬ (x < 0) := by linarith
  have h2 : x ≠ 0 := by intro h'; linarith
  simp [h1, h2]

theorem fl_of_neg {x : ℚ} (hx : x < 0) : fl x = -flPos (-x) := by
  have := fl_neg (-x)
  rw [neg_neg] at this
  rw [this, fl_of_pos (by linarith : 0 < -x)]

theorem fl_nonneg {x : ℚ} (hx : 0 ≤ x) : 0 ≤ fl x := by
  rcases hx.lt_or_eq with h | h
  · rw [fl_of_pos h]; exact flPos_nonneg h
  · rw [← h, fl_zero]

theorem fl_mono {x y : ℚ} (h : x ≤ y) : fl x ≤ fl y := by
  rcases lt_trichotomy x 0 with hx | hx | hx
  · have hx' : 0 < -x := by linarith
    have nx := flPos_nonneg hx'
    rcases lt_trichotomy y 0 with hy | hy | hy
    · have hy' : 0 < -y := by linarith
      have := flPos_mono hy' (by linarith : -y ≤ -x)
      rw [fl_of_neg hx, fl_of_neg hy]; linarith
    · rw [fl_of_neg hx, hy, fl_zero]; linarith
    · have := fl_nonneg hy.le
      rw [fl_of_neg hx]; linarith
  · rw [hx, fl_zero]; exact fl_nonneg (by linarith)
  · have hy : 0 < y := lt_of_lt_of_le hx h
    rw [fl_of_pos hx, fl_of_pos hy]; exact flPos_mono hx h

/-- A positive double `m * 2^k` with `m < 2^53` and `k ≥ -1074` is its own rounding. -/
theorem flPos_of_dyadic (m k : ℤ) (h0 : 0 < m) (h1 : m < 2 ^ 53) (hk : -1074 ≤ k) :
    flPos ((m : ℚ) * (2 : ℚ) ^ k) = (m : ℚ) * (2 : ℚ) ^ k := by
  have hm : (0 : ℚ) < m := by exact_mod_cast h0
  have hx : (0 : ℚ) < (m : ℚ) * (2 : ℚ) ^ k := by positivity
  have hlt : (m : ℚ) * (2 : ℚ) ^ k < (2 : ℚ) ^ (53 + k) := by
    rw [two_zpow_split]
    apply mul_lt_mul_of_pos_right _ (by positivity)
    have : (m : ℚ) < ((2 ^ 53 : ℤ) : ℚ) := by exact_mod_cast h1
    norm_num at this ⊢
    exact this
  have hL : Int.log 2 ((m : ℚ) * (2 : ℚ) ^ k) < 53 + k := by
    rw [← Int.lt_zpow_iff_log_lt one_lt_two hx]; simpa using hlt
  unfold flPos
  set e := expo ((m : ℚ) * (2 : ℚ) ^ k) with he
  have hj : 0 ≤ k - e := by
    have : e ≤ k := by rw [he]; unfold expo; omega
    omega
  have hk' : k = e + ((k - e).toNat : ℤ) := by rw [Int.toNat_of_nonneg hj]; ring
  have hdiv : (m : ℚ) * (2 : ℚ) ^ k / (2 : ℚ) ^ e = ((m * 2 ^ (k - e).toNat : ℤ) : ℚ) := by
    have h2e : (2 : ℚ) ^ e ≠ 0 := by positivity
    rw [div_eq_iff h2e]
    conv_lhs => rw [hk']
    rw [two_zpow_split, zpow_natCast]
    push_cast; ring
  rw [hdiv, roundNE_intCast, ← hdiv]
  have h2e : (2 : ℚ) ^ e ≠ 0 := by positivity
  field_simp

/-- A double `m * 2^k` with `|m| < 2^53` and `k ≥ -1074` is its own rounding. -/
theorem fl_of_dyadic (m k : ℤ) (h1 : |m| < 2 ^ 53) (hk : -1074 ≤ k) :
    fl ((m : ℚ) * (2 : ℚ) ^ k) = (m : ℚ) * (2 : ℚ) ^ k := by
  rw [abs_lt] at h1
  rcases lt_trichotomy m 0 with h | h | h
  · have h' : 0 < -m := by omega
    have := flPos_of_dyadic (-m) k h' (by omega) hk
    have hx : (m : ℚ) * (2 : ℚ) ^ k < 0 := by
      have : (m : ℚ) < 0 := by exact_mod_cast h
      exact mul_neg_of_neg_of_pos this (by positivity)
    rw [fl_of_neg hx]
    have e : -((m : ℚ) * (2 : ℚ) ^ k) = ((-m : ℤ) : ℚ) * (2 : ℚ) ^ k := by push_cast; ring
    rw [e, this]
    push_cast; ring
  · simp [h, fl_zero]
  · have hx : (0 : ℚ) < (m : ℚ) * (2 : ℚ) ^ k := by
      have : (0 : ℚ) < (m : ℚ) := by exact_mod_cast h
      positivity
    rw [fl_of_pos hx]
    exact flPos_of_dyadic m k h h1.2 hk

theorem fl_intCast (n : ℤ) (h : |n| < 2 ^ 53) : fl (n : ℚ) = n := by
  simpa using fl_of_dyadic n 0 h (by norm_num)

theorem fl_natCast (n : ℕ) (h : n < 2 ^ 53) : fl (n : ℚ) = n := by
  have := fl_intCast (n : ℤ) (by rw [abs_lt]; constructor <;> omega)
  simpa using this

/-- A power of two between `2^-1074` and `2^1023` is its own rounding. -/
theorem fl_two_zpow (k : ℤ) (hk : -1074 ≤ k) : fl ((2 : ℚ) ^ k) = (2 : ℚ) ^ k := by
  simpa using fl_of_dyadic 1 k (by norm_num) hk

/-- A rational at least `2^k`, with `k ≥ -1074`, rounds to a positive double. -/
theorem fl_pos_of_le {x : ℚ} (k : ℤ) (hk : -1074 ≤ k) (hx : (2 : ℚ) ^ k ≤ x) : 0 < fl x := by
  have := fl_mono hx
  rw [fl_two_zpow k hk] at this
  exact lt_of_lt_of_le (by positivity) this

/-- In the normal range the rounding error is at most `2^-53` of the value. -/
theorem abs_flPos_sub_le {x : ℚ} (hx : (2 : ℚ) ^ (-1022 : ℤ) ≤ x) :
    |flPos x - x| ≤ x / 2 ^ 53 := by
  have hx0 : 0 < x := lt_of_lt_of_le (by positivity) hx
  have h1 := two_zpow_log_le hx0
  have hL : -1022 ≤ Int.log 2 x := by
    rw [← Int.zpow_le_iff_le_log one_lt_two hx0]; simpa using hx
  have hn : expo x = Int.log 2 x - 52 := by unfold expo; omega
  have he : (0 : ℚ) < (2 : ℚ) ^ expo x := by positivity
  have e1 : (2 : ℚ) ^ Int.log 2 x = (2 : ℚ) ^ (52 : ℕ) * (2 : ℚ) ^ expo x := by
    have : Int.log 2 x = expo x + 52 := by omega
    conv_lhs => rw [this]
    rw [two_zpow_split, mul_comm]; norm_num
  have hr := abs_roundNE_sub_le (x / (2 : ℚ) ^ expo x)
  have key : flPos x - x
      = ((roundNE (x / (2 : ℚ) ^ expo x) : ℚ) - x / (2 : ℚ) ^ expo x) * (2 : ℚ) ^ expo x := by
    unfold flPos
    field_simp
  rw [key, abs_mul, abs_of_pos he]
  have : (2 : ℚ) ^ expo x ≤ x / 2 ^ 52 := by
    rw [le_div_iff₀ (by positivity)]
    rw [e1] at h1; linarith
  calc |(roundNE (x / (2 : ℚ) ^ expo x) : ℚ) - x / (2 : ℚ) ^ expo x| * (2 : ℚ) ^ expo x
      ≤ 1 / 2 * (2 : ℚ) ^ expo x := mul_le_mul_of_nonneg_right hr he.le
    _ ≤ 1 / 2 * (x / 2 ^ 52) := by linarith
    _ = x / 2 ^ 53 := by ring

theorem abs_fl_sub_le {x : ℚ} (hx : (2 : ℚ) ^ (-1022 : ℤ) ≤ x) : |fl x - x| ≤ x / 2 ^ 53 := by
  have hx0 : 0 < x := lt_of_lt_of_le (by positivity) hx
  rw [fl_of_pos hx0]
  exact abs_flPos_sub_le hx

/-- Evaluation of the rounding of a positive rational from its binade and its neighbours. -/
theorem fl_eval {x : ℚ} (e n : ℤ) (he : -1022 ≤ e + 52) (h1 : (2 : ℚ) ^ (e + 52) ≤ x)
    (h2 : x < (2 : ℚ) ^ (e + 52 + 1)) (h3 : (n : ℚ) - 1 / 2 < x / (2 : ℚ) ^ e)
    (h4 : x / (2 : ℚ) ^ e < n + 1 / 2) : fl x = (n : ℚ) * (2 : ℚ) ^ e := by
  have hx0 : 0 < x := lt_of_lt_of_le (by positivity) h1
  have hL := log_eq_of_bounds (e + 52) h1 h2
  have hn : expo x = e := by unfold expo; omega
  rw [fl_of_pos hx0]
  unfold flPos
  rw [hn, roundNE_eq_of_lt n _ h3 h4]

theorem fl_one : fl 1 = 1 := by
  have := fl_natCast 1 (by norm_num)
  simpa using this

theorem fl_ninety : fl 90 = 90 := by
  have := fl_natCast 90 (by norm_num)
  simpa using this

end JSFloat

/-! ## Arithmetic of finite numbers -/

namespace JSNum

open JSFloat

/-- No overflow below `2^1023`: the Number nearest to `x` is the finite double `fl x`. -/
theorem ofRat_of_abs_le {x : ℚ} (h : |x| ≤ (2 : ℚ) ^ (1023 : ℤ)) : ofRat x = num (fl x) := by
  rw [abs_le] at h
  have e := fl_two_zpow 1023 (by norm_num)
  have h1 : fl x ≤ (2 : ℚ) ^ (1023 : ℤ) := by rw [← e]; exact fl_mono h.2
  have h2 : -(2 : ℚ) ^ (1023 : ℤ) ≤ fl x := by
    rw [← e, ← fl_neg]; exact fl_mono h.1
  have h3 : (2 : ℚ) ^ (1023 : ℤ) < (2 : ℚ) ^ 1024 := by norm_num
  unfold ofRat
  rw [if_neg (by linarith), if_neg (by linarith)]

theorem ofRat_zero : ofRat 0 = num 0 := by
  rw [ofRat_of_abs_le (by norm_num), fl_zero]

theorem num_add (a b : ℚ) : num a + num b = ofRat (a + b) := rfl

theorem num_sub (a b : ℚ) : num a - num b = ofRat (a - b) := rfl

theorem num_mul (a b : ℚ) : num a * num b = ofRat (a * b) := rfl

theorem num_div (a b : ℚ) (hb : b ≠ 0) : num a / num b = ofRat (a / b) := by
  show JSNum.div (num a) (num b) = _
  simp [JSNum.div, hb]

theorem zero_div_zero : num 0 / num 0 = nan := by
  show JSNum.div (num 0) (num 0) = _
  simp [JSNum.div]

theorem isIntIn_mono {lo hi lo' hi' : ℤ} {x : JSNum} (h : IsIntIn lo hi x)
    (h1 : lo' ≤ lo) (h2 : hi ≤ hi') : IsIntIn lo' hi' x := by
  obtain ⟨n, hn, a, b⟩ := h
  exact ⟨n, hn, by omega, by omega⟩

end JSNum

namespace JSFloat

/-- Rounding keeps a value below a bound that is itself a double. -/
theorem fl_le_of_le {x B : ℚ} (hB : fl B = B) (h : x ≤ B) : fl x ≤ B := by
  rw [← hB]; exact fl_mono h

theorem fl_ge_of_ge {x B : ℚ} (hB : fl B = B) (h : B ≤ x) : B ≤ fl x := by
  rw [← hB]; exact fl_mono h

theorem fl_abs_le {x B : ℚ} (hB : fl B = B) (h : |x| ≤ B) : |fl x| ≤ B := by
  rw [abs_le] at h ⊢
  constructor
  · have := fl_mono h.1
    rwa [fl_neg, hB] at this
  · exact fl_le_of_le hB h.2

theorem fl_two_pow (k : ℕ) (hk : k ≤ 1023) : fl ((2 : ℚ) ^ k) = (2 : ℚ) ^ k := by
  have := fl_two_zpow (k : ℤ) (by omega)
  rwa [zpow_natCast] at this

theorem fl_eq_zero_of_nonneg {x : ℚ} (h : fl x = 0) (k : ℤ) (hk : -1074 ≤ k)
    (hx : x = 0 ∨ (2 : ℚ) ^ k ≤ x) : x = 0 := by
  rcases hx with h0 | h1
  · exact h0
  · have := fl_pos_of_le k hk h1
    rw [h] at this
    exact absurd this (lt_irrefl _)

end JSFloat

namespace JSNum

open JSFloat

theorem two_pow_64_le : (2 : ℚ) ^ 64 ≤ (2 : ℚ) ^ (1023 : ℤ) := by
  rw [← zpow_natCast]
  exact zpow_le_zpow_right₀ (by norm_num) (by norm_num)

/-- Arithmetic on magnitudes up to `2^64` never overflows. -/
theorem ofRat_small {x : ℚ} (h : |x| ≤ (2 : ℚ) ^ 64) : ofRat x = num (fl x) :=
  ofRat_of_abs_le (le_trans h two_pow_64_le)

theorem ofRat_small_nonneg {x : ℚ} (h0 : 0 ≤ x) (h : x ≤ (2 : ℚ) ^ 64) :
    ofRat x = num (fl x) :=
  ofRat_small (by rw [abs_of_nonneg h0]; exact h)

theorem ofRat_natCast (n : ℕ) (h : n < 2 ^ 53) : ofRat (n : ℚ) = num (n : ℚ) := by
  have h' : (n : ℚ) < (2 : ℚ) ^ 53 := by exact_mod_cast h
  rw [ofRat_small_nonneg (by positivity) (by linarith [show (2 : ℚ) ^ 53 ≤ 2 ^ 64 by norm_num]),
    fl_natCast n h]

end JSNum

/-! ## The forecast -/

namespace ProjectView

open JSNum JSFloat

theorem msPerDay_eq : msPerDay = num 86400000 := by
  unfold msPerDay
  rw [num_mul, show (1000 : ℚ) * 60 = ((60000 : ℕ) : ℚ) by norm_num,
    ofRat_natCast _ (by norm_num)]
  rw [num_mul, show ((60000 : ℕ) : ℚ) * 60 = ((3600000 : ℕ) : ℚ) by norm_num,
    ofRat_natCast _ (by norm_num)]
  rw [num_mul, show ((3600000 : ℕ) : ℚ) * 24 = ((86400000 : ℕ) : ℚ) by norm_num,
    ofRat_natCast _ (by norm_num)]
  norm_num

/-- The largest difference of two time values, `2 * 8.64e15`, is a double. -/
theorem fl_maxSpan : fl 17280000000000000 = 17280000000000000 := by
  have := fl_of_dyadic 32958984375 19 (by norm_num) (by norm_num)
  norm_num at this
  exact this

theorem fl_maxDays : fl 200000000 = 200000000 := by
  have := fl_natCast 200000000 (by norm_num)
  simpa using this

theorem abs_span_le (a b : TimeValue) : |(a.ms : ℚ) - b.ms| ≤ 17280000000000000 := by
  have h1 := a.lower
  have h2 := a.upper
  have h3 := b.lower
  have h4 := b.upper
  have : |a.ms - b.ms| ≤ 17280000000000000 := by rw [abs_le]; constructor <;> omega
  exact_mod_cast this

theorem abs_days_le (a b : TimeValue) :
    |fl (fl ((a.ms : ℚ) - b.ms) / 86400000)| ≤ 200000000 := by
  apply fl_abs_le fl_maxDays
  have := fl_abs_le fl_maxSpan (abs_span_le a b)
  rw [abs_div, abs_of_pos (by norm_num : (0 : ℚ) < 86400000), div_le_iff₀ (by norm_num)]
  norm_num
  exact this

/-- The day count between two time values, before `Math.max` clamps it. -/
theorem ceil_days_eq (a b : TimeValue) :
    Math.ceil ((ofInt a.ms - ofInt b.ms) / msPerDay)
      = num ((⌈fl (fl ((a.ms : ℚ) - b.ms) / 86400000)⌉ : ℤ) : ℚ) := by
  rw [msPerDay_eq]
  unfold ofInt
  have h1 := abs_span_le a b
  have h2 := fl_abs_le fl_maxSpan h1
  rw [num_sub, ofRat_small (le_trans h1 (by norm_num)), num_div _ _ (by norm_num), ofRat_small]
  · rfl
  · rw [abs_div, abs_of_pos (by norm_num : (0 : ℚ) < 86400000), div_le_iff₀ (by norm_num)]
    exact le_trans h2 (by norm_num)

theorem ceil_days_le (a b : TimeValue) :
    ⌈fl (fl ((a.ms : ℚ) - b.ms) / 86400000)⌉ ≤ 200000000 := by
  rw [Int.ceil_le]
  have := abs_days_le a b
  rw [abs_le] at this
  push_cast
  exact this.2

theorem ceil_days_pos_iff (a b : TimeValue) :
    0 < ⌈fl (fl ((a.ms : ℚ) - b.ms) / 86400000)⌉ ↔ b.ms < a.ms := by
  rw [Int.ceil_pos]
  constructor
  · intro h
    by_contra hn
    have h1 : (a.ms : ℚ) - b.ms ≤ 0 := by
      have : (a.ms : ℚ) ≤ b.ms := by exact_mod_cast not_lt.mp hn
      linarith
    have h2 := fl_mono h1
    rw [fl_zero] at h2
    have h3 : fl ((a.ms : ℚ) - b.ms) / 86400000 ≤ 0 := by
      apply div_nonpos_of_nonpos_of_nonneg h2; norm_num
    have h4 := fl_mono h3
    rw [fl_zero] at h4
    linarith
  · intro h
    have h1 : (1 : ℚ) ≤ (a.ms : ℚ) - b.ms := by
      have : b.ms + 1 ≤ a.ms := h
      have : ((b.ms + 1 : ℤ) : ℚ) ≤ (a.ms : ℚ) := by exact_mod_cast this
      push_cast at this
      linarith
    have h2 : (1 : ℚ) ≤ fl ((a.ms : ℚ) - b.ms) := fl_ge_of_ge fl_one h1
    apply fl_pos_of_le (-27) (by norm_num)
    rw [le_div_iff₀ (by norm_num)]
    have : (2 : ℚ) ^ (-27 : ℤ) * 86400000 ≤ 1 := by norm_num
    linarith

/-- The value of `daysElapsed` is an integer between 1 and 200,000,000. -/
theorem daysElapsed_eq (p : Project) (now : TimeValue) :
    ∃ n : ℤ, 1 ≤ n ∧ n ≤ 200000000 ∧ daysElapsed p now = num (n : ℚ) := by
  refine ⟨Max.max 1 ⌈fl (fl ((now.ms : ℚ) - p.created_at.ms) / 86400000)⌉, le_max_left _ _,
    max_le (by norm_num) (ceil_days_le _ _), ?_⟩
  unfold daysElapsed
  rw [ceil_days_eq]
  show num (Max.max (1 : ℚ) _) = _
  push_cast
  rfl

/-- The value of `daysLeft` is an integer between 0 and 200,000,000, and it is 0 exactly
when the target date is not after the clock reading. -/
theorem daysLeft_eq (p : Project) (now : TimeValue) :
    ∃ n : ℤ, 0 ≤ n ∧ n ≤ 200000000 ∧ daysLeft p now = num (n : ℚ)
      ∧ (n = 0 ↔ p.target_date.ms ≤ now.ms) := by
  refine ⟨Max.max 0 ⌈fl (fl ((p.target_date.ms : ℚ) - now.ms) / 86400000)⌉, le_max_left _ _,
    max_le (by norm_num) (ceil_days_le _ _), ?_, ?_⟩
  · unfold daysLeft
    rw [ceil_days_eq]
    show num (Max.max (0 : ℚ) _) = _
    push_cast
    rfl
  · have := ceil_days_pos_iff p.target_date now
    constructor
    · intro h
      by_contra hn
      have := this.mpr (not_le.mp hn)
      have := le_max_right 0 ⌈fl (fl ((p.target_date.ms : ℚ) - now.ms) / 86400000)⌉
      omega
    · intro h
      have : ¬ (0 < ⌈fl (fl ((p.target_date.ms : ℚ) - now.ms) / 86400000)⌉) := by
        rw [this]; omega
      exact max_eq_left (not_lt.mp this)

/-- The value of `velocity`: zero when nothing is complete, otherwise a double between
`2^-28` and `2^32`. -/
theorem velocity_eq (c : ℕ) (de : ℤ) (hc : c < 2 ^ 32) (hde : 1 ≤ de) (hde' : de ≤ 200000000) :
    velocity c (num (de : ℚ)) = num (fl ((c : ℚ) / de))
      ∧ (c = 0 → fl ((c : ℚ) / de) = 0)
      ∧ (0 < c → (2 : ℚ) ^ (-28 : ℤ) ≤ fl ((c : ℚ) / de))
      ∧ fl ((c : ℚ) / de) ≤ (2 : ℚ) ^ 32 := by
  have hdeq : (1 : ℚ) ≤ (de : ℚ) := by exact_mod_cast hde
  have hdeq' : (de : ℚ) ≤ 200000000 := by exact_mod_cast hde'
  have hcq : (c : ℚ) ≤ (2 : ℚ) ^ 32 := by
    have : (c : ℚ) < ((2 ^ 32 : ℕ) : ℚ) := by exact_mod_cast hc
    push_cast at this
    exact this.le
  have hq0 : (0 : ℚ) ≤ (c : ℚ) / de := by positivity
  have hq1 : (c : ℚ) / de ≤ (2 : ℚ) ^ 32 := by
    rw [div_le_iff₀ (by linarith)]
    nlinarith
  refine ⟨?_, ?_, ?_, ?_⟩
  · unfold velocity ofNat
    rw [num_div _ _ (by linarith), ofRat_small_nonneg hq0 (le_trans hq1 (by norm_num))]
  · intro h; rw [h]; simp [fl_zero]
  · intro h
    apply fl_ge_of_ge (fl_two_zpow (-28) (by norm_num))
    rw [le_div_iff₀ (by linarith)]
    have h1 : (1 : ℚ) ≤ (c : ℚ) := by exact_mod_cast h
    have h2 : (2 : ℚ) ^ (-28 : ℤ) * 200000000 ≤ 1 := by norm_num
    have h3 : (0 : ℚ) < (2 : ℚ) ^ (-28 : ℤ) := by positivity
    nlinarith
  · exact fl_le_of_le (fl_two_pow 32 (by norm_num)) hq1

/-- The value of `tasksRemaining` is exact. -/
theorem tasksRemaining_eq (T c : ℕ) (hT : T < 2 ^ 32) (hc : c ≤ T) :
    tasksRemaining T c = num (((T - c : ℕ) : ℕ) : ℚ) := by
  unfold tasksRemaining ofNat
  rw [num_sub]
  have : (T : ℚ) - c = ((T - c : ℕ) : ℚ) := by
    rw [Nat.cast_sub hc]
  rw [this, ofRat_natCast _ (by omega)]

/-- The value of `daysNeeded`: a non-negative number, at most `2^60`, zero exactly when
nothing remains, and the sentinel 9999 when nothing is complete. -/
theorem daysNeeded_eq (T c : ℕ) (de : ℤ) (hT : T < 2 ^ 32) (hc : c ≤ T) (hT1 : 1 ≤ T)
    (hde : 1 ≤ de) (hde' : de ≤ 200000000) :
    ∃ d : ℚ, 0 ≤ d ∧ d ≤ (2 : ℚ) ^ 60 ∧ (d = 0 ↔ c = T) ∧ (c = 0 → d = 9999) ∧
      daysNeeded T c (num (de : ℚ)) = num d := by
  obtain ⟨hv, hv0, hvpos, hvle⟩ := velocity_eq c de (by omega) hde hde'
  have hr := tasksRemaining_eq T c hT hc
  unfold daysNeeded
  rw [hv, hr]
  rcases Nat.eq_zero_or_pos c with h0 | hpos
  · refine ⟨9999, by norm_num, by norm_num, ?_, fun _ => rfl, ?_⟩
    · constructor
      · intro h; norm_num at h
      · intro h; omega
    · rw [hv0 h0]
      simp [JSNum.gt]
  · have hvl := hvpos hpos
    have hv' : 0 < fl ((c : ℚ) / de) := lt_of_lt_of_le (by positivity) hvl
    have hr0 : (0 : ℚ) ≤ ((T - c : ℕ) : ℚ) := by positivity
    have hr1 : ((T - c : ℕ) : ℚ) ≤ (2 : ℚ) ^ 32 := by
      have : ((T - c : ℕ) : ℚ) < ((2 ^ 32 : ℕ) : ℚ) := by
        exact_mod_cast (by omega : T - c < 2 ^ 32)
      push_cast at this
      exact this.le
    have hq0 : 0 ≤ ((T - c : ℕ) : ℚ) / fl ((c : ℚ) / de) := div_nonneg hr0 hv'.le
    have hq1 : ((T - c : ℕ) : ℚ) / fl ((c : ℚ) / de) ≤ (2 : ℚ) ^ 60 := by
      rw [div_le_iff₀ hv']
      have e : (2 : ℚ) ^ 60 * (2 : ℚ) ^ (-28 : ℤ) = (2 : ℚ) ^ 32 := by norm_num
      have : (2 : ℚ) ^ 60 * (2 : ℚ) ^ (-28 : ℤ) ≤ (2 : ℚ) ^ 60 * fl ((c : ℚ) / de) :=
        mul_le_mul_of_nonneg_left hvl (by positivity)
      linarith
    refine ⟨fl (((T - c : ℕ) : ℚ) / fl ((c : ℚ) / de)), fl_nonneg hq0,
      fl_le_of_le (fl_two_pow 60 (by norm_num)) hq1, ?_, fun h => by omega, ?_⟩
    · constructor
      · intro h
        have hz : ((T - c : ℕ) : ℚ) / fl ((c : ℚ) / de) = 0 := by
          apply fl_eq_zero_of_nonneg h (-32) (by norm_num)
          rcases Nat.eq_zero_or_pos (T - c) with hz | hz
          · left; rw [hz]; simp
          · right
            rw [le_div_iff₀ hv']
            have h1 : (1 : ℚ) ≤ ((T - c : ℕ) : ℚ) := by exact_mod_cast hz
            have h2 : (2 : ℚ) ^ (-32 : ℤ) * (2 : ℚ) ^ 32 = 1 := by norm_num
            have h3 : (2 : ℚ) ^ (-32 : ℤ) * fl ((c : ℚ) / de)
                ≤ (2 : ℚ) ^ (-32 : ℤ) * (2 : ℚ) ^ 32 :=
              mul_le_mul_of_nonneg_left hvle (by positivity)
            linarith
        rw [div_eq_zero_iff] at hz
        rcases hz with hz | hz
        · have : T - c = 0 := by exact_mod_cast hz
          omega
        · exact absurd hz (ne_of_gt hv')
      · intro h
        rw [h]
        simp [fl_zero]
    · have : JSNum.gt (num (fl ((c : ℚ) / de))) (num 0) = true := by simp [JSNum.gt, hv']
      rw [if_pos this, num_div _ _ (ne_of_gt hv'),
        ofRat_small_nonneg hq0 (le_trans hq1 (by norm_num))]

/-- The on-pace branch: `Math.min(99, Math.round(90 + (10 * (daysLeft - daysNeeded) / daysLeft)))`. -/
theorem forecast_on_pace_eq (T c : ℕ) (de : JSNum) (d dl : ℚ)
    (hd : daysNeeded T c de = num d) (hd0 : 0 ≤ d) (hb : d ≤ dl) (hdl : 1 ≤ dl)
    (hdl' : dl ≤ 200000000) :
    forecast T c de (num dl)
      = num ((Min.min 99 ⌊fl (90 + fl (fl (10 * fl (dl - d)) / dl)) + 1 / 2⌋ : ℤ) : ℚ)
      ∧ 0 ≤ fl (fl (10 * fl (dl - d)) / dl) := by
  have h200 : fl 200000000 = 200000000 := fl_maxDays
  have h2000 : fl 2000000000 = 2000000000 := by
    have := fl_natCast 2000000000 (by norm_num)
    simpa using this
  have a0 : 0 ≤ dl - d := by linarith
  have a1 : dl - d ≤ 200000000 := by linarith
  have b0 : 0 ≤ fl (dl - d) := fl_nonneg a0
  have b1 : fl (dl - d) ≤ 200000000 := fl_le_of_le h200 a1
  have c0 : 0 ≤ 10 * fl (dl - d) := by linarith
  have c1 : 10 * fl (dl - d) ≤ 2000000000 := by linarith
  have e0 : 0 ≤ fl (10 * fl (dl - d)) := fl_nonneg c0
  have e1 : fl (10 * fl (dl - d)) ≤ 2000000000 := fl_le_of_le h2000 c1
  have f0 : 0 ≤ fl (10 * fl (dl - d)) / dl := div_nonneg e0 (by linarith)
  have f1 : fl (10 * fl (dl - d)) / dl ≤ 2000000000 := by
    rw [div_le_iff₀ (by linarith)]
    nlinarith
  have g0 : 0 ≤ fl (fl (10 * fl (dl - d)) / dl) := fl_nonneg f0
  have g1 : fl (fl (10 * fl (dl - d)) / dl) ≤ 2000000000 := fl_le_of_le h2000 f1
  refine ⟨?_, g0⟩
  unfold forecast
  rw [hd]
  have hle : JSNum.le (num d) (num dl) = true := by simp [JSNum.le, hb]
  rw [if_pos hle, num_sub, ofRat_small_nonneg a0 (le_trans a1 (by norm_num)),
    num_mul, ofRat_small_nonneg c0 (le_trans c1 (by norm_num)),
    num_div _ _ (by linarith), ofRat_small_nonneg f0 (le_trans f1 (by norm_num)),
    num_add, ofRat_small_nonneg (by linarith) (by linarith [show (2000000090 : ℚ) ≤ 2 ^ 64 by norm_num])]
  show num (Min.min (99 : ℚ) _) = _
  push_cast
  rfl

/-- On the on-pace branch with at least one day left the forecast is an integer in [90, 99]. -/
theorem forecast_on_pace (T c : ℕ) (de : JSNum) (d dl : ℚ) (hd : daysNeeded T c de = num d)
    (hd0 : 0 ≤ d) (hb : d ≤ dl) (hdl : 1 ≤ dl) (hdl' : dl ≤ 200000000) :
    IsIntIn 90 99 (forecast T c de (num dl)) := by
  obtain ⟨he, h3⟩ := forecast_on_pace_eq T c de d dl hd hd0 hb hdl hdl'
  have h4 : (90 : ℚ) ≤ fl (90 + fl (fl (10 * fl (dl - d)) / dl)) :=
    fl_ge_of_ge fl_ninety (by linarith)
  have h5 : (90 : ℤ) ≤ ⌊fl (90 + fl (fl (10 * fl (dl - d)) / dl)) + 1 / 2⌋ := by
    rw [Int.le_floor]; push_cast; linarith
  exact ⟨_, he, le_min (by norm_num) h5, min_le_left _ _⟩

/-- The behind-pace branch: `Math.max(5, Math.round(90 * (daysLeft / daysNeeded)))`. -/
theorem forecast_behind_eq (T c : ℕ) (de : JSNum) (d dl : ℚ) (hd : daysNeeded T c de = num d)
    (hb : dl < d) (hdl : 0 ≤ dl) :
    forecast T c de (num dl) = num ((Max.max 5 ⌊fl (90 * fl (dl / d)) + 1 / 2⌋ : ℤ) : ℚ)
      ∧ 0 ≤ fl (dl / d) ∧ fl (dl / d) ≤ 1 := by
  have hdpos : 0 < d := lt_of_le_of_lt hdl hb
  have a0 : 0 ≤ dl / d := div_nonneg hdl hdpos.le
  have a1 : dl / d ≤ 1 := (div_le_one hdpos).mpr hb.le
  have b0 : 0 ≤ fl (dl / d) := fl_nonneg a0
  have b1 : fl (dl / d) ≤ 1 := fl_le_of_le fl_one a1
  refine ⟨?_, b0, b1⟩
  unfold forecast
  rw [hd]
  have hle : JSNum.le (num d) (num dl) = false := by simp [JSNum.le, hb]
  rw [hle]
  simp only [Bool.false_eq_true, if_false]
  rw [num_div _ _ (ne_of_gt hdpos), ofRat_small_nonneg a0 (le_trans a1 (by norm_num)),
    num_mul, ofRat_small_nonneg (by linarith) (by linarith [show (90 : ℚ) ≤ 2 ^ 64 by norm_num])]
  show num (Max.max (5 : ℚ) _) = _
  push_cast
  rfl

/-- On the behind-pace branch the forecast is an integer in [5, 90]. -/
theorem forecast_behind (T c : ℕ) (de : JSNum) (d dl : ℚ) (hd : daysNeeded T c de = num d)
    (hb : dl < d) (hdl : 0 ≤ dl) : IsIntIn 5 90 (forecast T c de (num dl)) := by
  obtain ⟨he, h0, h1⟩ := forecast_behind_eq T c de d dl hd hb hdl
  have h2 : fl (90 * fl (dl / d)) ≤ 90 := fl_le_of_le fl_ninety (by linarith)
  have h3 : ⌊fl (90 * fl (dl / d)) + 1 / 2⌋ ≤ (90 : ℤ) := by
    have : ⌊fl (90 * fl (dl / d)) + 1 / 2⌋ < (91 : ℤ) := by
      rw [Int.floor_lt]; push_cast; linarith
    omega
  exact ⟨_, he, le_max_left _ _, max_le (by norm_num) h3⟩

/-- Outside the case "no day left and nothing remaining", the forecast is an integer
between 5 and 99. -/
theorem forecast_range (T c : ℕ) (de dl : ℤ) (hT : T < 2 ^ 32) (hT1 : 1 ≤ T) (hc : c ≤ T)
    (hde : 1 ≤ de) (hde' : de ≤ 200000000) (hdl : 0 ≤ dl) (hdl' : dl ≤ 200000000)
    (h : ¬ (dl = 0 ∧ c = T)) :
    IsIntIn 5 99 (forecast T c (num (de : ℚ)) (num (dl : ℚ))) := by
  obtain ⟨d, hd0, -, hdz, -, hd⟩ := daysNeeded_eq T c de hT hc hT1 hde hde'
  have hdlq : (0 : ℚ) ≤ (dl : ℚ) := by exact_mod_cast hdl
  have hdlq' : (dl : ℚ) ≤ 200000000 := by exact_mod_cast hdl'
  by_cases hb : d ≤ (dl : ℚ)
  · have hdlpos : 1 ≤ dl := by
      rcases hdl.lt_or_eq with h1 | h1
      · omega
      · exfalso
        have hd00 : d = 0 := le_antisymm (by rw [← h1] at hb; exact_mod_cast hb) hd0
        exact h ⟨h1.symm, hdz.mp hd00⟩
    have hq : (1 : ℚ) ≤ (dl : ℚ) := by exact_mod_cast hdlpos
    exact isIntIn_mono (forecast_on_pace T c _ d dl hd hd0 hb hq hdlq') (by norm_num) le_rfl
  · exact isIntIn_mono (forecast_behind T c _ d dl hd (not_le.mp hb) hdlq) le_rfl (by norm_num)

/-- With no day left and every task complete the forecast is `NaN`: `daysNeeded` is 0, the
test `0 <= 0` takes the on-pace branch and `10 * (0 - 0) / 0` is `0 / 0`. -/
theorem forecast_nan (T : ℕ) (de : ℤ) (hT : T < 2 ^ 32) (hT1 : 1 ≤ T) (hde : 1 ≤ de)
    (hde' : de ≤ 200000000) : forecast T T (num (de : ℚ)) (num 0) = nan := by
  obtain ⟨d, hd0, -, hdz, -, hd⟩ := daysNeeded_eq T T de hT le_rfl hT1 hde hde'
  have hd00 : d = 0 := hdz.mpr rfl
  unfold forecast
  rw [hd, hd00]
  have hle : JSNum.le (num 0) (num 0) = true := by simp [JSNum.le]
  rw [if_pos hle, num_sub]
  simp only [sub_zero]
  rw [ofRat_zero, num_mul]
  simp only [mul_zero]
  rw [ofRat_zero, zero_div_zero]
  rfl

/-- With nothing complete and at most 611 days left the forecast is 5. -/
theorem forecast_floor (T : ℕ) (de dl : ℤ) (hT : T < 2 ^ 32) (hT1 : 1 ≤ T) (hde : 1 ≤ de)
    (hde' : de ≤ 200000000) (hdl : 0 ≤ dl) (h611 : dl ≤ 611) :
    forecast T 0 (num (de : ℚ)) (num (dl : ℚ)) = num 5 := by
  obtain ⟨d, -, -, -, hd9, hd⟩ := daysNeeded_eq T 0 de hT (Nat.zero_le _) hT1 hde hde'
  have hd' : d = 9999 := hd9 rfl
  subst hd'
  have hdl' : (0 : ℚ) ≤ (dl : ℚ) := by exact_mod_cast hdl
  have h611' : (dl : ℚ) ≤ 611 := by exact_mod_cast h611
  obtain ⟨he, h1', -⟩ := forecast_behind_eq T 0 _ 9999 dl hd (by linarith) hdl'
  rw [he]
  have e1 : fl (((16019 : ℤ) : ℚ) * (2 : ℚ) ^ (-18 : ℤ)) = ((16019 : ℤ) : ℚ) * (2 : ℚ) ^ (-18 : ℤ) :=
    fl_of_dyadic 16019 (-18) (by norm_num) (by norm_num)
  have e2 : fl (((1441710 : ℤ) : ℚ) * (2 : ℚ) ^ (-18 : ℤ))
      = ((1441710 : ℤ) : ℚ) * (2 : ℚ) ^ (-18 : ℤ) :=
    fl_of_dyadic 1441710 (-18) (by norm_num) (by norm_num)
  have h1 : fl ((dl : ℚ) / 9999) ≤ ((16019 : ℤ) : ℚ) * (2 : ℚ) ^ (-18 : ℤ) := by
    apply fl_le_of_le e1
    rw [div_le_iff₀ (by norm_num)]
    norm_num
    linarith
  have h2 : fl (90 * fl ((dl : ℚ) / 9999)) ≤ ((1441710 : ℤ) : ℚ) * (2 : ℚ) ^ (-18 : ℤ) := by
    apply fl_le_of_le e2
    have : ((1441710 : ℤ) : ℚ) * (2 : ℚ) ^ (-18 : ℤ)
        = 90 * (((16019 : ℤ) : ℚ) * (2 : ℚ) ^ (-18 : ℤ)) := by norm_num
    rw [this]
    linarith
  have h3 : ⌊fl (90 * fl ((dl : ℚ) / 9999)) + 1 / 2⌋ ≤ (5 : ℤ) := by
    have : ⌊fl (90 * fl ((dl : ℚ) / 9999)) + 1 / 2⌋ < (6 : ℤ) := by
      rw [Int.floor_lt]
      have : ((1441710 : ℤ) : ℚ) * (2 : ℚ) ^ (-18 : ℤ) < 11 / 2 := by norm_num
      push_cast
      linarith
    omega
  rw [max_eq_left h3]
  norm_num

/-! ### `completionProbability` -/

theorem totalTasks_pos {tasks : List TaskRow} (h : tasks ≠ []) : 1 ≤ totalTasks tasks := by
  unfold totalTasks
  exact List.length_pos.mpr h

theorem completedTasks_le (tasks : List TaskRow) : completedTasks tasks ≤ totalTasks tasks :=
  List.length_filter_le _ _

theorem completedTasks_eq_total_iff (tasks : List TaskRow) :
    completedTasks tasks = totalTasks tasks ↔ ∀ t ∈ tasks, t.status = "Complete".toList := by
  unfold completedTasks totalTasks
  rw [List.filter_length_eq_length]
  simp

theorem completedTasks_eq_zero_iff (tasks : List TaskRow) :
    completedTasks tasks = 0 ↔ ∀ t ∈ tasks, t.status ≠ "Complete".toList := by
  unfold completedTasks
  rw [List.length_eq_zero, List.filter_eq_nil_iff]
  simp

theorem completionProbability_of_ne_nil (p : Project) (tasks : List TaskRow)
    (now₁ now₂ : TimeValue) (h : tasks ≠ []) :
    completionProbability p tasks now₁ now₂
      = forecast (totalTasks tasks) (completedTasks tasks) (daysElapsed p now₁)
          (daysLeft p now₂) := by
  unfold completionProbability
  have := totalTasks_pos h
  rw [if_neg (by omega)]

/-- The forecast of a project with at least one task is an integer in [5, 99], unless every
task is complete and the target date is not after the clock reading. -/
theorem completionProbability_range (p : Project) (tasks : List TaskRow) (now₁ now₂ : TimeValue)
    (hne : tasks ≠ []) (hlen : tasks.length < 2 ^ 32)
    (h : ¬ ((∀ t ∈ tasks, t.status = "Complete".toList) ∧ p.target_date.ms ≤ now₂.ms)) :
    IsIntIn 5 99 (completionProbability p tasks now₁ now₂) := by
  rw [completionProbability_of_ne_nil p tasks now₁ now₂ hne]
  obtain ⟨de, hde, hde', hE⟩ := daysElapsed_eq p now₁
  obtain ⟨dl, hdl, hdl', hL, hz⟩ := daysLeft_eq p now₂
  rw [hE, hL]
  apply forecast_range _ _ _ _ hlen (totalTasks_pos hne) (completedTasks_le tasks) hde hde'
    hdl hdl'
  rintro ⟨h1, h2⟩
  exact h ⟨(completedTasks_eq_total_iff tasks).mp h2, hz.mp h1⟩

/-- The forecast is `NaN` when every task of a non-empty list is complete and the target date
is not after the clock reading. -/
theorem completionProbability_nan (p : Project) (tasks : List TaskRow) (now₁ now₂ : TimeValue)
    (hne : tasks ≠ []) (hlen : tasks.length < 2 ^ 32)
    (hall : ∀ t ∈ tasks, t.status = "Complete".toList)
    (hpast : p.target_date.ms ≤ now₂.ms) : completionProbability p tasks now₁ now₂ = nan := by
  rw [completionProbability_of_ne_nil p tasks now₁ now₂ hne]
  obtain ⟨de, hde, hde', hE⟩ := daysElapsed_eq p now₁
  obtain ⟨dl, hdl, hdl', hL, hz⟩ := daysLeft_eq p now₂
  have hdl0 : dl = 0 := hz.mpr hpast
  rw [hE, hL, hdl0, (completedTasks_eq_total_iff tasks).mpr hall]
  exact forecast_nan _ de hlen (totalTasks_pos hne) hde hde'

end ProjectView

/-! ### Bridges between the day counts and the dates -/

namespace ProjectView

open JSNum JSFloat

theorem one_le_daysLeft_iff (p : Project) (now : TimeValue) :
    JSNum.le (num 1) (daysLeft p now) = true ↔ now.ms < p.target_date.ms := by
  obtain ⟨n, hn, -, hL, hz⟩ := daysLeft_eq p now
  rw [hL]
  have : ((1 : ℚ) ≤ (n : ℚ)) ↔ 1 ≤ n := by exact_mod_cast Iff.rfl
  simp only [JSNum.le, decide_eq_true_eq, this]
  omega

theorem daysLeft_le_of (p : Project) (now : TimeValue) (k : ℕ) (hk : k < 2 ^ 20)
    (h : p.target_date.ms - now.ms ≤ (k : ℤ) * 86400000) :
    JSNum.le (daysLeft p now) (num (k : ℚ)) = true := by
  have hk' : (k : ℤ) < 2 ^ 20 := by exact_mod_cast hk
  have e1 : fl (((k : ℤ) * 86400000 : ℤ) : ℚ) = (((k : ℤ) * 86400000 : ℤ) : ℚ) :=
    fl_intCast _ (by rw [abs_lt]; constructor <;> omega)
  have e2 : fl ((k : ℤ) : ℚ) = ((k : ℤ) : ℚ) :=
    fl_intCast _ (by rw [abs_lt]; constructor <;> omega)
  have h1 : fl ((p.target_date.ms : ℚ) - now.ms) ≤ (((k : ℤ) * 86400000 : ℤ) : ℚ) := by
    apply fl_le_of_le e1
    have : ((p.target_date.ms - now.ms : ℤ) : ℚ) ≤ (((k : ℤ) * 86400000 : ℤ) : ℚ) := by
      exact_mod_cast h
    push_cast at this ⊢
    linarith
  have h2 : fl (fl ((p.target_date.ms : ℚ) - now.ms) / 86400000) ≤ ((k : ℤ) : ℚ) := by
    apply fl_le_of_le e2
    rw [div_le_iff₀ (by norm_num)]
    push_cast at h1 ⊢
    linarith
  have h3 : ⌈fl (fl ((p.target_date.ms : ℚ) - now.ms) / 86400000)⌉ ≤ (k : ℤ) :=
    Int.ceil_le.mpr h2
  unfold daysLeft
  rw [ceil_days_eq]
  show decide (Max.max (0 : ℚ) _ ≤ (k : ℚ)) = true
  rw [decide_eq_true_eq]
  apply max_le
  · positivity
  · exact_mod_cast h3

end ProjectView

/-! ## The claims about the forecast -/

namespace ProjectView

open JSNum JSFloat

/-- C1: evaluation at the failing input.  One task, complete; target date one day after
creation; clock two days after creation.  The forecast is `NaN`, not an integer of [5, 99]. -/
theorem C1_completionProbability_nan_after_deadline :
    completionProbability ⟨Sample.day 0, Sample.day 1⟩ [Sample.task "Complete"]
        (Sample.day 2) (Sample.day 2) = nan
      ∧ ¬ IsIntIn 5 99 (completionProbability ⟨Sample.day 0, Sample.day 1⟩
        [Sample.task "Complete"] (Sample.day 2) (Sample.day 2)) := by
  have h : completionProbability ⟨Sample.day 0, Sample.day 1⟩ [Sample.task "Complete"]
      (Sample.day 2) (Sample.day 2) = nan :=
    completionProbability_nan _ _ _ _ (by simp) (by simp) (by simp [Sample.task]) (by decide)
  refine ⟨h, ?_⟩
  rw [h]
  rintro ⟨n, hn, -⟩
  cases hn

/-- C2: with no task the forecast is 0, whatever the dates and the clock readings; 0 lies
outside the clamp range [5, 99]. -/
theorem C2_completionProbability_no_tasks (p : Project) (now₁ now₂ : TimeValue) :
    completionProbability p [] now₁ now₂ = num 0
      ∧ ¬ IsIntIn 5 99 (completionProbability p [] now₁ now₂) := by
  have h : completionProbability p [] now₁ now₂ = num 0 := by
    simp [completionProbability, totalTasks]
  refine ⟨h, ?_⟩
  rw [h]
  rintro ⟨n, hn, h5, -⟩
  have : (0 : ℚ) = (n : ℚ) := by injection hn
  have : n = 0 := by exact_mod_cast this.symm
  omega

/-- C3: what the code does where the claim expects 99.  When every task of a non-empty list
is complete and the target date is not after the clock reading (`daysLeft = 0`,
`daysNeeded = 0`), the division by `daysLeft` is not guarded: the forecast is `NaN`, not 99. -/
theorem C3_completionProbability_unguarded (p : Project) (tasks : List TaskRow)
    (now₁ now₂ : TimeValue) (hne : tasks ≠ []) (hlen : tasks.length < 2 ^ 32)
    (hall : ∀ t ∈ tasks, t.status = "Complete".toList)
    (hpast : p.target_date.ms ≤ now₂.ms) :
    daysLeft p now₂ = num 0 ∧ completionProbability p tasks now₁ now₂ = nan
      ∧ completionProbability p tasks now₁ now₂ ≠ num 99 := by
  have h := completionProbability_nan p tasks now₁ now₂ hne hlen hall hpast
  obtain ⟨n, -, -, hL, hz⟩ := daysLeft_eq p now₂
  refine ⟨?_, h, ?_⟩
  · rw [hL, hz.mpr hpast]; norm_num
  · rw [h]; intro h'; cases h'

/-- Witness of C3: ten complete tasks, the clock exactly at the target date. -/
theorem C3_completionProbability_unguarded_witness :
    daysLeft ⟨Sample.day 0, Sample.day 10⟩ (Sample.day 10) = num 0
      ∧ completionProbability ⟨Sample.day 0, Sample.day 10⟩ Sample.tenComplete
          (Sample.day 10) (Sample.day 10) = nan
      ∧ completionProbability ⟨Sample.day 0, Sample.day 10⟩ Sample.tenComplete
          (Sample.day 10) (Sample.day 10) ≠ num 99 :=
  C3_completionProbability_unguarded ⟨Sample.day 0, Sample.day 10⟩ Sample.tenComplete
    (Sample.day 10) (Sample.day 10) (by decide) (by decide)
    (by intro t ht; rw [List.eq_of_mem_replicate ht]; rfl) (by decide)

/-- C4: for a project with at least one task, every task complete and the target date still
ahead (`daysLeft >= 1`), the forecast is an integer in [90, 99], whatever `daysElapsed`. -/
theorem C4_completionProbability_all_complete (p : Project) (tasks : List TaskRow)
    (now₁ now₂ : TimeValue) (hne : tasks ≠ []) (hlen : tasks.length < 2 ^ 32)
    (hall : ∀ t ∈ tasks, t.status = "Complete".toList)
    (hleft : JSNum.le (num 1) (daysLeft p now₂) = true) :
    IsIntIn 90 99 (completionProbability p tasks now₁ now₂) := by
  rw [completionProbability_of_ne_nil p tasks now₁ now₂ hne]
  obtain ⟨de, hde, hde', hE⟩ := daysElapsed_eq p now₁
  obtain ⟨dl, hdl, hdl', hL, hz⟩ := daysLeft_eq p now₂
  have hlt := (one_le_daysLeft_iff p now₂).mp hleft
  have hdlpos : 1 ≤ dl := by
    rcases hdl.lt_or_eq with h | h
    · omega
    · exact absurd (hz.mp h.symm) (by omega)
  rw [hE, hL, (completedTasks_eq_total_iff tasks).mpr hall]
  obtain ⟨d, hd0, -, hdz, -, hd⟩ :=
    daysNeeded_eq (totalTasks tasks) (totalTasks tasks) de hlen le_rfl (totalTasks_pos hne)
      hde hde'
  have hd00 : d = 0 := hdz.mpr rfl
  have hq : (1 : ℚ) ≤ (dl : ℚ) := by exact_mod_cast hdlpos
  exact forecast_on_pace _ _ _ d dl hd hd0 (by rw [hd00]; linarith) hq (by exact_mod_cast hdl')

/-- Witness of C4: 10 tasks, 10 complete, 5 days elapsed, 10 days left. -/
theorem C4_completionProbability_all_complete_witness :
    IsIntIn 90 99 (completionProbability ⟨Sample.day 0, Sample.day 15⟩ Sample.tenComplete
      (Sample.day 5) (Sample.day 5)) :=
  C4_completionProbability_all_complete ⟨Sample.day 0, Sample.day 15⟩ Sample.tenComplete
    (Sample.day 5) (Sample.day 5) (by decide) (by decide)
    (by intro t ht; rw [List.eq_of_mem_replicate ht]; rfl)
    ((one_le_daysLeft_iff _ _).mpr (by decide))

/-- C5: for a project with at least one task, no complete task and `daysLeft <= 611`, the
forecast is 5, whatever `daysElapsed`. -/
theorem C5_completionProbability_floor (p : Project) (tasks : List TaskRow)
    (now₁ now₂ : TimeValue) (hne : tasks ≠ []) (hlen : tasks.length < 2 ^ 32)
    (hnone : ∀ t ∈ tasks, t.status ≠ "Complete".toList)
    (hleft : JSNum.le (daysLeft p now₂) (num 611) = true) :
    completionProbability p tasks now₁ now₂ = num 5 := by
  rw [completionProbability_of_ne_nil p tasks now₁ now₂ hne]
  obtain ⟨de, hde, hde', hE⟩ := daysElapsed_eq p now₁
  obtain ⟨dl, hdl, hdl', hL, hz⟩ := daysLeft_eq p now₂
  rw [hL] at hleft
  have h611 : dl ≤ 611 := by
    have : (dl : ℚ) ≤ 611 := by simpa [JSNum.le] using hleft
    exact_mod_cast this
  rw [hE, hL, (completedTasks_eq_zero_iff tasks).mpr hnone]
  exact forecast_floor _ de dl hlen (totalTasks_pos hne) hde hde' hdl h611

/-- Witness of C5: 10 tasks, none complete, 10 days elapsed, 1 day left. -/
theorem C5_completionProbability_floor_witness :
    completionProbability ⟨Sample.day 0, Sample.day 11⟩ Sample.tenNotStarted
      (Sample.day 10) (Sample.day 10) = num 5 :=
  C5_completionProbability_floor ⟨Sample.day 0, Sample.day 11⟩ Sample.tenNotStarted
    (Sample.day 10) (Sample.day 10) (by decide) (by decide)
    (by intro t ht; rw [List.eq_of_mem_replicate ht]; decide)
    (by
      have := daysLeft_le_of ⟨Sample.day 0, Sample.day 11⟩ (Sample.day 10) 611 (by norm_num)
        (by decide)
      simpa using this)

end ProjectView

/-! ## Percent complete -/

namespace PercentComplete

open JSNum JSFloat

/-- The double computed by `(done / total) * 100`: between 0 and 100, and within
`200 / 2^53` of the exact percentage. -/
theorem percent_value (d t : ℕ) (ht : 0 < t) (ht' : t < 2 ^ 32) (hd : d ≤ t) :
    percentOf d t = num ((⌊fl (fl ((d : ℚ) / t) * 100) + 1 / 2⌋ : ℤ) : ℚ)
      ∧ 0 ≤ fl (fl ((d : ℚ) / t) * 100) ∧ fl (fl ((d : ℚ) / t) * 100) ≤ 100
      ∧ |fl (fl ((d : ℚ) / t) * 100) - 100 * (d : ℚ) / t| ≤ 200 / 2 ^ 53 := by
  have htq : (0 : ℚ) < (t : ℚ) := by exact_mod_cast ht
  have hdq : (d : ℚ) ≤ (t : ℚ) := by exact_mod_cast hd
  have htq' : (t : ℚ) ≤ (2 : ℚ) ^ 32 := by
    have : (t : ℚ) < ((2 ^ 32 : ℕ) : ℚ) := by exact_mod_cast ht'
    push_cast at this
    exact this.le
  have a0 : (0 : ℚ) ≤ (d : ℚ) / t := by positivity
  have a1 : (d : ℚ) / t ≤ 1 := (div_le_one htq).mpr hdq
  have b0 : 0 ≤ fl ((d : ℚ) / t) := fl_nonneg a0
  have b1 : fl ((d : ℚ) / t) ≤ 1 := fl_le_of_le fl_one a1
  have h100 : fl 100 = 100 := by
    have := fl_natCast 100 (by norm_num)
    simpa using this
  have c0 : 0 ≤ fl ((d : ℚ) / t) * 100 := by linarith
  have c1 : fl ((d : ℚ) / t) * 100 ≤ 100 := by linarith
  have e0 : 0 ≤ fl (fl ((d : ℚ) / t) * 100) := fl_nonneg c0
  have e1 : fl (fl ((d : ℚ) / t) * 100) ≤ 100 := fl_le_of_le h100 c1
  refine ⟨?_, e0, e1, ?_⟩
  · unfold percentOf ofNat
    rw [if_pos (by omega), num_div _ _ (ne_of_gt htq),
      ofRat_small_nonneg a0 (le_trans a1 (by norm_num)), num_mul,
      ofRat_small_nonneg c0 (le_trans c1 (by norm_num))]
    rfl
  · rcases Nat.eq_zero_or_pos d with h0 | hpos
    · subst h0
      simp [fl_zero]
      positivity
    · have hd1 : (1 : ℚ) ≤ (d : ℚ) := by exact_mod_cast hpos
      have hlow : (2 : ℚ) ^ (-32 : ℤ) ≤ (d : ℚ) / t := by
        rw [le_div_iff₀ htq]
        have h2 : (2 : ℚ) ^ (-32 : ℤ) * (2 : ℚ) ^ 32 = 1 := by norm_num
        have h3 : (2 : ℚ) ^ (-32 : ℤ) * t ≤ (2 : ℚ) ^ (-32 : ℤ) * (2 : ℚ) ^ 32 :=
          mul_le_mul_of_nonneg_left htq' (by positivity)
        linarith
      have hsm : (2 : ℚ) ^ (-1022 : ℤ) ≤ (2 : ℚ) ^ (-32 : ℤ) :=
        zpow_le_zpow_right₀ (by norm_num) (by norm_num)
      have hu := abs_fl_sub_le (le_trans hsm hlow)
      have hul : (2 : ℚ) ^ (-32 : ℤ) ≤ fl ((d : ℚ) / t) :=
        fl_ge_of_ge (fl_two_zpow (-32) (by norm_num)) hlow
      have hv := abs_fl_sub_le (x := fl ((d : ℚ) / t) * 100) (by
        have : (0 : ℚ) < (2 : ℚ) ^ (-32 : ℤ) := by positivity
        linarith)
      rw [abs_le] at hu hv ⊢
      have p53 : (0 : ℚ) < 2 ^ 53 := by positivity
      have k1 : (d : ℚ) / t / 2 ^ 53 ≤ 1 / 2 ^ 53 := by
        apply div_le_div_of_nonneg_right a1 p53.le
      have k2 : fl ((d : ℚ) / t) * 100 / 2 ^ 53 ≤ 100 / 2 ^ 53 := by
        apply div_le_div_of_nonneg_right c1 p53.le
      have e : 100 * (d : ℚ) / t = (d : ℚ) / t * 100 := by ring
      rw [e]
      have hs : (200 : ℚ) / 2 ^ 53 = 100 / 2 ^ 53 + 100 * (1 / 2 ^ 53) := by ring
      rw [hs]
      constructor <;> linarith [hu.1, hu.2, hv.1, hv.2]

/-- The percentage is an integer between 0 and 100. -/
theorem percent_range (d t : ℕ) (ht' : t < 2 ^ 32) (hd : d ≤ t) : IsIntIn 0 100 (percentOf d t) := by
  rcases Nat.eq_zero_or_pos t with h0 | ht
  · subst h0
    exact ⟨0, by simp [percentOf], le_rfl, by norm_num⟩
  · obtain ⟨he, e0, e1, -⟩ := percent_value d t ht ht' hd
    refine ⟨_, he, ?_, ?_⟩
    · rw [Int.le_floor]; push_cast; linarith
    · have : ⌊fl (fl ((d : ℚ) / t) * 100) + 1 / 2⌋ < (101 : ℤ) := by
        rw [Int.floor_lt]; push_cast; linarith
      omega

/-- The exact percentage plus one half, as a quotient of integers. -/
theorem exact_plus_half (d t : ℕ) (ht : 0 < t) :
    100 * (d : ℚ) / t + 1 / 2 = ((200 * d + t : ℕ) : ℚ) / ((2 * t : ℕ) : ℚ) := by
  have htq : (t : ℚ) ≠ 0 := by exact_mod_cast (ne_of_gt ht)
  push_cast
  field_simp
  ring

theorem spec_percent_eq (d t : ℕ) (ht : 0 < t) :
    Spec.percentComplete d t = (((200 * d + t) / (2 * t) : ℕ) : ℤ) := by
  unfold Spec.percentComplete
  rw [if_neg (by omega), exact_plus_half d t ht]
  rw [← Nat.floor_div_eq_div (α := ℚ)]
  rw [Int.natCast_floor_eq_floor (by positivity)]

/-- Off the ties the code and the exact rounding agree; on a tie the code is the exact
rounding or one less. -/
theorem percent_vs_spec (d t : ℕ) (ht : 0 < t) (ht' : t < 2 ^ 32) (hd : d ≤ t) :
    ((200 * d + t) % (2 * t) ≠ 0 → percentOf d t = num ((Spec.percentComplete d t : ℤ) : ℚ))
      ∧ (percentOf d t = num ((Spec.percentComplete d t : ℤ) : ℚ)
          ∨ percentOf d t = num ((Spec.percentComplete d t - 1 : ℤ) : ℚ)) := by
  obtain ⟨he, e0, e1, herr⟩ := percent_value d t ht ht' hd
  set v := fl (fl ((d : ℚ) / t) * 100) with hv
  rw [abs_le] at herr
  have hN := spec_percent_eq d t ht
  set M := 200 * d + t with hM
  have hdm := Nat.div_add_mod M (2 * t)
  have hrem := Nat.mod_lt M (show 0 < 2 * t by omega)
  set N := M / (2 * t) with hNdef
  set r := M % (2 * t) with hr
  have htq : (0 : ℚ) < (t : ℚ) := by exact_mod_cast ht
  have htq' : (t : ℚ) < (2 : ℚ) ^ 32 := by
    have : (t : ℚ) < ((2 ^ 32 : ℕ) : ℚ) := by exact_mod_cast ht'
    push_cast at this
    exact this
  have hs : 100 * (d : ℚ) / t + 1 / 2 = (N : ℚ) + (r : ℚ) / (2 * t) := by
    rw [exact_plus_half d t ht]
    have : (M : ℚ) = 2 * t * N + r := by exact_mod_cast hdm.symm
    rw [this]
    push_cast
    field_simp
    ring
  have heps : (200 : ℚ) / 2 ^ 53 < 1 / (2 * (2 : ℚ) ^ 32) := by norm_num
  have hstep : (1 : ℚ) / (2 * (2 : ℚ) ^ 32) < 1 / (2 * t) := by
    apply one_div_lt_one_div_of_lt (by positivity)
    linarith
  have hr0 : (0 : ℚ) ≤ (r : ℚ) / (2 * t) := by positivity
  rw [he, hN]
  constructor
  · intro hne
    have hr1 : (1 : ℚ) ≤ (r : ℚ) := by exact_mod_cast Nat.one_le_iff_ne_zero.mpr hne
    have hr2 : (r : ℚ) + 1 ≤ 2 * t := by exact_mod_cast hrem
    have ha : (1 : ℚ) / (2 * t) ≤ (r : ℚ) / (2 * t) :=
      div_le_div_of_nonneg_right hr1 (by positivity)
    have hb : (r : ℚ) / (2 * t) ≤ 1 - 1 / (2 * t) := by
      rw [div_le_iff₀ (by positivity)]
      field_simp
      linarith
    congr 1
    norm_cast
    rw [Int.floor_eq_iff]
    push_cast
    constructor <;> linarith
  · have hr2 : (r : ℚ) / (2 * t) < 1 := by
      rw [div_lt_one (by positivity)]
      exact_mod_cast hrem
    by_cases hfl : (N : ℚ) ≤ v + 1 / 2
    · left
      congr 1
      norm_cast
      rw [Int.floor_eq_iff]
      push_cast
      constructor
      · exact hfl
      · by_contra hcon
        push_neg at hcon
        by_cases hr1 : r = 0
        · rw [hr1] at hs
          simp at hs
          linarith
        · have hr1' : (1 : ℚ) ≤ (r : ℚ) := by exact_mod_cast Nat.one_le_iff_ne_zero.mpr hr1
          have hr2' : (r : ℚ) + 1 ≤ 2 * t := by exact_mod_cast hrem
          have hb : (r : ℚ) / (2 * t) ≤ 1 - 1 / (2 * t) := by
            rw [div_le_iff₀ (by positivity)]
            field_simp
            linarith
          linarith
    · right
      push_neg at hfl
      congr 1
      norm_cast
      rw [Int.floor_eq_iff]
      push_cast
      constructor <;> linarith

end PercentComplete

/-! ### The call sites -/

namespace PercentComplete

open JSNum JSFloat

theorem overallPct_eq (tasks : List TaskRow) :
    ProjectView.overallPct tasks
      = percentOf (ProjectView.completedTasks tasks) (ProjectView.totalTasks tasks) := rfl

theorem weekPct_eq (tasks : List TaskRow) (w : JSString) :
    ProjectView.weekPct tasks w
      = percentOf (ProjectView.weekCompleted tasks w) (ProjectView.weekTasks tasks w).length :=
  rfl

theorem wp_eq (tasks : List TaskRow) (w : JSString) :
    ProjectView.wp tasks w
      = percentOf ((tasks.filter (fun t => t.week = w)).filter
          (fun t => t.status = "Complete".toList)).length
        (tasks.filter (fun t => t.week = w)).length := rfl

theorem sp_eq (weekTasks : List TaskRow) (s : JSString) :
    ProjectView.sp weekTasks s
      = percentOf ((weekTasks.filter (fun t => t.section_ = s)).filter
          (fun t => t.status = "Complete".toList)).length
        (weekTasks.filter (fun t => t.section_ = s)).length := rfl

theorem milestonePct_eq (items : List ResourceRow) :
    ResourcesView.milestonePct items
      = percentOf (items.filter ResourcesView.isDeployed).length items.length := rfl

theorem typePct_eq (resources : List ResourceRow) (ty : JSString) :
    ResourcesView.typePct resources ty
      = if (resources.filter (fun r => r.type = ty)).length = 0 then none
        else some (percentOf
          ((resources.filter (fun r => r.type = ty)).filter ResourcesView.isDeployed).length
          (resources.filter (fun r => r.type = ty)).length) := rfl

theorem progress_eq (t d : ℕ) : Dashboard.progress (some t) (some d) = percentOf d t := by
  unfold Dashboard.progress percentOf
  by_cases h : d = 0 <;> simp [h]

/-- A tie of the exact rounding: `100 * d / t` is an integer plus one half. -/
theorem tie_of_mod_eq_zero (d t : ℕ) (ht : 0 < t) (h : (200 * d + t) % (2 * t) = 0) :
    ∃ k : ℕ, 200 * d = (2 * k + 1) * t := by
  have hdm := Nat.div_add_mod (200 * d + t) (2 * t)
  rw [h] at hdm
  rcases Nat.eq_zero_or_pos ((200 * d + t) / (2 * t)) with h0 | hpos
  · rw [h0] at hdm; omega
  · obtain ⟨k, hk⟩ : ∃ k, (200 * d + t) / (2 * t) = k + 1 := ⟨_, (Nat.succ_pred_eq_of_pos hpos).symm⟩
    rw [hk] at hdm
    refine ⟨k, ?_⟩
    have : 2 * t * (k + 1) = 2 * k * t + 2 * t := by ring
    have e : (2 * k + 1) * t = 2 * k * t + t := by ring
    omega

/-- The doubles computed at `done = 23`, `total = 40`: `23 / 40` rounds to
`5179139571476070 * 2^-53`, its product by 100 to `8092405580431359 * 2^-47`, just below
57.5. -/
theorem percentOf_23_40 : percentOf 23 40 = num 57 := by
  obtain ⟨he, -⟩ := percent_value 23 40 (by norm_num) (by norm_num) (by norm_num)
  rw [he]
  have e1 : fl (((23 : ℕ) : ℚ) / ((40 : ℕ) : ℚ))
      = ((5179139571476070 : ℤ) : ℚ) * (2 : ℚ) ^ (-53 : ℤ) := by
    apply fl_eval (-53) 5179139571476070 <;> norm_num
  have e2 : fl (((5179139571476070 : ℤ) : ℚ) * (2 : ℚ) ^ (-53 : ℤ) * 100)
      = ((8092405580431359 : ℤ) : ℚ) * (2 : ℚ) ^ (-47 : ℤ) := by
    apply fl_eval (-47) 8092405580431359 <;> norm_num
  rw [e1, e2]
  congr 1
  norm_cast
  rw [Int.floor_eq_iff]
  norm_num

theorem spec_23_40 : Spec.percentComplete 23 40 = 58 := by
  rw [spec_percent_eq 23 40 (by norm_num)]
  norm_num

end PercentComplete

/-! ## The claim about percent complete -/

namespace PercentComplete

open JSNum JSFloat

/-- C6, counterexample: with 23 of 40 tasks complete the overall percentage computed by the
code is 57, while `round(100 * 23 / 40) = round(57.5)` is 58. -/
theorem C6_overallPct_differs_from_exact_rounding :
    ProjectView.completedTasks Sample.twentyThreeOfForty = 23
      ∧ ProjectView.totalTasks Sample.twentyThreeOfForty = 40
      ∧ ProjectView.overallPct Sample.twentyThreeOfForty = num 57
      ∧ Spec.percentComplete 23 40 = 58 := by
  have h1 : ProjectView.completedTasks Sample.twentyThreeOfForty = 23 := by decide
  have h2 : ProjectView.totalTasks Sample.twentyThreeOfForty = 40 := by decide
  refine ⟨h1, h2, ?_, spec_23_40⟩
  rw [overallPct_eq, h1, h2]
  exact percentOf_23_40

/-- C6, amended: every call site evaluates the one expression `percentOf done total`, with
`done` the number of complete tasks, or of resources on site or used.  For counts below
`2^32` with `done <= total` its value is 0 when `total = 0`, and always an integer in
[0, 100]; it equals `round(100 * done / total)` unless `100 * done / total` is exactly an
integer plus one half, and is then that rounding or one less. -/
theorem C6_percent_complete_amended (done total : ℕ) (hlen : total < 2 ^ 32)
    (hd : done ≤ total) :
    (total = 0 → percentOf done total = num 0)
      ∧ IsIntIn 0 100 (percentOf done total)
      ∧ ((¬ ∃ k : ℕ, 200 * done = (2 * k + 1) * total) →
          percentOf done total = num ((Spec.percentComplete done total : ℤ) : ℚ))
      ∧ (percentOf done total = num ((Spec.percentComplete done total : ℤ) : ℚ)
          ∨ percentOf done total = num ((Spec.percentComplete done total - 1 : ℤ) : ℚ))
      ∧ (∀ tasks : List TaskRow, ProjectView.overallPct tasks
          = percentOf (tasks.filter (fun t => t.status = "Complete".toList)).length
              tasks.length)
      ∧ (∀ (tasks : List TaskRow) (w : JSString), ProjectView.weekPct tasks w
          = percentOf ((tasks.filter (fun t => t.week = w)).filter
              (fun t => t.status = "Complete".toList)).length
            (tasks.filter (fun t => t.week = w)).length)
      ∧ (∀ (tasks : List TaskRow) (w : JSString), ProjectView.wp tasks w
          = percentOf ((tasks.filter (fun t => t.week = w)).filter
              (fun t => t.status = "Complete".toList)).length
            (tasks.filter (fun t => t.week = w)).length)
      ∧ (∀ (weekTasks : List TaskRow) (s : JSString), ProjectView.sp weekTasks s
          = percentOf ((weekTasks.filter (fun t => t.section_ = s)).filter
              (fun t => t.status = "Complete".toList)).length
            (weekTasks.filter (fun t => t.section_ = s)).length)
      ∧ (∀ t d : ℕ, Dashboard.progress (some t) (some d) = percentOf d t)
      ∧ (∀ items : List ResourceRow, ResourcesView.milestonePct items
          = percentOf (items.filter
              (fun r => r.status = "On Site".toList ∨ r.status = "Used".toList)).length
            items.length)
      ∧ (∀ (resources : List ResourceRow) (ty : JSString),
          (resources.filter (fun r => r.type = ty)).length ≠ 0 →
          ResourcesView.typePct resources ty
            = some (percentOf ((resources.filter (fun r => r.type = ty)).filter
                (fun r => r.status = "On Site".toList ∨ r.status = "Used".toList)).length
              (resources.filter (fun r => r.type = ty)).length)) := by
  have hdep : ResourcesView.isDeployed
      = fun r => decide (r.status = "On Site".toList ∨ r.status = "Used".toList) := by
    funext r
    simp [ResourcesView.isDeployed]
  refine ⟨?_, percent_range done total hlen hd, ?_, ?_, fun tasks => rfl, fun tasks w => rfl,
    fun tasks w => rfl, fun wt s => rfl, progress_eq, ?_, ?_⟩
  · intro h; simp [percentOf, h]
  · intro hno
    rcases Nat.eq_zero_or_pos total with h0 | ht
    · simp [percentOf, Spec.percentComplete, h0]
    · apply (percent_vs_spec done total ht hlen hd).1
      intro hmod
      exact hno (tie_of_mod_eq_zero done total ht hmod)
  · rcases Nat.eq_zero_or_pos total with h0 | ht
    · left; simp [percentOf, Spec.percentComplete, h0]
    · exact (percent_vs_spec done total ht hlen hd).2
  · intro items
    rw [milestonePct_eq, hdep]
  · intro resources ty hne
    rw [typePct_eq, if_neg hne, hdep]

/-- Witness of C6: 23 of 40, the tie at which the code gives one less than the exact
rounding. -/
theorem C6_percent_complete_amended_witness :
    IsIntIn 0 100 (percentOf 23 40)
      ∧ (percentOf 23 40 = num ((Spec.percentComplete 23 40 : ℤ) : ℚ)
          ∨ percentOf 23 40 = num ((Spec.percentComplete 23 40 - 1 : ℤ) : ℚ)) :=
  ⟨(C6_percent_complete_amended 23 40 (by decide) (by decide)).2.1,
    (C6_percent_complete_amended 23 40 (by decide) (by decide)).2.2.2.1⟩

end PercentComplete

/-! ## The import parsers, line by line -/

namespace CSV

open JSStr

theorem append_empty_left {α : Type} (a : ParseResult α) :
    ParseResult.append { parsed := [], errs := [] } a = a := by
  cases a; simp [ParseResult.append]

theorem append_empty_right {α : Type} (a : ParseResult α) :
    ParseResult.append a { parsed := [], errs := [] } = a := by
  cases a; simp [ParseResult.append]

theorem append_assoc {α : Type} (a b c : ParseResult α) :
    (a.append b).append c = a.append (b.append c) := by
  simp [ParseResult.append]

theorem truthy_iff (a : Option JSString) : truthy a = true ↔ orElse a [] ≠ [] := by
  rcases a with _ | _ | ⟨c, cs⟩ <;> simp [truthy, orElse]

theorem not_truthy_eq (a : Option JSString) : (!truthy a) = decide (orElse a [] = []) := by
  rcases a with _ | _ | ⟨c, cs⟩ <;> simp [truthy, orElse]

theorem getD_eq_orElse (a : Option JSString) : a.getD [] = orElse a [] := by
  rcases a with _ | _ | ⟨c, cs⟩ <;> simp [orElse]

/-- A loop that only appends to its state is the concatenation of what each line adds. -/
theorem loop_eq_concat {α : Type} (f : ParseResult α → ℕ → JSString → ParseResult α)
    (loop : ℕ → List JSString → ParseResult α → ParseResult α)
    (hnil : ∀ i st, loop i [] st = st)
    (hcons : ∀ i line rest st, loop i (line :: rest) st = loop (i + 1) rest (f st i line))
    (hf : ∀ st i line, f st i line = st.append (f { parsed := [], errs := [] } i line))
    (i : ℕ) (lines : List JSString) (st : ParseResult α) :
    loop i lines st = st.append (concatLines (f { parsed := [], errs := [] }) i lines) := by
  induction lines generalizing i st with
  | nil => rw [hnil]; simp [concatLines, append_empty_right]
  | cons line rest ih =>
    rw [hcons, ih, hf st i line, append_assoc]
    rfl

end CSV

namespace TaskCSVUpload

open JSStr CSV

theorem processLine_append (cm : CaseMap) (pid : JSString) (headers : List JSString)
    (st : ParseResult TaskRow) (i : ℕ) (line : JSString) :
    processLine cm pid headers st i line
      = st.append (processLine cm pid headers { parsed := [], errs := [] } i line) := by
  by_cases hb : trim line = []
  · simp [processLine, hb, ParseResult.append]
  · simp only [processLine, hb, if_false]
    split <;> simp [ParseResult.append]

theorem parseCSV_eq_concat (cm : CaseMap) (pid text : JSString) :
    parseCSV cm pid text
      = concatLines (processLine cm pid (headersOf cm text) { parsed := [], errs := [] }) 0
          (dataLinesOf text) := by
  unfold parseCSV
  rw [loop_eq_concat (processLine cm pid (headersOf cm text))
    (forEachLine cm pid (headersOf cm text)) (fun _ _ => rfl) (fun _ _ _ _ => rfl)
    (processLine_append cm pid (headersOf cm text))]
  exact append_empty_left _

/-- The fields `missing` of a row: the required fields whose cell is empty. -/
theorem missing_eq (headers : List JSString) (line : JSString) :
    REQUIRED.filter (fun r => !truthy (get (mkRow headers (splitCols line)) r))
      = REQUIRED.filter (fun r => decide (cell headers line r = [])) := by
  congr 1
  funext r
  exact not_truthy_eq _

theorem missing_eq_nil_iff (headers : List JSString) (line : JSString) :
    REQUIRED.filter (fun r => decide (cell headers line r = [])) = []
      ↔ cell headers line "title".toList ≠ [] ∧ cell headers line "week".toList ≠ []
        ∧ cell headers line "section".toList ≠ [] := by
  simp [REQUIRED, List.filter_eq_nil_iff]

/-- A blank line adds nothing. -/
theorem processLine_blank (cm : CaseMap) (pid : JSString) (headers : List JSString) (i : ℕ)
    (line : JSString) (hb : trim line = []) :
    processLine cm pid headers { parsed := [], errs := [] } i line
      = { parsed := [], errs := [] } := by
  unfold processLine
  rw [if_pos hb]

/-- A non-blank line whose three required cells are filled adds its record and no error. -/
theorem processLine_valid (cm : CaseMap) (pid : JSString) (headers : List JSString) (i : ℕ)
    (line : JSString) (hb : trim line ≠ [])
    (hv : cell headers line "title".toList ≠ [] ∧ cell headers line "week".toList ≠ []
      ∧ cell headers line "section".toList ≠ []) :
    processLine cm pid headers { parsed := [], errs := [] } i line
      = { parsed := [normalize cm pid (mkRow headers (splitCols line))], errs := [] } := by
  unfold processLine
  rw [if_neg hb]
  simp only []
  rw [missing_eq, (missing_eq_nil_iff headers line).mpr hv]
  simp

/-- A non-blank line with an empty required cell adds no record and one error, which gives
the line number and the missing fields. -/
theorem processLine_invalid (cm : CaseMap) (pid : JSString) (headers : List JSString) (i : ℕ)
    (line : JSString) (hb : trim line ≠ [])
    (hv : ¬ (cell headers line "title".toList ≠ [] ∧ cell headers line "week".toList ≠ []
      ∧ cell headers line "section".toList ≠ [])) :
    processLine cm pid headers { parsed := [], errs := [] } i line
      = { parsed := [],
          errs := ["Row ".toList ++ JSStr.ofNat (i + 2)
            ++ ": Missing required fields — ".toList
            ++ join ", ".toList
              (["title".toList, "week".toList, "section".toList].filter
                (fun r => decide (cell headers line r = [])))] } := by
  unfold processLine
  rw [if_neg hb]
  simp only []
  rw [missing_eq]
  have hne : REQUIRED.filter (fun r => decide (cell headers line r = [])) ≠ [] := by
    intro h
    exact hv ((missing_eq_nil_iff headers line).mp h)
  have hlen : (REQUIRED.filter (fun r => decide (cell headers line r = []))).length ≠ 0 := by
    rw [Ne, List.length_eq_zero]; exact hne
  rw [if_pos hlen]
  simp [errorMessage, REQUIRED]

end TaskCSVUpload

namespace ResourceCSVUpload

open JSStr CSV

theorem resource_processLine_append (pid : JSString) (headers : List JSString)
    (st : ParseResult ResourceRow) (i : ℕ) (line : JSString) :
    processLine pid headers st i line
      = st.append (processLine pid headers { parsed := [], errs := [] } i line) := by
  by_cases hb : trim line = []
  · simp [processLine, hb, ParseResult.append]
  · simp only [processLine, hb, if_false]
    split <;> simp [ParseResult.append]

theorem resource_parseCSV_eq_concat (cm : CaseMap) (pid text : JSString) :
    parseCSV cm pid text
      = concatLines (processLine pid (headersOf cm text) { parsed := [], errs := [] }) 0
          (dataLinesOf text) := by
  unfold parseCSV
  rw [loop_eq_concat (processLine pid (headersOf cm text))
    (forEachLine pid (headersOf cm text)) (fun _ _ => rfl) (fun _ _ _ _ => rfl)
    (resource_processLine_append pid (headersOf cm text))]
  exact append_empty_left _

theorem resource_processLine_blank (pid : JSString) (headers : List JSString) (i : ℕ)
    (line : JSString) (hb : trim line = []) :
    processLine pid headers { parsed := [], errs := [] } i line
      = { parsed := [], errs := [] } := by
  unfold processLine
  rw [if_pos hb]

theorem resource_processLine_valid (pid : JSString) (headers : List JSString) (i : ℕ)
    (line : JSString) (hb : trim line ≠ []) (hv : cell headers line "name".toList ≠ []) :
    processLine pid headers { parsed := [], errs := [] } i line
      = { parsed := [normalize pid (mkRow headers (splitCols line))], errs := [] } := by
  unfold processLine
  rw [if_neg hb]
  have : truthy (get (mkRow headers (splitCols line)) "name".toList) = true :=
    (truthy_iff _).mpr hv
  simp only []
  rw [this]
  simp

theorem resource_processLine_invalid (pid : JSString) (headers : List JSString) (i : ℕ)
    (line : JSString) (hb : trim line ≠ []) (hv : cell headers line "name".toList = []) :
    processLine pid headers { parsed := [], errs := [] } i line
      = { parsed := [],
          errs := ["Row ".toList ++ JSStr.ofNat (i + 2)
            ++ ": Missing resource name".toList] } := by
  unfold processLine
  rw [if_neg hb]
  have : truthy (get (mkRow headers (splitCols line)) "name".toList) = false := by
    rw [← Bool.not_eq_true, truthy_iff]
    exact fun h => h hv
  simp only []
  rw [this]
  simp [errorMessage]

end ResourceCSVUpload

/-! ## Trimming -/

namespace JSStr

theorem rdropWhile_append_of_all (p : Char → Bool) (s w : JSString) (hw : ∀ c ∈ w, p c = true) :
    (s ++ w).rdropWhile p = s.rdropWhile p := by
  unfold List.rdropWhile
  rw [List.reverse_append, List.dropWhile_append_of_pos]
  intro a ha
  exact hw a (List.mem_reverse.mp ha)

/-- A list is what `rdropWhile` keeps followed by a suffix of dropped elements. -/
theorem exists_dropped_suffix (p : Char → Bool) (l : JSString) :
    ∃ w, (∀ c ∈ w, p c = true) ∧ l = l.rdropWhile p ++ w := by
  refine ⟨(l.reverse.takeWhile p).reverse, ?_, ?_⟩
  · intro c hc
    exact List.mem_takeWhile_imp (List.mem_reverse.mp hc)
  · unfold List.rdropWhile
    rw [← List.reverse_append, List.takeWhile_append_dropWhile, List.reverse_reverse]

theorem dropWhile_eq_nil_iff_all (p : Char → Bool) (s : JSString) :
    s.dropWhile p = [] ↔ ∀ c ∈ s, p c = true := by
  induction s with
  | nil => simp
  | cons a t ih =>
    by_cases h : p a = true
    · simp [List.dropWhile_cons_of_pos h, ih, h]
    · simp [List.dropWhile_cons_of_neg h, h]

/-- The head of `dropWhile p s`, when there is one, does not satisfy `p`. -/
theorem dropWhile_head_not (p : Char → Bool) (s : JSString) (c : Char) (t : JSString)
    (h : s.dropWhile p = c :: t) : p c = false := by
  have := List.head?_dropWhile_not p s
  rw [h] at this
  simpa using this

theorem trim_eq_nil_iff (s : JSString) : trim s = [] ↔ ∀ c ∈ s, isWhiteSpace c = true := by
  unfold trim
  rw [List.rdropWhile_eq_nil_iff]
  constructor
  · intro h
    rcases hd : s.dropWhile isWhiteSpace with _ | ⟨c, t⟩
    · exact (dropWhile_eq_nil_iff_all _ _).mp hd
    · have h1 := dropWhile_head_not _ _ _ _ hd
      have h2 := h c (by rw [hd]; exact List.mem_cons_self _ _)
      rw [h1] at h2
      exact absurd h2 (by simp)
  · intro h
    rw [(dropWhile_eq_nil_iff_all _ _).mpr h]
    simp

/-- Trailing white space does not change the trimmed string. -/
theorem trim_append_ws (s w : JSString) (hw : ∀ c ∈ w, isWhiteSpace c = true) :
    trim (s ++ w) = trim s := by
  by_cases hs : ∀ c ∈ s, isWhiteSpace c = true
  · rw [(trim_eq_nil_iff s).mpr hs, trim_eq_nil_iff]
    intro c hc
    rcases List.mem_append.mp hc with h | h
    · exact hs c h
    · exact hw c h
  · unfold trim
    have hne : s.dropWhile isWhiteSpace ≠ [] := by
      rw [Ne, dropWhile_eq_nil_iff_all]; exact hs
    have : (s ++ w).dropWhile isWhiteSpace = s.dropWhile isWhiteSpace ++ w := by
      rw [List.dropWhile_append, if_neg]
      simpa using hne
    rw [this, rdropWhile_append_of_all _ _ _ hw]

/-- Dropping the trailing white space of a string does not change the trimmed string. -/
theorem trim_rdropWhile (s : JSString) : trim (s.rdropWhile isWhiteSpace) = trim s := by
  obtain ⟨w, hw, hs⟩ := exists_dropped_suffix isWhiteSpace s
  conv_rhs => rw [hs]
  rw [trim_append_ws _ _ hw]

theorem trim_trim (s : JSString) : trim (trim s) = trim s := by
  have h2 : (trim s).rdropWhile isWhiteSpace = trim s := by
    unfold trim
    exact List.rdropWhile_idempotent _ _
  have h1 : (trim s).dropWhile isWhiteSpace = trim s := by
    obtain ⟨r, hr⟩ : trim s <+: s.dropWhile isWhiteSpace := List.rdropWhile_prefix _ _
    rcases ht : trim s with _ | ⟨c, t⟩
    · rfl
    · rw [ht] at hr
      have := dropWhile_head_not isWhiteSpace s c (t ++ r) (by rw [← hr]; rfl)
      rw [List.dropWhile_cons_of_neg (by simp [this])]
  show ((trim s).dropWhile isWhiteSpace).rdropWhile isWhiteSpace = trim s
  rw [h1, h2]

end JSStr

/-! ## Cells are trimmed -/

namespace CSV

open JSStr

theorem colStep_cols_trimmed (st : ColState) (ch : Char) (h : ∀ c ∈ st.cols, trim c = c) :
    ∀ c ∈ (colStep st ch).cols, trim c = c := by
  unfold colStep
  split_ifs
  · exact h
  · intro c hc
    rcases List.mem_append.mp hc with h1 | h1
    · exact h c h1
    · rw [List.mem_singleton.mp h1, trim_trim]
  · exact h

theorem foldl_cols_trimmed (line : JSString) (st : ColState) (h : ∀ c ∈ st.cols, trim c = c) :
    ∀ c ∈ (line.foldl colStep st).cols, trim c = c := by
  induction line generalizing st with
  | nil => exact h
  | cons ch rest ih => exact ih _ (colStep_cols_trimmed st ch h)

theorem splitCols_trimmed (line : JSString) : ∀ c ∈ splitCols line, trim c = c := by
  intro c hc
  unfold splitCols at hc
  rcases List.mem_append.mp hc with h1 | h1
  · exact foldl_cols_trimmed line _ (by simp) c h1
  · rw [List.mem_singleton.mp h1, trim_trim]

theorem orElse_get?_mem (cols : List JSString) (i : ℕ) :
    orElse (cols.get? i) [] = [] ∨ orElse (cols.get? i) [] ∈ cols := by
  rcases h : cols.get? i with _ | _ | ⟨c, cs⟩
  · left; rfl
  · left; rfl
  · right
    exact List.get?_mem h

theorem get_mkRow_mem (headers cols : List JSString) (key v : JSString)
    (h : get (mkRow headers cols) key = some v) : v = [] ∨ v ∈ cols := by
  unfold get at h
  rcases hf : (mkRow headers cols).reverse.find? (fun p => p.1 = key) with _ | p
  · rw [hf] at h; simp at h
  · rw [hf] at h
    simp only [Option.map_some', Option.some.injEq] at h
    have hm := List.mem_of_find?_eq_some hf
    rw [List.mem_reverse] at hm
    unfold mkRow at hm
    obtain ⟨q, -, hq⟩ := List.mem_map.mp hm
    rw [← h, ← hq]
    exact orElse_get?_mem cols q.1

/-- Every cell of a row is trimmed. -/
theorem trim_cell (headers : List JSString) (line key : JSString) :
    trim (cell headers line key) = cell headers line key := by
  unfold cell
  rcases h : get (mkRow headers (splitCols line)) key with _ | _ | ⟨c, cs⟩
  · rfl
  · rfl
  · rcases get_mkRow_mem _ _ _ _ h with h1 | h1
    · exact absurd h1 (by simp)
    · exact splitCols_trimmed line _ h1

/-- A record of a concatenation comes from one of the lines. -/
theorem mem_concatLines_parsed {α : Type} (f : ℕ → JSString → ParseResult α) (r : α)
    (i : ℕ) (lines : List JSString) (h : r ∈ (concatLines f i lines).parsed) :
    ∃ j line, line ∈ lines ∧ r ∈ (f j line).parsed := by
  induction lines generalizing i with
  | nil => simp [concatLines] at h
  | cons line rest ih =>
    simp only [concatLines, ParseResult.append, List.mem_append] at h
    rcases h with h | h
    · exact ⟨i, line, List.mem_cons_self _ _, h⟩
    · obtain ⟨j, l, hl, hr⟩ := ih (i + 1) h
      exact ⟨j, l, List.mem_cons_of_mem _ hl, hr⟩

end CSV

namespace TaskCSVUpload

open JSStr CSV

/-- Every imported task is the normalised row of a non-blank data line whose required cells
are filled. -/
theorem mem_parsed (cm : CaseMap) (pid text : JSString) (r : TaskRow)
    (h : r ∈ (parseCSV cm pid text).parsed) :
    ∃ line ∈ dataLinesOf text, trim line ≠ []
      ∧ (cell (headersOf cm text) line "title".toList ≠ []
        ∧ cell (headersOf cm text) line "week".toList ≠ []
        ∧ cell (headersOf cm text) line "section".toList ≠ [])
      ∧ r = normalize cm pid (mkRow (headersOf cm text) (splitCols line)) := by
  rw [parseCSV_eq_concat] at h
  obtain ⟨j, line, hl, hr⟩ := mem_concatLines_parsed _ r 0 _ h
  refine ⟨line, hl, ?_⟩
  by_cases hb : trim line = []
  · rw [processLine_blank cm pid _ j line hb] at hr
    simp at hr
  · by_cases hv : cell (headersOf cm text) line "title".toList ≠ []
        ∧ cell (headersOf cm text) line "week".toList ≠ []
        ∧ cell (headersOf cm text) line "section".toList ≠ []
    · rw [processLine_valid cm pid _ j line hb hv] at hr
      exact ⟨hb, hv, List.mem_singleton.mp hr⟩
    · rw [processLine_invalid cm pid _ j line hb hv] at hr
      simp at hr

end TaskCSVUpload

namespace ResourceCSVUpload

open JSStr CSV

/-- Every imported resource is the normalised row of a non-blank data line with a name. -/
theorem resource_mem_parsed (cm : CaseMap) (pid text : JSString) (r : ResourceRow)
    (h : r ∈ (parseCSV cm pid text).parsed) :
    ∃ line ∈ dataLinesOf text, trim line ≠ []
      ∧ cell (headersOf cm text) line "name".toList ≠ []
      ∧ r = normalize pid (mkRow (headersOf cm text) (splitCols line)) := by
  rw [resource_parseCSV_eq_concat] at h
  obtain ⟨j, line, hl, hr⟩ := mem_concatLines_parsed _ r 0 _ h
  refine ⟨line, hl, ?_⟩
  by_cases hb : trim line = []
  · rw [resource_processLine_blank pid _ j line hb] at hr
    simp at hr
  · by_cases hv : cell (headersOf cm text) line "name".toList = []
    · rw [resource_processLine_invalid pid _ j line hb hv] at hr
      simp at hr
    · rw [resource_processLine_valid pid _ j line hb hv] at hr
      exact ⟨hb, hv, List.mem_singleton.mp hr⟩

end ResourceCSVUpload

/-! ## Splitting and joining lines -/

namespace JSStr

theorem split_ne_nil (sep : Char) (s : JSString) : split sep s ≠ [] := by
  induction s with
  | nil => simp [split]
  | cons c t ih =>
    unfold split
    split_ifs
    · simp
    · rcases h : split sep t with _ | ⟨p, ps⟩
      · exact absurd h ih
      · simp

theorem split_cons_of_ne (sep c : Char) (t : JSString) (hc : c ≠ sep) :
    ∃ p ps, split sep t = p :: ps ∧ split sep (c :: t) = (c :: p) :: ps := by
  rcases h : split sep t with _ | ⟨p, ps⟩
  · exact absurd h (split_ne_nil sep t)
  · refine ⟨p, ps, rfl, ?_⟩
    rw [split, if_neg hc, h]

theorem split_cons_sep (sep : Char) (t : JSString) : split sep (sep :: t) = [] :: split sep t := by
  rw [split, if_pos rfl]

theorem split_not_mem (sep : Char) (s : JSString) : ∀ piece ∈ split sep s, sep ∉ piece := by
  induction s with
  | nil => simp [split]
  | cons c t ih =>
    by_cases hc : c = sep
    · subst hc
      rw [split_cons_sep]
      intro piece hp
      rcases List.mem_cons.mp hp with h | h
      · rw [h]; simp
      · exact ih piece h
    · obtain ⟨p, ps, h1, h2⟩ := split_cons_of_ne sep c t hc
      rw [h2]
      rw [h1] at ih
      intro piece hp
      rcases List.mem_cons.mp hp with h | h
      · rw [h]
        intro hm
        rcases List.mem_cons.mp hm with h' | h'
        · exact hc h'.symm
        · exact ih p (List.mem_cons_self _ _) h'
      · exact ih piece (List.mem_cons_of_mem _ h)

theorem split_append_sep (sep : Char) (x rest : JSString) (hx : sep ∉ x) :
    split sep (x ++ sep :: rest) = x :: split sep rest := by
  induction x with
  | nil => exact split_cons_sep sep rest
  | cons c t ih =>
    have hc : c ≠ sep := fun h => hx (by rw [h]; exact List.mem_cons_self _ _)
    have ht : sep ∉ t := fun h => hx (List.mem_cons_of_mem _ h)
    rw [List.cons_append, split, if_neg hc, ih ht]

theorem split_of_not_mem (sep : Char) (x : JSString) (hx : sep ∉ x) : split sep x = [x] := by
  induction x with
  | nil => rfl
  | cons c t ih =>
    have hc : c ≠ sep := fun h => hx (by rw [h]; exact List.mem_cons_self _ _)
    have ht : sep ∉ t := fun h => hx (List.mem_cons_of_mem _ h)
    rw [split, if_neg hc, ih ht]

/-- Splitting the join of newline-free lines gives the lines back. -/
theorem split_join (sep : Char) (M : List JSString) (hne : M ≠ [])
    (hM : ∀ m ∈ M, sep ∉ m) : split sep (join [sep] M) = M := by
  induction M with
  | nil => exact absurd rfl hne
  | cons x rest ih =>
    rcases rest with _ | ⟨y, ys⟩
    · exact split_of_not_mem sep x (hM x (List.mem_cons_self _ _))
    · have : join [sep] (x :: y :: ys) = x ++ sep :: join [sep] (y :: ys) := by
        simp [join]
      rw [this, split_append_sep sep x _ (hM x (List.mem_cons_self _ _)),
        ih (by simp) (fun m hm => hM m (List.mem_cons_of_mem _ hm))]

theorem rdropWhile_append_of_exists (p : Char → Bool) (X Y : JSString)
    (h : ∃ c ∈ Y, p c = false) : (X ++ Y).rdropWhile p = X ++ Y.rdropWhile p := by
  unfold List.rdropWhile
  rw [List.reverse_append, List.dropWhile_append]
  have hne : Y.reverse.dropWhile p ≠ [] := by
    rw [Ne, dropWhile_eq_nil_iff_all]
    obtain ⟨c, hc, hp⟩ := h
    intro hall
    have := hall c (List.mem_reverse.mpr hc)
    rw [hp] at this
    exact absurd this (by simp)
  rw [if_neg (by simpa using hne)]
  simp

theorem join_cons_cons (sep x y : JSString) (ys : List JSString) :
    join sep (x :: y :: ys) = x ++ sep ++ join sep (y :: ys) := rfl

/-- The join of blank lines is white space. -/
theorem join_all_ws (M : List JSString) (hM : ∀ m ∈ M, trim m = []) :
    ∀ c ∈ join ['\n'] M, isWhiteSpace c = true := by
  induction M with
  | nil => simp [join]
  | cons x rest ih =>
    have hx := (trim_eq_nil_iff x).mp (hM x (List.mem_cons_self _ _))
    rcases rest with _ | ⟨y, ys⟩
    · exact hx
    · rw [join_cons_cons]
      intro c hc
      rcases List.mem_append.mp hc with h | h
      · rcases List.mem_append.mp h with h' | h'
        · exact hx c h'
        · rw [List.mem_singleton.mp h']; decide
      · exact ih (fun m hm => hM m (List.mem_cons_of_mem _ hm)) c h

theorem mem_join_of_mem (sep : JSString) (M : List JSString) (m : JSString) (c : Char)
    (hm : m ∈ M) (hc : c ∈ m) : c ∈ join sep M := by
  induction M with
  | nil => simp at hm
  | cons x rest ih =>
    rcases rest with _ | ⟨y, ys⟩
    · rw [List.mem_singleton.mp hm] at hc
      exact hc
    · rw [join_cons_cons]
      rcases List.mem_cons.mp hm with h | h
      · rw [h] at hc
        exact List.mem_append.mpr (Or.inl (List.mem_append.mpr (Or.inl hc)))
      · exact List.mem_append.mpr (Or.inr (ih h))

/-- Trimming the right end of a joined text: with `l` the last non-blank line, the lines
after it disappear and `l` loses its trailing white space. -/
theorem rdropWhile_join (A : List JSString) (l : JSString) (B : List JSString)
    (hl : trim l ≠ []) (hB : ∀ b ∈ B, trim b = []) :
    (join ['\n'] (A ++ l :: B)).rdropWhile isWhiteSpace
      = join ['\n'] (A ++ [l.rdropWhile isWhiteSpace]) := by
  have hex : ∃ c ∈ l, isWhiteSpace c = false := by
    by_contra hcon
    push_neg at hcon
    apply hl
    rw [trim_eq_nil_iff]
    intro c hc
    simpa using hcon c hc
  induction A with
  | nil =>
    rcases B with _ | ⟨b, bs⟩
    · rfl
    · show (join ['\n'] (l :: b :: bs)).rdropWhile isWhiteSpace = l.rdropWhile isWhiteSpace
      rw [join_cons_cons, List.append_assoc]
      apply rdropWhile_append_of_all
      intro c hc
      rcases List.mem_append.mp hc with h | h
      · rw [List.mem_singleton.mp h]; decide
      · exact join_all_ws _ hB c h
  | cons a A' ih =>
    have e1 : a :: A' ++ l :: B = a :: (A' ++ l :: B) := rfl
    have e2 : a :: A' ++ [l.rdropWhile isWhiteSpace]
        = a :: (A' ++ [l.rdropWhile isWhiteSpace]) := rfl
    rcases hA : A' ++ l :: B with _ | ⟨y, ys⟩
    · simp at hA
    · rcases hA2 : A' ++ [l.rdropWhile isWhiteSpace] with _ | ⟨y2, ys2⟩
      · simp at hA2
      · rw [e1, e2, hA, hA2, join_cons_cons, join_cons_cons, ← hA, ← hA2, ← ih]
        apply rdropWhile_append_of_exists
        obtain ⟨c, hc, hp⟩ := hex
        exact ⟨c, mem_join_of_mem _ _ l c (by simp) hc, hp⟩

end JSStr

/-! ## Trailing white space and the column loop -/

namespace CSV

open JSStr

theorem colStep_ws (st : ColState) (c : Char) (hc : isWhiteSpace c = true) :
    colStep st c = { st with cur := st.cur ++ [c] } := by
  have h1 : c ≠ '"' := by
    intro h; rw [h] at hc; exact absurd hc (by decide)
  have h2 : c ≠ ',' := by
    intro h; rw [h] at hc; exact absurd hc (by decide)
  unfold colStep
  rw [if_neg h1, if_neg (fun h => h2 h.1)]

theorem foldl_colStep_ws (w : JSString) (st : ColState) (hw : ∀ c ∈ w, isWhiteSpace c = true) :
    w.foldl colStep st = { st with cur := st.cur ++ w } := by
  induction w generalizing st with
  | nil => simp
  | cons c t ih =>
    rw [List.foldl_cons, colStep_ws st c (hw c (List.mem_cons_self _ _)),
      ih _ (fun d hd => hw d (List.mem_cons_of_mem _ hd))]
    simp

theorem splitCols_append_ws (l w : JSString) (hw : ∀ c ∈ w, isWhiteSpace c = true) :
    splitCols (l ++ w) = splitCols l := by
  unfold splitCols
  simp only [List.foldl_append]
  rw [foldl_colStep_ws w _ hw]
  simp only []
  rw [trim_append_ws _ _ hw]

theorem splitCols_rdropWhile (l : JSString) :
    splitCols (l.rdropWhile isWhiteSpace) = splitCols l := by
  obtain ⟨w, hw, hs⟩ := exists_dropped_suffix isWhiteSpace l
  conv_rhs => rw [hs]
  rw [splitCols_append_ws _ _ hw]

theorem cell_rdropWhile (headers : List JSString) (l key : JSString) :
    cell headers (l.rdropWhile isWhiteSpace) key = cell headers l key := by
  unfold cell
  rw [splitCols_rdropWhile]

end CSV

/-! ## The valid subset -/

namespace JSStr

theorem trim_head_not_ws (s : JSString) (c : Char) (t : JSString) (h : trim s = c :: t) :
    isWhiteSpace c = false := by
  obtain ⟨r, hr⟩ : trim s <+: s.dropWhile isWhiteSpace := List.rdropWhile_prefix _ _
  rw [h] at hr
  exact dropWhile_head_not isWhiteSpace s c (t ++ r) (by rw [← hr]; rfl)

/-- A list of lines with a non-blank line splits at its last non-blank line. -/
theorem exists_last_nonblank (M : List JSString) (h : ∃ m ∈ M, trim m ≠ []) :
    ∃ A l B, M = A ++ l :: B ∧ trim l ≠ [] ∧ ∀ b ∈ B, trim b = [] := by
  induction M with
  | nil => simp at h
  | cons x rest ih =>
    by_cases hr : ∃ m ∈ rest, trim m ≠ []
    · obtain ⟨A, l, B, e, hl, hB⟩ := ih hr
      exact ⟨x :: A, l, B, by rw [e]; rfl, hl, hB⟩
    · push_neg at hr
      obtain ⟨m, hm, hne⟩ := h
      rcases List.mem_cons.mp hm with h1 | h1
      · exact ⟨[], x, rest, rfl, by rw [← h1]; exact hne, hr⟩
      · exact absurd (hr m h1) hne

end JSStr

namespace CSV

open JSStr

/-- The lines of a text: the single empty line, or a first line that starts with a character
that is not white space. -/
theorem linesOf_cases (text : JSString) :
    linesOf text = [[]]
      ∨ ∃ c h0 data, isWhiteSpace c = false ∧ linesOf text = (c :: h0) :: data := by
  unfold linesOf
  rcases ht : trim text with _ | ⟨c, t⟩
  · left; rfl
  · right
    have hc := trim_head_not_ws text c t ht
    have hne : c ≠ '\n' := by
      intro h; rw [h] at hc; exact absurd hc (by decide)
    obtain ⟨p, ps, -, h2⟩ := split_cons_of_ne '\n' c t hne
    exact ⟨c, p, ps, hc, h2⟩

theorem linesOf_not_mem (text : JSString) : ∀ m ∈ linesOf text, '\n' ∉ m :=
  split_not_mem '\n' (trim text)

/-- The lines of a re-joined text whose first line starts with a character that is not white
space: the lines up to the last non-blank one, which loses its trailing white space. -/
theorem linesOf_join (c : Char) (h0 : JSString) (ms : List JSString)
    (hc : isWhiteSpace c = false) (hM : ∀ m ∈ (c :: h0) :: ms, '\n' ∉ m) :
    ∃ A l B, (c :: h0) :: ms = A ++ l :: B ∧ trim l ≠ [] ∧ (∀ b ∈ B, trim b = [])
      ∧ linesOf (join ['\n'] ((c :: h0) :: ms)) = A ++ [l.rdropWhile isWhiteSpace] := by
  have hnb : trim (c :: h0) ≠ [] := by
    rw [Ne, trim_eq_nil_iff]
    intro h
    have := h c (List.mem_cons_self _ _)
    rw [hc] at this
    exact absurd this (by simp)
  obtain ⟨A, l, B, e, hl, hB⟩ :=
    exists_last_nonblank ((c :: h0) :: ms) ⟨c :: h0, List.mem_cons_self _ _, hnb⟩
  refine ⟨A, l, B, e, hl, hB, ?_⟩
  have hstart : ∃ rest, join ['\n'] ((c :: h0) :: ms) = c :: rest := by
    rcases ms with _ | ⟨y, ys⟩
    · exact ⟨h0, rfl⟩
    · exact ⟨_, rfl⟩
  obtain ⟨rest, hrest⟩ := hstart
  have hdrop : (join ['\n'] ((c :: h0) :: ms)).dropWhile isWhiteSpace
      = join ['\n'] ((c :: h0) :: ms) := by
    rw [hrest, List.dropWhile_cons_of_neg (by simp [hc])]
  unfold linesOf trim
  rw [hdrop, e, rdropWhile_join A l B hl hB]
  apply split_join
  · simp
  · intro m hm
    rcases List.mem_append.mp hm with h | h
    · exact hM m (by rw [e]; exact List.mem_append_left _ h)
    · rw [List.mem_singleton.mp h]
      have hlM : '\n' ∉ l := hM l (by rw [e]; simp)
      intro hmem
      exact hlM (List.IsPrefix.subset ( List.rdropWhile_prefix _ _) hmem)

end CSV

namespace TaskCSVUpload

open JSStr CSV

theorem isValidTaskLine_of_blank (headers : List JSString) (line : JSString)
    (hb : trim line = []) : Spec.isValidTaskLine headers line = false := by
  unfold Spec.isValidTaskLine
  rw [decide_eq_false_iff_not]
  rintro ⟨h, -⟩
  exact h hb

theorem isValidTaskLine_of_valid (headers : List JSString) (line : JSString)
    (hb : trim line ≠ [])
    (hv : cell headers line "title".toList ≠ [] ∧ cell headers line "week".toList ≠ []
      ∧ cell headers line "section".toList ≠ []) :
    Spec.isValidTaskLine headers line = true := by
  unfold Spec.isValidTaskLine
  rw [decide_eq_true_eq]
  exact ⟨hb, hv⟩

theorem isValidTaskLine_of_invalid (headers : List JSString) (line : JSString)
    (hv : ¬ (cell headers line "title".toList ≠ [] ∧ cell headers line "week".toList ≠ []
      ∧ cell headers line "section".toList ≠ [])) :
    Spec.isValidTaskLine headers line = false := by
  unfold Spec.isValidTaskLine
  rw [decide_eq_false_iff_not]
  rintro ⟨-, h⟩
  exact hv h

theorem validRecords_cons (cm : CaseMap) (pid : JSString) (headers : List JSString)
    (line : JSString) (rest : List JSString) :
    Spec.validRecords cm pid headers (line :: rest)
      = (if Spec.isValidTaskLine headers line = true
          then [normalize cm pid (mkRow headers (splitCols line))] else [])
        ++ Spec.validRecords cm pid headers rest := by
  unfold Spec.validRecords
  by_cases h : Spec.isValidTaskLine headers line = true
  · rw [List.filter_cons_of_pos h, if_pos h]; rfl
  · rw [List.filter_cons_of_neg h, if_neg h]; rfl

/-- The records of a run of lines are the normalised valid rows, in order. -/
theorem concat_parsed_eq (cm : CaseMap) (pid : JSString) (headers : List JSString) (i : ℕ)
    (lines : List JSString) :
    (concatLines (processLine cm pid headers { parsed := [], errs := [] }) i lines).parsed
      = Spec.validRecords cm pid headers lines := by
  induction lines generalizing i with
  | nil => rfl
  | cons line rest ih =>
    simp only [concatLines, ParseResult.append, ih]
    rw [validRecords_cons]
    by_cases hb : trim line = []
    · rw [processLine_blank cm pid headers i line hb, isValidTaskLine_of_blank headers line hb]
      rfl
    · by_cases hv : cell headers line "title".toList ≠ [] ∧ cell headers line "week".toList ≠ []
          ∧ cell headers line "section".toList ≠ []
      · rw [processLine_valid cm pid headers i line hb hv,
          isValidTaskLine_of_valid headers line hb hv]
        rfl
      · rw [processLine_invalid cm pid headers i line hb hv,
          isValidTaskLine_of_invalid headers line hv]
        rfl

/-- Every non-blank line adds one record or one error. -/
theorem concat_count (cm : CaseMap) (pid : JSString) (headers : List JSString) (i : ℕ)
    (lines : List JSString) :
    (concatLines (processLine cm pid headers { parsed := [], errs := [] }) i lines).parsed.length
      + (concatLines (processLine cm pid headers { parsed := [], errs := [] }) i lines).errs.length
      = (lines.filter (fun line => decide (trim line ≠ []))).length := by
  induction lines generalizing i with
  | nil => rfl
  | cons line rest ih =>
    simp only [concatLines, ParseResult.append, List.length_append]
    have := ih (i + 1)
    by_cases hb : trim line = []
    · have hf : (line :: rest).filter (fun line => decide (trim line ≠ []))
          = rest.filter (fun line => decide (trim line ≠ [])) :=
        List.filter_cons_of_neg (by simp [hb])
      rw [processLine_blank cm pid headers i line hb, hf]
      simp only [List.length_nil]
      omega
    · have hf : (line :: rest).filter (fun line => decide (trim line ≠ []))
          = line :: rest.filter (fun line => decide (trim line ≠ [])) :=
        List.filter_cons_of_pos (by simp [hb])
      by_cases hv : cell headers line "title".toList ≠ [] ∧ cell headers line "week".toList ≠ []
          ∧ cell headers line "section".toList ≠ []
      · rw [processLine_valid cm pid headers i line hb hv, hf]
        simp only [List.length_cons, List.length_nil]
        omega
      · rw [processLine_invalid cm pid headers i line hb hv, hf]
        simp only [List.length_cons, List.length_nil]
        omega

theorem parsed_eq_validRecords (cm : CaseMap) (pid text : JSString) :
    (parseCSV cm pid text).parsed
      = Spec.validRecords cm pid (headersOf cm text) (dataLinesOf text) := by
  rw [parseCSV_eq_concat, concat_parsed_eq]

theorem validRecords_append (cm : CaseMap) (pid : JSString) (headers : List JSString)
    (xs ys : List JSString) :
    Spec.validRecords cm pid headers (xs ++ ys)
      = Spec.validRecords cm pid headers xs ++ Spec.validRecords cm pid headers ys := by
  simp [Spec.validRecords]

theorem validRecords_blank (cm : CaseMap) (pid : JSString) (headers : List JSString)
    (B : List JSString) (hB : ∀ b ∈ B, trim b = []) :
    Spec.validRecords cm pid headers B = [] := by
  induction B with
  | nil => rfl
  | cons b rest ih =>
    rw [validRecords_cons, isValidTaskLine_of_blank headers b (hB b (List.mem_cons_self _ _)),
      ih (fun x hx => hB x (List.mem_cons_of_mem _ hx))]
    rfl

theorem validRecords_rdropWhile (cm : CaseMap) (pid : JSString) (headers : List JSString)
    (l : JSString) :
    Spec.validRecords cm pid headers [l.rdropWhile isWhiteSpace]
      = Spec.validRecords cm pid headers [l] := by
  have hv : Spec.isValidTaskLine headers (l.rdropWhile isWhiteSpace)
      = Spec.isValidTaskLine headers l := by
    unfold Spec.isValidTaskLine
    simp only [cell_rdropWhile, trim_rdropWhile]
  rw [validRecords_cons, validRecords_cons, hv, splitCols_rdropWhile]

/-- Deleting the invalid lines keeps the valid rows. -/
theorem validRecords_filter (cm : CaseMap) (pid : JSString) (headers : List JSString)
    (lines : List JSString) :
    Spec.validRecords cm pid headers
        (lines.filter (fun line => !Spec.isInvalidTaskLine headers line))
      = Spec.validRecords cm pid headers lines := by
  unfold Spec.validRecords
  rw [List.filter_filter]
  congr 1
  apply List.filter_congr
  intro line _
  by_cases h : Spec.isValidTaskLine headers line = true
  · have h' := h
    simp only [Spec.isValidTaskLine, decide_eq_true_eq] at h'
    have : Spec.isInvalidTaskLine headers line = false := by
      unfold Spec.isInvalidTaskLine
      rw [decide_eq_false_iff_not]
      rintro ⟨-, hn⟩
      exact hn h'.2
    simp [h, this]
  · simp [h]

/-- The records of the text without its invalid lines are the records of the text. -/
theorem parsed_deleteInvalid (cm : CaseMap) (pid text : JSString) :
    (parseCSV cm pid (Spec.deleteInvalidTaskLines cm text)).parsed
      = (parseCSV cm pid text).parsed := by
  rw [parsed_eq_validRecords cm pid text, parsed_eq_validRecords]
  rcases linesOf_cases text with h | ⟨c, h0, data, hc, hL⟩
  · have ht : Spec.deleteInvalidTaskLines cm text = [] := by
      simp [Spec.deleteInvalidTaskLines, dataLinesOf, h, join]
    have hl0 : linesOf ([] : JSString) = [[]] := rfl
    rw [ht]
    simp only [headersOf, dataLinesOf, h, hl0]
  · have hdata : dataLinesOf text = data := by simp [dataLinesOf, hL]
    have hhead : (linesOf text).headD [] = c :: h0 := by simp [hL]
    have hH : headersOf cm text = parseHeaders cm (c :: h0) := by
      unfold headersOf; rw [hhead]
    have ht : Spec.deleteInvalidTaskLines cm text
        = join ['\n'] ((c :: h0)
            :: data.filter (fun line => !Spec.isInvalidTaskLine (headersOf cm text) line)) := by
      unfold Spec.deleteInvalidTaskLines
      rw [hhead, hdata]
      rfl
    have hM : ∀ m ∈ (c :: h0)
        :: data.filter (fun line => !Spec.isInvalidTaskLine (headersOf cm text) line),
        '\n' ∉ m := by
      intro m hm
      apply linesOf_not_mem text
      rw [hL]
      rcases List.mem_cons.mp hm with h | h
      · rw [h]; exact List.mem_cons_self _ _
      · exact List.mem_cons_of_mem _ (List.mem_filter.mp h).1
    obtain ⟨A, l, B, e, hl, hB, hlines⟩ := linesOf_join c h0 _ hc hM
    rw [hdata, ← validRecords_filter cm pid (headersOf cm text) data]
    rcases A with _ | ⟨a, A1⟩
    · -- the header is the last non-blank line
      have e' : (c :: h0) = l ∧ data.filter
          (fun line => !Spec.isInvalidTaskLine (headersOf cm text) line) = B := by
        simpa using e
      have hd : dataLinesOf (Spec.deleteInvalidTaskLines cm text) = [] := by
        unfold dataLinesOf
        rw [ht, hlines]
        rfl
      rw [hd, e'.2, validRecords_blank cm pid _ B hB]
      rfl
    · have e' : (c :: h0) = a ∧ data.filter
          (fun line => !Spec.isInvalidTaskLine (headersOf cm text) line) = A1 ++ l :: B := by
        simpa using e
      have hd : dataLinesOf (Spec.deleteInvalidTaskLines cm text)
          = A1 ++ [l.rdropWhile isWhiteSpace] := by
        unfold dataLinesOf
        rw [ht, hlines]
        rfl
      have hh : headersOf cm (Spec.deleteInvalidTaskLines cm text) = headersOf cm text := by
        rw [hH]
        unfold headersOf
        rw [ht, hlines, ← e'.1]
        rfl
      rw [hd, hh, e'.2, validRecords_append, validRecords_rdropWhile,
        show A1 ++ l :: B = A1 ++ ([l] ++ B) by rfl, validRecords_append, validRecords_append,
        validRecords_blank cm pid _ B hB]
      simp

end TaskCSVUpload

/-! ## The claims about the import parsers -/

namespace CSV

open JSStr

/-- C7: required fields.  The result of `TaskCSVUpload.parseCSV` is what its data lines add,
in order, line `i` of `lines.slice(1)` being line `i + 2` of the text; a blank line adds
nothing; a non-blank line adds exactly its record when its title, week and section cells are
all non-empty, and otherwise no record and exactly the one error `Row (i + 2): Missing
required fields — ...` listing the required fields whose cell is empty (a first data line
without its section gives `Row 2: Missing required fields — section`).  The same holds for
`ResourceCSVUpload.parseCSV` with the single required cell `name`. -/
theorem C7_required_field_check (cm : CaseMap) (pid text : JSString) :
    (TaskCSVUpload.parseCSV cm pid text
        = concatLines (TaskCSVUpload.processLine cm pid (headersOf cm text)
            { parsed := [], errs := [] }) 0 (dataLinesOf text))
      ∧ (ResourceCSVUpload.parseCSV cm pid text
        = concatLines (ResourceCSVUpload.processLine pid (headersOf cm text)
            { parsed := [], errs := [] }) 0 (dataLinesOf text))
      ∧ (∀ i : ℕ, (dataLinesOf text)[i]? = (linesOf text)[i + 1]?)
      ∧ (TaskCSVUpload.parseCSV asciiCase "p1".toList Sample.missingSectionCsv
        = { parsed := [], errs := ["Row 2: Missing required fields — section".toList] })
      ∧ (∀ (headers : List JSString) (i : ℕ) (line : JSString),
          (trim line = [] →
            TaskCSVUpload.processLine cm pid headers { parsed := [], errs := [] } i line
                = { parsed := [], errs := [] }
              ∧ ResourceCSVUpload.processLine pid headers { parsed := [], errs := [] } i line
                = { parsed := [], errs := [] })
          ∧ (trim line ≠ [] →
            ((cell headers line "title".toList ≠ [] ∧ cell headers line "week".toList ≠ []
                ∧ cell headers line "section".toList ≠ []) →
              TaskCSVUpload.processLine cm pid headers { parsed := [], errs := [] } i line
                = { parsed := [TaskCSVUpload.normalize cm pid (mkRow headers (splitCols line))],
                    errs := [] })
            ∧ (¬ (cell headers line "title".toList ≠ [] ∧ cell headers line "week".toList ≠ []
                ∧ cell headers line "section".toList ≠ []) →
              TaskCSVUpload.processLine cm pid headers { parsed := [], errs := [] } i line
                = { parsed := [],
                    errs := ["Row ".toList ++ JSStr.ofNat (i + 2)
                      ++ ": Missing required fields — ".toList
                      ++ join ", ".toList
                        (["title".toList, "week".toList, "section".toList].filter
                          (fun r => decide (cell headers line r = [])))] })
            ∧ (cell headers line "name".toList ≠ [] →
              ResourceCSVUpload.processLine pid headers { parsed := [], errs := [] } i line
                = { parsed := [ResourceCSVUpload.normalize pid (mkRow headers (splitCols line))],
                    errs := [] })
            ∧ (cell headers line "name".toList = [] →
              ResourceCSVUpload.processLine pid headers { parsed := [], errs := [] } i line
                = { parsed := [],
                    errs := ["Row ".toList ++ JSStr.ofNat (i + 2)
                      ++ ": Missing resource name".toList] }))) := by
  refine ⟨TaskCSVUpload.parseCSV_eq_concat cm pid text,
    ResourceCSVUpload.resource_parseCSV_eq_concat cm pid text, ?_, ?_, ?_⟩
  · intro i
    simp [dataLinesOf, List.getElem?_drop, Nat.add_comm]
  · have h : (TaskCSVUpload.parseCSV asciiCase "p1".toList Sample.missingSectionCsv).parsed = []
        ∧ (TaskCSVUpload.parseCSV asciiCase "p1".toList Sample.missingSectionCsv).errs
          = ["Row 2: Missing required fields — section".toList] := by
      constructor <;> decide
    rcases hp : TaskCSVUpload.parseCSV asciiCase "p1".toList Sample.missingSectionCsv with
      ⟨ps, es⟩
    rw [hp] at h
    have h1 : ps = [] := h.1
    have h2 : es = ["Row 2: Missing required fields — section".toList] := h.2
    rw [h1, h2]
  · intro headers i line
    refine ⟨fun hb => ⟨TaskCSVUpload.processLine_blank cm pid headers i line hb,
      ResourceCSVUpload.resource_processLine_blank pid headers i line hb⟩, fun hb => ⟨?_, ?_, ?_, ?_⟩⟩
    · exact TaskCSVUpload.processLine_valid cm pid headers i line hb
    · exact TaskCSVUpload.processLine_invalid cm pid headers i line hb
    · exact ResourceCSVUpload.resource_processLine_valid pid headers i line hb
    · exact ResourceCSVUpload.resource_processLine_invalid pid headers i line hb

/-- C8: invalid rows never affect the valid subset.  The records of
`TaskCSVUpload.parseCSV` are the normalised valid data rows in their input order; they are
the records produced from the text with every invalid data line deleted; and the number of
records plus the number of errors is the number of non-blank data lines. -/
theorem C8_invalid_rows_do_not_affect_valid_subset (cm : CaseMap) (pid text : JSString) :
    (TaskCSVUpload.parseCSV cm pid text).parsed
        = Spec.validRecords cm pid (headersOf cm text) (dataLinesOf text)
      ∧ (TaskCSVUpload.parseCSV cm pid (Spec.deleteInvalidTaskLines cm text)).parsed
        = (TaskCSVUpload.parseCSV cm pid text).parsed
      ∧ (TaskCSVUpload.parseCSV cm pid text).parsed.length
          + (TaskCSVUpload.parseCSV cm pid text).errs.length
        = ((dataLinesOf text).filter (fun line => decide (trim line ≠ []))).length := by
  refine ⟨TaskCSVUpload.parsed_eq_validRecords cm pid text,
    TaskCSVUpload.parsed_deleteInvalid cm pid text, ?_⟩
  rw [TaskCSVUpload.parseCSV_eq_concat]
  exact TaskCSVUpload.concat_count cm pid _ 0 _

/-- The pattern `allowed.includes(v) ? v : fallback` in terms of the cell: the cell when it
is one of the allowed values, the fallback otherwise. -/
theorem valueOrDefault_eq (allowed : List JSString) (v : Option JSString) (fallback : JSString)
    (h : [] ∉ allowed) :
    valueOrDefault allowed v fallback
      = if orElse v [] ∈ allowed then orElse v [] else fallback := by
  rcases v with _ | _ | ⟨c, cs⟩
  · simp [valueOrDefault, orElse, h]
  · simp [valueOrDefault, orElse, h]
  · simp [valueOrDefault, orElse]

theorem valueOrDefault_mem (allowed : List JSString) (v : Option JSString)
    (fallback : JSString) (h : fallback ∈ allowed) :
    valueOrDefault allowed v fallback ∈ allowed := by
  rcases v with _ | s
  · exact h
  · show (if allowed.contains s = true then s else fallback) ∈ allowed
    by_cases hs : allowed.contains s = true
    · rw [if_pos hs]; simpa using hs
    · rw [if_neg hs]; exact h

/-- C10: the week of an imported task.  For every valid data line of a text, with `w` its
week cell, trimmed and non-empty: the line adds exactly one record, that record is among the
imported rows, and its week is `toUpperCase(w)` when that contains the substring `WEEK`, and
otherwise `WEEK ` followed by `w` unchanged. -/
theorem C10_week_normalisation (cm : CaseMap) (pid text : JSString) (i : ℕ) (line : JSString)
    (hline : (dataLinesOf text)[i]? = some line)
    (hvalid : Spec.isValidTaskLine (headersOf cm text) line = true) :
    TaskCSVUpload.processLine cm pid (headersOf cm text) { parsed := [], errs := [] } i line
        = { parsed := [TaskCSVUpload.normalize cm pid
              (mkRow (headersOf cm text) (splitCols line))], errs := [] }
      ∧ TaskCSVUpload.normalize cm pid (mkRow (headersOf cm text) (splitCols line))
        ∈ (TaskCSVUpload.parseCSV cm pid text).parsed
      ∧ cell (headersOf cm text) line "week".toList ≠ []
      ∧ trim (cell (headersOf cm text) line "week".toList)
        = cell (headersOf cm text) line "week".toList
      ∧ (TaskCSVUpload.normalize cm pid (mkRow (headersOf cm text) (splitCols line))).week
        = if "WEEK".toList <:+: cm.toUpperCase (cell (headersOf cm text) line "week".toList)
          then cm.toUpperCase (cell (headersOf cm text) line "week".toList)
          else "WEEK ".toList ++ cell (headersOf cm text) line "week".toList := by
  have hv := hvalid
  simp only [Spec.isValidTaskLine, decide_eq_true_eq] at hv
  obtain ⟨hb, hcells⟩ := hv
  refine ⟨TaskCSVUpload.processLine_valid cm pid _ i line hb hcells, ?_, hcells.2.1,
    trim_cell _ _ _, ?_⟩
  · rw [TaskCSVUpload.parsed_eq_validRecords]
    unfold Spec.validRecords
    exact List.mem_map.mpr ⟨line, List.mem_filter.mpr ⟨List.getElem?_mem hline, hvalid⟩, rfl⟩
  · show (if includes (cm.toUpperCase ((get (mkRow (headersOf cm text) (splitCols line))
        "week".toList).getD [])) "WEEK".toList = true then _ else _) = _
    rw [getD_eq_orElse]
    unfold includes
    simp only [decide_eq_true_eq]
    rfl

set_option maxRecDepth 100000 in
/-- Witness of C10: the data line `A,3,S` imports with week `WEEK 3`. -/
theorem C10_week_normalisation_witness :
    Sample.oneTaskRecord ∈ (TaskCSVUpload.parseCSV asciiCase "p1".toList Sample.oneTaskCsv).parsed
      ∧ Sample.oneTaskRecord.week = "WEEK 3".toList
      ∧ (TaskCSVUpload.normalize asciiCase "p1".toList
          (mkRow (headersOf asciiCase Sample.oneTaskCsv) (splitCols "A,3,S".toList))).week
        = if "WEEK".toList <:+: asciiCase.toUpperCase
              (cell (headersOf asciiCase Sample.oneTaskCsv) "A,3,S".toList "week".toList)
          then asciiCase.toUpperCase
              (cell (headersOf asciiCase Sample.oneTaskCsv) "A,3,S".toList "week".toList)
          else "WEEK ".toList
            ++ cell (headersOf asciiCase Sample.oneTaskCsv) "A,3,S".toList "week".toList :=
  ⟨by decide, by decide,
    (C10_week_normalisation asciiCase "p1".toList Sample.oneTaskCsv 0 "A,3,S".toList
      (by decide) (by decide)).2.2.2.2⟩

end CSV

/-! ## The claims about the normalised fields -/

namespace CSV

open JSStr

/-- The record of a valid data line is among the imported rows. -/
theorem normalize_mem_parsed (cm : CaseMap) (pid text : JSString) (i : ℕ) (line : JSString)
    (hline : (dataLinesOf text)[i]? = some line)
    (hvalid : Spec.isValidTaskLine (headersOf cm text) line = true) :
    TaskCSVUpload.normalize cm pid (mkRow (headersOf cm text) (splitCols line))
      ∈ (TaskCSVUpload.parseCSV cm pid text).parsed := by
  rw [TaskCSVUpload.parsed_eq_validRecords]
  unfold Spec.validRecords
  exact List.mem_map.mpr ⟨line, List.mem_filter.mpr ⟨List.getElem?_mem hline, hvalid⟩, rfl⟩

/-- C11: the critical flag of an imported task.  For every valid data line of a text, the
record it adds is among the imported rows and its `is_critical` is true exactly when the
is_critical cell (trimmed, empty when the cell or the column is absent), lower-cased, is one
of `true`, `yes`, `1`; with a lower-casing that leaves the empty string empty, a blank or
absent cell gives false. -/
theorem C11_is_critical_flag (cm : CaseMap) (pid text : JSString) (i : ℕ) (line : JSString)
    (hline : (dataLinesOf text)[i]? = some line)
    (hvalid : Spec.isValidTaskLine (headersOf cm text) line = true) :
    TaskCSVUpload.normalize cm pid (mkRow (headersOf cm text) (splitCols line))
        ∈ (TaskCSVUpload.parseCSV cm pid text).parsed
      ∧ trim (cell (headersOf cm text) line "is_critical".toList)
        = cell (headersOf cm text) line "is_critical".toList
      ∧ ((TaskCSVUpload.normalize cm pid
            (mkRow (headersOf cm text) (splitCols line))).is_critical = true
          ↔ cm.toLowerCase (cell (headersOf cm text) line "is_critical".toList)
            ∈ ["true".toList, "yes".toList, "1".toList])
      ∧ (cm.toLowerCase [] = [] → cell (headersOf cm text) line "is_critical".toList = [] →
          (TaskCSVUpload.normalize cm pid
            (mkRow (headersOf cm text) (splitCols line))).is_critical = false) := by
  have key : (TaskCSVUpload.normalize cm pid
      (mkRow (headersOf cm text) (splitCols line))).is_critical
      = ["true".toList, "yes".toList, "1".toList].contains
          (cm.toLowerCase (cell (headersOf cm text) line "is_critical".toList)) := rfl
  refine ⟨normalize_mem_parsed cm pid text i line hline hvalid, trim_cell _ _ _, ?_, ?_⟩
  · rw [key]
    simp
  · intro h0 hc
    rw [key, hc, h0]
    decide

set_option maxRecDepth 100000 in
/-- Witness of C11: the row `Plaster lift shaft,WEEK 1,Roofing,,,` imports with status
`Not Started`, priority `Normal` and `is_critical` false. -/
theorem C11_is_critical_flag_witness :
    (TaskCSVUpload.parseCSV asciiCase "p1".toList Sample.plasterCsv).parsed
        = [Sample.plasterRecord]
      ∧ Sample.plasterRecord.status = "Not Started".toList
      ∧ Sample.plasterRecord.priority = "Normal".toList
      ∧ Sample.plasterRecord.is_critical = false
      ∧ (TaskCSVUpload.normalize asciiCase "p1".toList
          (mkRow (headersOf asciiCase Sample.plasterCsv) (splitCols Sample.plasterLine))).is_critical
        = false :=
  ⟨by decide, by decide, by decide, by decide,
    (C11_is_critical_flag asciiCase "p1".toList Sample.plasterCsv 0 Sample.plasterLine
      (by decide) (by decide)).2.2.2 (by decide) (by decide)⟩

end CSV

/-! ## Imported resources -/

namespace ResourceCSVUpload

open JSStr CSV

theorem isValidResourceLine_iff (headers : List JSString) (line : JSString) :
    Spec.isValidResourceLine headers line = true
      ↔ trim line ≠ [] ∧ cell headers line "name".toList ≠ [] := by
  unfold Spec.isValidResourceLine
  rw [decide_eq_true_eq]

theorem validResourceRecords_cons (pid : JSString) (headers : List JSString)
    (line : JSString) (rest : List JSString) :
    Spec.validResourceRecords pid headers (line :: rest)
      = (if Spec.isValidResourceLine headers line = true
          then [normalize pid (mkRow headers (splitCols line))] else [])
        ++ Spec.validResourceRecords pid headers rest := by
  unfold Spec.validResourceRecords
  by_cases h : Spec.isValidResourceLine headers line = true
  · rw [List.filter_cons_of_pos h, if_pos h]; rfl
  · rw [List.filter_cons_of_neg h, if_neg h]; rfl

/-- The resources of a run of lines are the normalised valid rows, in order. -/
theorem resource_concat_parsed_eq (pid : JSString) (headers : List JSString) (i : ℕ)
    (lines : List JSString) :
    (concatLines (processLine pid headers { parsed := [], errs := [] }) i lines).parsed
      = Spec.validResourceRecords pid headers lines := by
  induction lines generalizing i with
  | nil => rfl
  | cons line rest ih =>
    simp only [concatLines, ParseResult.append, ih]
    rw [validResourceRecords_cons]
    by_cases hb : trim line = []
    · have hv : Spec.isValidResourceLine headers line = false := by
        rw [← Bool.not_eq_true, isValidResourceLine_iff]
        exact fun h => h.1 hb
      rw [resource_processLine_blank pid headers i line hb, hv]
      rfl
    · by_cases hn : cell headers line "name".toList = []
      · have hv : Spec.isValidResourceLine headers line = false := by
          rw [← Bool.not_eq_true, isValidResourceLine_iff]
          exact fun h => h.2 hn
        rw [resource_processLine_invalid pid headers i line hb hn, hv]
        rfl
      · have hv : Spec.isValidResourceLine headers line = true :=
          (isValidResourceLine_iff headers line).mpr ⟨hb, hn⟩
        rw [resource_processLine_valid pid headers i line hb hn, hv]
        rfl

/-- Every non-blank line adds one resource or one error. -/
theorem resource_concat_count (pid : JSString) (headers : List JSString) (i : ℕ)
    (lines : List JSString) :
    (concatLines (processLine pid headers { parsed := [], errs := [] }) i lines).parsed.length
      + (concatLines (processLine pid headers { parsed := [], errs := [] }) i lines).errs.length
      = (lines.filter (fun line => decide (trim line ≠ []))).length := by
  induction lines generalizing i with
  | nil => rfl
  | cons line rest ih =>
    simp only [concatLines, ParseResult.append, List.length_append]
    have := ih (i + 1)
    by_cases hb : trim line = []
    · have hf : (line :: rest).filter (fun line => decide (trim line ≠ []))
          = rest.filter (fun line => decide (trim line ≠ [])) :=
        List.filter_cons_of_neg (by simp [hb])
      rw [resource_processLine_blank pid headers i line hb, hf]
      simp only [List.length_nil]
      omega
    · have hf : (line :: rest).filter (fun line => decide (trim line ≠ []))
          = line :: rest.filter (fun line => decide (trim line ≠ [])) :=
        List.filter_cons_of_pos (by simp [hb])
      by_cases hn : cell headers line "name".toList = []
      · rw [resource_processLine_invalid pid headers i line hb hn, hf]
        simp only [List.length_cons, List.length_nil]
        omega
      · rw [resource_processLine_valid pid headers i line hb hn, hf]
        simp only [List.length_cons, List.length_nil]
        omega

theorem resource_parsed_eq_validRecords (cm : CaseMap) (pid text : JSString) :
    (parseCSV cm pid text).parsed
      = Spec.validResourceRecords pid (headersOf cm text) (dataLinesOf text) := by
  rw [resource_parseCSV_eq_concat, resource_concat_parsed_eq]

/-- The resource of a valid data line is among the imported rows. -/
theorem resource_normalize_mem_parsed (cm : CaseMap) (pid text : JSString) (i : ℕ)
    (line : JSString) (hline : (dataLinesOf text)[i]? = some line)
    (hvalid : Spec.isValidResourceLine (headersOf cm text) line = true) :
    normalize pid (mkRow (headersOf cm text) (splitCols line)) ∈ (parseCSV cm pid text).parsed := by
  rw [resource_parsed_eq_validRecords]
  unfold Spec.validResourceRecords
  exact List.mem_map.mpr ⟨line, List.mem_filter.mpr ⟨List.getElem?_mem hline, hvalid⟩, rfl⟩

end ResourceCSVUpload

/-! ## `parseFloat(v) || 0` -/

namespace JSNum

open JSFloat

theorem ofRat_nonneg_cases {x : ℚ} (hx : 0 ≤ x) :
    ofRat x = posInf ∨ ∃ a : ℚ, 0 ≤ a ∧ ofRat x = num a := by
  have h0 := fl_nonneg hx
  unfold ofRat
  by_cases h1 : (2 : ℚ) ^ 1024 ≤ fl x
  · left; rw [if_pos h1]
  · right
    have h2 : ¬ fl x ≤ -(2 : ℚ) ^ 1024 := by
      have : (0 : ℚ) < (2 : ℚ) ^ 1024 := by positivity
      intro h; linarith
    exact ⟨fl x, h0, by rw [if_neg h1, if_neg h2]⟩

theorem orElse_ne_nan (x : JSNum) : JSNum.orElse x (num 0) ≠ nan := by
  unfold JSNum.orElse
  cases x <;> simp [truthy]
  split_ifs <;> simp

theorem orElse_nan : JSNum.orElse nan (num 0) = num 0 := by
  simp [JSNum.orElse, truthy]

/-- `x || 0` keeps a non-negative number non-negative. -/
theorem orElse_nonneg (x : JSNum)
    (hx : x = nan ∨ x = posInf ∨ ∃ a : ℚ, 0 ≤ a ∧ x = num a) :
    JSNum.le (num 0) (JSNum.orElse x (num 0)) = true := by
  rcases hx with h | h | ⟨a, ha, h⟩
  · rw [h, orElse_nan]; simp [JSNum.le]
  · rw [h]; simp [JSNum.orElse, truthy, JSNum.le]
  · rw [h]
    unfold JSNum.orElse
    by_cases h0 : a = 0
    · simp [truthy, h0, JSNum.le]
    · simp [truthy, h0, JSNum.le, ha]

end JSNum

namespace JSStr

open JSNum

/-- The unsigned part of `parseFloat` is `NaN`, `Infinity` or a non-negative number. -/
theorem parseUnsigned_cases (s : JSString) :
    parseUnsigned s = nan ∨ parseUnsigned s = posInf
      ∨ ∃ a : ℚ, 0 ≤ a ∧ parseUnsigned s = num a := by
  unfold parseUnsigned
  by_cases h1 : "Infinity".toList <+: s
  · right; left; rw [if_pos h1]
  · rw [if_neg h1]
    simp only []
    split_ifs with h2
    · left; rfl
    · right
      apply ofRat_nonneg_cases
      positivity

theorem parseFloat_none : parseFloat none = nan := rfl

theorem parseFloat_nil : parseFloat (some []) = nan := by decide

/-- An undefined property and an empty cell parse alike. -/
theorem parseFloat_orElse (a : Option JSString) :
    parseFloat a = parseFloat (some (orElse a [])) := by
  rcases a with _ | _ | ⟨c, cs⟩
  · rw [parseFloat_none]; exact parseFloat_nil.symm
  · rfl
  · rfl

theorem dropWhile_of_trimmed (s : JSString) (h : trim s = s) :
    s.dropWhile isWhiteSpace = s := by
  rcases hs : s with _ | ⟨c, t⟩
  · rfl
  · have := trim_head_not_ws s c t (by rw [h, hs])
    rw [List.dropWhile_cons_of_neg (by simp [this])]

/-- `parseFloat` of a trimmed string that does not start with a minus sign is `NaN`,
`Infinity` or a non-negative number. -/
theorem parseFloat_cases_of_no_minus (s : JSString) (ht : trim s = s)
    (hm : ∀ rest, s ≠ '-' :: rest) :
    parseFloat (some s) = nan ∨ parseFloat (some s) = posInf
      ∨ ∃ a : ℚ, 0 ≤ a ∧ parseFloat (some s) = num a := by
  unfold parseFloat
  simp only []
  rw [dropWhile_of_trimmed s ht]
  split
  · next r => exact absurd rfl (hm r)
  · exact parseUnsigned_cases _
  · exact parseUnsigned_cases _

end JSStr

namespace ResourceCSVUpload

open JSStr CSV JSNum

/-- What `parseFloat(cell) || 0` gives for a trimmed cell. -/
theorem numberOrZero_props (s : JSString) (ht : trim s = s) :
    numberOrZero (some s) ≠ nan
      ∧ (s = [] → numberOrZero (some s) = num 0)
      ∧ (parseFloat (some s) = nan → numberOrZero (some s) = num 0)
      ∧ ((∀ rest, s ≠ '-' :: rest) → JSNum.le (num 0) (numberOrZero (some s)) = true) := by
  refine ⟨orElse_ne_nan _, ?_, ?_, ?_⟩
  · intro h
    rw [h]
    unfold numberOrZero
    rw [parseFloat_nil, orElse_nan]
  · intro h
    unfold numberOrZero
    rw [h, orElse_nan]
  · intro h
    exact orElse_nonneg _ (parseFloat_cases_of_no_minus s ht h)

theorem normalize_quantity (pid : JSString) (headers : List JSString) (line : JSString) :
    (normalize pid (mkRow headers (splitCols line))).quantity
      = some (numberOrZero (some (cell headers line "quantity".toList))) := by
  show some (JSNum.orElse (parseFloat (get (mkRow headers (splitCols line)) "quantity".toList))
      (num 0)) = _
  rw [parseFloat_orElse]
  rfl

theorem normalize_cost_per_unit (pid : JSString) (headers : List JSString) (line : JSString) :
    (normalize pid (mkRow headers (splitCols line))).cost_per_unit
      = some (numberOrZero (some (cell headers line "cost_per_unit".toList))) := by
  show some (JSNum.orElse (parseFloat (get (mkRow headers (splitCols line))
      "cost_per_unit".toList)) (num 0)) = _
  rw [parseFloat_orElse]
  rfl

theorem parseUnsigned_five : parseUnsigned "5".toList = num 5 := by
  have h : parseUnsigned "5".toList = ofRat ((5 : ℕ) : ℚ) := by
    simp [parseUnsigned, isDigit, digitsValue, exponentPart]
  rw [h, ofRat_natCast 5 (by norm_num)]
  norm_num

/-- C12, as stated, fails: the resource file `name,quantity` / `Cement bags,-5` imports one
resource whose quantity is `-5`, which is not `>= 0`. -/
theorem C12_negative_quantity_imported :
    (parseCSV asciiCase "p1".toList Sample.negativeQuantityCsv).parsed.map (fun r => r.quantity)
        = [some (num (-5))]
      ∧ JSNum.le (num 0) (num (-5)) = false := by
  constructor
  · rw [resource_parsed_eq_validRecords]
    have hh : headersOf asciiCase Sample.negativeQuantityCsv
        = ["name".toList, "quantity".toList] := by decide
    have hd : dataLinesOf Sample.negativeQuantityCsv = ["Cement bags,-5".toList] := by decide
    have hf : ["Cement bags,-5".toList].filter
        (Spec.isValidResourceLine ["name".toList, "quantity".toList])
        = ["Cement bags,-5".toList] := by decide
    rw [hh, hd]
    unfold Spec.validResourceRecords
    rw [hf]
    simp only [List.map_cons, List.map_nil]
    rw [normalize_quantity]
    have hc : cell ["name".toList, "quantity".toList] "Cement bags,-5".toList "quantity".toList
        = "-5".toList := by decide
    rw [hc]
    have hp : parseFloat (some "-5".toList) = JSNum.neg (parseUnsigned "5".toList) := rfl
    unfold numberOrZero
    rw [hp, parseUnsigned_five]
    simp [JSNum.neg, JSNum.orElse, JSNum.truthy]
  · simp [JSNum.le]

/-- C12, amended: every imported resource comes from a valid data line, its quantity and
cost_per_unit are `parseFloat(cell) || 0` of the trimmed cell, which is never NaN, is 0 when
the cell is absent, empty or not parseable as a number, and is `>= 0` whenever the cell does
not start with a minus sign. -/
theorem C12_numeric_fields_amended (cm : CaseMap) (pid text : JSString) (r : ResourceRow)
    (h : r ∈ (parseCSV cm pid text).parsed) :
    ∃ line ∈ dataLinesOf text,
      Spec.isValidResourceLine (headersOf cm text) line = true
      ∧ r = normalize pid (mkRow (headersOf cm text) (splitCols line))
      ∧ (r.quantity = some (numberOrZero (some (cell (headersOf cm text) line "quantity".toList)))
        ∧ r.quantity ≠ some nan
        ∧ (cell (headersOf cm text) line "quantity".toList = [] → r.quantity = some (num 0))
        ∧ (parseFloat (some (cell (headersOf cm text) line "quantity".toList)) = nan →
            r.quantity = some (num 0))
        ∧ ((∀ rest, cell (headersOf cm text) line "quantity".toList ≠ '-' :: rest) →
            ∃ q, r.quantity = some q ∧ JSNum.le (num 0) q = true))
      ∧ (r.cost_per_unit
            = some (numberOrZero (some (cell (headersOf cm text) line "cost_per_unit".toList)))
        ∧ r.cost_per_unit ≠ some nan
        ∧ (cell (headersOf cm text) line "cost_per_unit".toList = [] →
            r.cost_per_unit = some (num 0))
        ∧ (parseFloat (some (cell (headersOf cm text) line "cost_per_unit".toList)) = nan →
            r.cost_per_unit = some (num 0))
        ∧ ((∀ rest, cell (headersOf cm text) line "cost_per_unit".toList ≠ '-' :: rest) →
            ∃ c, r.cost_per_unit = some c ∧ JSNum.le (num 0) c = true)) := by
  obtain ⟨line, hl, hb, hn, hr⟩ := resource_mem_parsed cm pid text r h
  refine ⟨line, hl, (isValidResourceLine_iff _ _).mpr ⟨hb, hn⟩, hr, ?_, ?_⟩
  · obtain ⟨p1, p2, p3, p4⟩ :=
      numberOrZero_props (cell (headersOf cm text) line "quantity".toList) (trim_cell _ _ _)
    have hq := normalize_quantity pid (headersOf cm text) line
    rw [← hr] at hq
    refine ⟨hq, ?_, ?_, ?_, ?_⟩
    · rw [hq]; intro hx; exact p1 (Option.some.inj hx)
    · intro hx; rw [hq, p2 hx]
    · intro hx; rw [hq, p3 hx]
    · intro hx; exact ⟨_, hq, p4 hx⟩
  · obtain ⟨p1, p2, p3, p4⟩ :=
      numberOrZero_props (cell (headersOf cm text) line "cost_per_unit".toList) (trim_cell _ _ _)
    have hq := normalize_cost_per_unit pid (headersOf cm text) line
    rw [← hr] at hq
    refine ⟨hq, ?_, ?_, ?_, ?_⟩
    · rw [hq]; intro hx; exact p1 (Option.some.inj hx)
    · intro hx; rw [hq, p2 hx]
    · intro hx; rw [hq, p3 hx]
    · intro hx; exact ⟨_, hq, p4 hx⟩

end ResourceCSVUpload

namespace CSV

open JSStr

theorem get_mkRow_eq_none (headers cols : List JSString) (key : JSString)
    (h : key ∉ headers) : get (mkRow headers cols) key = none := by
  unfold CSV.get
  rw [Option.map_eq_none', List.find?_eq_none]
  intro p hp
  rw [List.mem_reverse] at hp
  unfold mkRow at hp
  obtain ⟨q, hq, rfl⟩ := List.mem_map.mp hp
  have : q.2 ∈ headers := by
    obtain ⟨i, x⟩ := q
    exact (List.mem_enum hq).2 ▸ List.getElem_mem _
  simp only [decide_eq_true_eq]
  intro he
  exact h (he ▸ this)

theorem cell_eq_nil_of_not_mem (headers : List JSString) (line key : JSString)
    (h : key ∉ headers) : cell headers line key = [] := by
  unfold cell
  rw [get_mkRow_eq_none headers _ key h]
  rfl

end CSV

namespace ResourceCSVUpload

open JSStr CSV JSNum

/-- C12, amended, at the file `name,quantity` / `Cement bags,-5`: the row is imported, and
its cost_per_unit, whose column is absent, is 0. -/
theorem C12_numeric_fields_amended_witness :
    normalize "p1".toList
        (mkRow (headersOf asciiCase Sample.negativeQuantityCsv) (splitCols Sample.cementLine))
        ∈ (parseCSV asciiCase "p1".toList Sample.negativeQuantityCsv).parsed
      ∧ (normalize "p1".toList (mkRow (headersOf asciiCase Sample.negativeQuantityCsv)
          (splitCols Sample.cementLine))).cost_per_unit = some (num 0) := by
  have hmem := resource_normalize_mem_parsed asciiCase "p1".toList Sample.negativeQuantityCsv 0
    Sample.cementLine (by decide) (by decide)
  refine ⟨hmem, ?_⟩
  obtain ⟨line, hl, _, _, _, hc⟩ :=
    C12_numeric_fields_amended asciiCase "p1".toList Sample.negativeQuantityCsv _ hmem
  have hd : dataLinesOf Sample.negativeQuantityCsv = [Sample.cementLine] := by decide
  rw [hd, List.mem_singleton] at hl
  subst hl
  exact hc.2.2.1 (by decide)

theorem normalize_milestone (pid : JSString) (headers : List JSString) (line : JSString) :
    (normalize pid (mkRow headers (splitCols line))).milestone
      = some (if cell headers line "milestone".toList ≠ [] then
          cell headers line "milestone".toList else cell headers line "week".toList) := by
  show some (JSStr.orElse (get (mkRow headers (splitCols line)) "milestone".toList)
      (JSStr.orElse (get (mkRow headers (splitCols line)) "week".toList) [])) = _
  unfold cell
  rcases get (mkRow headers (splitCols line)) "milestone".toList with _ | _ | ⟨c, cs⟩ <;>
    simp [JSStr.orElse]

/-- C13: for a valid resource line the imported milestone is the milestone cell when that
cell is non-empty, otherwise the week cell when it is non-empty, otherwise the empty string;
the week cell is empty when there is no week column. -/
theorem C13_milestone_fallback (cm : CaseMap) (pid text : JSString) (i : ℕ) (line : JSString)
    (hline : (dataLinesOf text)[i]? = some line)
    (hvalid : Spec.isValidResourceLine (headersOf cm text) line = true) :
    normalize pid (mkRow (headersOf cm text) (splitCols line)) ∈ (parseCSV cm pid text).parsed
      ∧ (cell (headersOf cm text) line "milestone".toList ≠ [] →
          (normalize pid (mkRow (headersOf cm text) (splitCols line))).milestone
            = some (cell (headersOf cm text) line "milestone".toList))
      ∧ (cell (headersOf cm text) line "milestone".toList = [] →
          cell (headersOf cm text) line "week".toList ≠ [] →
          (normalize pid (mkRow (headersOf cm text) (splitCols line))).milestone
            = some (cell (headersOf cm text) line "week".toList))
      ∧ (cell (headersOf cm text) line "milestone".toList = [] →
          ("week".toList ∉ headersOf cm text ∨ cell (headersOf cm text) line "week".toList = []) →
          (normalize pid (mkRow (headersOf cm text) (splitCols line))).milestone = some []) := by
  refine ⟨resource_normalize_mem_parsed cm pid text i line hline hvalid, ?_, ?_, ?_⟩
  · intro h
    rw [normalize_milestone, if_pos h]
  · intro h _
    rw [normalize_milestone, if_neg (not_not.mpr h)]
  · intro h hw
    have hw' : cell (headersOf cm text) line "week".toList = [] := by
      rcases hw with hw | hw
      · exact cell_eq_nil_of_not_mem _ _ _ hw
      · exact hw
    rw [normalize_milestone, if_neg (not_not.mpr h), hw']

/-- C13 at the files `name,week` / `Lift unit,WEEK 4` and `name,milestone,week` /
`Lift unit,,WEEK 4`: the imported milestone is `WEEK 4`. -/
theorem C13_milestone_fallback_witness :
    (normalize "p1".toList (mkRow (headersOf asciiCase Sample.weekOnlyCsv)
        (splitCols Sample.liftUnitLine))).milestone = some "WEEK 4".toList
      ∧ (parseCSV asciiCase "p1".toList Sample.weekOnlyCsv).parsed.map (fun r => r.milestone)
        = [some "WEEK 4".toList]
      ∧ (parseCSV asciiCase "p1".toList Sample.blankMilestoneCsv).parsed.map
          (fun r => r.milestone) = [some "WEEK 4".toList] :=
  ⟨((C13_milestone_fallback asciiCase "p1".toList Sample.weekOnlyCsv 0 Sample.liftUnitLine
      (by decide) (by decide)).2.2.1 (by decide) (by decide)).trans (by decide),
    by decide, by decide⟩

end ResourceCSVUpload

/-! ## The templates -/

namespace CSV

open JSStr

/-- The header keys do not depend on the case conversion when lower-casing leaves the
trimmed header cells as they are. -/
theorem headersOf_eq_of_lower (cm : CaseMap) (text : JSString)
    (h : ∀ c ∈ split ',' ((linesOf text).headD []), cm.toLowerCase (trim c) = trim c) :
    headersOf cm text
      = (split ',' ((linesOf text).headD [])).map (fun c => replaceWhiteSpaceRuns (trim c)) := by
  unfold headersOf parseHeaders
  exact List.map_congr_left (fun c hc => by rw [h c hc])

theorem eq_nil_of_length_add {α β : Type} (xs : List α) (ys : List β) (n : ℕ)
    (hx : xs.length = n) (h : xs.length + ys.length = n) : ys = [] := by
  apply List.eq_nil_of_length_eq_zero
  omega

end CSV

namespace TaskCSVUpload

open JSStr CSV

set_option maxRecDepth 100000 in
theorem task_template_counts (cm : CaseMap) (pid : JSString)
    (h : ∀ c ∈ split ',' ((linesOf downloadTemplate).headD []), cm.toLowerCase (trim c) = trim c) :
    (parseCSV cm pid downloadTemplate).parsed.length = 2
      ∧ (parseCSV cm pid downloadTemplate).errs = [] := by
  have hh : headersOf cm downloadTemplate = headersOf asciiCase downloadTemplate := by
    rw [headersOf_eq_of_lower cm _ h]
    decide
  have hp : (parseCSV cm pid downloadTemplate).parsed.length = 2 := by
    rw [parsed_eq_validRecords, hh]
    unfold Spec.validRecords
    rw [List.length_map]
    decide
  have hc := concat_count cm pid (headersOf cm downloadTemplate) 0 (dataLinesOf downloadTemplate)
  rw [← parseCSV_eq_concat] at hc
  have hn : ((dataLinesOf downloadTemplate).filter
      (fun line => decide (trim line ≠ []))).length = 2 := by decide
  rw [hn] at hc
  exact ⟨hp, eq_nil_of_length_add _ _ 2 hp hc⟩

end TaskCSVUpload

namespace ResourceCSVUpload

open JSStr CSV

set_option maxRecDepth 100000 in
theorem resource_template_counts (cm : CaseMap) (pid : JSString)
    (h : ∀ c ∈ split ',' ((linesOf downloadTemplate).headD []), cm.toLowerCase (trim c) = trim c) :
    (parseCSV cm pid downloadTemplate).parsed.length = 4
      ∧ (parseCSV cm pid downloadTemplate).errs = [] := by
  have hh : headersOf cm downloadTemplate = headersOf asciiCase downloadTemplate := by
    rw [headersOf_eq_of_lower cm _ h]
    decide
  have hp : (parseCSV cm pid downloadTemplate).parsed.length = 4 := by
    rw [resource_parsed_eq_validRecords, hh]
    unfold Spec.validResourceRecords
    rw [List.length_map]
    decide
  have hc := resource_concat_count pid (headersOf cm downloadTemplate) 0
    (dataLinesOf downloadTemplate)
  rw [← resource_parseCSV_eq_concat] at hc
  have hn : ((dataLinesOf downloadTemplate).filter
      (fun line => decide (trim line ≠ []))).length = 4 := by decide
  rw [hn] at hc
  exact ⟨hp, eq_nil_of_length_add _ _ 4 hp hc⟩

end ResourceCSVUpload

namespace CSV

open JSStr

/-- C14: the text of the task template parses to 2 records and no error, and the text of
the resource template to 4 records and no error, for every case conversion whose
lower-casing leaves the (lower-case) header cells of the templates as they are. -/
theorem C14_template_round_trip (cm : CaseMap) (pid : JSString)
    (hT : ∀ c ∈ split ',' ((linesOf TaskCSVUpload.downloadTemplate).headD []),
      cm.toLowerCase (trim c) = trim c)
    (hR : ∀ c ∈ split ',' ((linesOf ResourceCSVUpload.downloadTemplate).headD []),
      cm.toLowerCase (trim c) = trim c) :
    (TaskCSVUpload.parseCSV cm pid TaskCSVUpload.downloadTemplate).parsed.length = 2
      ∧ (TaskCSVUpload.parseCSV cm pid TaskCSVUpload.downloadTemplate).errs = []
      ∧ (ResourceCSVUpload.parseCSV cm pid ResourceCSVUpload.downloadTemplate).parsed.length = 4
      ∧ (ResourceCSVUpload.parseCSV cm pid ResourceCSVUpload.downloadTemplate).errs = [] :=
  ⟨(TaskCSVUpload.task_template_counts cm pid hT).1,
    (TaskCSVUpload.task_template_counts cm pid hT).2,
    (ResourceCSVUpload.resource_template_counts cm pid hR).1,
    (ResourceCSVUpload.resource_template_counts cm pid hR).2⟩

set_option maxRecDepth 100000 in
/-- C14 with the ASCII case conversion, together with the titles and names of the records
that the two templates give. -/
theorem C14_template_round_trip_witness :
    ((TaskCSVUpload.parseCSV asciiCase "p1".toList TaskCSVUpload.downloadTemplate).parsed.length = 2
      ∧ (TaskCSVUpload.parseCSV asciiCase "p1".toList TaskCSVUpload.downloadTemplate).errs = []
      ∧ (ResourceCSVUpload.parseCSV asciiCase "p1".toList
          ResourceCSVUpload.downloadTemplate).parsed.length = 4
      ∧ (ResourceCSVUpload.parseCSV asciiCase "p1".toList
          ResourceCSVUpload.downloadTemplate).errs = [])
      ∧ (TaskCSVUpload.parseCSV asciiCase "p1".toList TaskCSVUpload.downloadTemplate).parsed.map
          (fun r => r.title)
        = ["Plaster lift shaft".toList, "Complete rooftop duct casting".toList]
      ∧ (ResourceCSVUpload.parseCSV asciiCase "p1".toList
          ResourceCSVUpload.downloadTemplate).parsed.map (fun r => r.name)
        = ["Cement bags".toList, "Tilers (gang)".toList, "Aluminium roofing sheets".toList,
            "Lift unit".toList] :=
  ⟨C14_template_round_trip asciiCase "p1".toList (by decide) (by decide), by decide, by decide⟩

end CSV

/-! ## The column splitter -/

namespace CSV

open JSStr

theorem countP_range_succ (p : ℕ → Bool) (n : ℕ) :
    (List.range (n + 1)).countP p
      = (if p 0 then 1 else 0) + (List.range n).countP (fun i => p (i + 1)) := by
  rw [List.range_succ_eq_map, List.countP_cons, List.countP_map, Nat.add_comm]
  rfl

/-- The number of cells pushed by the loop, from a state whose flag is the parity of `q`. -/
theorem foldl_colStep_cols_length (s : JSString) :
    ∀ (st : ColState) (q : ℕ), st.inQ = decide (q % 2 = 1) →
      (s.foldl colStep st).cols.length
        = st.cols.length + (List.range s.length).countP
            (fun i => decide (s[i]? = some ',')
              && decide ((q + (s.take i).count '"') % 2 = 0)) := by
  induction s with
  | nil => intro st q _; rfl
  | cons c cs ih =>
    intro st q hq
    rw [List.foldl_cons, List.length_cons, countP_range_succ]
    by_cases hc : c = '"'
    · subst hc
      have hst : colStep st '"' = { st with inQ := !st.inQ } := by simp [colStep]
      have hq' : (colStep st '"').inQ = decide ((q + 1) % 2 = 1) := by
        rw [hst]
        simp only [hq]
        rcases Nat.mod_two_eq_zero_or_one q with h | h <;> simp [h, Nat.add_mod]
      rw [ih _ (q + 1) hq', hst]
      simp only [List.getElem?_cons_zero, List.getElem?_cons_succ, List.take_succ_cons,
        List.count_cons_self]
      have h0 : (decide (some '"' = some ',')) = false := by decide
      simp only [h0, Bool.false_and, Bool.false_eq_true, if_false, Nat.zero_add]
      congr 1
      apply List.countP_congr
      intro i _
      simp only [Nat.add_assoc, Nat.add_comm 1]
    · by_cases hcomma : c = ','
      · subst hcomma
        have hcnt : ∀ i, (List.take (i + 1) (',' :: cs)).count '"' = (cs.take i).count '"' := by
          intro i
          rw [List.take_succ_cons, List.count_cons_of_ne (by decide)]
        rcases hb : st.inQ with _ | _
        · have hst : colStep st ',' = { cols := st.cols ++ [trim st.cur], cur := [], inQ := false } := by
            simp [colStep, hb]
          have hq0 : q % 2 = 0 := by
            rw [hb] at hq
            have := of_decide_eq_false hq.symm
            omega
          have hq' : (colStep st ',').inQ = decide (q % 2 = 1) := by
            rw [hst, ← hq, hb]
          rw [ih _ q hq', hst]
          simp only [List.getElem?_cons_zero, List.getElem?_cons_succ, hcnt, List.take_zero,
            List.count_nil, Nat.add_zero, hq0, decide_True, Bool.and_self, if_true,
            List.length_append, List.length_singleton]
          omega
        · have hst : colStep st ',' = { st with cur := st.cur ++ [','] } := by
            simp [colStep, hb]
          have hq1 : q % 2 = 1 := by
            rw [hb] at hq
            exact of_decide_eq_true hq.symm
          have hq' : (colStep st ',').inQ = decide (q % 2 = 1) := by
            rw [hst]; exact hq
          rw [ih _ q hq', hst]
          have h0 : decide (q % 2 = 0) = false := by
            rw [decide_eq_false_iff_not]; omega
          simp only [List.getElem?_cons_zero, List.getElem?_cons_succ, hcnt, List.take_zero,
            List.count_nil, Nat.add_zero, h0, Bool.and_false, Bool.false_eq_true, if_false,
            Nat.zero_add]
      · have hst : colStep st c = { st with cur := st.cur ++ [c] } := by
          simp [colStep, hc, hcomma]
        have hq' : (colStep st c).inQ = decide (q % 2 = 1) := by
          rw [hst]; exact hq
        have hcnt : ∀ i, (List.take (i + 1) (c :: cs)).count '"' = (cs.take i).count '"' := by
          intro i
          rw [List.take_succ_cons, List.count_cons_of_ne (fun h => hc h.symm)]
        rw [ih _ q hq', hst]
        have h0 : decide (some c = some ',') = false := by
          rw [decide_eq_false_iff_not]
          exact fun h => hcomma (Option.some.inj h)
        simp only [List.getElem?_cons_zero, List.getElem?_cons_succ, hcnt, h0, Bool.false_and,
          Bool.false_eq_true, if_false, Nat.zero_add]

theorem splitCols_length (line : JSString) :
    (splitCols line).length = 1 + Spec.separatorCount line := by
  unfold splitCols Spec.separatorCount
  simp only [List.length_append, List.length_singleton]
  rw [foldl_colStep_cols_length line { cols := [], cur := [], inQ := false } 0 (by decide)]
  simp only [List.length_nil, Nat.zero_add]
  omega

theorem mem_of_mem_trim (s : JSString) (c : Char) (h : c ∈ trim s) : c ∈ s := by
  unfold trim at h
  exact (List.dropWhile_suffix _).subset
    (List.IsPrefix.subset ( List.rdropWhile_prefix _ _) h)

theorem colStep_no_quote (st : ColState) (ch : Char)
    (h : (∀ c ∈ st.cols, '"' ∉ c) ∧ '"' ∉ st.cur) :
    (∀ c ∈ (colStep st ch).cols, '"' ∉ c) ∧ '"' ∉ (colStep st ch).cur := by
  unfold colStep
  split_ifs with h1 h2
  · exact h
  · refine ⟨?_, by simp⟩
    intro c hc
    rcases List.mem_append.mp hc with h3 | h3
    · exact h.1 c h3
    · rw [List.mem_singleton.mp h3]
      exact fun hm => h.2 (mem_of_mem_trim _ _ hm)
  · refine ⟨h.1, ?_⟩
    simp only [List.mem_append, List.mem_singleton, not_or]
    exact ⟨h.2, fun he => h1 he.symm⟩

theorem foldl_colStep_no_quote (line : JSString) :
    ∀ st : ColState, ((∀ c ∈ st.cols, '"' ∉ c) ∧ '"' ∉ st.cur) →
      (∀ c ∈ (line.foldl colStep st).cols, '"' ∉ c) ∧ '"' ∉ (line.foldl colStep st).cur := by
  induction line with
  | nil => intro st h; exact h
  | cons ch rest ih => intro st h; exact ih _ (colStep_no_quote st ch h)

theorem splitCols_no_quote (line : JSString) : ∀ c ∈ splitCols line, '"' ∉ c := by
  intro c hc
  have h := foldl_colStep_no_quote line { cols := [], cur := [], inQ := false }
    ⟨by simp, by simp⟩
  unfold splitCols at hc
  rcases List.mem_append.mp hc with h1 | h1
  · exact h.1 c h1
  · rw [List.mem_singleton.mp h1]
    exact fun hm => h.2 (mem_of_mem_trim _ _ hm)

/-- C15: in the column loop a double-quote only toggles the in-quotes flag, a comma read
while the flag is set is appended to the current cell, a comma read while it is clear pushes
the trimmed current cell; so a line has 1 plus as many cells as it has commas preceded by an
even number of double-quotes, no cell contains a double-quote, and every cell is trimmed
(`a,"b,c",d` has the three cells `a`, `b,c`, `d`). -/
theorem C15_quoted_commas (line : JSString) :
    (∀ cols cur inQ, colStep { cols := cols, cur := cur, inQ := inQ } '"'
        = { cols := cols, cur := cur, inQ := !inQ })
      ∧ (∀ cols cur, colStep { cols := cols, cur := cur, inQ := true } ','
        = { cols := cols, cur := cur ++ [','], inQ := true })
      ∧ (∀ cols cur, colStep { cols := cols, cur := cur, inQ := false } ','
        = { cols := cols ++ [trim cur], cur := [], inQ := false })
      ∧ (splitCols line).length = 1 + Spec.separatorCount line
      ∧ (∀ c ∈ splitCols line, '"' ∉ c ∧ trim c = c)
      ∧ splitCols "a,\"b,c\",d".toList = ["a".toList, "b,c".toList, "d".toList] := by
  refine ⟨?_, ?_, ?_, splitCols_length line, ?_, by decide⟩
  · intro cols cur inQ; simp [colStep]
  · intro cols cur; simp [colStep]
  · intro cols cur; simp [colStep]
  · intro c hc
    exact ⟨splitCols_no_quote line c hc, splitCols_trimmed line c hc⟩

end CSV

/-! ## The delimiter -/

namespace CSV

open JSStr

/-- Without a comma or a double-quote the column loop only appends to the current cell. -/
theorem foldl_colStep_plain (s : JSString) (h1 : ',' ∉ s) (h2 : '"' ∉ s) :
    ∀ st : ColState, s.foldl colStep st = { st with cur := st.cur ++ s } := by
  induction s with
  | nil => intro st; simp
  | cons c t ih =>
    intro st
    have hc1 : c ≠ ',' := fun h => h1 (h ▸ List.mem_cons_self _ _)
    have hc2 : c ≠ '"' := fun h => h2 (h ▸ List.mem_cons_self _ _)
    have hst : colStep st c = { st with cur := st.cur ++ [c] } := by
      simp [colStep, hc1, hc2]
    rw [List.foldl_cons, hst,
      ih (fun h => h1 (List.mem_cons_of_mem _ h)) (fun h => h2 (List.mem_cons_of_mem _ h))]
    simp

theorem splitCols_plain (s : JSString) (h1 : ',' ∉ s) (h2 : '"' ∉ s) :
    splitCols s = [trim s] := by
  unfold splitCols
  rw [foldl_colStep_plain s h1 h2]
  simp

theorem headersOf_plain (cm : CaseMap) (text : JSString)
    (h : ',' ∉ (linesOf text).headD []) :
    headersOf cm text
      = [replaceWhiteSpaceRuns (cm.toLowerCase (trim ((linesOf text).headD [])))] := by
  unfold headersOf parseHeaders
  rw [split_of_not_mem ',' _ h]
  rfl

/-- With a single header key a task row never has all of its required cells. -/
theorem parsed_eq_nil_of_single_header (cm : CaseMap) (pid text : JSString) (k : JSString)
    (h : headersOf cm text = [k]) : (TaskCSVUpload.parseCSV cm pid text).parsed = [] := by
  apply List.eq_nil_iff_forall_not_mem.mpr
  intro r hr
  obtain ⟨line, _, _, ⟨ht, hw, _⟩, _⟩ := TaskCSVUpload.mem_parsed cm pid text r hr
  rw [h] at ht hw
  have kt : "title".toList ∈ [k] := by
    by_contra hn
    exact ht (cell_eq_nil_of_not_mem _ _ _ hn)
  have kw : "week".toList ∈ [k] := by
    by_contra hn
    exact hw (cell_eq_nil_of_not_mem _ _ _ hn)
  rw [List.mem_singleton] at kt kw
  exact absurd (kt.trans kw.symm) (by decide)

set_option maxRecDepth 100000 in
/-- C16, as stated, fails: the cells of the table `title, week, section` / `A, 3, S` contain
no comma, semicolon or quote; joined with commas the text gives one record and no error,
joined with semicolons it gives no record and the error that all three required fields are
missing. -/
theorem C16_semicolon_text_not_parsed :
    (∀ row ∈ Sample.oneTaskTable, ∀ c ∈ row, ',' ∉ c ∧ ';' ∉ c ∧ '"' ∉ c)
      ∧ Spec.delimitedText ',' Sample.oneTaskTable = Sample.oneTaskCsv
      ∧ Spec.delimitedText ';' Sample.oneTaskTable = Sample.semicolonCsv
      ∧ (TaskCSVUpload.parseCSV asciiCase "p1".toList
          (Spec.delimitedText ',' Sample.oneTaskTable)).parsed = [Sample.oneTaskRecord]
      ∧ (TaskCSVUpload.parseCSV asciiCase "p1".toList
          (Spec.delimitedText ',' Sample.oneTaskTable)).errs = []
      ∧ (TaskCSVUpload.parseCSV asciiCase "p1".toList
          (Spec.delimitedText ';' Sample.oneTaskTable)).parsed = []
      ∧ (TaskCSVUpload.parseCSV asciiCase "p1".toList
          (Spec.delimitedText ';' Sample.oneTaskTable)).errs
        = ["Row 2: Missing required fields — title, week, section".toList] := by
  refine ⟨by decide, by decide, by decide, by decide, by decide, by decide, by decide⟩

/-- C16, amended: only the comma separates cells.  A line without a comma and without a
double-quote, whatever semicolons it has, is the single cell of its trimmed text; a header
line without a comma gives a single key; and a task text whose header line has no comma
imports no record. -/
theorem C16_comma_only_amended (cm : CaseMap) (pid text : JSString)
    (h : ',' ∉ (linesOf text).headD []) :
    headersOf cm text
        = [replaceWhiteSpaceRuns (cm.toLowerCase (trim ((linesOf text).headD [])))]
      ∧ (∀ line ∈ dataLinesOf text, ',' ∉ line → '"' ∉ line → splitCols line = [trim line])
      ∧ (TaskCSVUpload.parseCSV cm pid text).parsed = [] :=
  ⟨headersOf_plain cm text h, fun line _ h1 h2 => splitCols_plain line h1 h2,
    parsed_eq_nil_of_single_header cm pid text _ (headersOf_plain cm text h)⟩

/-- C16, amended, at the semicolon-delimited text `title;week;section` / `A;3;S`. -/
theorem C16_comma_only_amended_witness :
    ',' ∉ (linesOf Sample.semicolonCsv).headD []
      ∧ headersOf asciiCase Sample.semicolonCsv = ["title;week;section".toList]
      ∧ splitCols "A;3;S".toList = ["A;3;S".toList]
      ∧ (TaskCSVUpload.parseCSV asciiCase "p1".toList Sample.semicolonCsv).parsed = [] :=
  ⟨by decide,
    (C16_comma_only_amended asciiCase "p1".toList Sample.semicolonCsv (by decide)).1.trans
      (by decide),
    ((C16_comma_only_amended asciiCase "p1".toList Sample.semicolonCsv (by decide)).2.1
      "A;3;S".toList (by decide) (by decide) (by decide)).trans (by decide),
    (C16_comma_only_amended asciiCase "p1".toList Sample.semicolonCsv (by decide)).2.2⟩

end CSV

/-! ## Header keys -/

namespace JSStr

theorem splitBy_loop_append {α : Type} (R : α → α → Bool) (l : List α) :
    ∀ (a : α) (g : List α) (gs : List (List α)),
      List.splitBy.loop R l a g gs = gs.reverse ++ List.splitBy.loop R l a g [] := by
  induction l with
  | nil => intro a g gs; simp [List.splitBy.loop]
  | cons b l ih =>
    intro a g gs
    rcases h : R a b with _ | _
    · simp only [List.splitBy.loop, h]
      rw [ih b [] ((a :: g).reverse :: gs), ih b [] [(a :: g).reverse]]
      simp
    · simp only [List.splitBy.loop, h]
      exact ih b (a :: g) gs

theorem splitBy_loop_cons {α : Type} (R : α → α → Bool) (l : List α) (a b : α) (g : List α) :
    List.splitBy.loop R (b :: l) a g []
      = if R a b = true then List.splitBy.loop R l b (a :: g) []
        else (a :: g).reverse :: List.splitBy.loop R l b [] [] := by
  rcases h : R a b with _ | _
  · simp only [List.splitBy.loop, h]
    rw [splitBy_loop_append R l b [] [(a :: g).reverse]]
    simp
  · simp only [List.splitBy.loop, h]
    simp

/-- The runs found by `splitBy`, with the white-space runs replaced, from a run in progress
whose characters are all of the kind of `a`. -/
theorem collapse_loop (l : JSString) :
    ∀ (a : Char) (g : JSString), (∀ c ∈ g, isWhiteSpace c = isWhiteSpace a) →
      ((List.splitBy.loop (fun a b => isWhiteSpace a == isWhiteSpace b) l a g []).map
          (fun run => if run.all isWhiteSpace then ['_'] else run)).flatten
        = (if isWhiteSpace a = true then ['_'] else (a :: g).reverse)
          ++ replaceRunsFrom (isWhiteSpace a) l := by
  induction l with
  | nil =>
    intro a g hg
    have hall : (a :: g).reverse.all isWhiteSpace = isWhiteSpace a := by
      rcases ha : isWhiteSpace a with _ | _
      · rw [List.all_eq_false]
        exact ⟨a, by simp, by simp [ha]⟩
      · rw [List.all_eq_true]
        intro c hc
        rcases List.mem_cons.mp (List.mem_reverse.mp hc) with h | h
        · rw [h, ha]
        · rw [hg c h, ha]
    simp only [List.splitBy.loop, List.reverse_singleton, List.map_cons,
      List.map_nil, List.flatten_cons, List.flatten_nil, List.append_nil, hall,
      replaceRunsFrom]
  | cons b l ih =>
    intro a g hg
    rw [splitBy_loop_cons]
    rcases ha : isWhiteSpace a with _ | _ <;> rcases hb : isWhiteSpace b with _ | _
    · have hg' : ∀ c ∈ a :: g, isWhiteSpace c = isWhiteSpace b := by
        intro c hc
        rcases List.mem_cons.mp hc with h | h
        · rw [h, ha, hb]
        · rw [hg c h, ha, hb]
      simp only [ha, hb, beq_self_eq_true, if_true]
      rw [ih b (a :: g) hg']
      simp [hb, replaceRunsFrom]
    · have hall : (a :: g).reverse.all isWhiteSpace = false := by
        rw [List.all_eq_false]
        exact ⟨a, by simp, by simp [ha]⟩
      simp only [ha, hb, Bool.false_eq_true, if_false, List.map_cons, List.flatten_cons, hall,
        show ((false == true) = true) = False by simp]
      rw [ih b [] (by simp)]
      simp [hb, replaceRunsFrom]
    · have hall : (a :: g).reverse.all isWhiteSpace = true := by
        rw [List.all_eq_true]
        intro c hc
        rcases List.mem_cons.mp (List.mem_reverse.mp hc) with h | h
        · rw [h, ha]
        · rw [hg c h, ha]
      simp only [ha, hb, if_true, List.map_cons, List.flatten_cons, hall,
        show ((true == false) = true) = False by simp, if_false]
      rw [ih b [] (by simp)]
      simp [hb, replaceRunsFrom]
    · have hg' : ∀ c ∈ a :: g, isWhiteSpace c = isWhiteSpace b := by
        intro c hc
        rcases List.mem_cons.mp hc with h | h
        · rw [h, ha, hb]
        · rw [hg c h, ha, hb]
      simp only [ha, hb, beq_self_eq_true, if_true]
      rw [ih b (a :: g) hg']
      simp [hb, replaceRunsFrom]

/-- The replacement `replace(/\s+/g, '_')` replaces every maximal run of white space by a
single underscore. -/
theorem replaceWhiteSpaceRuns_eq_collapse (s : JSString) :
    replaceWhiteSpaceRuns s = Spec.collapseWhiteSpaceRuns s := by
  unfold replaceWhiteSpaceRuns Spec.collapseWhiteSpaceRuns
  rcases s with _ | ⟨a, l⟩
  · rfl
  · simp only [List.splitBy]
    rw [collapse_loop l a [] (by simp)]
    rcases ha : isWhiteSpace a with _ | _ <;> simp [ha, replaceRunsFrom]

end JSStr

namespace CSV

open JSStr

/-- The lines of a text that starts with a trimmed, non-empty header line. -/
theorem linesOf_header_append (H rest : JSString) (hne : H ≠ []) (ht : trim H = H)
    (hnl : '\n' ∉ H) :
    linesOf (H ++ '\n' :: rest)
      = H :: (if ∀ c ∈ rest, isWhiteSpace c = true then []
          else split '\n' (rest.rdropWhile isWhiteSpace)) := by
  obtain ⟨c, h', rfl⟩ := List.exists_cons_of_ne_nil hne
  have hc : isWhiteSpace c = false := trim_head_not_ws _ c h' ht
  have hd : (c :: h').dropWhile isWhiteSpace = c :: h' :=
    List.dropWhile_cons_of_neg (by simp [hc])
  have hr : (c :: h').rdropWhile isWhiteSpace = c :: h' := by
    have := ht
    unfold trim at this
    rw [hd] at this
    exact this
  have htrim : trim (c :: h' ++ '\n' :: rest)
      = (c :: h' ++ '\n' :: rest).rdropWhile isWhiteSpace := by
    unfold trim
    rw [List.cons_append, List.dropWhile_cons_of_neg (by simp [hc])]
  unfold linesOf
  rw [htrim]
  by_cases hall : ∀ ch ∈ rest, isWhiteSpace ch = true
  · rw [if_pos hall, rdropWhile_append_of_all _ _ _ (by
      intro ch hch
      rcases List.mem_cons.mp hch with h | h
      · rw [h]; decide
      · exact hall ch h), hr, split_of_not_mem _ _ hnl]
  · rw [if_neg hall]
    have hex : ∃ ch ∈ rest, isWhiteSpace ch = false := by
      push_neg at hall
      obtain ⟨ch, h1, h2⟩ := hall
      exact ⟨ch, h1, by simpa using h2⟩
    have happ : c :: h' ++ '\n' :: rest = (c :: h' ++ ['\n']) ++ rest := by simp
    rw [happ, rdropWhile_append_of_exists _ _ _ hex]
    have happ' : (c :: h' ++ ['\n']) ++ rest.rdropWhile isWhiteSpace
        = c :: h' ++ '\n' :: rest.rdropWhile isWhiteSpace := by simp
    rw [happ', split_append_sep _ _ _ hnl]

/-- The two parsers read a text only through its header keys and its data lines. -/
theorem parseCSV_congr (cm : CaseMap) (pid text₁ text₂ : JSString)
    (hh : headersOf cm text₁ = headersOf cm text₂)
    (hd : dataLinesOf text₁ = dataLinesOf text₂) :
    TaskCSVUpload.parseCSV cm pid text₁ = TaskCSVUpload.parseCSV cm pid text₂
      ∧ ResourceCSVUpload.parseCSV cm pid text₁ = ResourceCSVUpload.parseCSV cm pid text₂ := by
  unfold TaskCSVUpload.parseCSV ResourceCSVUpload.parseCSV
  rw [hh, hd]
  exact ⟨rfl, rfl⟩

/-- C17: the header keys are the cells of the first line, each trimmed, lower-cased and with
every maximal run of white space replaced by one underscore, and the parsers read the header
line only through these keys; so the header ` Cost Per  Unit ` is the key `cost_per_unit`
and its column fills the cell `cost_per_unit`, and a text headed `Title, WEEK ,Section`
parses like the same text headed `title,week,section`. -/
theorem C17_header_normalisation (cm : CaseMap) (pid text : JSString) :
    headersOf cm text
        = (split ',' ((linesOf text).headD [])).map
            (fun h => Spec.collapseWhiteSpaceRuns (cm.toLowerCase (trim h)))
      ∧ (∀ text₂, headersOf cm text = headersOf cm text₂ → dataLinesOf text = dataLinesOf text₂ →
          TaskCSVUpload.parseCSV cm pid text = TaskCSVUpload.parseCSV cm pid text₂
            ∧ ResourceCSVUpload.parseCSV cm pid text = ResourceCSVUpload.parseCSV cm pid text₂)
      ∧ parseHeaders asciiCase " Cost Per  Unit ".toList = ["cost_per_unit".toList]
      ∧ cell (headersOf asciiCase "name, Cost Per  Unit \nCement bags,2500".toList)
          "Cement bags,2500".toList "cost_per_unit".toList = "2500".toList
      ∧ (∀ rest, TaskCSVUpload.parseCSV asciiCase pid ("Title, WEEK ,Section".toList ++ '\n' :: rest)
          = TaskCSVUpload.parseCSV asciiCase pid ("title,week,section".toList ++ '\n' :: rest)) := by
  refine ⟨?_, fun text₂ hh hd => parseCSV_congr cm pid text text₂ hh hd, by decide, by decide, ?_⟩
  · unfold headersOf parseHeaders
    exact List.map_congr_left (fun h _ => by rw [replaceWhiteSpaceRuns_eq_collapse])
  · intro rest
    have l1 := linesOf_header_append "Title, WEEK ,Section".toList rest (by decide) (by decide)
      (by decide)
    have l2 := linesOf_header_append "title,week,section".toList rest (by decide) (by decide)
      (by decide)
    refine (parseCSV_congr asciiCase pid _ _ ?_ ?_).1
    · unfold headersOf
      rw [l1, l2]
      simp only [List.headD_cons]
      decide
    · unfold dataLinesOf
      rw [l1, l2]
      rfl

end CSV

/-! ## The import loop -/

namespace TaskCSVUpload

theorem slice_length {α : Type} (rows : List α) (start stop : ℕ) :
    (JSArray.slice rows start stop).length = min stop rows.length - start := by
  unfold JSArray.slice
  rw [List.length_drop, List.length_take]

theorem take_append_slice {α : Type} (rows : List α) (a b : ℕ) (h : a ≤ b) :
    rows.take a ++ JSArray.slice rows a b = rows.take b := by
  unfold JSArray.slice
  have : rows.take a = (rows.take b).take a := by
    rw [List.take_take, Nat.min_eq_left h]
  rw [this, List.take_append_drop]

/-- The loop adds the consecutive slices of 20 rows that start below `rows.length`. -/
theorem insertLoop_eq (rows : List TaskRow) :
    ∀ (d i : ℕ) (calls : List (List TaskRow)), rows.length - i = d →
      insertLoop rows i calls
        = calls ++ (List.range ((rows.length - i + 19) / 20)).map
            (fun k => JSArray.slice rows (i + 20 * k) (i + 20 * k + 20)) := by
  intro d
  induction d using Nat.strong_induction_on with
  | _ d ih =>
    intro i calls hd
    rw [insertLoop]
    by_cases hi : i < rows.length
    · rw [if_pos hi, ih (rows.length - (i + chunkSize)) (by simp only [chunkSize]; omega)
        (i + chunkSize) _ rfl]
      have hm : (rows.length - i + 19) / 20 = (rows.length - (i + chunkSize) + 19) / 20 + 1 := by
        simp only [chunkSize]; omega
      rw [hm, List.range_succ_eq_map, List.map_cons, List.map_map, List.append_assoc]
      simp only [chunkSize, List.singleton_append, Nat.mul_zero, Nat.add_zero]
      congr 2
      apply List.map_congr_left
      intro k _
      simp only [Function.comp, Nat.succ_eq_add_one]
      congr 1 <;> omega
    · rw [if_neg hi]
      have hm : (rows.length - i + 19) / 20 = 0 := by omega
      rw [hm]
      simp

theorem handleImport_eq (rows : List TaskRow) :
    handleImport rows
      = (List.range ((rows.length + 19) / 20)).map
          (fun k => JSArray.slice rows (20 * k) (20 * k + 20)) := by
  unfold handleImport
  rw [insertLoop_eq rows _ 0 [] rfl]
  simp

theorem flatten_slices {α : Type} (rows : List α) (m : ℕ) :
    ((List.range m).map (fun k => JSArray.slice rows (20 * k) (20 * k + 20))).flatten
      = rows.take (20 * m) := by
  induction m with
  | zero => simp
  | succ m ih =>
    rw [List.range_succ, List.map_append, List.flatten_append, ih]
    simp only [List.map_cons, List.map_nil, List.flatten_cons, List.flatten_nil,
      List.append_nil]
    rw [take_append_slice rows _ _ (by omega)]
    congr 1

theorem ceil_div_twenty (n : ℕ) : ⌈(n : ℚ) / 20⌉₊ = (n + 19) / 20 := by
  apply le_antisymm
  · rw [Nat.ceil_le, div_le_iff₀ (by norm_num)]
    have : n ≤ (n + 19) / 20 * 20 := by omega
    exact_mod_cast this
  · have h := Nat.le_ceil ((n : ℚ) / 20)
    rw [div_le_iff₀ (by norm_num)] at h
    have h' : n ≤ ⌈(n : ℚ) / 20⌉₊ * 20 := by exact_mod_cast h
    omega

end TaskCSVUpload

namespace TaskCSVUpload

/-- C18: `handleImport` (a total function: its loop is defined by recursion on
`rows.length - i`) inserts chunks whose concatenation in call order is the list of rows;
every chunk is non-empty and has at most 20 rows, every chunk but the last has exactly 20,
the number of calls is `ceil(n / 20)`, and call `k` inserts `rows.slice(20 k, 20 k + 20)`
(45 rows go in chunks of 20, 20 and 5). -/
theorem C18_chunked_insert (rows : List TaskRow) :
    (handleImport rows).flatten = rows
      ∧ (∀ chunk ∈ handleImport rows, chunk ≠ [] ∧ chunk.length ≤ 20)
      ∧ (∀ k, k + 1 < (handleImport rows).length →
          ∃ chunk, (handleImport rows)[k]? = some chunk ∧ chunk.length = 20)
      ∧ (handleImport rows).length = ⌈(rows.length : ℚ) / 20⌉₊
      ∧ (∀ k, k < (handleImport rows).length →
          (handleImport rows)[k]? = some (JSArray.slice rows (20 * k) (20 * k + 20)))
      ∧ (handleImport (List.replicate 45 Sample.oneTaskRecord)).map List.length = [20, 20, 5] := by
  have hlen : (handleImport rows).length = (rows.length + 19) / 20 := by
    rw [handleImport_eq, List.length_map, List.length_range]
  have hget : ∀ k, k < (handleImport rows).length →
      (handleImport rows)[k]? = some (JSArray.slice rows (20 * k) (20 * k + 20)) := by
    intro k hk
    rw [hlen] at hk
    rw [handleImport_eq, List.getElem?_map, List.getElem?_range hk]
    rfl
  refine ⟨?_, ?_, ?_, ?_, hget, ?_⟩
  · rw [handleImport_eq, flatten_slices]
    exact List.take_of_length_le (by omega)
  · intro chunk hc
    rw [handleImport_eq] at hc
    obtain ⟨k, hk, rfl⟩ := List.mem_map.mp hc
    rw [List.mem_range] at hk
    have hl := slice_length rows (20 * k) (20 * k + 20)
    constructor
    · intro h
      rw [h, List.length_nil] at hl
      omega
    · omega
  · intro k hk
    refine ⟨_, hget k (by omega), ?_⟩
    rw [hlen] at hk
    rw [slice_length]
    omega
  · rw [hlen, ceil_div_twenty]
  · rw [handleImport_eq]
    simp only [List.length_replicate]
    decide

end TaskCSVUpload

/-! ## Costs -/

namespace JSNum

open JSFloat

/-- Evaluation of the Number nearest to a positive rational from its binade and its
neighbours. -/
theorem ofRat_eval {x : ℚ} (e n : ℤ) (he : -1022 ≤ e + 52) (h1 : (2 : ℚ) ^ (e + 52) ≤ x)
    (h2 : x < (2 : ℚ) ^ (e + 52 + 1)) (h3 : (n : ℚ) - 1 / 2 < x / (2 : ℚ) ^ e)
    (h4 : x / (2 : ℚ) ^ e < n + 1 / 2) (hs : x ≤ (2 : ℚ) ^ 64) :
    ofRat x = num ((n : ℚ) * (2 : ℚ) ^ e) := by
  have h0 : 0 ≤ x := le_trans (by positivity) h1
  rw [ofRat_small_nonneg h0 hs, fl_eval e n he h1 h2 h3 h4]

end JSNum

namespace ResourcesView

open JSNum JSFloat

theorem orZero_num (q : ℚ) (h : q ≠ 0) : orZero (some (num q)) = num q := by
  simp [orZero, JSNum.orElse, truthy, h]

theorem ofRat_tenth :
    ofRat (1 / 10) = num (((7205759403792794 : ℤ) : ℚ) * (2 : ℚ) ^ (-56 : ℤ)) := by
  apply ofRat_eval (-56) 7205759403792794 <;> norm_num

theorem ofRat_eight_tenths :
    ofRat (8 / 10) = num (((7205759403792794 : ℤ) : ℚ) * (2 : ℚ) ^ (-53 : ℤ)) := by
  apply ofRat_eval (-53) 7205759403792794 <;> norm_num

theorem ofRat_three_tenths :
    ofRat (3 / 10) = num (((5404319552844595 : ℤ) : ℚ) * (2 : ℚ) ^ (-54 : ℤ)) := by
  apply ofRat_eval (-54) 5404319552844595 <;> norm_num

theorem lineCost_unitResource (n e : ℤ) (hn : 0 < n) (h1 : n < 2 ^ 53) (he : -1074 ≤ e)
    (he' : e ≤ 0) :
    lineCost (Sample.unitResource (num ((n : ℚ) * (2 : ℚ) ^ e)))
      = num ((n : ℚ) * (2 : ℚ) ^ e) := by
  have hpos : (0 : ℚ) < (n : ℚ) * (2 : ℚ) ^ e := by
    have : (0 : ℚ) < (n : ℚ) := by exact_mod_cast hn
    positivity
  have hle : (n : ℚ) * (2 : ℚ) ^ e ≤ (2 : ℚ) ^ 64 := by
    have h2 : (n : ℚ) ≤ (2 : ℚ) ^ 53 := by exact_mod_cast h1.le
    have h3 : (2 : ℚ) ^ e ≤ 1 := zpow_le_one_of_nonpos₀ (by norm_num) he'
    calc (n : ℚ) * (2 : ℚ) ^ e ≤ (2 : ℚ) ^ 53 * 1 :=
          mul_le_mul h2 h3 (by positivity) (by positivity)
      _ ≤ (2 : ℚ) ^ 64 := by norm_num
  unfold lineCost Sample.unitResource
  simp only []
  rw [orZero_num 1 one_ne_zero, orZero_num _ hpos.ne', num_mul, one_mul,
    ofRat_small_nonneg hpos.le hle, fl_of_dyadic n e (by rw [abs_of_pos hn]; exact h1) he]

end ResourcesView

namespace ResourcesView

open JSNum JSFloat

/-- In the order 0.1, 0.8, 0.3 the total is 1.2. -/
theorem totalCost_decimalCosts :
    totalCost Sample.decimalCosts
      = num (((5404319552844595 : ℤ) : ℚ) * (2 : ℚ) ^ (-52 : ℤ)) := by
  show ((num 0 + lineCost (Sample.unitResource (ofRat (1 / 10))))
      + lineCost (Sample.unitResource (ofRat (8 / 10))))
      + lineCost (Sample.unitResource (ofRat (3 / 10))) = _
  rw [ofRat_tenth, ofRat_eight_tenths, ofRat_three_tenths,
    lineCost_unitResource 7205759403792794 (-56) (by norm_num) (by norm_num) (by norm_num)
      (by norm_num),
    lineCost_unitResource 7205759403792794 (-53) (by norm_num) (by norm_num) (by norm_num)
      (by norm_num),
    lineCost_unitResource 5404319552844595 (-54) (by norm_num) (by norm_num) (by norm_num)
      (by norm_num)]
  have e1 : num 0 + num (((7205759403792794 : ℤ) : ℚ) * (2 : ℚ) ^ (-56 : ℤ))
      = num (((7205759403792794 : ℤ) : ℚ) * (2 : ℚ) ^ (-56 : ℤ)) := by
    rw [num_add]
    apply ofRat_eval (-56) 7205759403792794 <;> norm_num
  have e2 : num (((7205759403792794 : ℤ) : ℚ) * (2 : ℚ) ^ (-56 : ℤ))
      + num (((7205759403792794 : ℤ) : ℚ) * (2 : ℚ) ^ (-53 : ℤ))
      = num (((8106479329266893 : ℤ) : ℚ) * (2 : ℚ) ^ (-53 : ℤ)) := by
    rw [num_add]
    apply ofRat_eval (-53) 8106479329266893 <;> norm_num
  have e3 : num (((8106479329266893 : ℤ) : ℚ) * (2 : ℚ) ^ (-53 : ℤ))
      + num (((5404319552844595 : ℤ) : ℚ) * (2 : ℚ) ^ (-54 : ℤ))
      = num (((5404319552844595 : ℤ) : ℚ) * (2 : ℚ) ^ (-52 : ℤ)) := by
    rw [num_add]
    apply ofRat_eval (-52) 5404319552844595 <;> norm_num
  rw [e1, e2, e3]

/-- In the order 0.3, 0.8, 0.1 the total is 1.2000000000000002. -/
theorem totalCost_decimalCosts_reverse :
    totalCost Sample.decimalCosts.reverse
      = num (((5404319552844596 : ℤ) : ℚ) * (2 : ℚ) ^ (-52 : ℤ)) := by
  show ((num 0 + lineCost (Sample.unitResource (ofRat (3 / 10))))
      + lineCost (Sample.unitResource (ofRat (8 / 10))))
      + lineCost (Sample.unitResource (ofRat (1 / 10))) = _
  rw [ofRat_tenth, ofRat_eight_tenths, ofRat_three_tenths,
    lineCost_unitResource 5404319552844595 (-54) (by norm_num) (by norm_num) (by norm_num)
      (by norm_num),
    lineCost_unitResource 7205759403792794 (-53) (by norm_num) (by norm_num) (by norm_num)
      (by norm_num),
    lineCost_unitResource 7205759403792794 (-56) (by norm_num) (by norm_num) (by norm_num)
      (by norm_num)]
  have e1 : num 0 + num (((5404319552844595 : ℤ) : ℚ) * (2 : ℚ) ^ (-54 : ℤ))
      = num (((5404319552844595 : ℤ) : ℚ) * (2 : ℚ) ^ (-54 : ℤ)) := by
    rw [num_add]
    apply ofRat_eval (-54) 5404319552844595 <;> norm_num
  have e2 : num (((5404319552844595 : ℤ) : ℚ) * (2 : ℚ) ^ (-54 : ℤ))
      + num (((7205759403792794 : ℤ) : ℚ) * (2 : ℚ) ^ (-53 : ℤ))
      = num (((4953959590107546 : ℤ) : ℚ) * (2 : ℚ) ^ (-52 : ℤ)) := by
    rw [num_add]
    apply ofRat_eval (-52) 4953959590107546 <;> norm_num
  have e3 : num (((4953959590107546 : ℤ) : ℚ) * (2 : ℚ) ^ (-52 : ℤ))
      + num (((7205759403792794 : ℤ) : ℚ) * (2 : ℚ) ^ (-56 : ℤ))
      = num (((5404319552844596 : ℤ) : ℚ) * (2 : ℚ) ^ (-52 : ℤ)) := by
    rw [num_add]
    apply ofRat_eval (-52) 5404319552844596 <;> norm_num
  rw [e1, e2, e3]

end ResourcesView

namespace ResourcesView

open JSNum JSFloat

/-- With integer quantities and unit costs and an exact total below `2 ^ 53` the `reduce`
makes no rounding error. -/
theorem foldl_cost_exact (q c : ResourceRow → ℕ) (items : List ResourceRow) :
    ∀ acc : ℕ,
      (∀ r ∈ items, orZero r.quantity = num (q r) ∧ orZero r.cost_per_unit = num (c r)) →
      acc + (items.map (fun r => q r * c r)).sum < 2 ^ 53 →
      items.foldl (fun s r => s + (orZero r.quantity * orZero r.cost_per_unit)) (num (acc : ℚ))
        = num ((acc + (items.map (fun r => q r * c r)).sum : ℕ) : ℚ) := by
  induction items with
  | nil => intro acc _ _; simp
  | cons r rest ih =>
    intro acc h hs
    rw [List.map_cons, List.sum_cons] at hs
    obtain ⟨hq, hc⟩ := h r (List.mem_cons_self _ _)
    have hstep : num (acc : ℚ) + (orZero r.quantity * orZero r.cost_per_unit)
        = num ((acc + q r * c r : ℕ) : ℚ) := by
      rw [hq, hc, num_mul]
      have e1 : ((q r : ℚ) * (c r : ℚ)) = ((q r * c r : ℕ) : ℚ) := by push_cast; rfl
      rw [e1, ofRat_natCast _ (by omega), num_add]
      have e2 : ((acc : ℚ) + ((q r * c r : ℕ) : ℚ)) = ((acc + q r * c r : ℕ) : ℚ) := by
        push_cast; rfl
      rw [e2, ofRat_natCast _ (by omega)]
    rw [List.foldl_cons, hstep, ih (acc + q r * c r)
      (fun x hx => h x (List.mem_cons_of_mem _ hx)) (by omega)]
    rw [List.map_cons, List.sum_cons, Nat.add_assoc]

theorem subperm_sum_le (q c : ResourceRow → ℕ) (items resources : List ResourceRow)
    (h : items.Subperm resources) :
    (items.map (fun r => q r * c r)).sum ≤ (resources.map (fun r => q r * c r)).sum := by
  obtain ⟨l, hp, hl⟩ := h
  rw [← (hp.map _).sum_eq]
  exact (hl.map _).sum_le_sum (fun _ _ => Nat.zero_le _)

/-- Every group drawn from the resources has its exact cost. -/
theorem group_cost_exact (q c : ResourceRow → ℕ) (resources : List ResourceRow)
    (h : ∀ r ∈ resources, orZero r.quantity = num (q r) ∧ orZero r.cost_per_unit = num (c r))
    (hs : (resources.map (fun r => q r * c r)).sum < 2 ^ 53)
    (items : List ResourceRow) (hi : items.Subperm resources) :
    items.foldl (fun s r => s + (orZero r.quantity * orZero r.cost_per_unit)) (num 0)
      = num (((items.map (fun r => q r * c r)).sum : ℕ) : ℚ) := by
  have hle := subperm_sum_le q c items resources hi
  have := foldl_cost_exact q c items 0 (fun r hr => h r (hi.subset hr)) (by omega)
  simpa using this

end ResourcesView

namespace ResourcesView

open JSNum JSFloat

/-- C19, as stated, fails: three resources of quantity 1 costing 0.1, 0.8 and 0.3 (all
non-negative) have the total 1.2 in this order and 1.2000000000000002 in the reverse order,
both as `totalCost` and as the `milestoneCost` of their common milestone group. -/
theorem C19_total_cost_depends_on_order :
    (∀ r ∈ Sample.decimalCosts, JSNum.le (num 0) (orZero r.quantity) = true
        ∧ JSNum.le (num 0) (orZero r.cost_per_unit) = true)
      ∧ Sample.decimalCosts.reverse.Perm Sample.decimalCosts
      ∧ totalCost Sample.decimalCosts
        = num (((5404319552844595 : ℤ) : ℚ) * (2 : ℚ) ^ (-52 : ℤ))
      ∧ totalCost Sample.decimalCosts.reverse
        = num (((5404319552844596 : ℤ) : ℚ) * (2 : ℚ) ^ (-52 : ℤ))
      ∧ totalCost Sample.decimalCosts.reverse ≠ totalCost Sample.decimalCosts
      ∧ milestoneCost Sample.decimalCosts.reverse ≠ milestoneCost Sample.decimalCosts := by
  have hne : totalCost Sample.decimalCosts.reverse ≠ totalCost Sample.decimalCosts := by
    rw [totalCost_decimalCosts, totalCost_decimalCosts_reverse]
    intro h
    have h' := JSNum.num.inj h
    norm_num at h'
  refine ⟨?_, List.reverse_perm _, totalCost_decimalCosts, totalCost_decimalCosts_reverse,
    hne, hne⟩
  intro r hr
  have hq : orZero (some (num 1)) = num 1 := orZero_num 1 one_ne_zero
  simp only [Sample.decimalCosts, List.mem_cons, List.mem_singleton, List.mem_nil_iff,
    or_false] at hr
  rcases hr with rfl | rfl | rfl
  · simp only [Sample.unitResource]
    rw [hq, ofRat_tenth, orZero_num _ (by norm_num)]
    simp only [JSNum.le, decide_eq_true_eq]
    constructor <;> norm_num
  · simp only [Sample.unitResource]
    rw [hq, ofRat_eight_tenths, orZero_num _ (by norm_num)]
    simp only [JSNum.le, decide_eq_true_eq]
    constructor <;> norm_num
  · simp only [Sample.unitResource]
    rw [hq, ofRat_three_tenths, orZero_num _ (by norm_num)]
    simp only [JSNum.le, decide_eq_true_eq]
    constructor <;> norm_num

/-- C19, amended: every total is the left-to-right sum in double arithmetic of the line
costs `(quantity || 0) * (cost_per_unit || 0)`.  When every quantity and unit cost is a
non-negative integer (`null` counting as 0) and the exact total of the list is below
`2 ^ 53`, the total cost of the list and of every group drawn from it equals the exact sum of
quantity times unit cost over its items, and the totals are unchanged by any permutation of
the list. -/
theorem C19_integer_costs_amended (resources : List ResourceRow) (q c : ResourceRow → ℕ)
    (h : ∀ r ∈ resources, orZero r.quantity = num (q r) ∧ orZero r.cost_per_unit = num (c r))
    (hs : (resources.map (fun r => q r * c r)).sum < 2 ^ 53) :
    totalCost resources = resources.foldl (fun sum r => sum + lineCost r) (num 0)
      ∧ totalCost resources = num (((resources.map (fun r => q r * c r)).sum : ℕ) : ℚ)
      ∧ (∀ items : List ResourceRow, items.Subperm resources →
          milestoneCost items = num (((items.map (fun r => q r * c r)).sum : ℕ) : ℚ))
      ∧ (∀ type, typeCost resources type
          = num ((((resources.filter (fun r => r.type = type)).map
              (fun r => q r * c r)).sum : ℕ) : ℚ))
      ∧ spentCost resources
          = num ((((resources.filter isDeployed).map (fun r => q r * c r)).sum : ℕ) : ℚ)
      ∧ (∀ resources' : List ResourceRow, resources'.Perm resources →
          totalCost resources' = totalCost resources
            ∧ spentCost resources' = spentCost resources
            ∧ (∀ status, statusCost resources' status = statusCost resources status)
            ∧ (∀ type, typeCost resources' type = typeCost resources type)) := by
  have key := group_cost_exact q c resources h hs
  have hfilter : ∀ (p : ResourceRow → Bool) (l : List ResourceRow), l.Perm resources →
      (l.filter p).foldl (fun s r => s + (orZero r.quantity * orZero r.cost_per_unit)) (num 0)
        = num ((((resources.filter p).map (fun r => q r * c r)).sum : ℕ) : ℚ) := by
    intro p l hl
    rw [key _ ((List.filter_sublist l).subperm.trans hl.subperm),
      ((hl.filter p).map _).sum_eq]
  refine ⟨rfl, key resources (List.Subperm.refl _), fun items hi => key items hi,
    fun type => hfilter _ resources (List.Perm.refl _),
    hfilter _ resources (List.Perm.refl _), ?_⟩
  intro resources' hp
  refine ⟨?_, ?_, ?_, ?_⟩
  · show resources'.foldl _ (num 0) = resources.foldl _ (num 0)
    rw [key resources' hp.subperm, key resources (List.Subperm.refl _), (hp.map _).sum_eq]
  · exact (hfilter _ resources' hp).trans (hfilter _ resources (List.Perm.refl _)).symm
  · intro status
    exact (hfilter _ resources' hp).trans (hfilter _ resources (List.Perm.refl _)).symm
  · intro type
    exact (hfilter _ resources' hp).trans (hfilter _ resources (List.Perm.refl _)).symm

/-- C19, amended, at 500 bags at 2500 and 8 persons at 25000: the total is 1450000. -/
theorem C19_integer_costs_amended_witness :
    totalCost Sample.twoPriced = num 1450000
      ∧ totalCost Sample.twoPriced.reverse = totalCost Sample.twoPriced := by
  have hp : ∀ r ∈ Sample.twoPriced,
      orZero r.quantity
          = num (((if r.status = "Planned".toList then 500 else 8 : ℕ) : ℕ) : ℚ)
        ∧ orZero r.cost_per_unit
          = num (((if r.status = "Planned".toList then 2500 else 25000 : ℕ) : ℕ) : ℚ) := by
    intro r hr
    simp only [Sample.twoPriced, List.mem_cons, List.mem_singleton, List.mem_nil_iff,
      or_false] at hr
    rcases hr with rfl | rfl
    · exact ⟨orZero_num _ (by norm_num [Sample.priced]),
        orZero_num _ (by norm_num [Sample.priced])⟩
    · exact ⟨orZero_num _ (by norm_num [Sample.priced]),
        orZero_num _ (by norm_num [Sample.priced])⟩
  have hsum : (Sample.twoPriced.map (fun r =>
      (if r.status = "Planned".toList then 500 else 8 : ℕ)
        * (if r.status = "Planned".toList then 2500 else 25000 : ℕ))).sum = 1450000 := by
    decide
  have hw := C19_integer_costs_amended Sample.twoPriced
    (fun r => if r.status = "Planned".toList then 500 else 8)
    (fun r => if r.status = "Planned".toList then 2500 else 25000) hp
    (by rw [hsum]; norm_num)
  refine ⟨?_, (hw.2.2.2.2.2 _ (List.reverse_perm _)).1⟩
  rw [hw.2.1, hsum]
  norm_num

end ResourcesView

/-! ## Grouping by milestone -/

namespace ResourcesView

theorem milestoneKey_blank (r : ResourceRow) (h : r.milestone = none ∨ r.milestone = some []) :
    milestoneKey r = "Unscheduled".toList := by
  unfold milestoneKey
  rcases h with h | h <;> rw [h] <;> rfl

theorem milestoneKey_label (r : ResourceRow) (c : Char) (cs : JSString)
    (h : r.milestone = some (c :: cs)) : milestoneKey r = c :: cs := by
  unfold milestoneKey
  rw [h]
  rfl

theorem find?_eq_none_of_not_mem (m : List (JSString × List ResourceRow)) (k : JSString)
    (h : k ∉ m.map Prod.fst) : m.find? (fun p => p.1 = k) = none := by
  rw [List.find?_eq_none]
  intro p hp
  simp only [decide_eq_true_eq]
  intro he
  exact h (List.mem_map.mpr ⟨p, hp, he⟩)

theorem find?_of_mem_nodup (m : List (JSString × List ResourceRow))
    (hn : (m.map Prod.fst).Nodup) (p : JSString × List ResourceRow) (hp : p ∈ m) :
    m.find? (fun q => q.1 = p.1) = some p := by
  induction m with
  | nil => exact absurd hp (List.not_mem_nil _)
  | cons a rest ih =>
    rw [List.map_cons, List.nodup_cons] at hn
    rcases List.mem_cons.mp hp with h | h
    · subst h
      simp
    · have hne : a.1 ≠ p.1 := by
        intro he
        exact hn.1 (he ▸ List.mem_map.mpr ⟨p, h, rfl⟩)
      rw [List.find?_cons_of_neg _ (by simpa using hne)]
      exact ih hn.2 h

theorem any_eq_false_of_not_mem (m : List (JSString × List ResourceRow)) (k : JSString)
    (h : k ∉ m.map Prod.fst) : m.any (fun p => p.1 = k) = false := by
  rw [List.any_eq_false]
  intro p hp
  simp only [decide_eq_true_eq]
  intro he
  exact h (List.mem_map.mpr ⟨p, hp, he⟩)

theorem any_eq_true_of_mem (m : List (JSString × List ResourceRow)) (k : JSString)
    (h : k ∈ m.map Prod.fst) : m.any (fun p => p.1 = k) = true := by
  obtain ⟨p, hp, he⟩ := List.mem_map.mp h
  rw [List.any_eq_true]
  exact ⟨p, hp, by simpa using he⟩

/-- The step on a key that is not yet a property and is not inherited: a new group. -/
theorem groupStep_new (m : List (JSString × List ResourceRow)) (r : ResourceRow)
    (hk : milestoneKey r ∉ m.map Prod.fst) (hp : milestoneKey r ∉ objectPrototypeKeys) :
    groupStep m r = some (m ++ [(milestoneKey r, [r])]) := by
  have h1 : getProp m (milestoneKey r) = Lookup.undefined := by
    unfold getProp
    rw [find?_eq_none_of_not_mem m _ hk, if_neg hp]
  have h2 : setProp m (milestoneKey r) [] = m ++ [(milestoneKey r, [])] := by
    unfold setProp
    rw [any_eq_false_of_not_mem m _ hk]
    rfl
  have h3 : getProp (m ++ [(milestoneKey r, [])]) (milestoneKey r) = Lookup.own [] := by
    unfold getProp
    rw [List.find?_append, find?_eq_none_of_not_mem m _ hk]
    simp
  have h4 : setProp (m ++ [(milestoneKey r, [])]) (milestoneKey r) ([] ++ [r])
      = m ++ [(milestoneKey r, [r])] := by
    unfold setProp
    have hany : (m ++ [(milestoneKey r, ([] : List ResourceRow))]).any
        (fun p => p.1 = milestoneKey r) = true := by simp
    have hmap : m.map (fun p => if p.1 = milestoneKey r then (milestoneKey r, [] ++ [r]) else p)
        = m := by
      conv_rhs => rw [← List.map_id m]
      apply List.map_congr_left
      intro p hp'
      have hne : p.1 ≠ milestoneKey r := fun he => hk (List.mem_map.mpr ⟨p, hp', he⟩)
      rw [if_neg hne]
      rfl
    rw [hany, if_pos rfl, List.map_append, hmap]
    simp
  unfold groupStep
  simp only [h1, h2, h3, h4]

end ResourcesView

namespace ResourcesView

theorem map_replace_of_not_mem (m : List (JSString × List ResourceRow)) (k : JSString)
    (v : List ResourceRow) (hk : k ∉ m.map Prod.fst) :
    m.map (fun p => if p.1 = k then (k, v) else p) = m := by
  conv_rhs => rw [← List.map_id m]
  apply List.map_congr_left
  intro p hp
  have hne : p.1 ≠ k := fun he => hk (List.mem_map.mpr ⟨p, hp, he⟩)
  rw [if_neg hne]
  rfl

theorem map_fst_replace (m : List (JSString × List ResourceRow)) (k : JSString)
    (v : List ResourceRow) :
    (m.map (fun p => if p.1 = k then (k, v) else p)).map Prod.fst = m.map Prod.fst := by
  rw [List.map_map]
  apply List.map_congr_left
  intro p _
  simp only [Function.comp]
  split_ifs with h
  · exact h.symm
  · rfl

theorem sum_length_replace (m : List (JSString × List ResourceRow)) (k : JSString)
    (v : List ResourceRow) (hn : (m.map Prod.fst).Nodup) (p0 : JSString × List ResourceRow)
    (hp0 : p0 ∈ m) (hk : p0.1 = k) :
    ((m.map (fun p => if p.1 = k then (k, v) else p)).map (fun p => p.2.length)).sum
        + p0.2.length
      = (m.map (fun p => p.2.length)).sum + v.length := by
  induction m with
  | nil => exact absurd hp0 (List.not_mem_nil _)
  | cons a rest ih =>
    rw [List.map_cons, List.nodup_cons] at hn
    rcases List.mem_cons.mp hp0 with h | h
    · subst h
      have hnot : k ∉ rest.map Prod.fst := hk ▸ hn.1
      rw [List.map_cons, if_pos hk, map_replace_of_not_mem rest k v hnot]
      simp only [List.map_cons, List.sum_cons]
      omega
    · have hne : a.1 ≠ k := by
        intro he
        exact hn.1 (he ▸ hk ▸ List.mem_map.mpr ⟨p0, h, rfl⟩)
      have := ih hn.2 h
      rw [List.map_cons, if_neg hne]
      simp only [List.map_cons, List.sum_cons]
      omega

/-- The step on a key that is already a property: the resource joins its group. -/
theorem groupStep_old (m : List (JSString × List ResourceRow)) (r : ResourceRow)
    (hn : (m.map Prod.fst).Nodup) (p0 : JSString × List ResourceRow) (hp0 : p0 ∈ m)
    (hk : p0.1 = milestoneKey r) :
    groupStep m r
      = some (m.map (fun p => if p.1 = milestoneKey r then (milestoneKey r, p0.2 ++ [r])
          else p)) := by
  have hf : m.find? (fun q => q.1 = milestoneKey r) = some p0 := by
    rw [← hk]
    exact find?_of_mem_nodup m hn p0 hp0
  have h1 : getProp m (milestoneKey r) = Lookup.own p0.2 := by
    unfold getProp
    rw [hf]
  have h2 : setProp m (milestoneKey r) (p0.2 ++ [r])
      = m.map (fun p => if p.1 = milestoneKey r then (milestoneKey r, p0.2 ++ [r]) else p) := by
    unfold setProp
    rw [any_eq_true_of_mem m _ (hk ▸ List.mem_map.mpr ⟨p0, hp0, rfl⟩), if_pos rfl]
  unfold groupStep
  simp only [h1, h2]

/-- The step on an inherited key that is not an own property throws. -/
theorem groupStep_inherited (m : List (JSString × List ResourceRow)) (r : ResourceRow)
    (hk : milestoneKey r ∉ m.map Prod.fst) (hp : milestoneKey r ∈ objectPrototypeKeys) :
    groupStep m r = none := by
  have h1 : getProp m (milestoneKey r) = Lookup.inherited := by
    unfold getProp
    rw [find?_eq_none_of_not_mem m _ hk, if_pos hp]
  unfold groupStep
  simp only [h1]

theorem filter_key_append (processed : List ResourceRow) (r : ResourceRow) (k : JSString) :
    (processed ++ [r]).filter (fun x => milestoneKey x = k)
      = processed.filter (fun x => milestoneKey x = k)
        ++ (if milestoneKey r = k then [r] else []) := by
  rw [List.filter_append]
  congr 1
  by_cases h : milestoneKey r = k
  · rw [if_pos h, List.filter_cons_of_pos (by simpa using h)]
    rfl
  · rw [if_neg h, List.filter_cons_of_neg (by simpa using h)]
    rfl

/-- The loop keeps the groups a partition of the resources seen so far. -/
theorem groupFrom_partition (rest : List ResourceRow) :
    ∀ (m : List (JSString × List ResourceRow)) (processed : List ResourceRow),
      (m.map Prod.fst).Nodup →
      (∀ p ∈ m, p.2 = processed.filter (fun x => milestoneKey x = p.1) ∧ p.2 ≠ []) →
      (∀ x ∈ processed, milestoneKey x ∈ m.map Prod.fst) →
      (m.map (fun p => p.2.length)).sum = processed.length →
      (∀ x ∈ rest, milestoneKey x ∉ objectPrototypeKeys) →
      ∃ m', groupFrom m rest = some m'
        ∧ (m'.map Prod.fst).Nodup
        ∧ (∀ p ∈ m', p.2 = (processed ++ rest).filter (fun x => milestoneKey x = p.1)
            ∧ p.2 ≠ [])
        ∧ (∀ x ∈ processed ++ rest, milestoneKey x ∈ m'.map Prod.fst)
        ∧ (m'.map (fun p => p.2.length)).sum = (processed ++ rest).length := by
  induction rest with
  | nil =>
    intro m processed h1 h2 h3 h4 _
    refine ⟨m, rfl, h1, ?_, ?_, ?_⟩
    · simpa using h2
    · simpa using h3
    · simpa using h4
  | cons r rest ih =>
    intro m processed h1 h2 h3 h4 hproto
    have hr := hproto r (List.mem_cons_self _ _)
    have happ : processed ++ r :: rest = (processed ++ [r]) ++ rest := by simp
    by_cases hk : milestoneKey r ∈ m.map Prod.fst
    · obtain ⟨p0, hp0, hk0⟩ := List.mem_map.mp hk
      have hstep := groupStep_old m r h1 p0 hp0 hk0
      obtain ⟨m', hm', g1, g2, g3, g4⟩ := ih
        (m.map (fun p => if p.1 = milestoneKey r then (milestoneKey r, p0.2 ++ [r]) else p))
        (processed ++ [r])
        (by rw [map_fst_replace]; exact h1)
        (by
          intro p hp
          obtain ⟨p', hp', rfl⟩ := List.mem_map.mp hp
          by_cases he : p'.1 = milestoneKey r
          · have hpp : p' = p0 := by
              have e1 := find?_of_mem_nodup m h1 p' hp'
              have e2 := find?_of_mem_nodup m h1 p0 hp0
              rw [he] at e1
              rw [hk0] at e2
              exact Option.some.inj (e1.symm.trans e2)
            rw [if_pos he]
            simp only []
            rw [filter_key_append, if_pos rfl, (h2 p0 hp0).1, hk0]
            exact ⟨rfl, by simp⟩
          · rw [if_neg he, filter_key_append, if_neg (fun h => he h.symm), List.append_nil]
            exact h2 p' hp')
        (by
          intro x hx
          rw [map_fst_replace]
          rcases List.mem_append.mp hx with h | h
          · exact h3 x h
          · rw [List.mem_singleton.mp h]; exact hk)
        (by
          have := sum_length_replace m (milestoneKey r) (p0.2 ++ [r]) h1 p0 hp0 hk0
          rw [List.length_append, List.length_singleton] at this ⊢
          omega)
        (fun x hx => hproto x (List.mem_cons_of_mem _ hx))
      refine ⟨m', ?_, g1, ?_, ?_, ?_⟩
      · show (match groupStep m r with
          | some m1 => groupFrom m1 rest
          | none => none) = some m'
        rw [hstep]
        exact hm'
      · rw [happ]; exact g2
      · rw [happ]; exact g3
      · rw [happ]; exact g4
    · have hstep := groupStep_new m r hk hr
      have hnone : processed.filter (fun x => milestoneKey x = milestoneKey r) = [] := by
        rw [List.filter_eq_nil_iff]
        intro x hx
        simp only [decide_eq_true_eq]
        intro he
        exact hk (he ▸ h3 x hx)
      obtain ⟨m', hm', g1, g2, g3, g4⟩ := ih (m ++ [(milestoneKey r, [r])]) (processed ++ [r])
        (by
          rw [List.map_append, List.map_singleton]
          exact List.Nodup.append h1 (List.nodup_singleton _)
            (by
              intro a ha hb
              rw [List.mem_singleton] at hb
              have hb' : a = milestoneKey r := hb
              rw [hb'] at ha
              exact hk ha))
        (by
          intro p hp
          rcases List.mem_append.mp hp with h | h
          · have hne : milestoneKey r ≠ p.1 :=
              fun he => hk (he ▸ List.mem_map.mpr ⟨p, h, rfl⟩)
            rw [filter_key_append, if_neg hne, List.append_nil]
            exact h2 p h
          · rw [List.mem_singleton.mp h]
            simp only []
            rw [filter_key_append, if_pos rfl, hnone]
            exact ⟨rfl, by simp⟩)
        (by
          intro x hx
          rw [List.map_append, List.mem_append]
          rcases List.mem_append.mp hx with h | h
          · exact Or.inl (h3 x h)
          · rw [List.mem_singleton.mp h]
            exact Or.inr (by simp))
        (by simp [h4])
        (fun x hx => hproto x (List.mem_cons_of_mem _ hx))
      refine ⟨m', ?_, g1, ?_, ?_, ?_⟩
      · show (match groupStep m r with
          | some m1 => groupFrom m1 rest
          | none => none) = some m'
        rw [hstep]
        exact hm'
      · rw [happ]; exact g2
      · rw [happ]; exact g3
      · rw [happ]; exact g4

end ResourcesView

namespace ResourcesView

/-- A resource whose key is inherited from `Object.prototype` makes the loop throw. -/
theorem groupFrom_throws (rest : List ResourceRow) :
    ∀ m : List (JSString × List ResourceRow),
      (m.map Prod.fst).Nodup →
      (∀ k ∈ m.map Prod.fst, k ∉ objectPrototypeKeys) →
      (∃ x ∈ rest, milestoneKey x ∈ objectPrototypeKeys) →
      groupFrom m rest = none := by
  induction rest with
  | nil =>
    intro m _ _ h
    obtain ⟨x, hx, _⟩ := h
    exact absurd hx (List.not_mem_nil _)
  | cons r rest ih =>
    intro m h1 h2 h
    show (match groupStep m r with
      | some m1 => groupFrom m1 rest
      | none => none) = none
    by_cases hr : milestoneKey r ∈ objectPrototypeKeys
    · rw [groupStep_inherited m r (fun hk => h2 _ hk hr) hr]
    · have hrest : ∃ x ∈ rest, milestoneKey x ∈ objectPrototypeKeys := by
        obtain ⟨x, hx, hp⟩ := h
        rcases List.mem_cons.mp hx with e | e
        · exact absurd (e ▸ hp) hr
        · exact ⟨x, e, hp⟩
      by_cases hk : milestoneKey r ∈ m.map Prod.fst
      · obtain ⟨p0, hp0, hk0⟩ := List.mem_map.mp hk
        rw [groupStep_old m r h1 p0 hp0 hk0]
        exact ih _ (by rw [map_fst_replace]; exact h1)
          (by rw [map_fst_replace]; exact h2) hrest
      · rw [groupStep_new m r hk hr]
        refine ih _ ?_ ?_ hrest
        · rw [List.map_append, List.map_singleton]
          exact List.Nodup.append h1 (List.nodup_singleton _)
            (by
              intro a ha hb
              rw [List.mem_singleton] at hb
              have hb' : a = milestoneKey r := hb
              rw [hb'] at ha
              exact hk ha)
        · intro k hk'
          rw [List.map_append, List.mem_append] at hk'
          rcases hk' with e | e
          · exact h2 k e
          · rw [List.map_singleton, List.mem_singleton] at e
            have e' : k = milestoneKey r := e
            rw [e']
            exact hr

/-- C20: the groups are keyed by `r.milestone || 'Unscheduled'`, so a blank or absent
milestone goes to `Unscheduled` and any other label is its own key.  For every resource
list none of whose keys is the name of a property of `Object.prototype`, the loop ends with
groups of distinct keys, each group being the resources of its key in input order and not
empty, every resource being in the group of its key, and the group sizes adding up to the
number of resources.  A key that names a property of `Object.prototype`, such as the label
`constructor`, makes the loop throw: the claim fails for such lists. -/
theorem C20_milestone_grouping (resources : List ResourceRow) :
    milestones [Sample.constructorResource] = none
      ∧ ((∃ r ∈ resources, milestoneKey r ∈ objectPrototypeKeys) → milestones resources = none)
      ∧ ((∀ r ∈ resources, milestoneKey r ∉ objectPrototypeKeys) →
          ∃ m, milestones resources = some m
            ∧ (m.map Prod.fst).Nodup
            ∧ (∀ p ∈ m, p.2 = resources.filter (fun x => milestoneKey x = p.1) ∧ p.2 ≠ [])
            ∧ (∀ r ∈ resources, ∃ p ∈ m, p.1 = milestoneKey r ∧ r ∈ p.2)
            ∧ (m.map (fun p => p.2.length)).sum = resources.length)
      ∧ (∀ r : ResourceRow,
          (r.milestone = none ∨ r.milestone = some [] → milestoneKey r = "Unscheduled".toList)
          ∧ (∀ c cs, r.milestone = some (c :: cs) → milestoneKey r = c :: cs)) := by
  refine ⟨by decide, ?_, ?_, fun r => ⟨milestoneKey_blank r, milestoneKey_label r⟩⟩
  · intro h
    exact groupFrom_throws resources [] (by simp) (by simp) h
  · intro h
    obtain ⟨m, hm, g1, g2, g3, g4⟩ := groupFrom_partition resources [] [] (by simp)
      (by simp) (by simp) (by simp) h
    rw [List.nil_append] at g2 g3 g4
    refine ⟨m, hm, g1, g2, ?_, g4⟩
    intro r hr
    obtain ⟨p, hp, he⟩ := List.mem_map.mp (g3 r hr)
    refine ⟨p, hp, he, ?_⟩
    rw [(g2 p hp).1, List.mem_filter]
    exact ⟨hr, by simpa using he.symm⟩

end ResourcesView

/-! ## Sorting -/

namespace JSArray

theorem orderedInsert_congr {α : Type} (r s : α → α → Prop) [DecidableRel r] [DecidableRel s]
    (a : α) (l : List α) (h : ∀ b ∈ l, r a b ↔ s a b) :
    l.orderedInsert r a = l.orderedInsert s a := by
  induction l with
  | nil => rfl
  | cons b t ih =>
    have hb := h b (List.mem_cons_self _ _)
    have ht := ih (fun c hc => h c (List.mem_cons_of_mem _ hc))
    by_cases hr : r a b
    · simp only [List.orderedInsert, if_pos hr, if_pos (hb.mp hr)]
    · simp only [List.orderedInsert, if_neg hr, if_neg (fun hs => hr (hb.mpr hs)), ht]

/-- Two relations that agree on the distinct elements of a list without duplicates sort it
alike. -/
theorem insertionSort_congr {α : Type} (r s : α → α → Prop) [DecidableRel r] [DecidableRel s]
    (l : List α) (hn : l.Nodup) (h : ∀ a ∈ l, ∀ b ∈ l, a ≠ b → (r a b ↔ s a b)) :
    l.insertionSort r = l.insertionSort s := by
  induction l with
  | nil => rfl
  | cons a t ih =>
    rw [List.nodup_cons] at hn
    have ht := ih hn.2 (fun x hx y hy hxy =>
      h x (List.mem_cons_of_mem _ hx) y (List.mem_cons_of_mem _ hy) hxy)
    simp only [List.insertionSort]
    rw [ht]
    apply orderedInsert_congr
    intro b hb
    have hb' : b ∈ t := (List.mem_insertionSort s).mp hb
    exact h a (List.mem_cons_self _ _) b (List.mem_cons_of_mem _ hb')
      (fun e => hn.1 (e ▸ hb'))

/-- In a list sorted by a key, an element with a smaller key stands before one with a larger
key. -/
theorem pair_sublist_of_sorted {α K : Type} [LinearOrder K] (k : α → K) (l : List α)
    (hs : l.Pairwise (fun a b => k a ≤ k b)) (a b : α) (ha : a ∈ l) (hb : b ∈ l)
    (hab : k a < k b) : List.Sublist [a, b] l := by
  induction l with
  | nil => exact absurd ha (List.not_mem_nil _)
  | cons c t ih =>
    rw [List.pairwise_cons] at hs
    rcases List.mem_cons.mp ha with rfl | ha'
    · rcases List.mem_cons.mp hb with rfl | hb'
      · exact absurd hab (lt_irrefl _)
      · exact List.Sublist.cons₂ _ (List.singleton_sublist.mpr hb')
    · rcases List.mem_cons.mp hb with rfl | hb'
      · exact absurd (hs.1 a ha') (not_le.mpr hab)
      · exact List.Sublist.cons _ (ih hs.2 ha' hb')

theorem mem_distinct {α : Type} [DecidableEq α] (l : List α) (x : α) :
    x ∈ distinct l ↔ x ∈ l := by
  induction l with
  | nil => simp [distinct]
  | cons a t ih =>
    simp only [distinct, List.mem_cons, List.mem_filter, decide_eq_true_eq, ih]
    constructor
    · rintro (h | ⟨h, _⟩)
      · exact Or.inl h
      · exact Or.inr h
    · intro h
      by_cases e : x = a
      · exact Or.inl e
      · exact Or.inr ⟨h.resolve_left e, e⟩

theorem nodup_distinct {α : Type} [DecidableEq α] (l : List α) : (distinct l).Nodup := by
  induction l with
  | nil => simp [distinct]
  | cons a t ih =>
    simp only [distinct, List.nodup_cons, List.mem_filter, decide_eq_true_eq]
    exact ⟨fun h => h.2 rfl, ih.filter _⟩

end JSArray

namespace JSStr

theorem utf16_cons (c : Char) (s : JSString) :
    utf16 (c :: s)
      = (if c.toNat < 0x10000 then [c.toNat]
          else [0xD800 + (c.toNat - 0x10000) / 0x400, 0xDC00 + (c.toNat - 0x10000) % 0x400])
        ++ utf16 s := by
  simp [utf16]

theorem char_valid (c : Char) :
    c.toNat < 0xD800 ∨ (0xDFFF < c.toNat ∧ c.toNat < 0x110000) := by
  have h := c.valid
  unfold UInt32.isValidChar Nat.isValidChar at h
  exact h

theorem char_eq_of_toNat_eq (c d : Char) (h : c.toNat = d.toNat) : c = d := by
  apply Char.ext
  apply UInt32.ext
  exact h

/-- The UTF-16 encoding is injective. -/
theorem utf16_injective : ∀ (a b : JSString), utf16 a = utf16 b → a = b := by
  intro a
  induction a with
  | nil =>
    intro b h
    rcases b with _ | ⟨d, b⟩
    · rfl
    · rw [utf16_cons] at h
      split_ifs at h <;> simp [utf16] at h
  | cons c a ih =>
    intro b h
    rcases b with _ | ⟨d, b⟩
    · rw [utf16_cons] at h
      split_ifs at h <;> simp [utf16] at h
    · rw [utf16_cons, utf16_cons] at h
      have hc := char_valid c
      have hd := char_valid d
      by_cases h1 : c.toNat < 0x10000 <;> by_cases h2 : d.toNat < 0x10000
      · rw [if_pos h1, if_pos h2] at h
        simp only [List.singleton_append, List.cons.injEq] at h
        rw [char_eq_of_toNat_eq c d h.1, ih b h.2]
      · rw [if_pos h1, if_neg h2] at h
        simp only [List.singleton_append, List.cons_append, List.nil_append,
          List.cons.injEq] at h
        have := h.1
        omega
      · rw [if_neg h1, if_pos h2] at h
        simp only [List.singleton_append, List.cons_append, List.nil_append,
          List.cons.injEq] at h
        have := h.1
        omega
      · rw [if_neg h1, if_neg h2] at h
        simp only [List.cons_append, List.nil_append, List.cons.injEq] at h
        have e : c.toNat = d.toNat := by omega
        rw [char_eq_of_toNat_eq c d e]
        congr 1
        rcases b with _ | ⟨x, b'⟩
        · rcases a with _ | ⟨y, a'⟩
          · rfl
          · exact ih [] h.2.2
        · exact ih _ h.2.2

end JSStr

/-! ## The week list -/

namespace ProjectView

open JSStr

theorem defaultCompare_le_iff (a b : JSString) :
    JSNum.gt (defaultCompare a b) (JSNum.num 0) = false ↔ utf16 a ≤ utf16 b := by
  unfold defaultCompare JSStr.lt
  by_cases h1 : utf16 a < utf16 b
  · simp [h1, JSNum.gt, h1.le]
  · by_cases h2 : utf16 b < utf16 a
    · simp [h1, h2, JSNum.gt]
    · simp [h1, h2, JSNum.gt, not_lt.mp h2]

/-- The week list is the insertion sort of the distinct week labels by their code units. -/
theorem weeks_eq (tasks : List TaskRow) :
    weeks tasks
      = (JSArray.distinct (tasks.map (fun t => t.week))).insertionSort
          (fun a b => utf16 a ≤ utf16 b) := by
  unfold weeks JSArray.sort
  exact JSArray.insertionSort_congr _ _ _ (JSArray.nodup_distinct _)
    (fun a _ b _ _ => defaultCompare_le_iff a b)

/-- C25: the week list has no duplicate, holds exactly the week labels of the tasks, and is
strictly ascending in the lexicographic order of the UTF-16 code units; so `WEEK 10` stands
before `WEEK 2` whenever both occur (the tasks of the weeks 2, 10, 2, 1 give the list
`WEEK 1`, `WEEK 10`, `WEEK 2`). -/
theorem C25_weeks_lexicographic (tasks : List TaskRow) :
    (weeks tasks).Nodup
      ∧ (∀ w, w ∈ weeks tasks ↔ ∃ t ∈ tasks, t.week = w)
      ∧ (weeks tasks).Pairwise (fun a b => utf16 a < utf16 b)
      ∧ ("WEEK 10".toList ∈ weeks tasks → "WEEK 2".toList ∈ weeks tasks →
          List.Sublist ["WEEK 10".toList, "WEEK 2".toList] (weeks tasks))
      ∧ weeks Sample.fourWeeks = ["WEEK 1".toList, "WEEK 10".toList, "WEEK 2".toList] := by
  haveI : IsTotal JSString (fun a b => utf16 a ≤ utf16 b) := ⟨fun a b => le_total _ _⟩
  haveI : IsTrans JSString (fun a b => utf16 a ≤ utf16 b) :=
    ⟨fun a b c h1 h2 => le_trans h1 h2⟩
  have hperm := List.perm_insertionSort (fun a b => utf16 a ≤ utf16 b)
    (JSArray.distinct (tasks.map (fun t => t.week)))
  have hsorted := List.sorted_insertionSort (fun a b => utf16 a ≤ utf16 b)
    (JSArray.distinct (tasks.map (fun t => t.week)))
  rw [← weeks_eq] at hperm hsorted
  have hnodup : (weeks tasks).Nodup := hperm.nodup_iff.mpr (JSArray.nodup_distinct _)
  have hle : (weeks tasks).Pairwise (fun a b => utf16 a ≤ utf16 b) := hsorted
  refine ⟨hnodup, ?_, ?_, ?_, by decide⟩
  · intro w
    rw [hperm.mem_iff, JSArray.mem_distinct, List.mem_map]
  · have hboth : (weeks tasks).Pairwise (fun a b => a ≠ b ∧ utf16 a ≤ utf16 b) :=
      List.Pairwise.and hnodup hle
    exact hboth.imp (fun {a b} h =>
      lt_of_le_of_ne h.2 (fun e => h.1 (utf16_injective a b e)))
  · intro h1 h2
    exact JSArray.pair_sublist_of_sorted utf16 _ hle _ _ h1 h2 (by decide)

end ProjectView

/-! ## The keys of `milestones` -/

namespace JSArray

theorem distinct_append_singleton {α : Type} [DecidableEq α] (l : List α) (a : α) :
    distinct (l ++ [a]) = if a ∈ l then distinct l else distinct l ++ [a] := by
  induction l with
  | nil => simp [distinct]
  | cons c t ih =>
    have hd : distinct (c :: t ++ [a])
        = c :: (distinct (t ++ [a])).filter (fun b => decide (b ≠ c)) := rfl
    have hc : distinct (c :: t) = c :: (distinct t).filter (fun b => decide (b ≠ c)) := rfl
    rw [hd, hc, ih]
    by_cases h : a ∈ t
    · rw [if_pos h, if_pos (List.mem_cons_of_mem _ h)]
    · rw [if_neg h]
      by_cases e : a = c
      · subst e
        rw [if_pos (List.mem_cons_self _ _), List.filter_append]
        simp
      · rw [if_neg (by simp [e, h]), List.filter_append]
        simp [e]

/-- The last element of a sorted array is the element that compares greater than every
other one. -/
theorem getLast_insertionSort {α : Type} (r : α → α → Prop) [DecidableRel r] (u : α) :
    ∀ l : List α, u ∈ l → l.Nodup → (∀ a ∈ l, a ≠ u → r a u) → (∀ a ∈ l, a ≠ u → ¬ r u a) →
      ∃ init, l.insertionSort r = init ++ [u] := by
  have hend : ∀ L : List α, (∀ b ∈ L, ¬ r u b) → L.orderedInsert r u = L ++ [u] := by
    intro L
    induction L with
    | nil => intro _; rfl
    | cons b t ih =>
      intro h
      simp only [List.orderedInsert, if_neg (h b (List.mem_cons_self _ _)), List.cons_append]
      rw [ih (fun c hc => h c (List.mem_cons_of_mem _ hc))]
  have hkeep : ∀ (a : α) (L : List α), r a u →
      ∃ init, (L ++ [u]).orderedInsert r a = init ++ [u] := by
    intro a L hau
    induction L with
    | nil =>
      refine ⟨[a], ?_⟩
      simp [List.orderedInsert, hau]
    | cons b t ih =>
      by_cases hab : r a b
      · refine ⟨a :: b :: t, ?_⟩
        simp [List.orderedInsert, hab]
      · obtain ⟨init, hi⟩ := ih
        refine ⟨b :: init, ?_⟩
        have hb : (b :: t ++ [u]).orderedInsert r a = b :: (t ++ [u]).orderedInsert r a := by
          show (b :: (t ++ [u])).orderedInsert r a = _
          simp only [List.orderedInsert, if_neg hab]
        rw [hb, hi]
        rfl
  intro l
  induction l with
  | nil => intro hu; exact absurd hu (List.not_mem_nil _)
  | cons a t ih =>
    intro hu hn h1 h2
    rw [List.nodup_cons] at hn
    simp only [List.insertionSort]
    by_cases e : a = u
    · subst e
      refine ⟨t.insertionSort r, hend _ ?_⟩
      intro b hb
      have hb' : b ∈ t := (List.mem_insertionSort r).mp hb
      exact h2 b (List.mem_cons_of_mem _ hb') (fun e => hn.1 (e ▸ hb'))
    · have hut : u ∈ t := (List.mem_cons.mp hu).resolve_left (fun h => e h.symm)
      obtain ⟨init, hi⟩ := ih hut hn.2
        (fun b hb => h1 b (List.mem_cons_of_mem _ hb))
        (fun b hb => h2 b (List.mem_cons_of_mem _ hb))
      rw [hi]
      exact hkeep a init (h1 a (List.mem_cons_self _ _) e)

theorem perm_sort {α : Type} (comparefn : α → α → JSNum) (xs : List α) :
    (sort comparefn xs).Perm xs :=
  List.perm_insertionSort _ xs

end JSArray

namespace ResourcesView

open JSNum

theorem perm_objectKeys (created : List JSString) : (objectKeys created).Perm created := by
  unfold objectKeys
  refine ((List.perm_insertionSort _ _).append_right _).trans ?_
  have := List.filter_append_perm isArrayIndex created
  simpa using this

theorem objectKeys_of_no_index (created : List JSString)
    (h : ∀ k ∈ created, isArrayIndex k = false) : objectKeys created = created := by
  unfold objectKeys
  have h1 : created.filter isArrayIndex = [] := by
    rw [List.filter_eq_nil_iff]
    intro k hk
    simp [h k hk]
  have h2 : created.filter (fun k => !isArrayIndex k) = created := by
    rw [List.filter_eq_self]
    intro k hk
    simp [h k hk]
  rw [h1, h2]
  rfl

/-- What is known of `milestones` once it is built. -/
theorem milestones_some (resources : List ResourceRow)
    (m : List (JSString × List ResourceRow)) (h : milestones resources = some m) :
    (m.map Prod.fst).Nodup
      ∧ (∀ p ∈ m, p.2 = resources.filter (fun x => milestoneKey x = p.1) ∧ p.2 ≠ [])
      ∧ (∀ x ∈ resources, milestoneKey x ∈ m.map Prod.fst)
      ∧ (∀ x ∈ resources, milestoneKey x ∉ objectPrototypeKeys) := by
  have hproto : ∀ x ∈ resources, milestoneKey x ∉ objectPrototypeKeys := by
    intro x hx hp
    have := groupFrom_throws resources [] (by simp) (by simp) ⟨x, hx, hp⟩
    unfold milestones at h
    rw [this] at h
    exact absurd h (by simp)
  obtain ⟨m', hm', g1, g2, g3, -⟩ := groupFrom_partition resources [] [] (by simp)
    (by simp) (by simp) (by simp) hproto
  unfold milestones at h
  rw [hm'] at h
  have e : m' = m := Option.some.inj h
  subst e
  rw [List.nil_append] at g2 g3
  exact ⟨g1, g2, g3, hproto⟩

/-- The keys of `milestones` are the distinct group keys in the order of their first
occurrence. -/
theorem groupFrom_keys (rest : List ResourceRow) :
    ∀ (m m' : List (JSString × List ResourceRow)) (processed : List ResourceRow),
      m.map Prod.fst = JSArray.distinct (processed.map milestoneKey) →
      groupFrom m rest = some m' →
      m'.map Prod.fst = JSArray.distinct ((processed ++ rest).map milestoneKey) := by
  induction rest with
  | nil =>
    intro m m' processed hm h
    have e : m = m' := Option.some.inj h
    rw [← e, List.append_nil]
    exact hm
  | cons r rest ih =>
    intro m m' processed hm h
    have happ : processed ++ r :: rest = (processed ++ [r]) ++ rest := by simp
    have hn : (m.map Prod.fst).Nodup := hm ▸ JSArray.nodup_distinct _
    have hstep : (match groupStep m r with
        | some m1 => groupFrom m1 rest
        | none => none) = some m' := h
    by_cases hk : milestoneKey r ∈ m.map Prod.fst
    · obtain ⟨p0, hp0, hk0⟩ := List.mem_map.mp hk
      rw [groupStep_old m r hn p0 hp0 hk0] at hstep
      rw [happ]
      refine ih _ m' (processed ++ [r]) ?_ hstep
      rw [map_fst_replace, List.map_append, List.map_singleton,
        JSArray.distinct_append_singleton, if_pos]
      · exact hm
      · rw [← JSArray.mem_distinct, ← hm]
        exact hk
    · by_cases hp : milestoneKey r ∈ objectPrototypeKeys
      · rw [groupStep_inherited m r hk hp] at hstep
        exact absurd hstep (by simp)
      · rw [groupStep_new m r hk hp] at hstep
        rw [happ]
        refine ih _ m' (processed ++ [r]) ?_ hstep
        rw [List.map_append, List.map_singleton, List.map_append, List.map_singleton,
          JSArray.distinct_append_singleton, if_neg, hm]
        rw [← JSArray.mem_distinct, ← hm]
        exact hk

theorem milestones_keys (resources : List ResourceRow)
    (m : List (JSString × List ResourceRow)) (h : milestones resources = some m) :
    m.map Prod.fst = JSArray.distinct (resources.map milestoneKey) := by
  have := groupFrom_keys resources [] m [] rfl h
  simpa using this

/-- Once `milestones` is built, `milestoneKeys` is the sorted `Object.keys` of the distinct
group keys. -/
theorem milestoneKeys_some (resources : List ResourceRow) (ks : List JSString)
    (h : milestoneKeys resources = some ks) :
    ∃ m, milestones resources = some m
      ∧ ks = JSArray.sort compareKeys
          (objectKeys (JSArray.distinct (resources.map milestoneKey))) := by
  unfold milestoneKeys at h
  rcases hm : milestones resources with _ | m
  · rw [hm] at h
    exact absurd h (by simp)
  · rw [hm] at h
    refine ⟨m, rfl, ?_⟩
    rw [← milestones_keys resources m hm]
    exact (Option.some.inj h).symm

theorem perm_milestoneKeys (resources : List ResourceRow) (ks : List JSString)
    (h : milestoneKeys resources = some ks) :
    ks.Perm (JSArray.distinct (resources.map milestoneKey)) := by
  obtain ⟨m, -, hks⟩ := milestoneKeys_some resources ks h
  rw [hks]
  exact (JSArray.perm_sort _ _).trans (perm_objectKeys _)

end ResourcesView

namespace ResourcesView

open JSNum

/-- C21: once the groups are built, `Unscheduled` is among the sorted keys exactly when some
resource has the group key `Unscheduled` (a blank or absent milestone gives this key), and
it is then the last of the sorted keys, whatever the other labels are. -/
theorem C21_unscheduled_last (resources : List ResourceRow) (ks : List JSString)
    (h : milestoneKeys resources = some ks) :
    ("Unscheduled".toList ∈ ks ↔ ∃ r ∈ resources, milestoneKey r = "Unscheduled".toList)
      ∧ (∀ r ∈ resources, (r.milestone = none ∨ r.milestone = some []) →
          "Unscheduled".toList ∈ ks)
      ∧ ("Unscheduled".toList ∈ ks → ks.getLast? = some "Unscheduled".toList) := by
  have hperm := perm_milestoneKeys resources ks h
  have hmem : "Unscheduled".toList ∈ ks
      ↔ ∃ r ∈ resources, milestoneKey r = "Unscheduled".toList := by
    rw [hperm.mem_iff, JSArray.mem_distinct, List.mem_map]
  refine ⟨hmem, ?_, ?_⟩
  · intro r hr hb
    exact hmem.mpr ⟨r, hr, milestoneKey_blank r hb⟩
  · intro hu
    obtain ⟨m, -, hks⟩ := milestoneKeys_some resources ks h
    have hu' : "Unscheduled".toList
        ∈ objectKeys (JSArray.distinct (resources.map milestoneKey)) :=
      (perm_objectKeys _).mem_iff.mpr (hperm.mem_iff.mp hu)
    have hn : (objectKeys (JSArray.distinct (resources.map milestoneKey))).Nodup :=
      (perm_objectKeys _).nodup_iff.mpr (JSArray.nodup_distinct _)
    obtain ⟨init, hi⟩ := JSArray.getLast_insertionSort
      (fun a b => JSNum.gt (compareKeys a b) (num 0) = false) "Unscheduled".toList _ hu' hn
      (by
        intro a _ ha
        show JSNum.gt (compareKeys a "Unscheduled".toList) (num 0) = false
        unfold compareKeys
        rw [if_neg ha, if_pos rfl]
        simp only [JSNum.gt]
        norm_num)
      (by
        intro a _ _
        show ¬ JSNum.gt (compareKeys "Unscheduled".toList a) (num 0) = false
        unfold compareKeys
        rw [if_pos rfl]
        simp only [JSNum.gt]
        norm_num)
    rw [hks]
    unfold JSArray.sort
    rw [hi]
    simp

set_option maxRecDepth 100000 in
/-- C21 at four resources, two of WEEK 1, one with a blank and one with no milestone. -/
theorem C21_unscheduled_last_witness :
    milestoneKeys Sample.fourScheduled = some ["WEEK 1".toList, "Unscheduled".toList]
      ∧ ["WEEK 1".toList, "Unscheduled".toList].getLast? = some "Unscheduled".toList :=
  ⟨by decide,
    (C21_unscheduled_last Sample.fourScheduled ["WEEK 1".toList, "Unscheduled".toList]
      (by decide)).2.2 (by decide)⟩

end ResourcesView

/-! ## `parseInt` and the comparator -/

namespace JSStr

theorem isDigit_bounds (c : Char) (h : isDigit c = true) : 48 ≤ c.toNat ∧ c.toNat ≤ 57 := by
  unfold isDigit at h
  rw [Bool.and_eq_true, decide_eq_true_eq, decide_eq_true_eq] at h
  exact h

theorem not_ws_of_isDigit (c : Char) (h : isDigit c = true) : isWhiteSpace c = false := by
  have hb := isDigit_bounds c h
  unfold isWhiteSpace
  simp only [Bool.or_eq_false_iff, Bool.and_eq_false_iff, decide_eq_false_iff_not]
  omega

theorem radixDigit_ten (c : Char) (h : isDigit c = true) :
    radixDigit 10 c = some (c.toNat - '0'.toNat) := by
  have hb := isDigit_bounds c h
  have h0 : '0'.toNat = 48 := rfl
  have h9 : '9'.toNat = 57 := rfl
  unfold radixDigit
  simp only [h0, h9]
  rw [if_pos hb]
  simp only []
  rw [if_pos (by omega)]

theorem takeWhile_radixDigit (ds : JSString) (h : ∀ c ∈ ds, isDigit c = true) :
    ds.takeWhile (fun c => (radixDigit 10 c).isSome) = ds := by
  rw [List.takeWhile_eq_self_iff]
  intro c hc
  rw [radixDigit_ten c (h c hc)]
  rfl

theorem filterMap_radixDigit (ds : JSString) (h : ∀ c ∈ ds, isDigit c = true) :
    ds.filterMap (radixDigit 10) = ds.map (fun c => c.toNat - '0'.toNat) := by
  induction ds with
  | nil => rfl
  | cons c t ih =>
    rw [List.filterMap_cons, radixDigit_ten c (h c (List.mem_cons_self _ _)),
      ih (fun x hx => h x (List.mem_cons_of_mem _ hx))]
    rfl

theorem radixValue_map (ds : JSString) :
    radixValue 10 (ds.map (fun c => c.toNat - '0'.toNat)) = digitsValue ds := by
  unfold radixValue digitsValue
  rw [List.foldl_map]

/-- `parseInt` of a string of decimal digits. -/
theorem parseInt_digits (ds : JSString) (h : ∀ c ∈ ds, isDigit c = true) :
    parseInt ds = if ds = [] then JSNum.nan else JSNum.ofRat (digitsValue ds : ℚ) := by
  rcases ds with _ | ⟨c, rest⟩
  · rfl
  · have hc := h c (List.mem_cons_self _ _)
    have hb := isDigit_bounds c hc
    have hdrop : (c :: rest).dropWhile isWhiteSpace = c :: rest :=
      List.dropWhile_cons_of_neg (by simp [not_ws_of_isDigit c hc])
    have hm : c ≠ '-' := by
      intro e; rw [e] at hb; exact absurd hb (by decide)
    have hp : c ≠ '+' := by
      intro e; rw [e] at hb; exact absurd hb (by decide)
    have hx : ∀ d rest', rest = d :: rest' → d ≠ 'x' ∧ d ≠ 'X' := by
      intro d rest' e
      have hd := isDigit_bounds d (h d (by rw [e]; simp))
      constructor
      · intro e'; rw [e'] at hd; exact absurd hd (by decide)
      · intro e'; rw [e'] at hd; exact absurd hd (by decide)
    have hne : (c :: rest).map (fun c => c.toNat - '0'.toNat) ≠ [] := by simp
    rw [if_neg (List.cons_ne_nil _ _)]
    unfold parseInt
    simp only [hdrop]
    have hneg : (match c :: rest with
        | '-' :: _ => true
        | _ => false) = false := by
      split
      · next heq => exact absurd (List.cons.inj heq).1 hm
      · rfl
    have ht1 : (match c :: rest with
        | '-' :: r => r
        | '+' :: r => r
        | r => r) = c :: rest := by
      split
      · next heq => exact absurd (List.cons.inj heq).1 hm
      · next heq => exact absurd (List.cons.inj heq).1 hp
      · rfl
    rw [hneg, ht1]
    have hradix : (match c :: rest with
        | '0' :: 'x' :: _ => 16
        | '0' :: 'X' :: _ => 16
        | _ => 10) = 10 := by
      split
      · next heq =>
        obtain ⟨-, e2⟩ := List.cons.inj heq
        exact absurd rfl (hx _ _ e2).1
      · next heq =>
        obtain ⟨-, e2⟩ := List.cons.inj heq
        exact absurd rfl (hx _ _ e2).2
      · rfl
    have ht2 : (match c :: rest with
        | '0' :: 'x' :: r => r
        | '0' :: 'X' :: r => r
        | r => r) = c :: rest := by
      split
      · next heq =>
        obtain ⟨-, e2⟩ := List.cons.inj heq
        exact absurd rfl (hx _ _ e2).1
      · next heq =>
        obtain ⟨-, e2⟩ := List.cons.inj heq
        exact absurd rfl (hx _ _ e2).2
      · rfl
    rw [hradix, ht2, takeWhile_radixDigit _ h, filterMap_radixDigit _ h, if_neg hne,
      radixValue_map]
    simp

end JSStr

namespace ResourcesView

open JSNum JSFloat

theorem effectiveNumber_lt (a : JSString) (h : Spec.embeddedNumber a < 2 ^ 53) :
    Spec.effectiveNumber a < 2 ^ 53 := by
  unfold Spec.effectiveNumber
  split_ifs
  · norm_num
  · exact h

/-- The number read from a key whose embedded number is below `2^53`. -/
theorem keyNumber_eq (a : JSString) (h : Spec.embeddedNumber a < 2 ^ 53) :
    keyNumber a = num ((Spec.effectiveNumber a : ℕ) : ℚ) := by
  have hd : ∀ c ∈ a.filter JSStr.isDigit, JSStr.isDigit c = true :=
    fun c hc => (List.mem_filter.mp hc).2
  unfold keyNumber
  rw [JSStr.parseInt_digits _ hd]
  unfold Spec.effectiveNumber Spec.embeddedNumber at *
  by_cases hnil : a.filter JSStr.isDigit = []
  · rw [if_pos hnil, hnil]
    simp [JSNum.orElse, truthy, JSStr.digitsValue]
  · rw [if_neg hnil, ofRat_natCast _ h]
    by_cases h0 : JSStr.digitsValue (a.filter JSStr.isDigit) = 0
    · rw [if_pos h0, h0]
      simp [JSNum.orElse, truthy]
    · rw [if_neg h0]
      have : ((JSStr.digitsValue (a.filter JSStr.isDigit) : ℕ) : ℚ) ≠ 0 := by
        exact_mod_cast h0
      simp [JSNum.orElse, truthy, this]

/-- The comparator on two keys other than `Unscheduled` with numbers below `2^53`: the
difference of their effective numbers. -/
theorem compareKeys_eq (a b : JSString) (ha : a ≠ "Unscheduled".toList)
    (hb : b ≠ "Unscheduled".toList) (ha' : Spec.embeddedNumber a < 2 ^ 53)
    (hb' : Spec.embeddedNumber b < 2 ^ 53) :
    compareKeys a b
      = num (((Spec.effectiveNumber a : ℤ) - (Spec.effectiveNumber b : ℤ) : ℤ) : ℚ) := by
  have ea := effectiveNumber_lt a ha'
  have eb := effectiveNumber_lt b hb'
  unfold compareKeys
  rw [if_neg ha, if_neg hb, keyNumber_eq a ha', keyNumber_eq b hb', num_sub]
  have hcast : ((Spec.effectiveNumber a : ℕ) : ℚ) - ((Spec.effectiveNumber b : ℕ) : ℚ)
      = (((Spec.effectiveNumber a : ℤ) - (Spec.effectiveNumber b : ℤ) : ℤ) : ℚ) := by
    push_cast
    rfl
  have habs : |((Spec.effectiveNumber a : ℤ) - (Spec.effectiveNumber b : ℤ))| < 2 ^ 53 := by
    rw [abs_lt]
    constructor <;> omega
  rw [hcast, ofRat_small, fl_intCast _ habs]
  have : |((((Spec.effectiveNumber a : ℤ) - (Spec.effectiveNumber b : ℤ) : ℤ)) : ℚ)|
      < (2 : ℚ) ^ 53 := by
    exact_mod_cast habs
  linarith [show (2 : ℚ) ^ 53 ≤ 2 ^ 64 by norm_num]

/-- On two distinct keys with numbers below `2^53` the comparator puts `a` not after `b`
exactly when the rank of `a` is at most that of `b`. -/
theorem compareKeys_rank (a b : JSString) (hab : a ≠ b)
    (ha' : a ≠ "Unscheduled".toList → Spec.embeddedNumber a < 2 ^ 53)
    (hb' : b ≠ "Unscheduled".toList → Spec.embeddedNumber b < 2 ^ 53) :
    JSNum.gt (compareKeys a b) (num 0) = false
      ↔ Spec.milestoneRank a ≤ Spec.milestoneRank b := by
  unfold Spec.milestoneRank
  by_cases ha : a = "Unscheduled".toList
  · have hb : b ≠ "Unscheduled".toList := fun e => hab (ha.trans e.symm)
    rw [if_pos ha, if_neg hb]
    unfold compareKeys
    rw [if_pos ha]
    simp [JSNum.gt]
  · rw [if_neg ha]
    by_cases hb : b = "Unscheduled".toList
    · rw [if_pos hb]
      unfold compareKeys
      rw [if_neg ha, if_pos hb]
      simp only [JSNum.gt, le_top, iff_true, decide_eq_false_iff_not]
      norm_num
    · rw [if_neg hb, compareKeys_eq a b ha hb (ha' ha) (hb' hb)]
      simp only [JSNum.gt, decide_eq_false_iff_not, not_lt]
      have hr : (((Spec.effectiveNumber a : ℕ) : WithTop ℕ)
          ≤ ((Spec.effectiveNumber b : ℕ) : WithTop ℕ))
          ↔ Spec.effectiveNumber a ≤ Spec.effectiveNumber b := by
        exact WithTop.coe_le_coe
      rw [hr]
      constructor
      · intro h
        have h' : ((Spec.effectiveNumber a : ℤ) - (Spec.effectiveNumber b : ℤ)) ≤ 0 := by
          exact_mod_cast h
        omega
      · intro h
        have h' : ((Spec.effectiveNumber a : ℤ) - (Spec.effectiveNumber b : ℤ)) ≤ 0 := by
          omega
        exact_mod_cast h'

/-- With numbers below `2^53` the sorted keys are the `Object.keys` sorted stably by rank. -/
theorem milestoneKeys_sorted (resources : List ResourceRow) (ks : List JSString)
    (h : milestoneKeys resources = some ks)
    (hsmall : ∀ k ∈ ks, k ≠ "Unscheduled".toList → Spec.embeddedNumber k < 2 ^ 53) :
    ks.Pairwise (fun a b => Spec.milestoneRank a ≤ Spec.milestoneRank b) := by
  haveI : IsTotal JSString (fun a b => Spec.milestoneRank a ≤ Spec.milestoneRank b) :=
    ⟨fun a b => le_total _ _⟩
  haveI : IsTrans JSString (fun a b => Spec.milestoneRank a ≤ Spec.milestoneRank b) :=
    ⟨fun a b c h1 h2 => le_trans h1 h2⟩
  obtain ⟨m, -, hks⟩ := milestoneKeys_some resources ks h
  have hperm : ks.Perm (objectKeys (JSArray.distinct (resources.map milestoneKey))) := by
    rw [hks]
    exact JSArray.perm_sort _ _
  have hn : (objectKeys (JSArray.distinct (resources.map milestoneKey))).Nodup :=
    (perm_objectKeys _).nodup_iff.mpr (JSArray.nodup_distinct _)
  have hcongr : ks = (objectKeys (JSArray.distinct (resources.map milestoneKey))).insertionSort
      (fun a b => Spec.milestoneRank a ≤ Spec.milestoneRank b) := by
    rw [hks]
    unfold JSArray.sort
    exact JSArray.insertionSort_congr _ _ _ hn (fun a ha b hb hab =>
      compareKeys_rank a b hab (hsmall a (hperm.mem_iff.mpr ha))
        (hsmall b (hperm.mem_iff.mpr hb)))
  rw [hcongr]
  exact List.sorted_insertionSort _ _

/-- The sorted keys, from the keys of `milestones` in the order of their creation. -/
theorem milestoneKeys_of_keys (resources : List ResourceRow) (keys : List JSString)
    (h : (milestones resources).map (fun m => m.map Prod.fst) = some keys) :
    milestoneKeys resources = some (JSArray.sort compareKeys (objectKeys keys)) := by
  unfold milestoneKeys
  rcases hm : milestones resources with _ | m
  · rw [hm] at h
    exact absurd h (by simp)
  · rw [hm] at h
    simp only [Option.map_some', Option.some.injEq] at h
    simp only [h]

theorem sort_pair {α : Type} (comparefn : α → α → JSNum) (a b : α) :
    JSArray.sort comparefn [a, b]
      = if JSNum.gt (comparefn a b) (num 0) = false then [a, b] else [b, a] := rfl

end ResourcesView

namespace ResourcesView

open JSNum JSFloat

/-- The sorted keys of two groups whose keys are not array indices, not `Unscheduled` and
have numbers below `2^53`. -/
theorem milestoneKeys_pair (resources : List ResourceRow) (a b : JSString)
    (h : (milestones resources).map (fun m => m.map Prod.fst) = some [a, b])
    (hi : objectKeys [a, b] = [a, b])
    (ha : a ≠ "Unscheduled".toList) (hb : b ≠ "Unscheduled".toList)
    (ha' : Spec.embeddedNumber a < 2 ^ 53) (hb' : Spec.embeddedNumber b < 2 ^ 53) :
    milestoneKeys resources
      = some (if Spec.effectiveNumber a ≤ Spec.effectiveNumber b then [a, b] else [b, a]) := by
  rw [milestoneKeys_of_keys resources _ h, hi, sort_pair, compareKeys_eq a b ha hb ha' hb']
  congr 1
  by_cases hle : Spec.effectiveNumber a ≤ Spec.effectiveNumber b
  · have h0 : (((Spec.effectiveNumber a : ℤ) - (Spec.effectiveNumber b : ℤ) : ℤ) : ℚ) ≤ 0 := by
      have : ((Spec.effectiveNumber a : ℤ) - (Spec.effectiveNumber b : ℤ)) ≤ 0 := by omega
      exact_mod_cast this
    rw [if_pos hle, if_pos]
    simp only [JSNum.gt, decide_eq_false_iff_not, not_lt]
    exact h0
  · have h0 : (0 : ℚ) < (((Spec.effectiveNumber a : ℤ) - (Spec.effectiveNumber b : ℤ) : ℤ) : ℚ) := by
      have : 0 < ((Spec.effectiveNumber a : ℤ) - (Spec.effectiveNumber b : ℤ)) := by omega
      exact_mod_cast this
    rw [if_neg hle, if_neg]
    simp only [JSNum.gt, decide_eq_false_iff_not, not_not]
    exact h0

/-- C22 fails at the number 0: the keys `WEEK 0` and `WEEK 1` are sorted as `WEEK 1`,
`WEEK 0`, because `parseInt('0') || 999` is 999 (while `WEEK 10`, `WEEK 3` are sorted as
`WEEK 3`, `WEEK 10`).  For keys whose embedded numbers are below `2^53`, a key with an embedded
number of at least 1 stands before every key with a larger embedded number. -/
theorem C22_numeric_order_except_zero (resources : List ResourceRow) (ks : List JSString) :
    milestoneKeys Sample.weekZeroAndOne = some ["WEEK 1".toList, "WEEK 0".toList]
      ∧ Spec.embeddedNumber "WEEK 0".toList = 0
      ∧ Spec.embeddedNumber "WEEK 1".toList = 1
      ∧ keyNumber "WEEK 0".toList = num 999
      ∧ milestoneKeys Sample.weekTenAndThree = some ["WEEK 3".toList, "WEEK 10".toList]
      ∧ (milestoneKeys resources = some ks →
          (∀ k ∈ ks, k ≠ "Unscheduled".toList → Spec.embeddedNumber k < 2 ^ 53) →
          ∀ a ∈ ks, ∀ b ∈ ks, a ≠ "Unscheduled".toList → b ≠ "Unscheduled".toList →
            1 ≤ Spec.embeddedNumber a → Spec.embeddedNumber a < Spec.embeddedNumber b →
            List.Sublist [a, b] ks) := by
  have e0 : Spec.embeddedNumber "WEEK 0".toList = 0 := by decide
  have e1 : Spec.embeddedNumber "WEEK 1".toList = 1 := by decide
  have e3 : Spec.embeddedNumber "WEEK 3".toList = 3 := by decide
  have e10 : Spec.embeddedNumber "WEEK 10".toList = 10 := by decide
  refine ⟨?_, e0, e1, ?_, ?_, ?_⟩
  · rw [milestoneKeys_pair Sample.weekZeroAndOne "WEEK 0".toList "WEEK 1".toList (by decide)
      (by decide) (by decide) (by decide) (by rw [e0]; norm_num) (by rw [e1]; norm_num)]
    unfold Spec.effectiveNumber
    rw [e0, e1]
    rfl
  · rw [keyNumber_eq _ (by rw [e0]; norm_num)]
    unfold Spec.effectiveNumber
    rw [e0]
    norm_num
  · rw [milestoneKeys_pair Sample.weekTenAndThree "WEEK 10".toList "WEEK 3".toList (by decide)
      (by decide) (by decide) (by decide) (by rw [e10]; norm_num) (by rw [e3]; norm_num)]
    unfold Spec.effectiveNumber
    rw [e10, e3]
    rfl
  · intro h hsmall a ha b hb hau hbu h1 hlt
    have hs := milestoneKeys_sorted resources ks h hsmall
    apply JSArray.pair_sublist_of_sorted Spec.milestoneRank ks hs a b ha hb
    unfold Spec.milestoneRank Spec.effectiveNumber
    rw [if_neg hau, if_neg hbu, if_neg (by omega), if_neg (by omega)]
    exact WithTop.coe_lt_coe.mpr hlt

end ResourcesView

namespace ResourcesView

open JSNum JSFloat

/-- C23, as stated, fails: `Handover` has no digit and `WEEK 1000` has digits, yet the sorted
keys are `Handover`, `WEEK 1000`, because a key without digits is ordered as the
number 999. -/
theorem C23_handover_before_week_1000 :
    "Handover".toList.filter JSStr.isDigit = []
      ∧ "WEEK 1000".toList.filter JSStr.isDigit = "1000".toList
      ∧ keyNumber "Handover".toList = num 999
      ∧ keyNumber "WEEK 1000".toList = num 1000
      ∧ milestoneKeys Sample.thousandAndHandover
        = some ["Handover".toList, "WEEK 1000".toList] := by
  have eh : Spec.embeddedNumber "Handover".toList = 0 := by decide
  have ew : Spec.embeddedNumber "WEEK 1000".toList = 1000 := by decide
  refine ⟨by decide, by decide, ?_, ?_, ?_⟩
  · rw [keyNumber_eq _ (by rw [eh]; norm_num)]
    unfold Spec.effectiveNumber
    rw [eh]
    norm_num
  · rw [keyNumber_eq _ (by rw [ew]; norm_num)]
    unfold Spec.effectiveNumber
    rw [ew]
    norm_num
  · rw [milestoneKeys_pair Sample.thousandAndHandover "WEEK 1000".toList "Handover".toList
      (by decide) (by decide) (by decide) (by decide) (by rw [ew]; norm_num)
      (by rw [eh]; norm_num)]
    unfold Spec.effectiveNumber
    rw [eh, ew]
    rfl

/-- C23, amended: a key without digits is ordered as the number 999.  Among sorted keys
with embedded numbers below `2^53`, a key `a` without digits other than `Unscheduled`
stands after every key whose embedded number is between 1 and 998, before every key whose
embedded number exceeds 999, and before `Unscheduled`. -/
theorem C23_digit_free_keys_amended (resources : List ResourceRow) (ks : List JSString)
    (h : milestoneKeys resources = some ks)
    (hsmall : ∀ k ∈ ks, k ≠ "Unscheduled".toList → Spec.embeddedNumber k < 2 ^ 53)
    (a : JSString) (ha : a ∈ ks) (hau : a ≠ "Unscheduled".toList)
    (hda : a.filter JSStr.isDigit = []) :
    keyNumber a = num 999
      ∧ (∀ b ∈ ks, b ≠ "Unscheduled".toList → 1 ≤ Spec.embeddedNumber b →
          Spec.embeddedNumber b < 999 → List.Sublist [b, a] ks)
      ∧ (∀ b ∈ ks, b ≠ "Unscheduled".toList → 999 < Spec.embeddedNumber b →
          List.Sublist [a, b] ks)
      ∧ ("Unscheduled".toList ∈ ks → List.Sublist [a, "Unscheduled".toList] ks) := by
  have hs := milestoneKeys_sorted resources ks h hsmall
  have ea : Spec.embeddedNumber a = 0 := by
    unfold Spec.embeddedNumber
    rw [hda]
    rfl
  have hra : Spec.milestoneRank a = ((999 : ℕ) : WithTop ℕ) := by
    unfold Spec.milestoneRank Spec.effectiveNumber
    rw [if_neg hau, if_pos ea]
  refine ⟨?_, ?_, ?_, ?_⟩
  · rw [keyNumber_eq a (by rw [ea]; norm_num)]
    unfold Spec.effectiveNumber
    rw [if_pos ea]
    norm_num
  · intro b hb hbu h1 h999
    apply JSArray.pair_sublist_of_sorted Spec.milestoneRank ks hs b a hb ha
    rw [hra]
    unfold Spec.milestoneRank Spec.effectiveNumber
    rw [if_neg hbu, if_neg (by omega)]
    exact WithTop.coe_lt_coe.mpr h999
  · intro b hb hbu h999
    apply JSArray.pair_sublist_of_sorted Spec.milestoneRank ks hs a b ha hb
    rw [hra]
    unfold Spec.milestoneRank Spec.effectiveNumber
    rw [if_neg hbu, if_neg (by omega)]
    exact WithTop.coe_lt_coe.mpr h999
  · intro hu
    apply JSArray.pair_sublist_of_sorted Spec.milestoneRank ks hs a _ ha hu
    rw [hra]
    unfold Spec.milestoneRank
    rw [if_pos rfl]
    exact WithTop.coe_lt_top _

/-- C23, amended, at the keys `WEEK 1000` and `Handover`: `Handover` stands first. -/
theorem C23_digit_free_keys_amended_witness :
    milestoneKeys Sample.thousandAndHandover = some ["Handover".toList, "WEEK 1000".toList]
      ∧ List.Sublist ["Handover".toList, "WEEK 1000".toList]
          ["Handover".toList, "WEEK 1000".toList] := by
  have ew : Spec.embeddedNumber "WEEK 1000".toList = 1000 := by decide
  have eh : Spec.embeddedNumber "Handover".toList = 0 := by decide
  have hk : milestoneKeys Sample.thousandAndHandover
      = some ["Handover".toList, "WEEK 1000".toList] := by
    rw [milestoneKeys_pair Sample.thousandAndHandover "WEEK 1000".toList "Handover".toList
      (by decide) (by decide) (by decide) (by decide) (by rw [ew]; norm_num)
      (by rw [eh]; norm_num)]
    unfold Spec.effectiveNumber
    rw [eh, ew]
    rfl
  refine ⟨hk, ?_⟩
  refine (C23_digit_free_keys_amended Sample.thousandAndHandover _ hk ?_ "Handover".toList
    (by decide) (by decide) (by decide)).2.2.1 "WEEK 1000".toList (by decide) (by decide)
    (by rw [ew]; norm_num)
  intro k hk' _
  simp only [List.mem_cons, List.mem_singleton, List.mem_nil_iff, or_false] at hk'
  rcases hk' with rfl | rfl
  · rw [eh]; norm_num
  · rw [ew]; norm_num

/-- C24 fails for a label that is an array index: the resources of the milestones `WEEK 2`,
`2` have the keys `WEEK 2`, `2` in the order of their first occurrence, the two keys compare
equal, and the sorted keys are `2`, `WEEK 2`, because `Object.keys` lists the array index
first.  The sort itself is stable: two keys of which the first does not compare greater
than the second keep the order they have in `Object.keys`, which is the order of first
occurrence when no key is an array index. -/
theorem C24_stable_up_to_object_keys (resources : List ResourceRow) (ks : List JSString) :
    JSArray.distinct (Sample.weekTwoAndTwo.map milestoneKey) = ["WEEK 2".toList, "2".toList]
      ∧ compareKeys "WEEK 2".toList "2".toList = num 0
      ∧ objectKeys ["WEEK 2".toList, "2".toList] = ["2".toList, "WEEK 2".toList]
      ∧ milestoneKeys Sample.weekTwoAndTwo = some ["2".toList, "WEEK 2".toList]
      ∧ (milestoneKeys resources = some ks →
          (∀ a b, JSNum.gt (compareKeys a b) (num 0) = false →
            List.Sublist [a, b] (objectKeys (JSArray.distinct (resources.map milestoneKey))) →
            List.Sublist [a, b] ks)
          ∧ ((∀ k ∈ ks, isArrayIndex k = false) →
              objectKeys (JSArray.distinct (resources.map milestoneKey))
                = JSArray.distinct (resources.map milestoneKey))) := by
  have e2 : Spec.embeddedNumber "2".toList = 2 := by decide
  have ew : Spec.embeddedNumber "WEEK 2".toList = 2 := by decide
  have hcmp : compareKeys "WEEK 2".toList "2".toList = num 0 := by
    rw [compareKeys_eq _ _ (by decide) (by decide) (by rw [ew]; norm_num)
      (by rw [e2]; norm_num)]
    unfold Spec.effectiveNumber
    rw [e2, ew]
    norm_num
  have hcmp' : compareKeys "2".toList "WEEK 2".toList = num 0 := by
    rw [compareKeys_eq _ _ (by decide) (by decide) (by rw [e2]; norm_num)
      (by rw [ew]; norm_num)]
    unfold Spec.effectiveNumber
    rw [e2, ew]
    norm_num
  refine ⟨by decide, hcmp, by decide, ?_, ?_⟩
  · rw [milestoneKeys_of_keys Sample.weekTwoAndTwo ["WEEK 2".toList, "2".toList] (by decide)]
    have ho : objectKeys ["WEEK 2".toList, "2".toList] = ["2".toList, "WEEK 2".toList] := by
      decide
    rw [ho, sort_pair, hcmp']
    rfl
  · intro h
    obtain ⟨m, -, hks⟩ := milestoneKeys_some resources ks h
    refine ⟨?_, ?_⟩
    · intro a b hab hsub
      rw [hks]
      unfold JSArray.sort
      exact List.pair_sublist_insertionSort hab hsub
    · intro hidx
      apply objectKeys_of_no_index
      intro k hk
      exact hidx k ((perm_milestoneKeys resources ks h).mem_iff.mpr hk)

end ResourcesView

/-! ## Roles and editing rights -/

namespace ProjectView

set_option maxRecDepth 100000 in
/-- C26 fails for one role: every one of the five roles of the Roles & Permissions table is
listed with task-status updating, but `canEdit` is true exactly for Admin, Project Manager,
Site Supervisor and Site Engineer; for `Subcontractor / Trade` it is false, a click on the
status button of a task makes no update and a click on a note opens no editor. -/
theorem C26_subcontractor_cannot_edit :
    AdminPanel.rolesAndPermissions.map Prod.fst
        = ["Admin".toList, "Project Manager".toList, "Site Supervisor".toList,
            "Site Engineer".toList, "Subcontractor / Trade".toList]
      ∧ (∀ row ∈ AdminPanel.rolesAndPermissions, Spec.grantsStatusUpdate row.2 = true)
      ∧ (∀ role : JSString, canEdit (some role) = true
          ↔ role ∈ ["Admin".toList, "Project Manager".toList, "Site Supervisor".toList,
              "Site Engineer".toList])
      ∧ (AdminPanel.rolesAndPermissions.filter (fun row => !canEdit (some row.1))).map Prod.fst
          = ["Subcontractor / Trade".toList]
      ∧ canEdit (some "Subcontractor / Trade".toList) = false
      ∧ (∀ status, statusClick (canEdit (some "Subcontractor / Trade".toList)) status = none)
      ∧ noteClickOpensEditor (canEdit (some "Subcontractor / Trade".toList)) = false
      ∧ statusClick (canEdit (some "Site Engineer".toList)) "Not Started".toList
          = some "In Progress".toList := by
  refine ⟨by decide, by decide, ?_, by decide, by decide, ?_, by decide, by decide⟩
  · intro role
    simp [canEdit]
  · intro status
    have h : canEdit (some "Subcontractor / Trade".toList) = false := by decide
    rw [h]
    rfl

end ProjectView

/-! ## When a percentage reads 100 -/

namespace PercentComplete

open JSNum JSFloat

/-- The value of the percent expression at the ratio 199/200: the product is exactly 99.5. -/
theorem fl_ratio_199_200 :
    fl (fl ((199 : ℚ) / 200) * 100) = 199 / 2 := by
  have e1 : fl ((199 : ℚ) / 200)
      = ((8962163258467287 : ℤ) : ℚ) * (2 : ℚ) ^ (-53 : ℤ) := by
    apply fl_eval (-53) 8962163258467287 <;> norm_num
  have e2 : fl (((8962163258467287 : ℤ) : ℚ) * (2 : ℚ) ^ (-53 : ℤ) * 100)
      = ((7001690045677568 : ℤ) : ℚ) * (2 : ℚ) ^ (-46 : ℤ) := by
    apply fl_eval (-46) 7001690045677568 <;> norm_num
  rw [e1, e2]
  norm_num

/-- At least 99.5 percent done reads 100. -/
theorem percentOf_eq_100_of_le (d t : ℕ) (ht : 0 < t) (ht' : t < 2 ^ 32) (hd : d ≤ t)
    (h : 199 * t ≤ 200 * d) : percentOf d t = num 100 := by
  obtain ⟨he, e0, e1, -⟩ := percent_value d t ht ht' hd
  have htq : (0 : ℚ) < (t : ℚ) := by exact_mod_cast ht
  have hq : (199 : ℚ) / 200 ≤ (d : ℚ) / t := by
    rw [div_le_div_iff₀ (by norm_num) htq]
    have : ((199 * t : ℕ) : ℚ) ≤ ((200 * d : ℕ) : ℚ) := by exact_mod_cast h
    push_cast at this
    linarith
  have h1 : fl ((199 : ℚ) / 200) ≤ fl ((d : ℚ) / t) := fl_mono hq
  have h2 : fl (fl ((199 : ℚ) / 200) * 100) ≤ fl (fl ((d : ℚ) / t) * 100) :=
    fl_mono (by linarith)
  rw [fl_ratio_199_200] at h2
  rw [he]
  congr 1
  norm_cast
  rw [Int.floor_eq_iff]
  push_cast
  constructor <;> linarith

end PercentComplete

namespace PercentComplete

open JSNum JSFloat

/-- A percentage that reads 100 means at least 99.5 percent done. -/
theorem le_of_percentOf_eq_100 (d t : ℕ) (ht : 0 < t) (ht' : t < 2 ^ 32) (hd : d ≤ t)
    (h : percentOf d t = num 100) : 199 * t ≤ 200 * d := by
  have hs := spec_percent_eq d t ht
  have hdiv : (200 * d + t) / (2 * t) < 101 := by
    rw [Nat.div_lt_iff_lt_mul (by omega)]
    nlinarith
  obtain ⟨N, hN⟩ : ∃ N, N = (200 * d + t) / (2 * t) := ⟨_, rfl⟩
  rw [← hN] at hs hdiv
  have h100 : 100 ≤ N := by
    rcases (percent_vs_spec d t ht ht' hd).2 with e | e
    · rw [h, hs] at e
      have e' := JSNum.num.inj e
      have e'' : (100 : ℤ) = (N : ℤ) := by exact_mod_cast e'
      omega
    · rw [h, hs] at e
      have e' := JSNum.num.inj e
      have e'' : (100 : ℤ) = (N : ℤ) - 1 := by exact_mod_cast e'
      omega
  rw [hN] at h100
  have := (Nat.le_div_iff_mul_le (show 0 < 2 * t by omega)).mp h100
  omega

set_option maxRecDepth 100000 in
/-- C30, as stated, fails: with 199 of 200 tasks complete the overall percentage reads 100
although one task is not complete. -/
theorem C30_reads_100_before_all_done :
    ProjectView.completedTasks Sample.allButOneOfTwoHundred = 199
      ∧ ProjectView.totalTasks Sample.allButOneOfTwoHundred = 200
      ∧ ProjectView.overallPct Sample.allButOneOfTwoHundred = num 100
      ∧ ProjectView.wp Sample.allButOneOfTwoHundred "WEEK 1".toList = num 100
      ∧ ProjectView.sp Sample.allButOneOfTwoHundred "Roofing".toList = num 100 := by
  have h1 : ProjectView.completedTasks Sample.allButOneOfTwoHundred = 199 := by decide
  have h2 : ProjectView.totalTasks Sample.allButOneOfTwoHundred = 200 := by decide
  have hp : percentOf 199 200 = num 100 :=
    percentOf_eq_100_of_le 199 200 (by norm_num) (by norm_num) (by norm_num) (by norm_num)
  have hw : (Sample.allButOneOfTwoHundred.filter (fun t => t.week = "WEEK 1".toList))
      = Sample.allButOneOfTwoHundred := by decide
  have hsec : (Sample.allButOneOfTwoHundred.filter (fun t => t.section_ = "Roofing".toList))
      = Sample.allButOneOfTwoHundred := by decide
  have hc : (Sample.allButOneOfTwoHundred.filter
      (fun t => t.status = "Complete".toList)).length = 199 := by decide
  have hl : Sample.allButOneOfTwoHundred.length = 200 := by decide
  refine ⟨h1, h2, ?_, ?_, ?_⟩
  · rw [overallPct_eq, h1, h2]
    exact hp
  · rw [wp_eq, hw, hc, hl]
    exact hp
  · rw [sp_eq, hsec, hc, hl]
    exact hp

/-- C30, amended: for `1 <= total < 2^32` and `done <= total` the displayed percentage is 100
exactly when at least 99.5 percent is done, `199 * total <= 200 * done`; so `done = total`
always reads 100, and for `total < 200` a percentage of 100 means `done = total`. -/
theorem C30_reads_100_amended (done total : ℕ) (ht : 1 ≤ total) (hlen : total < 2 ^ 32)
    (hd : done ≤ total) :
    (percentOf done total = num 100 ↔ 199 * total ≤ 200 * done)
      ∧ (done = total → percentOf done total = num 100)
      ∧ (total < 200 → (percentOf done total = num 100 ↔ done = total)) := by
  have hiff : percentOf done total = num 100 ↔ 199 * total ≤ 200 * done :=
    ⟨le_of_percentOf_eq_100 done total ht hlen hd,
      percentOf_eq_100_of_le done total ht hlen hd⟩
  refine ⟨hiff, fun h => hiff.mpr (by omega), fun h200 => ?_⟩
  rw [hiff]
  constructor
  · intro h; omega
  · intro h; omega

/-- C30, amended, at 199 of 200 (reads 100) and at 198 of 199 (does not). -/
theorem C30_reads_100_amended_witness :
    percentOf 199 200 = num 100 ∧ percentOf 198 199 ≠ num 100 :=
  ⟨(C30_reads_100_amended 199 200 (by norm_num) (by norm_num) (by norm_num)).1.mpr
      (by norm_num),
    fun h => absurd ((C30_reads_100_amended 198 199 (by norm_num) (by norm_num)
      (by norm_num)).1.mp h) (by norm_num)⟩

end PercentComplete

/-! ## The forecast formulas -/

namespace ProjectView

open JSNum JSFloat

/-- A whole number of days between two time values is counted exactly. -/
theorem ceil_days_exact (a b : TimeValue) (k : ℤ) (hk : |k| < 2 ^ 20)
    (h : a.ms - b.ms = k * 86400000) :
    ⌈fl (fl ((a.ms : ℚ) - b.ms) / 86400000)⌉ = k := by
  rw [abs_lt] at hk
  have e0 : (a.ms : ℚ) - b.ms = ((k * 86400000 : ℤ) : ℚ) := by
    rw [← h]; push_cast; ring
  have e1 : fl (((k * 86400000 : ℤ) : ℤ) : ℚ) = ((k * 86400000 : ℤ) : ℚ) :=
    fl_intCast _ (by rw [abs_lt]; constructor <;> omega)
  have e2 : ((k * 86400000 : ℤ) : ℚ) / 86400000 = (k : ℚ) := by
    push_cast
    field_simp
  have e3 : fl (k : ℚ) = (k : ℚ) := fl_intCast _ (by rw [abs_lt]; constructor <;> omega)
  rw [e0, e1, e2, e3, Int.ceil_intCast]

theorem daysElapsed_exact (p : Project) (now : TimeValue) (k : ℤ) (h1 : 1 ≤ k)
    (hk : k < 2 ^ 20) (h : now.ms - p.created_at.ms = k * 86400000) :
    daysElapsed p now = num (k : ℚ) := by
  unfold daysElapsed
  rw [ceil_days_eq, ceil_days_exact _ _ k (by rw [abs_lt]; constructor <;> omega) h]
  show num (Max.max (1 : ℚ) (k : ℚ)) = _
  rw [max_eq_right (by exact_mod_cast h1)]

theorem daysLeft_exact (p : Project) (now : TimeValue) (k : ℤ) (h0 : 0 ≤ k)
    (hk : k < 2 ^ 20) (h : p.target_date.ms - now.ms = k * 86400000) :
    daysLeft p now = num (k : ℚ) := by
  unfold daysLeft
  rw [ceil_days_eq, ceil_days_exact _ _ k (by rw [abs_lt]; constructor <;> omega) h]
  show num (Max.max (0 : ℚ) (k : ℚ)) = _
  rw [max_eq_right (by exact_mod_cast h0)]

/-- The double nearest to `1 / 20`. -/
theorem fl_one_twentieth :
    fl (1 / 20) = ((7205759403792794 : ℤ) : ℚ) * (2 : ℚ) ^ (-57 : ℤ) := by
  apply fl_eval (-57) 7205759403792794 <;> norm_num

/-- One task in 20 days leaves one task needing 20 days: `1 / (1 / 20)` is 20 in doubles. -/
theorem daysNeeded_one_of_two : daysNeeded 2 1 (num 20) = num 20 := by
  have hv : velocity 1 (num 20) = num (((7205759403792794 : ℤ) : ℚ) * (2 : ℚ) ^ (-57 : ℤ)) := by
    unfold velocity ofNat
    rw [show ((1 : ℕ) : ℚ) = 1 by norm_num, num_div _ _ (by norm_num),
      ofRat_small_nonneg (by norm_num) (by norm_num), fl_one_twentieth]
  have hr : tasksRemaining 2 1 = num 1 := by
    rw [tasksRemaining_eq 2 1 (by norm_num) (by norm_num)]
    norm_num
  unfold daysNeeded
  rw [hv, hr]
  have hg : JSNum.gt (num (((7205759403792794 : ℤ) : ℚ) * (2 : ℚ) ^ (-57 : ℤ))) (num 0)
      = true := by
    simp only [JSNum.gt, decide_eq_true_eq]
    norm_num
  rw [if_pos hg, num_div _ _ (by norm_num),
    JSNum.ofRat_eval (-48) 5629499534213120 (by norm_num) (by norm_num) (by norm_num)
      (by norm_num) (by norm_num) (by norm_num)]
  norm_num

end ProjectView

namespace ProjectView

open JSNum JSFloat

/-- C27, as stated, fails on the behind-pace branch.  Two tasks, one complete, 20 days
elapsed, 7 days left: `daysNeeded` is 20, the code computes `90 * (7 / 20)`, which is
`31.499999999999996` in doubles, and returns 31; `round(90 * 7 / 20)` is 32, both in exact
arithmetic and in doubles taken in the written order. -/
theorem C27_behind_pace_one_below :
    Sample.oneOfTwo ≠ []
      ∧ (∃ t ∈ Sample.oneOfTwo, t.status ≠ "Complete".toList)
      ∧ daysElapsed Sample.fourWeekProject (Sample.day 20) = num 20
      ∧ daysLeft Sample.fourWeekProject (Sample.day 20) = num 7
      ∧ daysNeeded (totalTasks Sample.oneOfTwo) (completedTasks Sample.oneOfTwo) (num 20)
          = num 20
      ∧ completionProbability Sample.fourWeekProject Sample.oneOfTwo (Sample.day 20)
          (Sample.day 20) = num 31
      ∧ Spec.forecastExact 20 7 = 32
      ∧ Spec.forecastAsWritten (num 20) (num 7) = num 32 := by
  have hE : daysElapsed Sample.fourWeekProject (Sample.day 20) = num 20 := by
    have := daysElapsed_exact Sample.fourWeekProject (Sample.day 20) 20 (by norm_num)
      (by norm_num) (by decide)
    simpa using this
  have hL : daysLeft Sample.fourWeekProject (Sample.day 20) = num 7 := by
    have := daysLeft_exact Sample.fourWeekProject (Sample.day 20) 7 (by norm_num)
      (by norm_num) (by decide)
    simpa using this
  have hT : totalTasks Sample.oneOfTwo = 2 := by decide
  have hC : completedTasks Sample.oneOfTwo = 1 := by decide
  refine ⟨by decide, ⟨Sample.task "Not Started", by decide, by decide⟩, hE, hL, ?_, ?_, ?_, ?_⟩
  · rw [hT, hC]
    exact daysNeeded_one_of_two
  · rw [completionProbability_of_ne_nil _ _ _ _ (by decide), hE, hL, hT, hC]
    obtain ⟨he, -, -⟩ := forecast_behind_eq 2 1 (num 20) 20 7 daysNeeded_one_of_two
      (by norm_num) (by norm_num)
    rw [he]
    have e1 : fl ((7 : ℚ) / 20) = ((6305039478318694 : ℤ) : ℚ) * (2 : ℚ) ^ (-54 : ℤ) := by
      apply fl_eval (-54) 6305039478318694 <;> norm_num
    have e2 : fl (90 * (((6305039478318694 : ℤ) : ℚ) * (2 : ℚ) ^ (-54 : ℤ)))
        = ((8866461766385663 : ℤ) : ℚ) * (2 : ℚ) ^ (-48 : ℤ) := by
      apply fl_eval (-48) 8866461766385663 <;> norm_num
    rw [e1, e2]
    have e3 : ⌊((8866461766385663 : ℤ) : ℚ) * (2 : ℚ) ^ (-48 : ℤ) + 1 / 2⌋ = 31 := by
      rw [Int.floor_eq_iff]
      constructor <;> norm_num
    rw [e3]
    norm_num
  · unfold Spec.forecastExact
    rw [if_neg (by norm_num)]
    have : ⌊(90 : ℚ) * 7 / 20 + 1 / 2⌋ = 32 := by
      rw [Int.floor_eq_iff]
      constructor <;> norm_num
    rw [this]
    norm_num
  · unfold Spec.forecastAsWritten
    have hle : JSNum.le (num 20) (num 7) = false := by
      simp only [JSNum.le, decide_eq_false_iff_not]
      norm_num
    rw [hle]
    simp only [Bool.false_eq_true, if_false]
    rw [num_mul, show (90 : ℚ) * 7 = ((630 : ℕ) : ℚ) by norm_num,
      ofRat_natCast _ (by norm_num), num_div _ _ (by norm_num),
      show ((630 : ℕ) : ℚ) / 20 = ((63 : ℤ) : ℚ) * (2 : ℚ) ^ (-1 : ℤ) by norm_num,
      ofRat_small_nonneg (by norm_num) (by norm_num),
      fl_of_dyadic 63 (-1) (by norm_num) (by norm_num)]
    show num ((Max.max (5 : ℚ) ((⌊((63 : ℤ) : ℚ) * (2 : ℚ) ^ (-1 : ℤ) + 1 / 2⌋ : ℤ) : ℚ))) = _
    have : ⌊((63 : ℤ) : ℚ) * (2 : ℚ) ^ (-1 : ℤ) + 1 / 2⌋ = 32 := by
      rw [Int.floor_eq_iff]
      constructor <;> norm_num
    rw [this]
    norm_num

end ProjectView

namespace ProjectView

open JSNum JSFloat

/-- C27, amended: the formulas are evaluated in doubles, in the order of the code.  For a
project with at least one task in which `daysLeft >= 1` or some task is not complete,
`daysElapsed` is an integer `de >= 1`, `daysLeft` an integer `dl >= 0` and `daysNeeded` a
number `d >= 0`: 9999 when no task is complete, otherwise `tasksRemaining / velocity` with
`velocity > 0`.  When `d <= dl` there is at least one day left and the result is
`Math.min(99, Math.round(90 + (10 * (dl - d) / dl)))`, an integer in [90, 99]; otherwise
`d > 0` and the result is `Math.max(5, Math.round(90 * (dl / d)))`, an integer in [5, 90].
No divisor is zero. -/
theorem C27_forecast_formulas_amended (p : Project) (tasks : List TaskRow)
    (now₁ now₂ : TimeValue) (hne : tasks ≠ []) (hlen : tasks.length < 2 ^ 32)
    (h : JSNum.le (num 1) (daysLeft p now₂) = true
      ∨ ∃ t ∈ tasks, t.status ≠ "Complete".toList) :
    ∃ (de dl : ℤ) (d : ℚ),
      daysElapsed p now₁ = num (de : ℚ) ∧ 1 ≤ de
      ∧ daysLeft p now₂ = num (dl : ℚ) ∧ 0 ≤ dl
      ∧ daysNeeded (totalTasks tasks) (completedTasks tasks) (daysElapsed p now₁) = num d
      ∧ 0 ≤ d
      ∧ (completedTasks tasks = 0 →
          velocity (completedTasks tasks) (daysElapsed p now₁) = num 0 ∧ d = 9999)
      ∧ (0 < completedTasks tasks →
          ∃ v : ℚ, 0 < v ∧ velocity (completedTasks tasks) (daysElapsed p now₁) = num v
            ∧ num d = tasksRemaining (totalTasks tasks) (completedTasks tasks) / num v)
      ∧ (d ≤ (dl : ℚ) → 1 ≤ dl
          ∧ completionProbability p tasks now₁ now₂
            = Math.min (num 99) (Math.round (num 90
                + (num 10 * (num (dl : ℚ) - num d) / num (dl : ℚ))))
          ∧ IsIntIn 90 99 (completionProbability p tasks now₁ now₂))
      ∧ ((dl : ℚ) < d → 0 < d
          ∧ completionProbability p tasks now₁ now₂
            = Math.max (num 5) (Math.round (num 90 * (num (dl : ℚ) / num d)))
          ∧ IsIntIn 5 90 (completionProbability p tasks now₁ now₂)) := by
  obtain ⟨de, hde, hde', hE⟩ := daysElapsed_eq p now₁
  obtain ⟨dl, hdl, hdl', hL, hz⟩ := daysLeft_eq p now₂
  have hT1 := totalTasks_pos hne
  have hcT := completedTasks_le tasks
  have hT : totalTasks tasks < 2 ^ 32 := hlen
  obtain ⟨d, hd0, -, hdz, hd9, hd⟩ :=
    daysNeeded_eq (totalTasks tasks) (completedTasks tasks) de hT hcT hT1 hde hde'
  obtain ⟨hv, hv0, hvpos, -⟩ := velocity_eq (completedTasks tasks) de (by omega) hde hde'
  have hcp := completionProbability_of_ne_nil p tasks now₁ now₂ hne
  have hdlq : (0 : ℚ) ≤ (dl : ℚ) := by exact_mod_cast hdl
  have hdlq' : (dl : ℚ) ≤ 200000000 := by exact_mod_cast hdl'
  refine ⟨de, dl, d, hE, hde, hL, hdl, by rw [hE]; exact hd, hd0, ?_, ?_, ?_, ?_⟩
  · intro hc
    refine ⟨?_, hd9 hc⟩
    rw [hE, hv, hv0 hc]
  · intro hc
    have hvl := hvpos hc
    have hv' : 0 < fl ((completedTasks tasks : ℚ) / de) :=
      lt_of_lt_of_le (by positivity) hvl
    refine ⟨_, hv', by rw [hE]; exact hv, ?_⟩
    rw [← hd]
    unfold daysNeeded
    rw [hv]
    have : JSNum.gt (num (fl ((completedTasks tasks : ℚ) / de))) (num 0) = true := by
      simp [JSNum.gt, hv']
    rw [if_pos this]
  · intro hb
    have hdlpos : 1 ≤ dl := by
      rcases hdl.lt_or_eq with h1 | h1
      · omega
      · exfalso
        have hd00 : d = 0 := le_antisymm (by rw [← h1] at hb; exact_mod_cast hb) hd0
        have hall := (completedTasks_eq_total_iff tasks).mp (hdz.mp hd00)
        rcases h with h | ⟨t, ht, hne'⟩
        · have := (one_le_daysLeft_iff p now₂).mp h
          have := hz.mp h1.symm
          omega
        · exact hne' (hall t ht)
    refine ⟨hdlpos, ?_, ?_⟩
    · rw [hcp, hE, hL]
      unfold forecast
      rw [hd]
      have hle : JSNum.le (num d) (num (dl : ℚ)) = true := by simp [JSNum.le, hb]
      rw [if_pos hle]
    · rw [hcp, hE, hL]
      exact forecast_on_pace _ _ _ d dl hd hd0 hb (by exact_mod_cast hdlpos) hdlq'
  · intro hb
    refine ⟨lt_of_le_of_lt hdlq hb, ?_, ?_⟩
    · rw [hcp, hE, hL]
      unfold forecast
      rw [hd]
      have hle : JSNum.le (num d) (num (dl : ℚ)) = false := by simp [JSNum.le, hb]
      rw [hle]
      simp only [Bool.false_eq_true, if_false]
    · rw [hcp, hE, hL]
      exact forecast_behind _ _ _ d dl hd hb hdlq

/-- C27, amended, at two tasks of which one is complete, 20 days after the creation and 7
days before the target date. -/
theorem C27_forecast_formulas_amended_witness :
    ∃ (de dl : ℤ) (d : ℚ),
      daysElapsed Sample.fourWeekProject (Sample.day 20) = num (de : ℚ) ∧ 1 ≤ de
      ∧ daysLeft Sample.fourWeekProject (Sample.day 20) = num (dl : ℚ) ∧ 0 ≤ dl
      ∧ daysNeeded (totalTasks Sample.oneOfTwo) (completedTasks Sample.oneOfTwo)
          (daysElapsed Sample.fourWeekProject (Sample.day 20)) = num d
      ∧ 0 ≤ d
      ∧ ((dl : ℚ) < d → 0 < d
          ∧ completionProbability Sample.fourWeekProject Sample.oneOfTwo (Sample.day 20)
              (Sample.day 20)
            = Math.max (num 5) (Math.round (num 90 * (num (dl : ℚ) / num d)))
          ∧ IsIntIn 5 90 (completionProbability Sample.fourWeekProject Sample.oneOfTwo
              (Sample.day 20) (Sample.day 20))) := by
  obtain ⟨de, dl, d, h1, h2, h3, h4, h5, h6, -, -, -, h7⟩ :=
    C27_forecast_formulas_amended Sample.fourWeekProject Sample.oneOfTwo (Sample.day 20)
      (Sample.day 20) (by decide) (by decide)
      (Or.inr ⟨Sample.task "Not Started", by decide, by decide⟩)
  exact ⟨de, dl, d, h1, h2, h3, h4, h5, h6, h7⟩

end ProjectView

/-! ## Monotonicity of the forecast in the days left -/

namespace JSFloat

/-- An upper bound of a rounding: the relative error is at most `2^-53`, up to `2^-100` for
the values below the normal range. -/
theorem fl_le_rel {x : ℚ} (hx : 0 ≤ x) : fl x ≤ x * (1 + 1 / 2 ^ 53) + 1 / 2 ^ 100 := by
  have hpow : (2 : ℚ) ^ (-1022 : ℤ) ≤ (2 : ℚ) ^ (-100 : ℤ) :=
    zpow_le_zpow_right₀ (by norm_num) (by norm_num)
  have e100 : (2 : ℚ) ^ (-100 : ℤ) = 1 / 2 ^ 100 := by
    rw [zpow_neg, one_div, show (100 : ℤ) = ((100 : ℕ) : ℤ) by norm_num, zpow_natCast]
  rw [e100] at hpow
  by_cases h : (2 : ℚ) ^ (-1022 : ℤ) ≤ x
  · have := abs_fl_sub_le h
    rw [abs_le] at this
    have h2 : x / 2 ^ 53 = x * (1 / 2 ^ 53) := by ring
    have h3 : (0 : ℚ) ≤ 1 / 2 ^ 100 := by positivity
    have h4 := this.2
    rw [h2] at h4
    have h5 : fl x ≤ x + x * (1 / 2 ^ 53) := by linarith
    have h6 : x + x * (1 / 2 ^ 53) = x * (1 + 1 / 2 ^ 53) := by ring
    rw [h6] at h5
    exact le_trans h5 (le_add_of_nonneg_right h3)
  · have h1 : fl x ≤ (2 : ℚ) ^ (-1022 : ℤ) :=
      fl_le_of_le (fl_two_zpow (-1022) (by norm_num)) (le_of_lt (not_le.mp h))
    have h2 : 0 ≤ x * (1 + 1 / 2 ^ 53) := by positivity
    exact le_trans h1 (le_trans hpow (le_add_of_nonneg_left h2))

/-- A lower bound of a rounding in the normal range. -/
theorem fl_ge_rel {x : ℚ} (hx : 1 ≤ x) : x * (1 - 1 / 2 ^ 53) ≤ fl x := by
  have h : (2 : ℚ) ^ (-1022 : ℤ) ≤ x := by
    have : (2 : ℚ) ^ (-1022 : ℤ) ≤ (2 : ℚ) ^ (0 : ℤ) :=
      zpow_le_zpow_right₀ (by norm_num) (by norm_num)
    rw [zpow_zero] at this
    exact le_trans this hx
  have := abs_fl_sub_le h
  rw [abs_le] at this
  have h2 : x / 2 ^ 53 = x * (1 / 2 ^ 53) := by ring
  have h4 := this.1
  rw [h2] at h4
  have h6 : x * (1 - 1 / 2 ^ 53) = x - x * (1 / 2 ^ 53) := by ring
  rw [h6]
  linarith

/-- Two quotients with rounded numerators compare like the exact ones when the rounding
errors `δ`, `ε` are small against the distance of the denominators. -/
theorem quotient_margin (a b d δ ε Fa Fb A B : ℚ) (ha1 : 1 ≤ a) (hab : a + 1 ≤ b)
    (hb : b ≤ 200000000) (h8 : a / 8 < d)
    (hδ0 : 0 < δ) (hδ1 : δ ≤ 1 / 2 ^ 50) (hε0 : 0 < ε) (hε1 : ε ≤ 1 / 2 ^ 90)
    (u1 : Fa ≤ (a - d) * (1 + δ) + ε) (u3 : A ≤ 10 * Fa * (1 + δ) + ε)
    (l1 : (b - d) * (1 - δ) ≤ Fb) (l3 : 10 * Fb * (1 - δ) ≤ B) :
    A * b ≤ B * a := by
  have hd0 : 0 < d := by linarith
  have ha0 : 0 ≤ a := by linarith
  have hb0 : 0 ≤ b := by linarith
  have hsmall : (1 : ℚ) / 2 ^ 50 ≤ 1 / 10 := by norm_num
  have hp : 0 ≤ 10 * (1 + δ) := by linarith
  have hm : 0 ≤ 10 * (1 - δ) := by linarith
  have s1 := mul_le_mul_of_nonneg_left u1 hp
  have s2 : ε * δ ≤ ε * (1 / 10) :=
    mul_le_mul_of_nonneg_left (le_trans hδ1 hsmall) hε0.le
  have hAu : A ≤ 10 * (a - d) * ((1 + δ) * (1 + δ)) + 12 * ε := by linarith
  have t1 := mul_le_mul_of_nonneg_left l1 hm
  have hBl : 10 * (b - d) * ((1 - δ) * (1 - δ)) ≤ B := by linarith
  have m1 : A * b ≤ (10 * (a - d) * ((1 + δ) * (1 + δ)) + 12 * ε) * b :=
    mul_le_mul_of_nonneg_right hAu hb0
  have m2 : 10 * (b - d) * ((1 - δ) * (1 - δ)) * a ≤ B * a :=
    mul_le_mul_of_nonneg_right hBl ha0
  have p1 : d * 1 ≤ d * (b - a) := mul_le_mul_of_nonneg_left (by linarith) hd0.le
  have p2 : a * b ≤ a * 200000000 := mul_le_mul_of_nonneg_left hb ha0
  have p5 : 0 ≤ a * b := mul_nonneg ha0 hb0
  have q1 : ε * b ≤ 1 / 2 ^ 90 * 200000000 := mul_le_mul hε1 hb hb0 (by positivity)
  have q1' : (12 : ℚ) * (1 / 2 ^ 90 * 200000000) ≤ 1 / 2 ^ 50 := by norm_num
  have q2 : δ * (a * b) ≤ 1 / 2 ^ 50 * (a * 200000000) :=
    mul_le_mul hδ1 p2 p5 (by positivity)
  have q2' : 40 * (1 / 2 ^ 50 * (a * 200000000)) = a * (8000000000 / 2 ^ 50) := by ring
  have q2'' : a * (8000000000 / 2 ^ 50) ≤ a * (1 / 2 ^ 10) :=
    mul_le_mul_of_nonneg_left (by norm_num) ha0
  have q3 : 0 ≤ δ * δ * (d * (b - a)) :=
    mul_nonneg (mul_nonneg hδ0.le hδ0.le) (mul_nonneg hd0.le (by linarith))
  have q4 : 0 ≤ δ * (a * d) := mul_nonneg hδ0.le (mul_nonneg ha0 hd0.le)
  have q5 : 0 ≤ δ * (b * d) := mul_nonneg hδ0.le (mul_nonneg hb0 hd0.le)
  have expand : 10 * (b - d) * ((1 - δ) * (1 - δ)) * a
      - (10 * (a - d) * ((1 + δ) * (1 + δ)) + 12 * ε) * b
      = 10 * (d * (b - a)) + 10 * (δ * δ * (d * (b - a)))
        - 40 * (δ * (a * b)) + 20 * (δ * (a * d))
        + 20 * (δ * (b * d)) - 12 * (ε * b) := by ring
  have h50 : (1 : ℚ) / 2 ^ 50 ≤ 1 / 2 ^ 10 := by norm_num
  have h10 : (1 : ℚ) / 2 ^ 10 = 1 / 1024 := by norm_num
  rw [h10] at q2'' h50
  have key : (10 * (a - d) * ((1 + δ) * (1 + δ)) + 12 * ε) * b
      ≤ 10 * (b - d) * ((1 - δ) * (1 - δ)) * a := by
    have : 0 ≤ 10 * (d * (b - a)) + 10 * (δ * δ * (d * (b - a)))
        - 40 * (δ * (a * b)) + 20 * (δ * (a * d))
        + 20 * (δ * (b * d)) - 12 * (ε * b) := by
      linarith
    linarith
  exact le_trans m1 (le_trans key m2)

end JSFloat

namespace ProjectView

open JSNum JSFloat

/-- On the on-pace branch, with `daysNeeded` at most an eighth of the days left, the rounded
value reaches 99. -/
theorem on_pace_clamped (d : ℚ) (b : ℤ) (hb1 : 1 ≤ b) (hb : b ≤ 200000000)
    (h8 : d ≤ (b : ℚ) / 8) :
    (99 : ℤ) ≤ ⌊fl (90 + fl (fl (10 * fl ((b : ℚ) - d)) / (b : ℚ))) + 1 / 2⌋ := by
  have hbq : (1 : ℚ) ≤ (b : ℚ) := by exact_mod_cast hb1
  have t3 : (2 : ℚ) ^ (-3 : ℤ) = 1 / 8 := by norm_num
  have t2 : (2 : ℚ) ^ (-2 : ℤ) = 1 / 4 := by norm_num
  have e1 : fl (((7 * b : ℤ) : ℚ) * (2 : ℚ) ^ (-3 : ℤ)) = ((7 * b : ℤ) : ℚ) * (2 : ℚ) ^ (-3 : ℤ) :=
    fl_of_dyadic (7 * b) (-3) (by rw [abs_lt]; constructor <;> omega) (by norm_num)
  have e2 : fl (((35 * b : ℤ) : ℚ) * (2 : ℚ) ^ (-2 : ℤ))
      = ((35 * b : ℤ) : ℚ) * (2 : ℚ) ^ (-2 : ℤ) :=
    fl_of_dyadic (35 * b) (-2) (by rw [abs_lt]; constructor <;> omega) (by norm_num)
  have e3 : fl (((35 : ℤ) : ℚ) * (2 : ℚ) ^ (-2 : ℤ)) = ((35 : ℤ) : ℚ) * (2 : ℚ) ^ (-2 : ℤ) :=
    fl_of_dyadic 35 (-2) (by norm_num) (by norm_num)
  have e4 : fl (((395 : ℤ) : ℚ) * (2 : ℚ) ^ (-2 : ℤ)) = ((395 : ℤ) : ℚ) * (2 : ℚ) ^ (-2 : ℤ) :=
    fl_of_dyadic 395 (-2) (by norm_num) (by norm_num)
  rw [t3] at e1
  rw [t2] at e2 e3 e4
  push_cast at e1 e2 e3 e4
  have h1 : 7 * (b : ℚ) * (1 / 8) ≤ fl ((b : ℚ) - d) := by
    apply fl_ge_of_ge e1
    linarith
  have h2 : 35 * (b : ℚ) * (1 / 4) ≤ fl (10 * fl ((b : ℚ) - d)) := by
    apply fl_ge_of_ge e2
    linarith
  have h3 : (35 : ℚ) * (1 / 4) ≤ fl (fl (10 * fl ((b : ℚ) - d)) / (b : ℚ)) := by
    apply fl_ge_of_ge e3
    rw [le_div_iff₀ (by linarith)]
    linarith
  have h4 : (395 : ℚ) * (1 / 4) ≤ fl (90 + fl (fl (10 * fl ((b : ℚ) - d)) / (b : ℚ))) := by
    apply fl_ge_of_ge e4
    linarith
  rw [Int.le_floor]
  push_cast
  linarith

/-- On the on-pace branch, with `daysNeeded` above an eighth of the days left, more days
left do not lower the quotient `10 * (daysLeft - daysNeeded) / daysLeft` computed in
doubles: the rounding errors are below the exact increase. -/
theorem on_pace_quotient_mono (d : ℚ) (a b : ℤ) (hda : d ≤ (a : ℚ)) (ha1 : 1 ≤ a)
    (hab : a < b) (hb : b ≤ 200000000) (h8 : (a : ℚ) / 8 < d) :
    fl (10 * fl ((a : ℚ) - d)) / (a : ℚ) ≤ fl (10 * fl ((b : ℚ) - d)) / (b : ℚ) := by
  have haq : (1 : ℚ) ≤ (a : ℚ) := by exact_mod_cast ha1
  have habq : (a : ℚ) + 1 ≤ (b : ℚ) := by exact_mod_cast hab
  have hbq : (b : ℚ) ≤ 200000000 := by exact_mod_cast hb
  have x1 : 0 ≤ (a : ℚ) - d := by linarith
  have x2 : 1 ≤ (b : ℚ) - d := by linarith
  have u1 := fl_le_rel x1
  have u2 : 0 ≤ fl ((a : ℚ) - d) := fl_nonneg x1
  have u3 := fl_le_rel (show (0 : ℚ) ≤ 10 * fl ((a : ℚ) - d) by linarith)
  have l1 := fl_ge_rel x2
  have l2 : 1 ≤ fl ((b : ℚ) - d) := fl_ge_of_ge fl_one x2
  have l3 := fl_ge_rel (show (1 : ℚ) ≤ 10 * fl ((b : ℚ) - d) by linarith)
  rw [div_le_div_iff₀ (by linarith) (by linarith)]
  exact quotient_margin (a : ℚ) (b : ℚ) d (1 / 2 ^ 53) (1 / 2 ^ 100) _ _ _ _ haq habq hbq h8
    (by positivity) (by norm_num) (by positivity) (by norm_num) u1 u3 l1 l3

/-- The rounded value of the on-pace branch does not decrease with the days left. -/
theorem on_pace_mono (d : ℚ) (a b : ℤ) (hd0 : 0 < d) (hda : d ≤ (a : ℚ)) (hab : a ≤ b)
    (hb : b ≤ 200000000) :
    Min.min 99 ⌊fl (90 + fl (fl (10 * fl ((a : ℚ) - d)) / (a : ℚ))) + 1 / 2⌋
      ≤ Min.min 99 ⌊fl (90 + fl (fl (10 * fl ((b : ℚ) - d)) / (b : ℚ))) + 1 / 2⌋ := by
  have ha1 : 1 ≤ a := by
    have : (0 : ℚ) < (a : ℚ) := lt_of_lt_of_le hd0 hda
    have : 0 < a := by exact_mod_cast this
    omega
  rcases hab.lt_or_eq with hlt | heq
  · by_cases h8 : d ≤ (a : ℚ) / 8
    · have hbq : (a : ℚ) ≤ (b : ℚ) := by exact_mod_cast hab
      have := on_pace_clamped d b (by omega) hb (by linarith)
      rw [min_eq_left this]
      exact min_le_left _ _
    · have hq := on_pace_quotient_mono d a b hda ha1 hlt hb (not_le.mp h8)
      apply min_le_min le_rfl
      apply Int.floor_le_floor
      have h1 := fl_mono hq
      have h2 : 90 + fl (fl (10 * fl ((a : ℚ) - d)) / (a : ℚ))
          ≤ 90 + fl (fl (10 * fl ((b : ℚ) - d)) / (b : ℚ)) := by linarith
      have h3 := fl_mono h2
      linarith
  · rw [heq]

/-- The forecast does not decrease with the days left: for a positive `daysNeeded` and whole
numbers `0 <= a <= b` of days left, the forecast at `a` is at most the forecast at `b`, on
either branch and across their boundary. -/
theorem forecast_mono (T c : ℕ) (de : JSNum) (d : ℚ) (a b : ℤ)
    (hd : daysNeeded T c de = num d) (hd0 : 0 < d) (ha : 0 ≤ a) (hab : a ≤ b)
    (hb : b ≤ 200000000) :
    ∃ x y : ℤ, forecast T c de (num (a : ℚ)) = num (x : ℚ)
      ∧ forecast T c de (num (b : ℚ)) = num (y : ℚ) ∧ 5 ≤ x ∧ x ≤ y ∧ y ≤ 99 := by
  have haq : (0 : ℚ) ≤ (a : ℚ) := by exact_mod_cast ha
  have habq : (a : ℚ) ≤ (b : ℚ) := by exact_mod_cast hab
  have hbq : (b : ℚ) ≤ 200000000 := by exact_mod_cast hb
  by_cases h1 : (b : ℚ) < d
  · -- both behind pace
    have h0 : (a : ℚ) < d := lt_of_le_of_lt habq h1
    obtain ⟨ea, -, -⟩ := forecast_behind_eq T c de d a hd h0 haq
    obtain ⟨eb, -, -⟩ := forecast_behind_eq T c de d b hd h1 (le_trans haq habq)
    obtain ⟨y, hy, -, hy90⟩ := forecast_behind T c de d b hd h1 (le_trans haq habq)
    refine ⟨_, _, ea, eb, le_max_left _ _, ?_, ?_⟩
    · apply max_le_max le_rfl
      apply Int.floor_le_floor
      have q1 : (a : ℚ) / d ≤ (b : ℚ) / d := div_le_div_of_nonneg_right habq hd0.le
      have q2 := fl_mono q1
      have q3 : 90 * fl ((a : ℚ) / d) ≤ 90 * fl ((b : ℚ) / d) := by linarith
      have q4 := fl_mono q3
      linarith
    · rw [eb] at hy
      have : ((Max.max 5 ⌊fl (90 * fl ((b : ℚ) / d)) + 1 / 2⌋ : ℤ) : ℚ) = (y : ℚ) := by
        injection hy
      have : Max.max 5 ⌊fl (90 * fl ((b : ℚ) / d)) + 1 / 2⌋ = y := by exact_mod_cast this
      omega
  · have hdb : d ≤ (b : ℚ) := not_lt.mp h1
    have hb1 : 1 ≤ b := by
      have : (0 : ℚ) < (b : ℚ) := lt_of_lt_of_le hd0 hdb
      have : 0 < b := by exact_mod_cast this
      omega
    have hb1q : (1 : ℚ) ≤ (b : ℚ) := by exact_mod_cast hb1
    obtain ⟨eb, -⟩ := forecast_on_pace_eq T c de d b hd hd0.le hdb hb1q hbq
    obtain ⟨y, hy, hy90, hy99⟩ := forecast_on_pace T c de d b hd hd0.le hdb hb1q hbq
    have hyv : Min.min 99 ⌊fl (90 + fl (fl (10 * fl ((b : ℚ) - d)) / (b : ℚ))) + 1 / 2⌋
        = y := by
      rw [eb] at hy
      have : ((Min.min 99 ⌊fl (90 + fl (fl (10 * fl ((b : ℚ) - d)) / (b : ℚ))) + 1 / 2⌋ : ℤ)
          : ℚ) = (y : ℚ) := by injection hy
      exact_mod_cast this
    by_cases h0 : (a : ℚ) < d
    · -- behind pace at `a`, on pace at `b`
      obtain ⟨x, hx, hx5, hx90⟩ := forecast_behind T c de d a hd h0 haq
      exact ⟨x, y, hx, hy, hx5, by omega, hy99⟩
    · -- both on pace
      have hda : d ≤ (a : ℚ) := not_lt.mp h0
      have ha1q : (1 : ℚ) ≤ (a : ℚ) := by
        have : (0 : ℚ) < (a : ℚ) := lt_of_lt_of_le hd0 hda
        have : 0 < a := by exact_mod_cast this
        have : 1 ≤ a := by omega
        exact_mod_cast this
      obtain ⟨ea, -⟩ := forecast_on_pace_eq T c de d a hd hd0.le hda ha1q (le_trans habq hbq)
      obtain ⟨x, hx, hx90, hx99⟩ :=
        forecast_on_pace T c de d a hd hd0.le hda ha1q (le_trans habq hbq)
      have hxv : Min.min 99 ⌊fl (90 + fl (fl (10 * fl ((a : ℚ) - d)) / (a : ℚ))) + 1 / 2⌋
          = x := by
        rw [ea] at hx
        have : ((Min.min 99 ⌊fl (90 + fl (fl (10 * fl ((a : ℚ) - d)) / (a : ℚ))) + 1 / 2⌋ : ℤ)
            : ℚ) = (x : ℚ) := by injection hx
        exact_mod_cast this
      have hm := on_pace_mono d a b hd0 hda hab hb
      rw [hxv, hyv] at hm
      exact ⟨x, y, hx, hy, by omega, hm, hy99⟩

end ProjectView

namespace ProjectView

open JSNum JSFloat

/-- C28: more remaining time never lowers the forecast.  For one list of tasks with at least
one task that is not complete, and two situations with the same `daysElapsed` (projects `p`
and `q`, clock readings `n₁`, `n₂` and `m₁`, `m₂`), if `daysLeft` in the first is at most
`daysLeft` in the second then the forecast of the first is at most the forecast of the
second; both are integers in [5, 99].  This covers the two branches and their boundary. -/
theorem C28_more_days_left_never_lower (p q : Project) (tasks : List TaskRow)
    (n₁ n₂ m₁ m₂ : TimeValue) (hne : tasks ≠ []) (hlen : tasks.length < 2 ^ 32)
    (hsome : ∃ t ∈ tasks, t.status ≠ "Complete".toList)
    (hE : daysElapsed p n₁ = daysElapsed q m₁)
    (hL : JSNum.le (daysLeft p n₂) (daysLeft q m₂) = true) :
    JSNum.le (completionProbability p tasks n₁ n₂) (completionProbability q tasks m₁ m₂)
        = true
      ∧ IsIntIn 5 99 (completionProbability p tasks n₁ n₂)
      ∧ IsIntIn 5 99 (completionProbability q tasks m₁ m₂) := by
  rw [completionProbability_of_ne_nil p tasks n₁ n₂ hne,
    completionProbability_of_ne_nil q tasks m₁ m₂ hne, ← hE]
  obtain ⟨de, hde, hde', hEe⟩ := daysElapsed_eq p n₁
  obtain ⟨a, ha, -, hLa, -⟩ := daysLeft_eq p n₂
  obtain ⟨b, -, hb, hLb, -⟩ := daysLeft_eq q m₂
  rw [hLa, hLb] at hL
  have hab : a ≤ b := by
    have : (a : ℚ) ≤ (b : ℚ) := by simpa [JSNum.le] using hL
    exact_mod_cast this
  have hcT : completedTasks tasks ≠ totalTasks tasks := by
    intro h
    obtain ⟨t, ht, hne'⟩ := hsome
    exact hne' ((completedTasks_eq_total_iff tasks).mp h t ht)
  obtain ⟨d, hd0, -, hdz, -, hd⟩ :=
    daysNeeded_eq (totalTasks tasks) (completedTasks tasks) de hlen (completedTasks_le tasks)
      (totalTasks_pos hne) hde hde'
  have hdpos : 0 < d := lt_of_le_of_ne hd0 (fun h => hcT (hdz.mp h.symm))
  rw [hEe, hLa, hLb]
  obtain ⟨x, y, hx, hy, h5, hxy, h99⟩ :=
    forecast_mono (totalTasks tasks) (completedTasks tasks) _ d a b hd hdpos ha hab hb
  rw [hx, hy]
  refine ⟨?_, ⟨x, rfl, h5, by omega⟩, ⟨y, rfl, by omega, h99⟩⟩
  have : (x : ℚ) ≤ (y : ℚ) := by exact_mod_cast hxy
  simp [JSNum.le, this]

/-- C28 at two tasks of which one is complete, 20 days after the creation: the forecast with
the target date 7 days ahead is at most the forecast with the target date 10 days ahead. -/
theorem C28_more_days_left_never_lower_witness :
    JSNum.le
        (completionProbability Sample.fourWeekProject Sample.oneOfTwo (Sample.day 20)
          (Sample.day 20))
        (completionProbability ⟨Sample.day 0, Sample.day 30⟩ Sample.oneOfTwo (Sample.day 20)
          (Sample.day 20)) = true :=
  (C28_more_days_left_never_lower Sample.fourWeekProject ⟨Sample.day 0, Sample.day 30⟩
    Sample.oneOfTwo (Sample.day 20) (Sample.day 20) (Sample.day 20) (Sample.day 20)
    (by decide) (by decide) ⟨Sample.task "Not Started", by decide, by decide⟩ rfl
    (by
      have h7 := daysLeft_exact Sample.fourWeekProject (Sample.day 20) 7 (by norm_num)
        (by norm_num) (by decide)
      have h10 := daysLeft_exact ⟨Sample.day 0, Sample.day 30⟩ (Sample.day 20) 10
        (by norm_num) (by norm_num) (by decide)
      rw [h7, h10]
      simp only [JSNum.le, decide_eq_true_eq]
      norm_num)).1

end ProjectView

/-! ## Windows line endings -/

namespace CSV

open JSStr

theorem toCRLF_append (s t : JSString) :
    Spec.toCRLF (s ++ t) = Spec.toCRLF s ++ Spec.toCRLF t := by
  induction s with
  | nil => rfl
  | cons c cs ih =>
    have e : (c :: cs) ++ t = c :: (cs ++ t) := rfl
    rw [e]
    by_cases hc : c = '\n'
    · simp only [Spec.toCRLF, if_pos hc]
      rw [ih]
      rfl
    · simp only [Spec.toCRLF, if_neg hc]
      rw [ih]
      rfl

theorem toCRLF_all_ws (w : JSString) (hw : ∀ c ∈ w, isWhiteSpace c = true) :
    ∀ c ∈ Spec.toCRLF w, isWhiteSpace c = true := by
  induction w with
  | nil => intro c hc; simp [Spec.toCRLF] at hc
  | cons a t ih =>
    have ha := hw a (List.mem_cons_self _ _)
    have ht := ih (fun d hd => hw d (List.mem_cons_of_mem _ hd))
    intro c hc
    by_cases h : a = '\n'
    · simp only [Spec.toCRLF, if_pos h, List.mem_cons] at hc
      rcases hc with rfl | rfl | hc
      · decide
      · decide
      · exact ht c hc
    · simp only [Spec.toCRLF, if_neg h, List.mem_cons] at hc
      rcases hc with rfl | hc
      · exact ha
      · exact ht c hc

theorem dropWhile_toCRLF (s : JSString) :
    (Spec.toCRLF s).dropWhile isWhiteSpace = Spec.toCRLF (s.dropWhile isWhiteSpace) := by
  induction s with
  | nil => rfl
  | cons c cs ih =>
    by_cases hc : c = '\n'
    · subst hc
      have h1 : isWhiteSpace '\n' = true := by decide
      have h2 : isWhiteSpace '\r' = true := by decide
      rw [List.dropWhile_cons_of_pos h1]
      simp only [Spec.toCRLF, if_true]
      rw [List.dropWhile_cons_of_pos h2, List.dropWhile_cons_of_pos h1, ih]
    · by_cases hw : isWhiteSpace c = true
      · rw [List.dropWhile_cons_of_pos hw]
        simp only [Spec.toCRLF, if_neg hc]
        rw [List.dropWhile_cons_of_pos hw, ih]
      · rw [List.dropWhile_cons_of_neg hw]
        simp only [Spec.toCRLF, if_neg hc]
        rw [List.dropWhile_cons_of_neg hw]

theorem rdropWhile_toCRLF (s : JSString) :
    (Spec.toCRLF s).rdropWhile isWhiteSpace = Spec.toCRLF (s.rdropWhile isWhiteSpace) := by
  obtain ⟨w, hw, hs⟩ := exists_dropped_suffix isWhiteSpace s
  conv_lhs => rw [hs]
  rw [toCRLF_append, rdropWhile_append_of_all _ _ _ (toCRLF_all_ws w hw)]
  have hidem : (s.rdropWhile isWhiteSpace).rdropWhile isWhiteSpace
      = s.rdropWhile isWhiteSpace := List.rdropWhile_idempotent _ _
  generalize s.rdropWhile isWhiteSpace = x at hidem
  rcases List.eq_nil_or_concat x with hx | ⟨y, c, hx⟩
  · rw [hx]; rfl
  · rw [List.concat_eq_append] at hx
    subst hx
    have hc : ¬ isWhiteSpace c = true := by
      intro h
      rw [List.rdropWhile_concat_pos _ _ _ h] at hidem
      have hp : y.rdropWhile isWhiteSpace <+: y := List.rdropWhile_prefix isWhiteSpace y
      have h1 : (y.rdropWhile isWhiteSpace).length ≤ y.length := hp.length_le
      rw [hidem] at h1
      simp at h1
    have hn : c ≠ '\n' := by
      intro h; rw [h] at hc; exact hc (by decide)
    have e : Spec.toCRLF (y ++ [c]) = Spec.toCRLF y ++ [c] := by
      rw [toCRLF_append]
      simp only [Spec.toCRLF, if_neg hn]
    rw [e, List.rdropWhile_concat_neg _ _ _ hc]

/-- Trimming commutes with the replacement of `\n` by `\r\n`. -/
theorem trim_toCRLF (s : JSString) : trim (Spec.toCRLF s) = Spec.toCRLF (trim s) := by
  unfold trim
  rw [dropWhile_toCRLF, rdropWhile_toCRLF]

/-- The lines of the replaced text are the lines of the text, each but the last one followed
by a carriage return. -/
theorem split_toCRLF (s : JSString) :
    split '\n' (Spec.toCRLF s) = withCarriageReturns (split '\n' s) := by
  induction s with
  | nil => rfl
  | cons c cs ih =>
    by_cases hc : c = '\n'
    · subst hc
      have hr : '\r' ≠ '\n' := by decide
      simp only [Spec.toCRLF, if_true]
      obtain ⟨p, ps, h1, h2⟩ := split_cons_of_ne '\n' '\r' ('\n' :: Spec.toCRLF cs) hr
      rw [split_cons_sep] at h1
      rw [h2, split_cons_sep]
      obtain ⟨hp, hps⟩ := List.cons.inj h1
      rw [← hp, ← hps, ih]
      rcases hq : split '\n' cs with _ | ⟨q, qs⟩
      · exact absurd hq (split_ne_nil _ _)
      · rfl
    · simp only [Spec.toCRLF, if_neg hc]
      obtain ⟨p, ps, h1, h2⟩ := split_cons_of_ne '\n' c (Spec.toCRLF cs) hc
      obtain ⟨q, qs, h3, h4⟩ := split_cons_of_ne '\n' c cs hc
      rw [h2, h4]
      rw [h1, h3] at ih
      rcases qs with _ | ⟨m, rest⟩
      · have : p :: ps = [q] := ih
        obtain ⟨hp, hps⟩ := List.cons.inj this
        rw [hp, hps]
        rfl
      · have : p :: ps = (q ++ ['\r']) :: withCarriageReturns (m :: rest) := ih
        obtain ⟨hp, hps⟩ := List.cons.inj this
        rw [hp, hps]
        rfl

theorem linesOf_toCRLF (text : JSString) :
    linesOf (Spec.toCRLF text) = withCarriageReturns (linesOf text) := by
  unfold linesOf
  rw [trim_toCRLF, split_toCRLF]

/-- Splitting a string followed by characters other than the separator: the last piece is
followed by them. -/
theorem split_append_of_not_mem (sep : Char) (s w : JSString) (hw : sep ∉ w) :
    ∃ init last, split sep s = init ++ [last] ∧ split sep (s ++ w) = init ++ [last ++ w] := by
  induction s with
  | nil => exact ⟨[], [], rfl, by rw [List.nil_append, split_of_not_mem sep w hw]; rfl⟩
  | cons c cs ih =>
    obtain ⟨init, last, h1, h2⟩ := ih
    by_cases hc : c = sep
    · subst hc
      refine ⟨[] :: init, last, ?_, ?_⟩
      · rw [split_cons_sep, h1]; rfl
      · rw [List.cons_append, split_cons_sep, h2]; rfl
    · obtain ⟨p, ps, h3, h4⟩ := split_cons_of_ne sep c cs hc
      obtain ⟨q, qs, h5, h6⟩ := split_cons_of_ne sep c (cs ++ w) hc
      rw [h1] at h3
      rw [h2] at h5
      rcases init with _ | ⟨i, is⟩
      · refine ⟨[], c :: last, ?_, ?_⟩
        · rw [h4]
          obtain ⟨hp, hps⟩ := List.cons.inj h3
          rw [← hp, ← hps]; rfl
        · rw [List.cons_append, h6]
          obtain ⟨hq, hqs⟩ := List.cons.inj h5
          rw [← hq, ← hqs]; rfl
      · refine ⟨(c :: i) :: is, last, ?_, ?_⟩
        · rw [h4]
          obtain ⟨hp, hps⟩ := List.cons.inj h3
          rw [← hp, ← hps]; rfl
        · rw [List.cons_append, h6]
          obtain ⟨hq, hqs⟩ := List.cons.inj h5
          rw [← hq, ← hqs]; rfl

/-- A carriage return after the header line does not change the header keys. -/
theorem parseHeaders_append_cr (cm : CaseMap) (h : JSString) :
    parseHeaders cm (h ++ ['\r']) = parseHeaders cm h := by
  obtain ⟨init, last, h1, h2⟩ := split_append_of_not_mem ',' h ['\r'] (by decide)
  unfold parseHeaders
  rw [h1, h2, List.map_append, List.map_append]
  simp only [List.map_cons, List.map_nil]
  rw [trim_append_ws last ['\r'] (by decide)]

theorem headersOf_toCRLF (cm : CaseMap) (text : JSString) :
    headersOf cm (Spec.toCRLF text) = headersOf cm text := by
  unfold headersOf
  rw [linesOf_toCRLF]
  rcases linesOf text with _ | ⟨l, _ | ⟨m, rest⟩⟩
  · rfl
  · rfl
  · exact parseHeaders_append_cr cm l

theorem dataLinesOf_toCRLF (text : JSString) :
    dataLinesOf (Spec.toCRLF text) = withCarriageReturns (dataLinesOf text) := by
  unfold dataLinesOf
  rw [linesOf_toCRLF]
  rcases linesOf text with _ | ⟨l, _ | ⟨m, rest⟩⟩
  · rfl
  · rfl
  · rfl

/-- A loop body that does not see a final carriage return gives the same results on the
lines with carriage returns. -/
theorem concatLines_withCarriageReturns {α : Type} (f : ℕ → JSString → ParseResult α)
    (hf : ∀ i l, f i (l ++ ['\r']) = f i l) (i : ℕ) (lines : List JSString) :
    concatLines f i (withCarriageReturns lines) = concatLines f i lines := by
  induction lines generalizing i with
  | nil => rfl
  | cons l rest ih =>
    rcases rest with _ | ⟨m, rest⟩
    · rfl
    · show (f i (l ++ ['\r'])).append (concatLines f (i + 1) (withCarriageReturns (m :: rest)))
        = (f i l).append (concatLines f (i + 1) (m :: rest))
      rw [hf, ih]

theorem processLine_append_cr (cm : CaseMap) (pid : JSString) (headers : List JSString)
    (st : ParseResult TaskRow) (i : ℕ) (l : JSString) :
    TaskCSVUpload.processLine cm pid headers st i (l ++ ['\r'])
      = TaskCSVUpload.processLine cm pid headers st i l := by
  unfold TaskCSVUpload.processLine
  rw [trim_append_ws l ['\r'] (by decide), splitCols_append_ws l ['\r'] (by decide)]

theorem resource_processLine_append_cr (pid : JSString) (headers : List JSString)
    (st : ParseResult ResourceRow) (i : ℕ) (l : JSString) :
    ResourceCSVUpload.processLine pid headers st i (l ++ ['\r'])
      = ResourceCSVUpload.processLine pid headers st i l := by
  unfold ResourceCSVUpload.processLine
  rw [trim_append_ws l ['\r'] (by decide), splitCols_append_ws l ['\r'] (by decide)]

/-- C29: the two parsers give the same records and the same errors, with the same row
numbers, for a text and for the text with every `\n` replaced by `\r\n`; this holds for
every text, with or without carriage returns of its own.  The lines of the replaced text
are those of the text, each but the last followed by a carriage return, which the trimming
of the header cells, of the blank-line test and of the last cell of a line removes. -/
theorem C29_crlf_insensitive (cm : CaseMap) (pid text : JSString) :
    TaskCSVUpload.parseCSV cm pid (Spec.toCRLF text) = TaskCSVUpload.parseCSV cm pid text
      ∧ ResourceCSVUpload.parseCSV cm pid (Spec.toCRLF text)
          = ResourceCSVUpload.parseCSV cm pid text
      ∧ linesOf (Spec.toCRLF text) = withCarriageReturns (linesOf text)
      ∧ Spec.toCRLF Sample.oneTaskCsv = "title,week,section\r\nA,3,S".toList := by
  refine ⟨?_, ?_, linesOf_toCRLF text, by decide⟩
  · rw [TaskCSVUpload.parseCSV_eq_concat, TaskCSVUpload.parseCSV_eq_concat,
      headersOf_toCRLF, dataLinesOf_toCRLF]
    exact concatLines_withCarriageReturns _
      (fun i l => processLine_append_cr cm pid _ _ i l) 0 _
  · rw [ResourceCSVUpload.resource_parseCSV_eq_concat,
      ResourceCSVUpload.resource_parseCSV_eq_concat, headersOf_toCRLF, dataLinesOf_toCRLF]
    exact concatLines_withCarriageReturns _
      (fun i l => resource_processLine_append_cr pid _ _ i l) 0 _

end CSV

/-! ## The enum fields -/

namespace CSV

open JSStr

/-- The enum fields of the task record of a data line, in terms of the cells of that line. -/
theorem task_enum_fields (cm : CaseMap) (pid : JSString) (headers : List JSString)
    (line : JSString) :
    (TaskCSVUpload.normalize cm pid (mkRow headers (splitCols line))).status
        = (if cell headers line "status".toList
              ∈ ["Not Started".toList, "In Progress".toList, "Complete".toList,
                "Blocked".toList]
            then cell headers line "status".toList else "Not Started".toList)
      ∧ (TaskCSVUpload.normalize cm pid (mkRow headers (splitCols line))).priority
        = (if cell headers line "priority".toList
              ∈ ["Critical".toList, "High".toList, "Normal".toList, "Low".toList]
            then cell headers line "priority".toList else "Normal".toList) :=
  ⟨valueOrDefault_eq _ _ _ (by decide), valueOrDefault_eq _ _ _ (by decide)⟩

/-- The enum fields of the resource record of a data line, in terms of the cells of that
line. -/
theorem resource_enum_fields (pid : JSString) (headers : List JSString) (line : JSString) :
    (ResourceCSVUpload.normalize pid (mkRow headers (splitCols line))).type
        = (if cell headers line "type".toList
              ∈ ["Labour".toList, "Material".toList, "Equipment".toList,
                "Subcontractor".toList]
            then cell headers line "type".toList else "Material".toList)
      ∧ (ResourceCSVUpload.normalize pid (mkRow headers (splitCols line))).status
        = (if cell headers line "status".toList
              ∈ ["Planned".toList, "Ordered".toList, "On Site".toList, "Used".toList]
            then cell headers line "status".toList else "Planned".toList) :=
  ⟨valueOrDefault_eq _ _ _ (by decide), valueOrDefault_eq _ _ _ (by decide)⟩

set_option maxRecDepth 100000 in
/-- C9: the enum fields of every imported record are valid-or-default, each record taking
them from the cells of its own data line.  The imported tasks are exactly the records of the
valid data lines, one per line and in input order, and the record of a line has as `status`
the status cell of that line when the cell is exactly one of the four statuses and
`Not Started` otherwise, as `priority` the priority cell of that line when it is one of the
four priorities and `Normal` otherwise; the imported resources likewise, with `type` and
`status` and the defaults `Material` and `Planned`.  So every record that is emitted is the
record of a valid line of the text with these fields, each field is a member of its enum, a
blank cell gives the default, and the match is case-sensitive: the sample task file gives
the pairs (Complete, High), (Not Started, Normal), (Not Started, Normal),
(Not Started, Normal), the sample resource file (Labour, On Site), (Material, Planned),
(Material, Planned). -/
theorem C9_enum_fields_valid_or_default (cm : CaseMap) (pid text : JSString) :
    (TaskCSVUpload.parseCSV cm pid text).parsed
        = ((dataLinesOf text).filter (Spec.isValidTaskLine (headersOf cm text))).map
            (fun line =>
              TaskCSVUpload.normalize cm pid (mkRow (headersOf cm text) (splitCols line)))
      ∧ (∀ line : JSString,
        (TaskCSVUpload.normalize cm pid (mkRow (headersOf cm text) (splitCols line))).status
          = (if cell (headersOf cm text) line "status".toList
                ∈ ["Not Started".toList, "In Progress".toList, "Complete".toList,
                  "Blocked".toList]
              then cell (headersOf cm text) line "status".toList else "Not Started".toList)
        ∧ (TaskCSVUpload.normalize cm pid (mkRow (headersOf cm text) (splitCols line))).priority
          = (if cell (headersOf cm text) line "priority".toList
                ∈ ["Critical".toList, "High".toList, "Normal".toList, "Low".toList]
              then cell (headersOf cm text) line "priority".toList else "Normal".toList))
      ∧ (ResourceCSVUpload.parseCSV cm pid text).parsed
        = ((dataLinesOf text).filter (Spec.isValidResourceLine (headersOf cm text))).map
            (fun line =>
              ResourceCSVUpload.normalize pid (mkRow (headersOf cm text) (splitCols line)))
      ∧ (∀ line : JSString,
        (ResourceCSVUpload.normalize pid (mkRow (headersOf cm text) (splitCols line))).type
          = (if cell (headersOf cm text) line "type".toList
                ∈ ["Labour".toList, "Material".toList, "Equipment".toList,
                  "Subcontractor".toList]
              then cell (headersOf cm text) line "type".toList else "Material".toList)
        ∧ (ResourceCSVUpload.normalize pid (mkRow (headersOf cm text) (splitCols line))).status
          = (if cell (headersOf cm text) line "status".toList
                ∈ ["Planned".toList, "Ordered".toList, "On Site".toList, "Used".toList]
              then cell (headersOf cm text) line "status".toList else "Planned".toList))
      ∧ (∀ r ∈ (TaskCSVUpload.parseCSV cm pid text).parsed, ∃ line ∈ dataLinesOf text,
        Spec.isValidTaskLine (headersOf cm text) line = true
        ∧ r = TaskCSVUpload.normalize cm pid (mkRow (headersOf cm text) (splitCols line))
        ∧ r.status = (if cell (headersOf cm text) line "status".toList
              ∈ ["Not Started".toList, "In Progress".toList, "Complete".toList,
                "Blocked".toList]
            then cell (headersOf cm text) line "status".toList else "Not Started".toList)
        ∧ r.priority = (if cell (headersOf cm text) line "priority".toList
              ∈ ["Critical".toList, "High".toList, "Normal".toList, "Low".toList]
            then cell (headersOf cm text) line "priority".toList else "Normal".toList)
        ∧ r.status ∈ ["Not Started".toList, "In Progress".toList, "Complete".toList,
            "Blocked".toList]
        ∧ r.priority ∈ ["Critical".toList, "High".toList, "Normal".toList, "Low".toList]
        ∧ (cell (headersOf cm text) line "status".toList = [] →
            r.status = "Not Started".toList)
        ∧ (cell (headersOf cm text) line "priority".toList = [] →
            r.priority = "Normal".toList))
      ∧ (∀ r ∈ (ResourceCSVUpload.parseCSV cm pid text).parsed, ∃ line ∈ dataLinesOf text,
        Spec.isValidResourceLine (headersOf cm text) line = true
        ∧ r = ResourceCSVUpload.normalize pid (mkRow (headersOf cm text) (splitCols line))
        ∧ r.type = (if cell (headersOf cm text) line "type".toList
              ∈ ["Labour".toList, "Material".toList, "Equipment".toList,
                "Subcontractor".toList]
            then cell (headersOf cm text) line "type".toList else "Material".toList)
        ∧ r.status = (if cell (headersOf cm text) line "status".toList
              ∈ ["Planned".toList, "Ordered".toList, "On Site".toList, "Used".toList]
            then cell (headersOf cm text) line "status".toList else "Planned".toList)
        ∧ r.type ∈ ["Labour".toList, "Material".toList, "Equipment".toList,
            "Subcontractor".toList]
        ∧ r.status ∈ ["Planned".toList, "Ordered".toList, "On Site".toList, "Used".toList]
        ∧ (cell (headersOf cm text) line "type".toList = [] → r.type = "Material".toList)
        ∧ (cell (headersOf cm text) line "status".toList = [] →
            r.status = "Planned".toList))
      ∧ (∀ (i : ℕ) (line : JSString), (dataLinesOf text)[i]? = some line →
          Spec.isValidTaskLine (headersOf cm text) line = true →
          TaskCSVUpload.normalize cm pid (mkRow (headersOf cm text) (splitCols line))
            ∈ (TaskCSVUpload.parseCSV cm pid text).parsed)
      ∧ (∀ (i : ℕ) (line : JSString), (dataLinesOf text)[i]? = some line →
          Spec.isValidResourceLine (headersOf cm text) line = true →
          ResourceCSVUpload.normalize pid (mkRow (headersOf cm text) (splitCols line))
            ∈ (ResourceCSVUpload.parseCSV cm pid text).parsed)
      ∧ valueOrDefault ["Not Started".toList, "In Progress".toList, "Complete".toList,
          "Blocked".toList] (some "complete".toList) "Not Started".toList
        = "Not Started".toList
      ∧ (TaskCSVUpload.parseCSV asciiCase "p1".toList Sample.enumTasksCsv).parsed.map
          (fun r => (r.title, r.status, r.priority))
        = [("A".toList, "Complete".toList, "High".toList),
            ("B".toList, "Not Started".toList, "Normal".toList),
            ("C".toList, "Not Started".toList, "Normal".toList),
            ("D".toList, "Not Started".toList, "Normal".toList)]
      ∧ (TaskCSVUpload.parseCSV asciiCase "p1".toList Sample.enumTasksCsv).errs = []
      ∧ (ResourceCSVUpload.parseCSV asciiCase "p1".toList Sample.enumResourcesCsv).parsed.map
          (fun r => (r.name, r.type, r.status))
        = [("Cement".toList, "Labour".toList, "On Site".toList),
            ("Sand".toList, "Material".toList, "Planned".toList),
            ("Bricks".toList, "Material".toList, "Planned".toList)]
      ∧ (ResourceCSVUpload.parseCSV asciiCase "p1".toList Sample.enumResourcesCsv).errs
        = [] := by
  refine ⟨TaskCSVUpload.parsed_eq_validRecords cm pid text,
    fun line => task_enum_fields cm pid _ line,
    ResourceCSVUpload.resource_parsed_eq_validRecords cm pid text,
    fun line => resource_enum_fields pid _ line, ?_, ?_,
    fun i line hl hv => normalize_mem_parsed cm pid text i line hl hv,
    fun i line hl hv => ResourceCSVUpload.resource_normalize_mem_parsed cm pid text i line hl hv,
    by decide, by decide, by decide, by decide, by decide⟩
  · intro r hr
    obtain ⟨line, hl, hb, hv, rfl⟩ := TaskCSVUpload.mem_parsed cm pid text r hr
    obtain ⟨e1, e2⟩ := task_enum_fields cm pid (headersOf cm text) line
    have hvalid : Spec.isValidTaskLine (headersOf cm text) line = true := by
      unfold Spec.isValidTaskLine
      rw [decide_eq_true_eq]
      exact ⟨hb, hv⟩
    refine ⟨line, hl, hvalid, rfl, e1, e2, valueOrDefault_mem _ _ _ (by decide),
      valueOrDefault_mem _ _ _ (by decide), ?_, ?_⟩
    · intro h0
      rw [e1, h0, if_neg (by decide)]
    · intro h0
      rw [e2, h0, if_neg (by decide)]
  · intro r hr
    obtain ⟨line, hl, hb, hv, rfl⟩ := ResourceCSVUpload.resource_mem_parsed cm pid text r hr
    obtain ⟨e1, e2⟩ := resource_enum_fields pid (headersOf cm text) line
    have hvalid : Spec.isValidResourceLine (headersOf cm text) line = true :=
      (ResourceCSVUpload.isValidResourceLine_iff _ _).mpr ⟨hb, hv⟩
    refine ⟨line, hl, hvalid, rfl, e1, e2, valueOrDefault_mem _ _ _ (by decide),
      valueOrDefault_mem _ _ _ (by decide), ?_, ?_⟩
    · intro h0
      rw [e1, h0, if_neg (by decide)]
    · intro h0
      rw [e2, h0, if_neg (by decide)]

end CSV
